import Mathlib

/-!
# Code-Block-Validation: automaton engine, tokenizer and delimiter checker

A shallow embedding of the C++ sources `pda.cpp`, `nfa.h`, `nfa.cpp`, `dfa.cpp`
and `tokenizer.cpp` (directory `Code_Block(Qt)`), and of the automaton engine
and the tokenizer of `main.cpp`.

Conventions of the embedding

* a C++ `char` is its byte value, a `Nat`; a `std::string` is a `List Nat`;
* an `int` state identifier is an `Int` (the default `start` of an NFA is `-1`
  and targets may be out of range); sizes, offsets, lines and columns are `Nat`
  (no arithmetic of the sources comes near `2^31` on inputs shorter than that);
* a `std::set<int>` is a strictly ascending `List Int`, a `std::map<K,V>` is an
  association list, `insert` and `operator[]` keep at most one entry per key;
  the order of the `char` keys of a map is seen only where the map is
  traversed, which these sources do for the rows of a DFA alone, whose keys are
  below 128 (where the order of `char` and the order of the byte values agree);
* a function returns `none` when a loop runs out of fuel or when the C++ would
  index a vector out of range; the fuel of every loop is computed from its
  input.
-/

namespace CodeBlock

/-! ## pda.cpp -/

/-- The map `pairs` of `checkPDA`: closing bracket to opening bracket
    (`')'→'('`, `']'→'['`, `'}'→'{'`, in key order). -/
def pairs : List (Nat × Nat) := [(41, 40), (93, 91), (125, 123)]

/-- The lookup `pairs[c]`; an absent key reads as the default `'\0'`. -/
def pairsAt (c : Nat) : Nat := (pairs.lookup c).getD 0

/-- The `for (char c : s)` loop of `checkPDA`; the stack `stk` has its top at
    the head. -/
def checkPDALoop : List Nat → List Nat → Bool
  | stk, [] => stk.isEmpty
  | stk, c :: s =>
    if c = 40 ∨ c = 123 ∨ c = 91 then checkPDALoop (c :: stk) s
    else if c = 41 ∨ c = 125 ∨ c = 93 then
      match stk with
      | [] => false
      | top :: stk' => if top ≠ pairsAt c then false else checkPDALoop stk' s
    else checkPDALoop stk s

/-- The function `checkPDA` of `pda.cpp` (the one of `main.cpp` is the same text). -/
def checkPDA (s : List Nat) : Bool := checkPDALoop [] s

/-- The six bracket characters `( ) [ ] { }`. -/
def isBracket (c : Nat) : Bool :=
  c = 40 || c = 41 || c = 91 || c = 93 || c = 123 || c = 125

/-- Correctly nested words, following the grammar of the specification:
    `B ::= empty | B B | ( B ) | { B } | [ B ]`. -/
inductive Balanced : List Nat → Prop
  | empty : Balanced []
  | append {u v : List Nat} : Balanced u → Balanced v → Balanced (u ++ v)
  | paren {u : List Nat} : Balanced u → Balanced (40 :: u ++ [41])
  | brace {u : List Nat} : Balanced u → Balanced (123 :: u ++ [125])
  | bracket {u : List Nat} : Balanced u → Balanced (91 :: u ++ [93])

/-- An opening bracket and the closing bracket of the same kind. -/
def IsPair (o c : Nat) : Prop := (o = 40 ∧ c = 41) ∨ (o = 123 ∧ c = 125) ∨ (o = 91 ∧ c = 93)

/-- A word that closes the pending open brackets `stk` (top first): balanced
    stretches separated by the closers of `stk`, in order. -/
inductive Closes : List Nat → List Nat → Prop
  | done {w : List Nat} : Balanced w → Closes [] w
  | close {o c : Nat} {stk b w : List Nat} :
      Balanced b → IsPair o c → Closes stk w → Closes (o :: stk) (b ++ c :: w)

/-! ## Containers -/

/-- The bytes of an ASCII string literal. -/
def bytes (s : String) : List Nat := s.toList.map Char.toNat

/-- The call `s.insert(x)` on a `std::set<int>`. -/
def setInsert (x : Int) : List Int → List Int
  | [] => [x]
  | y :: ys =>
    if x < y then x :: y :: ys
    else if x = y then y :: ys
    else y :: setInsert x ys

/-- The lookup `m.find(k)` on a `std::map`; `none` is `m.end()`. -/
def mapFind {K V : Type} [DecidableEq K] : List (K × V) → K → Option V
  | [], _ => none
  | (k', v) :: m, k => if k = k' then some v else mapFind m k

/-- The assignment `m[k] = v` on a `std::map<char, V>`, entries in key order. -/
def mapSet {V : Type} (k : Nat) (v : V) : List (Nat × V) → List (Nat × V)
  | [] => [(k, v)]
  | (k', v') :: m =>
    if k < k' then (k, v) :: (k', v') :: m
    else if k = k' then (k, v) :: m
    else (k', v') :: mapSet k v m

/-- The read `v[i]` of a vector at an `int` index; `none` when out of range. -/
def vecGet? {α : Type} (v : List α) (i : Int) : Option α :=
  if 0 ≤ i then v[i.toNat]? else none

/-- The update of `v[i]` by `f` at an `int` index; `none` when out of range. -/
def vecModify? {α : Type} (v : List α) (i : Int) (f : α → α) : Option (List α) :=
  match vecGet? v i with
  | none => none
  | some a => some (v.set i.toNat (f a))

/-! ## nfa.h -/

/-- The helper `isLetter`: `std::isalpha` on the byte, in the "C" locale. -/
def isLetter (c : Nat) : Bool := (65 ≤ c && c ≤ 90) || (97 ≤ c && c ≤ 122)

/-- The helper `isDigit`: `std::isdigit` on the byte. -/
def isDigit (c : Nat) : Bool := 48 ≤ c && c ≤ 57

/-- The helper `isIdentifierChar`. -/
def isIdentifierChar (c : Nat) : Bool := isLetter c || isDigit c || c = 95

/-- The helper `isWhitespace`: space, `\t`, `\n`, `\r`, `\f`, `\v`. -/
def isWhitespace (c : Nat) : Bool :=
  c = 32 || c = 9 || c = 10 || c = 13 || c = 12 || c = 11

/-- The struct `NFAState`. -/
structure NFAState where
  id : Int
  trans : List (Nat × List Int) := []
  eps : List Int := []
  deriving DecidableEq, Repr

/-- The struct `NFA`. -/
structure NFA where
  states : List NFAState := []
  start : Int := -1
  accepts : List Int := []
  deriving DecidableEq, Repr

/-- The struct `Fragment`. -/
structure Fragment where
  start : Int
  accept : Int
  deriving DecidableEq, Repr

/-- The method `NFA::newState`: appends a state, returns its id. -/
def NFA.newState (n : NFA) : NFA × Int :=
  ({ n with states := n.states ++ [{ id := (n.states.length : Int) }] }, (n.states.length : Int))

/-- The method `NFA::addTrans`: `states[from].trans[c].insert(to)`. -/
def NFA.addTrans (n : NFA) (src : Int) (c : Nat) (dst : Int) : Option NFA :=
  (vecModify? n.states src (fun st =>
    { st with trans := mapSet c (setInsert dst ((mapFind st.trans c).getD [])) st.trans })).map
    (fun sts => { n with states := sts })

/-- The method `NFA::addEps`: `states[from].eps.insert(to)`. -/
def NFA.addEps (n : NFA) (src : Int) (dst : Int) : Option NFA :=
  (vecModify? n.states src (fun st => { st with eps := setInsert dst st.eps })).map
    (fun sts => { n with states := sts })

/-! ## nfa.cpp -/

/-- The combinator `makeChar`. -/
def makeChar (n : NFA) (c : Nat) : Option (NFA × Fragment) := do
  let (n, s) := n.newState
  let (n, t) := n.newState
  let n ← if c = 0 then n.addEps s t else n.addTrans s c t
  pure (n, ⟨s, t⟩)

/-- The combinator `makeCharClass`. -/
def makeCharClass (n : NFA) (allowed : List Nat) : Option (NFA × Fragment) := do
  let (n, s) := n.newState
  let (n, t) := n.newState
  let n ← allowed.foldlM (fun n c => n.addTrans s c t) n
  pure (n, ⟨s, t⟩)

/-- The combinator `concatFrag`. -/
def concatFrag (n : NFA) (a b : Fragment) : Option (NFA × Fragment) := do
  let n ← n.addEps a.accept b.start
  pure (n, ⟨a.start, b.accept⟩)

/-- The combinator `altFrag`. -/
def altFrag (n : NFA) (a b : Fragment) : Option (NFA × Fragment) := do
  let (n, s) := n.newState
  let (n, t) := n.newState
  let n ← n.addEps s a.start
  let n ← n.addEps s b.start
  let n ← n.addEps a.accept t
  let n ← n.addEps b.accept t
  pure (n, ⟨s, t⟩)

/-- The combinator `starFrag`. -/
def starFrag (n : NFA) (a : Fragment) : Option (NFA × Fragment) := do
  let (n, s) := n.newState
  let (n, t) := n.newState
  let n ← n.addEps s a.start
  let n ← n.addEps s t
  let n ← n.addEps a.accept a.start
  let n ← n.addEps a.accept t
  pure (n, ⟨s, t⟩)

/-- The combinator `plusFrag`: `concatFrag(n, a, starFrag(n, a))`. -/
def plusFrag (n : NFA) (a : Fragment) : Option (NFA × Fragment) := do
  let (n, st) ← starFrag n a
  concatFrag n a st

/-- The combinator `optFrag`. -/
def optFrag (n : NFA) (a : Fragment) : Option (NFA × Fragment) := do
  let (n, s) := n.newState
  let (n, t) := n.newState
  let n ← n.addEps s a.start
  let n ← n.addEps s t
  let n ← n.addEps a.accept t
  pure (n, ⟨s, t⟩)

/-- The helper `pushRange`: appends the bytes `a..b` to `v` (for `b < 255`, where
    the `unsigned char` counter does not wrap). -/
def pushRange (v : List Nat) (a b : Nat) : List Nat := v ++ List.range' a (b + 1 - a)

/-- The builder `buildIdentifierNFA_thompson`: `[a-zA-Z_][a-zA-Z0-9_]*`. -/
def buildIdentifierNFA_thompson : Option NFA := do
  let n : NFA := {}
  let letters := pushRange (pushRange [] 97 122) 65 90
  let letters := letters ++ [95]
  let (n, f1) ← makeCharClass n letters
  let idchars := pushRange letters 48 57
  let (n, f2) ← makeCharClass n idchars
  let (n, f2star) ← starFrag n f2
  let (n, full) ← concatFrag n f1 f2star
  pure { n with start := full.start, accepts := setInsert full.accept n.accepts }

/-- The builder `buildNumberNFA_thompson`: `[0-9]+(\.[0-9]+)?`. -/
def buildNumberNFA_thompson : Option NFA := do
  let n : NFA := {}
  let digits := pushRange [] 48 57
  let (n, digit) ← makeCharClass n digits
  let (n, digitStar) ← starFrag n digit
  let (n, digitsPlus) ← concatFrag n digit digitStar
  let (n, dot) ← makeChar n 46
  let (n, frac) ← concatFrag n dot digitsPlus
  let (n, fracOpt) ← optFrag n frac
  let (n, full) ← concatFrag n digitsPlus fracOpt
  pure { n with start := full.start, accepts := setInsert full.accept n.accepts }

/-! ## dfa.h, dfa.cpp -/

/-- The struct `DFA`. The `mapping` is only searched and extended, never
    traversed, so its entries stand in insertion order. -/
structure DFA where
  mapping : List (List Int × Int) := []
  rev : List (List Int) := []
  trans : List (List (Nat × Int)) := []
  accepts : List Int := []
  start : Int := 0
  deriving DecidableEq, Repr

/-- The loop `for (int nxt : n.states[s].eps)` of `epsClosure`; the stack
    `stvec` has its back at the head. -/
def epsClosureInner : List Int → List Int → List Int → List Int × List Int
  | [], res, stvec => (res, stvec)
  | nxt :: rest, res, stvec =>
    if nxt ∈ res then epsClosureInner rest res stvec
    else epsClosureInner rest (setInsert nxt res) (nxt :: stvec)

/-- The loop `while (!stvec.empty())` of `epsClosure`. -/
def epsClosureLoop (n : NFA) : Nat → List Int → List Int → Option (List Int)
  | _, res, [] => some res
  | 0, _, _ :: _ => none
  | fuel + 1, res, s :: stvec =>
    match vecGet? n.states s with
    | none => epsClosureLoop n fuel res stvec
    | some st =>
      let (res, stvec) := epsClosureInner st.eps res stvec
      epsClosureLoop n fuel res stvec

/-- The number of epsilon edges of an NFA. -/
def NFA.epsCount (n : NFA) : Nat := (n.states.map (fun st => st.eps.length)).sum

/-- The function `epsClosure`. Every pass of the loop pops one entry, and an
    entry is pushed only together with a new member of `res`. -/
def epsClosure (n : NFA) (states : List Int) : Option (List Int) :=
  epsClosureLoop n (states.length + n.epsCount) states states.reverse

/-- The body of the loop `for (int s : states)` of `moveOnChar`. -/
def moveOnCharStep (n : NFA) (c : Nat) (res : List Int) (s : Int) : List Int :=
  match vecGet? n.states s with
  | none => res
  | some st =>
    match mapFind st.trans c with
    | none => res
    | some tgts => tgts.foldl (fun r nxt => setInsert nxt r) res

/-- The function `moveOnChar`. -/
def moveOnChar (n : NFA) (states : List Int) (c : Nat) : List Int :=
  states.foldl (moveOnCharStep n c) []

/-- The body of `for (int c = 0; c < 128; ++c)` in `subsetConstruction`, for the
    DFA state `i` with NFA-set `curSet`. -/
def subsetStep (n : NFA) (curSet : List Int) (i : Nat) (d : DFA) (c : Nat) : Option DFA :=
  let moved := moveOnChar n curSet c
  if moved.isEmpty then some d
  else do
    let epsed ← epsClosure n moved
    if epsed.isEmpty then some d
    else
      let d : DFA :=
        if (mapFind d.mapping epsed).isNone then
          { d with mapping := d.mapping ++ [(epsed, (d.rev.length : Int))],
                   rev := d.rev ++ [epsed],
                   trans := d.trans ++ [[]] }
        else d
      let dst ← mapFind d.mapping epsed
      let trans ← vecModify? d.trans i (mapSet c dst)
      some { d with trans := trans }

/-- The loop `for (size_t i = 0; i < d.rev.size(); ++i)` of `subsetConstruction`. -/
def subsetLoop (n : NFA) : Nat → Nat → DFA → Option DFA
  | fuel, i, d =>
    if h : i < d.rev.length then
      match fuel with
      | 0 => none
      | fuel + 1 => do
        let curSet := d.rev[i]
        let d : DFA :=
          if n.accepts.any (fun a => decide (a ∈ curSet)) then
            { d with accepts := setInsert (i : Int) d.accepts }
          else d
        let d ← (List.range 128).foldlM (subsetStep n curSet i) d
        subsetLoop n fuel (i + 1) d
    else some d

/-- The ids that can occur in an NFA-set: the start and every target. -/
def NFA.universe (n : NFA) : List Int :=
  n.start :: (n.states.map (fun st => st.eps ++ (st.trans.map (fun kv => kv.2)).flatten)).flatten

/-- The loop `for (auto &kv : d.trans[u])` of the reachability sweep. -/
def pruneInner : List (Nat × Int) → List Bool → List Int → Option (List Bool × List Int)
  | [], seen, q => some (seen, q)
  | kv :: rest, seen, q =>
    match vecGet? seen kv.2 with
    | none => none
    | some true => pruneInner rest seen q
    | some false => pruneInner rest (seen.set kv.2.toNat true) (q ++ [kv.2])

/-- The loop `for (size_t idx = 0; idx < q.size(); ++idx)` of the sweep. -/
def pruneLoop (d : DFA) : Nat → Nat → List Bool → List Int → Option (List Bool)
  | fuel, idx, seen, q =>
    if h : idx < q.length then
      match fuel with
      | 0 => none
      | fuel + 1 => do
        let kvs ← vecGet? d.trans q[idx]
        let (seen, q) ← pruneInner kvs seen q
        pruneLoop d fuel (idx + 1) seen q
    else some seen

/-- The loop `for (i = 0; i < seen.size(); ++i) if (seen[i]) remap[i] = newId++`,
    from index `i` on. -/
def buildRemap : List Bool → Nat → List (Int × Int) → List (Int × Int)
  | [], _, remap => remap
  | b :: seen, i, remap =>
    if b then buildRemap seen (i + 1) (remap ++ [((i : Int), (remap.length : Int))])
    else buildRemap seen (i + 1) remap

/-- The loop `for (auto &kv : d.trans[p.first])` that copies the transitions of
    a surviving state into `d2.trans[p.second]`. -/
def copyTrans (seen : List Bool) (remap : List (Int × Int)) (p2 : Int) :
    List (Nat × Int) → DFA → Option DFA
  | [], d2 => some d2
  | kv :: rest, d2 =>
    match vecGet? seen kv.2 with
    | none => none
    | some false => copyTrans seen remap p2 rest d2
    | some true => do
      let dst ← mapFind remap kv.2
      let trans ← vecModify? d2.trans p2 (mapSet kv.1 dst)
      copyTrans seen remap p2 rest { d2 with trans := trans }

/-- The loop `for (auto &p : remap)` that fills `d2`. -/
def copyStates (d : DFA) (seen : List Bool) (remap : List (Int × Int)) :
    List (Int × Int) → DFA → Option DFA
  | [], d2 => some d2
  | p :: rest, d2 => do
    let set ← vecGet? d.rev p.1
    let rev ← vecModify? d2.rev p.2 (fun _ => set)
    let d2 : DFA := { d2 with rev := rev }
    let d2 : DFA := if p.1 ∈ d.accepts then { d2 with accepts := setInsert p.2 d2.accepts } else d2
    let kvs ← vecGet? d.trans p.1
    let d2 ← copyTrans seen remap p.2 kvs d2
    copyStates d seen remap rest d2

/-- The second half of `subsetConstruction`: reachable-state pruning from
    `d.start` and the remapping to compact indices. -/
def pruneDFA (d : DFA) : Option DFA := do
  let seen : List Bool := List.replicate d.rev.length false
  let q : List Int := [d.start]
  let seen ← vecModify? seen d.start (fun _ => true)
  let seen ← pruneLoop d d.rev.length 0 seen q
  let remap := buildRemap seen 0 []
  let newId := remap.length
  let start ← mapFind remap d.start
  let d2 : DFA := { start := start, rev := List.replicate newId [], trans := List.replicate newId [] }
  copyStates d seen remap remap d2

/-- The function `subsetConstruction`. The main loop discovers pairwise
    different subsets of `n.universe`, hence fewer than `2 ^ n.universe.length + 1`. -/
def subsetConstruction (n : NFA) : Option DFA := do
  let startSet ← epsClosure n [n.start]
  let d : DFA := { mapping := [(startSet, 0)], rev := [startSet], trans := [[]] }
  let d ← subsetLoop n (2 ^ n.universe.length) 0 d
  pruneDFA d

/-- The loop of `dfaLongestMatch` over the bytes from offset `i` on; the result
    is the final `lastAcceptPos`. -/
def dfaLongestMatchLoop (d : DFA) : List Nat → Nat → Int → Int → Option Int
  | [], _, _, lastAcceptPos => some lastAcceptPos
  | c :: rest, i, cur, lastAcceptPos =>
    match vecGet? d.trans cur with
    | none => none
    | some row =>
      match mapFind row c with
      | none => some lastAcceptPos
      | some nxt =>
        dfaLongestMatchLoop d rest (i + 1) nxt (if nxt ∈ d.accepts then (i : Int) else lastAcceptPos)

/-- The function `dfaLongestMatch`. -/
def dfaLongestMatch (d : DFA) (s : List Nat) (pos : Nat) : Option Int :=
  if d.rev.isEmpty then some 0
  else if d.start < 0 ∨ d.start ≥ (d.rev.length : Int) then some 0
  else do
    let lastAcceptPos ← dfaLongestMatchLoop d (s.drop pos) pos d.start (-1)
    some (if lastAcceptPos ≥ 0 then lastAcceptPos - (pos : Int) + 1 else 0)

/-- The loop of `dfaLongestMatchWithTrace` over the bytes from offset `i` on;
    the result is the final `lastAcceptPos` and the final `path`. -/
def dfaLongestMatchWithTraceLoop (d : DFA) :
    List Nat → Nat → Int → Int → List Int → Option (Int × List Int)
  | [], _, _, lastAcceptPos, path => some (lastAcceptPos, path)
  | c :: rest, i, cur, lastAcceptPos, path =>
    match vecGet? d.trans cur with
    | none => none
    | some row =>
      match mapFind row c with
      | none => some (lastAcceptPos, path)
      | some nxt =>
        dfaLongestMatchWithTraceLoop d rest (i + 1) nxt
          (if nxt ∈ d.accepts then (i : Int) else lastAcceptPos) (path ++ [nxt])

/-- The function `dfaLongestMatchWithTrace`; the `QVector<int>` path is a list
    that grows at its end. -/
def dfaLongestMatchWithTrace (d : DFA) (s : List Nat) (pos : Nat) : Option (Int × List Int) :=
  if d.rev.isEmpty then some (0, [])
  else if d.start < 0 ∨ d.start ≥ (d.rev.length : Int) then some (0, [])
  else do
    let (lastAcceptPos, path) ←
      dfaLongestMatchWithTraceLoop d (s.drop pos) pos d.start (-1) [d.start]
    some (if lastAcceptPos ≥ 0 then lastAcceptPos - (pos : Int) + 1 else 0, path)

/-! ## tokenizer.h, tokenizer.cpp -/

/-- The struct `TokenItem`. -/
structure TokenItem where
  type : String
  text : List Nat
  line : Nat
  col : Nat
  deriving DecidableEq, Repr

/-- The set `keywords`. -/
def keywords : List (List Nat) :=
  [bytes "int", bytes "float", bytes "if", bytes "else", bytes "while", bytes "for",
   bytes "break", bytes "continue", bytes "return"]

/-- The set `operators`: `+ - * / = < > ! & | %`. -/
def operators : List Nat := [43, 45, 42, 47, 61, 60, 62, 33, 38, 124, 37]

/-- The set `delimiters`: `( ) { } [ ] , ; :`. -/
def delimiters : List Nat := [40, 41, 123, 125, 91, 93, 44, 59, 58]

/-- The call `input.substr(i, len)` with an `int` length (a negative `int`
    converts to a count beyond every length). -/
def substr (input : List Nat) (i : Nat) (len : Int) : List Nat :=
  if len < 0 then input.drop i else (input.drop i).take len.toNat

/-- The local variables of `tokenizeWithDFA`. -/
structure TokState where
  i : Nat
  line : Nat
  col : Nat
  out : List TokenItem
  deriving DecidableEq, Repr

/-- The loop `for (int k = 0; k < len; ++k)` that moves the cursor over a
    matched token, `k` being the number of passes left. -/
def advance (input : List Nat) : Nat → TokState → Option TokState
  | 0, st => some st
  | k + 1, st =>
    match input[st.i]? with
    | none => none
    | some c =>
      if c = 10 then advance input k { st with line := st.line + 1, col := 1, i := st.i + 1 }
      else advance input k { st with i := st.i + 1, col := st.col + 1 }

/-- One pass of the loop `while (i < n)` of `tokenizeWithDFA`. -/
def tokStep (input : List Nat) (dfaId dfaNum : DFA) (st : TokState) : Option TokState :=
  match input[st.i]? with
  | none => none
  | some c =>
    if isWhitespace c then
      if c = 10 then some { st with line := st.line + 1, col := 1, i := st.i + 1 }
      else if c = 13 then some { st with i := st.i + 1, col := 1 }
      else some { st with i := st.i + 1, col := st.col + 1 }
    else
      let startLine := st.line
      let startCol := st.col
      if c ∈ operators then
        some { st with out := st.out ++ [⟨"Operator", [c], startLine, startCol⟩],
                       i := st.i + 1, col := st.col + 1 }
      else if c ∈ delimiters then
        some { st with out := st.out ++ [⟨"Delimiter", [c], startLine, startCol⟩],
                       i := st.i + 1, col := st.col + 1 }
      else do
        let lenId ← dfaLongestMatch dfaId input st.i
        let lenNum ← dfaLongestMatch dfaNum input st.i
        if lenId = 0 ∧ lenNum = 0 then
          some { st with out := st.out ++ [⟨"Unknown", [c], startLine, startCol⟩],
                         i := st.i + 1, col := st.col + 1 }
        else if lenId ≥ lenNum then
          let tok := substr input st.i lenId
          let type := if tok ∈ keywords then "Keyword" else "Identifier"
          advance input lenId.toNat { st with out := st.out ++ [⟨type, tok, startLine, startCol⟩] }
        else
          let tok := substr input st.i lenNum
          advance input lenNum.toNat { st with out := st.out ++ [⟨"Number", tok, startLine, startCol⟩] }

/-- The loop `while (i < n)` of `tokenizeWithDFA`. -/
def tokLoop (input : List Nat) (dfaId dfaNum : DFA) : Nat → TokState → Option (List TokenItem)
  | fuel, st =>
    if st.i < input.length then
      match fuel with
      | 0 => none
      | fuel + 1 =>
        match tokStep input dfaId dfaNum st with
        | none => none
        | some st' => tokLoop input dfaId dfaNum fuel st'
    else some st.out

/-- The function `tokenizeWithDFA`. Every pass of its loop moves the cursor. -/
def tokenizeWithDFA (input : List Nat) (dfaId dfaNum : DFA) : Option (List TokenItem) :=
  tokLoop input dfaId dfaNum input.length ⟨0, 1, 1, []⟩

/-- The call `tokenizeWithDFA(input, idDFA, numDFA)` with the two built DFAs,
    `subsetConstruction(buildIdentifierNFA_thompson())` and
    `subsetConstruction(buildNumberNFA_thompson())`. -/
def tokenizeBuilt (input : List Nat) : Option (List TokenItem) := do
  let nId ← buildIdentifierNFA_thompson
  let nNum ← buildNumberNFA_thompson
  let dId ← subsetConstruction nId
  let dNum ← subsetConstruction nNum
  tokenizeWithDFA input dId dNum

/-! ## main.cpp

The structs `NFAState`, `NFA` and `DFA`, the character helpers and the sets
`keywords`, `operators` and `delimiters` of `main.cpp` are those of the other
sources, but for the default `start = 0` of its `NFA`, which both builders
overwrite. Its `epsClosure` and `moveOnChar` index `n.states` without a range
test, its `subsetConstruction` has no pruning pass, its `dfaLongestMatch` has
no test of `d.rev` and `d.start`, and its tokenizer keeps no line and column. -/

/-- The struct `TokenItem` of `main.cpp`. -/
structure Main.TokenItem where
  type : String
  text : List Nat
  deriving DecidableEq, Repr

/-- The body of the loop `for (int c = 0; c < 128; ++c)` of `buildIdentifierNFA`. -/
def Main.identifierStep (s0 s1 : Int) (n : NFA) (c : Nat) : Option NFA := do
  let n ← if isLetter c ∨ c = 95 then n.addTrans s0 c s1 else some n
  if isIdentifierChar c then n.addTrans s1 c s1 else some n

/-- The builder `buildIdentifierNFA` of `main.cpp`. -/
def Main.buildIdentifierNFA : Option NFA := do
  let n : NFA := { start := 0 }
  let (n, s0) := n.newState
  let (n, s1) := n.newState
  let n : NFA := { n with start := s0 }
  let n : NFA := { n with accepts := setInsert s1 n.accepts }
  (List.range 128).foldlM (Main.identifierStep s0 s1) n

/-- The body of the loop `for (int c = 0; c < 128; ++c)` of `buildNumberNFA`. -/
def Main.numberStep (s0 s1 s2 s3 : Int) (n : NFA) (c : Nat) : Option NFA :=
  if isDigit c then do
    let n ← n.addTrans s0 c s1
    let n ← n.addTrans s1 c s1
    let n ← n.addTrans s2 c s3
    n.addTrans s3 c s3
  else some n

/-- The builder `buildNumberNFA` of `main.cpp`. -/
def Main.buildNumberNFA : Option NFA := do
  let n : NFA := { start := 0 }
  let (n, s0) := n.newState
  let (n, s1) := n.newState
  let (n, s2) := n.newState
  let (n, s3) := n.newState
  let n : NFA := { n with start := s0 }
  let n : NFA := { n with accepts := setInsert s1 n.accepts }
  let n : NFA := { n with accepts := setInsert s3 n.accepts }
  let n ← (List.range 128).foldlM (Main.numberStep s0 s1 s2 s3) n
  n.addTrans s1 46 s2

/-- The loop `while (!stack.empty())` of the `epsClosure` of `main.cpp`, which
    reads `n.states[st]` without a range test. -/
def Main.epsClosureLoop (n : NFA) : Nat → List Int → List Int → Option (List Int)
  | _, res, [] => some res
  | 0, _, _ :: _ => none
  | fuel + 1, res, s :: stvec =>
    match vecGet? n.states s with
    | none => none
    | some st =>
      let (res, stvec) := epsClosureInner st.eps res stvec
      Main.epsClosureLoop n fuel res stvec

/-- The function `epsClosure` of `main.cpp`. -/
def Main.epsClosure (n : NFA) (states : List Int) : Option (List Int) :=
  Main.epsClosureLoop n (states.length + n.epsCount) states states.reverse

/-- The body of the loop `for (int st : states)` of the `moveOnChar` of
    `main.cpp`, which reads `n.states[st]` without a range test. -/
def Main.moveOnCharStep (n : NFA) (c : Nat) (res : List Int) (s : Int) : Option (List Int) :=
  match vecGet? n.states s with
  | none => none
  | some st =>
    match mapFind st.trans c with
    | none => some res
    | some tgts => some (tgts.foldl (fun r nxt => setInsert nxt r) res)

/-- The function `moveOnChar` of `main.cpp`. -/
def Main.moveOnChar (n : NFA) (states : List Int) (c : Nat) : Option (List Int) :=
  states.foldlM (Main.moveOnCharStep n c) []

/-- The body of `for (int c = 0; c < 128; ++c)` in the `subsetConstruction` of
    `main.cpp`. -/
def Main.subsetStep (n : NFA) (curSet : List Int) (i : Nat) (d : DFA) (c : Nat) : Option DFA := do
  let moved ← Main.moveOnChar n curSet c
  if moved.isEmpty then some d
  else do
    let epsed ← Main.epsClosure n moved
    if epsed.isEmpty then some d
    else
      let d : DFA :=
        if (mapFind d.mapping epsed).isNone then
          { d with mapping := d.mapping ++ [(epsed, (d.rev.length : Int))],
                   rev := d.rev ++ [epsed],
                   trans := d.trans ++ [[]] }
        else d
      let dst ← mapFind d.mapping epsed
      let trans ← vecModify? d.trans i (mapSet c dst)
      some { d with trans := trans }

/-- The loop `for (size_t i = 0; i < d.rev.size(); ++i)` of the
    `subsetConstruction` of `main.cpp`. -/
def Main.subsetLoop (n : NFA) : Nat → Nat → DFA → Option DFA
  | fuel, i, d =>
    if h : i < d.rev.length then
      match fuel with
      | 0 => none
      | fuel + 1 => do
        let curSet := d.rev[i]
        let d : DFA :=
          if n.accepts.any (fun a => decide (a ∈ curSet)) then
            { d with accepts := setInsert (i : Int) d.accepts }
          else d
        let d ← (List.range 128).foldlM (Main.subsetStep n curSet i) d
        Main.subsetLoop n fuel (i + 1) d
    else some d

/-- The function `subsetConstruction` of `main.cpp`: the main loop, then
    `d.start = 0`. -/
def Main.subsetConstruction (n : NFA) : Option DFA := do
  let startSet ← Main.epsClosure n [n.start]
  let d : DFA := { mapping := [(startSet, 0)], rev := [startSet], trans := [[]] }
  let d ← Main.subsetLoop n (2 ^ n.universe.length) 0 d
  some { d with start := 0 }

/-- The function `dfaLongestMatch` of `main.cpp`; its loop is the loop of the
    `dfaLongestMatch` of `dfa.cpp`. -/
def Main.dfaLongestMatch (d : DFA) (s : List Nat) (pos : Nat) : Option Int := do
  let lastAcceptPos ← dfaLongestMatchLoop d (s.drop pos) pos d.start (-1)
  some (if lastAcceptPos ≥ 0 then lastAcceptPos - (pos : Int) + 1 else 0)

/-- The local variables `i` and `out` of the `tokenizeWithDFA` of `main.cpp`. -/
structure Main.TokState where
  i : Nat
  out : List Main.TokenItem
  deriving DecidableEq, Repr

/-- One pass of the loop `while (i < n)` of the `tokenizeWithDFA` of `main.cpp`. -/
def Main.tokStep (input : List Nat) (dfaId dfaNum : DFA) (st : Main.TokState) :
    Option Main.TokState :=
  match input[st.i]? with
  | none => none
  | some c =>
    if isWhitespace c then some { st with i := st.i + 1 }
    else if c ∈ operators then
      some { out := st.out ++ [⟨"Operator", [c]⟩], i := st.i + 1 }
    else if c ∈ delimiters then
      some { out := st.out ++ [⟨"Delimiter", [c]⟩], i := st.i + 1 }
    else do
      let lenId ← Main.dfaLongestMatch dfaId input st.i
      let lenNum ← Main.dfaLongestMatch dfaNum input st.i
      if lenId = 0 ∧ lenNum = 0 then
        some { out := st.out ++ [⟨"Unknown", [c]⟩], i := st.i + 1 }
      else if lenId ≥ lenNum then
        let tok := substr input st.i lenId
        let type := if tok ∈ keywords then "Keyword" else "Identifier"
        some { out := st.out ++ [⟨type, tok⟩], i := st.i + lenId.toNat }
      else
        let tok := substr input st.i lenNum
        some { out := st.out ++ [⟨"Number", tok⟩], i := st.i + lenNum.toNat }

/-- The loop `while (i < n)` of the `tokenizeWithDFA` of `main.cpp`. -/
def Main.tokLoop (input : List Nat) (dfaId dfaNum : DFA) :
    Nat → Main.TokState → Option (List Main.TokenItem)
  | fuel, st =>
    if st.i < input.length then
      match fuel with
      | 0 => none
      | fuel + 1 =>
        match Main.tokStep input dfaId dfaNum st with
        | none => none
        | some st' => Main.tokLoop input dfaId dfaNum fuel st'
    else some st.out

/-- The function `tokenizeWithDFA` of `main.cpp`. -/
def Main.tokenizeWithDFA (input : List Nat) (dfaId dfaNum : DFA) :
    Option (List Main.TokenItem) :=
  Main.tokLoop input dfaId dfaNum input.length ⟨0, []⟩

/-- The call `tokenizeWithDFA(input, g_dfaId, g_dfaNum)` of `main.cpp`, the
    DFAs being `subsetConstruction(buildIdentifierNFA())` and
    `subsetConstruction(buildNumberNFA())`. -/
def Main.tokenizeBuilt (input : List Nat) : Option (List Main.TokenItem) := do
  let nId ← Main.buildIdentifierNFA
  let nNum ← Main.buildNumberNFA
  let dId ← Main.subsetConstruction nId
  let dNum ← Main.subsetConstruction nNum
  Main.tokenizeWithDFA input dId dNum

/-! ## Specification vocabulary -/

/-- The run of a DFA from state `cur` over the bytes `w`; `none` when a byte has
    no transition (or a state has no row). -/
def dfaRunFrom (d : DFA) : Int → List Nat → Option Int
  | cur, [] => some cur
  | cur, c :: w =>
    match vecGet? d.trans cur with
    | none => none
    | some row =>
      match mapFind row c with
      | none => none
      | some nxt => dfaRunFrom d nxt w

/-- A DFA accepts `w`: the run from its start state finds a transition on every
    byte and ends in an accepting state. -/
def dfaAccepts (d : DFA) (w : List Nat) : Bool :=
  match dfaRunFrom d d.start w with
  | none => false
  | some q => decide (q ∈ d.accepts)

/-- The language `[0-9]+(\.[0-9]+)?`: one or more digits, optionally followed by
    a single `.` and one or more digits. -/
def MatchesNumber (w : List Nat) : Prop :=
  ∃ a, a ≠ [] ∧ (∀ c ∈ a, isDigit c = true) ∧
    (w = a ∨ ∃ b, b ≠ [] ∧ (∀ c ∈ b, isDigit c = true) ∧ w = a ++ 46 :: b)

/-- The language `[A-Za-z_][A-Za-z0-9_]*`. -/
def MatchesIdentifier (w : List Nat) : Prop :=
  ∃ c rest, w = c :: rest ∧ (isLetter c = true ∨ c = 95) ∧ ∀ x ∈ rest, isIdentifierChar x = true

/-- The DFA that `subsetConstruction` returns for `buildIdentifierNFA_thompson`. -/
def identifierDFA : DFA :=
  { rev := [[0], [1, 2, 4, 5], [2, 3, 5]],
    trans :=
      [((List.range 128).filter (fun c => isLetter c || c = 95)).map (fun c => (c, 1)),
       ((List.range 128).filter isIdentifierChar).map (fun c => (c, 2)),
       ((List.range 128).filter isIdentifierChar).map (fun c => (c, 2))],
    accepts := [1, 2],
    start := 0 }

/-- The DFA that `subsetConstruction` returns for `buildNumberNFA_thompson`. -/
def numberDFA : DFA :=
  { rev := [[0], [0, 1, 2, 3, 4, 6, 7], [0, 5]],
    trans :=
      [((List.range 128).filter isDigit).map (fun c => (c, 1)),
       (46, 2) :: ((List.range 128).filter isDigit).map (fun c => (c, 1)),
       ((List.range 128).filter isDigit).map (fun c => (c, 1))],
    accepts := [1],
    start := 0 }

/-- A well-formed DFA: one row of transitions per state, a start state and
    transition targets that are state indices. -/
def DFA.WF (d : DFA) : Prop :=
  d.trans.length = d.rev.length ∧ 0 ≤ d.start ∧ d.start < (d.rev.length : Int) ∧
    ∀ row ∈ d.trans, ∀ kv ∈ row, 0 ≤ kv.2 ∧ kv.2 < (d.rev.length : Int)

/-- From state `cur` the DFA reads `w` completely and ends in an accepting state. -/
def dfaAcceptsFrom (d : DFA) (cur : Int) (w : List Nat) : Prop :=
  ∃ q, dfaRunFrom d cur w = some q ∧ q ∈ d.accepts

/-- The states of the loop of `tokenizeWithDFA`: from the state `st` the loop
    comes to the state `st'` after some number of passes. -/
inductive TokReach (input : List Nat) (dId dNum : DFA) : TokState → TokState → Prop
  | refl (st : TokState) : TokReach input dId dNum st st
  | step {st st1 st2 : TokState} : TokReach input dId dNum st st1 → st1.i < input.length →
      tokStep input dId dNum st1 = some st2 → TokReach input dId dNum st st2

/-- The offset of the last line-feed or carriage-return byte before the offset
    `p`, and `-1` when there is none. -/
def lastBreak (input : List Nat) : Nat → Int
  | 0 => -1
  | p + 1 => if input[p]? = some 10 ∨ input[p]? = some 13 then (p : Int) else lastBreak input p

/-- An epsilon edge of the NFA, from an in-range state `q` to `r`. -/
def EpsStep (n : NFA) (q r : Int) : Prop :=
  ∃ st, vecGet? n.states q = some st ∧ r ∈ st.eps

/-- A transition of the NFA labelled `c`, from an in-range state `q` to `r`. -/
def SymStep (n : NFA) (c : Nat) (q r : Int) : Prop :=
  ∃ st tgts, vecGet? n.states q = some st ∧ mapFind st.trans c = some tgts ∧ r ∈ tgts

/-- A path of the NFA from `q` to `q'` that spells `w`, epsilon moves allowed
    anywhere. -/
inductive NFA.Path (n : NFA) : Int → List Nat → Int → Prop
  | refl (q : Int) : NFA.Path n q [] q
  | eps {q r q' : Int} {w : List Nat} : EpsStep n q r → NFA.Path n r w q' → NFA.Path n q w q'
  | sym {q r q' : Int} {c : Nat} {w : List Nat} :
      SymStep n c q r → NFA.Path n r w q' → NFA.Path n q (c :: w) q'

/-- The NFA accepts `w`: some path from its start state that spells `w` ends in
    an accepting state. -/
def NFA.Accepts (n : NFA) (w : List Nat) : Prop :=
  ∃ q, NFA.Path n n.start w q ∧ q ∈ n.accepts

/-- The targets of the epsilon edges of an NFA, one entry per edge. -/
def NFA.epsTargets (n : NFA) : List Int := (n.states.map (fun st => st.eps)).flatten

/-- The number of epsilon edges whose target is not yet in `res`: what the loop
    of `epsClosure` can still push. -/
def epsPending (n : NFA) (res : List Int) : Nat :=
  (n.epsTargets.filter (fun x => decide (x ∉ res))).length

/-- The invariant of the loop of `epsClosure` started on the set `S`: `res` is
    strictly ascending, holds `S` and the stack, holds only states that epsilon
    edges reach from `S`, and holds every epsilon successor of its members that
    are no longer on the stack. -/
def EpsInv (n : NFA) (S res stvec : List Int) : Prop :=
  res.Pairwise (· < ·) ∧ (∀ x ∈ stvec, x ∈ res) ∧ (∀ x ∈ S, x ∈ res) ∧
    (∀ x ∈ res, ∃ s ∈ S, Relation.ReflTransGen (EpsStep n) s x) ∧
    (∀ x ∈ res, x ∉ stvec → ∀ y, EpsStep n x y → y ∈ res)

/-- The NFA-set that the subset construction reaches from the NFA-set `S` on
    the symbol `c`: `epsClosure(moveOnChar(S, c))`, and none when the move is
    empty. -/
def subsetTarget (n : NFA) (S : List Int) (c : Nat) : Option (List Int) :=
  if (moveOnChar n S c).isEmpty then none else epsClosure n (moveOnChar n S c)

/-- How many symbols of the DFA state `k` have been handled when the main loop
    of `subsetConstruction` is at the state `i` and the symbol `c`. -/
def rowBound (i c k : Nat) : Nat := if k < i then 128 else if k = i then c else 0

/-- The invariant of the main loop of `subsetConstruction` at the DFA state `i`
    and the symbol `c`, the states below `a` having been tested for
    acceptance; the `mapping` apart. -/
structure SubsetCore (n : NFA) (d : DFA) (i c a : Nat) : Prop where
  start0 : d.start = 0
  len_trans : d.trans.length = d.rev.length
  acc_le : a ≤ d.rev.length
  rev_head : ∃ S0, epsClosure n [n.start] = some S0 ∧ d.rev[0]? = some S0
  rev_nodup : d.rev.Nodup
  rev_sets : ∀ S ∈ d.rev, S.Pairwise (· < ·) ∧ (∀ x ∈ S, ∀ y, EpsStep n x y → y ∈ S) ∧
    (∀ x ∈ S, x ∈ n.universe)
  row_sorted : ∀ row ∈ d.trans, row.Pairwise (fun p q => p.1 < q.1)
  row_none : ∀ (k : Nat) (row : List (Nat × Int)) (S : List Int) (c' : Nat),
    d.trans[k]? = some row → d.rev[k]? = some S → c' < rowBound i c k →
    subsetTarget n S c' = none → mapFind row c' = none
  row_some : ∀ (k : Nat) (row : List (Nat × Int)) (S : List Int) (c' : Nat) (T : List Int),
    d.trans[k]? = some row → d.rev[k]? = some S → c' < rowBound i c k →
    subsetTarget n S c' = some T →
    ∃ jn : Nat, mapFind row c' = some (jn : Int) ∧ d.rev[jn]? = some T
  row_rest : ∀ (k : Nat) (row : List (Nat × Int)) (c' : Nat),
    d.trans[k]? = some row → rowBound i c k ≤ c' → mapFind row c' = none
  accepts_sorted : d.accepts.Pairwise (· < ·)
  accepts_iff : ∀ j : Int, j ∈ d.accepts ↔
    ∃ k : Nat, j = (k : Int) ∧ k < a ∧
      ∃ S, d.rev[k]? = some S ∧ n.accepts.any (fun x => decide (x ∈ S)) = true

/-- Every DFA state `j` with `0 < j < p` is the target of a transition of an
    earlier state. -/
def PredInv (d : DFA) (p : Nat) : Prop :=
  ∀ j : Nat, 0 < j → j < p →
    ∃ (k c' : Nat) (row : List (Nat × Int)), k < j ∧ d.trans[k]? = some row ∧
      mapFind row c' = some (j : Int)

/-- The `mapping` of the DFA under construction sends every NFA-set of `rev` to
    its index, and nothing else. -/
def MappingInv (d : DFA) : Prop :=
  ∀ (S : List Int) (j : Int), mapFind d.mapping S = some j ↔
    ∃ k : Nat, j = (k : Int) ∧ d.rev[k]? = some S

/-- What the reachability sweep of `subsetConstruction` needs of the DFA that
    the main loop hands over: rows in key order with targets in range, an
    accepting set in order and in range, and a transition from an earlier
    state into every state but the first. -/
structure PruneReady (d : DFA) : Prop where
  start0 : d.start = 0
  len_trans : d.trans.length = d.rev.length
  rev_pos : 0 < d.rev.length
  row_sorted : ∀ row ∈ d.trans, row.Pairwise (fun p q => p.1 < q.1)
  row_targets : ∀ row ∈ d.trans, ∀ kv ∈ row, ∃ k : Nat, kv.2 = (k : Int) ∧ k < d.rev.length
  accepts_sorted : d.accepts.Pairwise (· < ·)
  accepts_range : ∀ j ∈ d.accepts, ∃ k : Nat, j = (k : Int) ∧ k < d.rev.length
  pred : PredInv d d.rev.length

/-- The invariant of the reachability sweep: `seen` has one flag per state,
    and the queue `q` holds, once each, the states whose flag is set. -/
def SweepInv (d : DFA) (seen : List Bool) (q : List Int) : Prop :=
  seen.length = d.rev.length ∧ q.Nodup ∧
    ∀ v : Int, v ∈ q ↔ ∃ k : Nat, v = (k : Int) ∧ seen[k]? = some true

/-- The states of the queue whose transitions the sweep has followed have all
    their targets in the queue. -/
def SweepClosed (d : DFA) (q : List Int) (idx : Nat) : Prop :=
  ∀ (p : Nat) (u : Int) (row : List (Nat × Int)), p < idx → q[p]? = some u →
    vecGet? d.trans u = some row → ∀ kv ∈ row, kv.2 ∈ q

/-- The DFA `d2` of `subsetConstruction` when the states below `m` have been
    copied, every state being marked and remapped to itself. -/
def copyPartial (d : DFA) (m : Nat) : DFA :=
  { mapping := []
    rev := d.rev.take m ++ List.replicate (d.rev.length - m) []
    trans := d.trans.take m ++ List.replicate (d.rev.length - m) []
    accepts := d.accepts.filter (fun j => decide (j < (m : Int)))
    start := 0 }

/-- The NFA around `makeCharClass` on an empty symbol list: the entry of the
    fragment is the start state and its exit is the one accepting state. -/
def emptyClassNFA : Option NFA := do
  let n : NFA := {}
  let (n, f) ← makeCharClass n []
  pure { n with start := f.start, accepts := setInsert f.accept n.accepts }

/-- The entry and the exit of a fragment are indices of states of the NFA. -/
@[reducible] def Fragment.InRange (n : NFA) (f : Fragment) : Prop :=
  (0 ≤ f.start ∧ f.start < (n.states.length : Int)) ∧
    (0 ≤ f.accept ∧ f.accept < (n.states.length : Int))

/-- Every state `i` of the NFA has the id `i`. -/
@[reducible] def NFA.IdsValid (n : NFA) : Prop :=
  ∀ i : Nat, i < n.states.length → (n.states[i]?).map (fun st => st.id) = some (i : Int)

/-- Every epsilon target and every transition target of the NFA is an index of
    one of its states. -/
@[reducible] def NFA.TargetsValid (n : NFA) : Prop :=
  ∀ st ∈ n.states, (∀ x ∈ st.eps, 0 ≤ x ∧ x < (n.states.length : Int)) ∧
    ∀ kv ∈ st.trans, ∀ x ∈ kv.2, 0 ≤ x ∧ x < (n.states.length : Int)

/-- The NFA `n'` keeps what the NFA `n` has: the start, the accepting set, the
    state at every index with its id, every epsilon edge and every labelled
    transition. -/
def NFA.Keeps (n n' : NFA) : Prop :=
  n'.start = n.start ∧ n'.accepts = n.accepts ∧
    (∀ (i : Nat) (st : NFAState), n.states[i]? = some st →
      ∃ st', n'.states[i]? = some st' ∧ st'.id = st.id) ∧
    (∀ q r, EpsStep n q r → EpsStep n' q r) ∧
    (∀ c q r, SymStep n c q r → SymStep n' c q r)

/-- What a combinator does to the NFA: `n'` has `k` states more than `n` and
    keeps what `n` has; ids that equal the indices stay so, and targets that
    are indices of states stay so. -/
structure NFA.Ext (n n' : NFA) (k : Nat) : Prop where
  len : n'.states.length = n.states.length + k
  keeps : n.Keeps n'
  ids : n.IdsValid → n'.IdsValid
  tgts : n.TargetsValid → n'.TargetsValid

/-- An NFA of two states without edges. -/
def pairNFA : NFA := { states := [{ id := 0 }, { id := 1 }] }

/-- A call of one of the seven combinators of `nfa.cpp`, with its arguments. -/
inductive Call where
  | char (c : Nat)
  | charClass (allowed : List Nat)
  | concat (a b : Fragment)
  | alt (a b : Fragment)
  | star (a : Fragment)
  | plus (a : Fragment)
  | opt (a : Fragment)
  deriving DecidableEq, Repr

/-- The fragment arguments of a call. -/
def Call.args : Call → List Fragment
  | Call.char _ => []
  | Call.charClass _ => []
  | Call.concat a b => [a, b]
  | Call.alt a b => [a, b]
  | Call.star a => [a]
  | Call.plus a => [a]
  | Call.opt a => [a]

/-- The call made on the NFA `n`. -/
def Call.run (n : NFA) : Call → Option (NFA × Fragment)
  | Call.char c => makeChar n c
  | Call.charClass allowed => makeCharClass n allowed
  | Call.concat a b => concatFrag n a b
  | Call.alt a b => altFrag n a b
  | Call.star a => starFrag n a
  | Call.plus a => plusFrag n a
  | Call.opt a => optFrag n a

/-- The NFAs that a sequence of combinator calls makes of the empty NFA, with
    the fragments that the calls returned, every fragment argument being one
    that an earlier call returned. -/
inductive Built : NFA → List Fragment → Prop
  | empty : Built {} []
  | call {n n' : NFA} {fs : List Fragment} {f : Fragment} (k : Call) :
      Built n fs → (∀ a ∈ k.args, a ∈ fs) → k.run n = some (n', f) → Built n' (fs ++ [f])

/-- The DFA that the `subsetConstruction` of `main.cpp` returns for
    `buildIdentifierNFA`. -/
def Main.identifierDFA : DFA :=
  { mapping := [([0], 0), ([1], 1)],
    rev := [[0], [1]],
    trans :=
      [((List.range 128).filter (fun c => isLetter c || c = 95)).map (fun c => (c, 1)),
       ((List.range 128).filter isIdentifierChar).map (fun c => (c, 1))],
    accepts := [1],
    start := 0 }

/-- The DFA that the `subsetConstruction` of `main.cpp` returns for
    `buildNumberNFA`. -/
def Main.numberDFA : DFA :=
  { mapping := [([0], 0), ([1], 1), ([2], 2), ([3], 3)],
    rev := [[0], [1], [2], [3]],
    trans :=
      [((List.range 128).filter isDigit).map (fun c => (c, 1)),
       (46, 2) :: ((List.range 128).filter isDigit).map (fun c => (c, 1)),
       ((List.range 128).filter isDigit).map (fun c => (c, 3)),
       ((List.range 128).filter isDigit).map (fun c => (c, 3))],
    accepts := [1, 3],
    start := 0 }

/-- The NFA of `starFrag` around `makeCharClass` on the symbol list `A`, built in
    an empty NFA: the entry of the fragment is the start state and its exit is
    the one accepting state. -/
def starClassNFA (A : List Nat) : Option NFA := do
  let n : NFA := {}
  let (n, a) ← makeCharClass n A
  let (n, f) ← starFrag n a
  pure { n with start := f.start, accepts := setInsert f.accept n.accepts }

/-- The NFA of `plusFrag` around `makeCharClass` on the symbol list `A`, built in
    an empty NFA. -/
def plusClassNFA (A : List Nat) : Option NFA := do
  let n : NFA := {}
  let (n, a) ← makeCharClass n A
  let (n, f) ← plusFrag n a
  pure { n with start := f.start, accepts := setInsert f.accept n.accepts }

/-- The NFA of `altFrag` around `makeCharClass` on the symbol lists `A` and `B`,
    built in an empty NFA. -/
def altClassNFA (A B : List Nat) : Option NFA := do
  let n : NFA := {}
  let (n, a) ← makeCharClass n A
  let (n, b) ← makeCharClass n B
  let (n, f) ← altFrag n a b
  pure { n with start := f.start, accepts := setInsert f.accept n.accepts }

/-! ## Theorems -/

/-! ### pda.cpp -/

theorem checkPDALoop_filter (s : List Nat) :
    ∀ stk, checkPDALoop stk (s.filter isBracket) = checkPDALoop stk s := by
  induction s with
  | nil => intro stk; rfl
  | cons c s ih =>
    intro stk
    by_cases hb : isBracket c = true
    · rw [List.filter_cons_of_pos hb]
      simp only [checkPDALoop]
      split
      · exact ih _
      · split
        · cases stk with
          | nil => rfl
          | cons t stk' =>
            simp only []
            split
            · rfl
            · exact ih _
        · exact ih _
    · rw [List.filter_cons_of_neg hb]
      have h1 : ¬ (c = 40 ∨ c = 123 ∨ c = 91) := by
        intro h; apply hb; rcases h with h | h | h <;> subst h <;> rfl
      have h2 : ¬ (c = 41 ∨ c = 125 ∨ c = 93) := by
        intro h; apply hb; rcases h with h | h | h <;> subst h <;> rfl
      simp only [checkPDALoop, h1, h2, if_false]
      exact ih _

theorem pairsAt_paren : pairsAt 41 = 40 := by decide

theorem pairsAt_brace : pairsAt 125 = 123 := by decide

theorem pairsAt_bracket : pairsAt 93 = 91 := by decide

theorem checkPDALoop_balanced {w : List Nat} (hw : Balanced w) :
    ∀ stk rest, checkPDALoop stk (w ++ rest) = checkPDALoop stk rest := by
  induction hw with
  | empty => intro stk rest; rfl
  | append _ _ ihu ihv =>
    intro stk rest
    rw [List.append_assoc, ihu, ihv]
  | paren _ ih =>
    intro stk rest
    simp only [List.cons_append, List.append_assoc, checkPDALoop]
    simp [ih, checkPDALoop, pairsAt_paren, pairsAt_brace, pairsAt_bracket]
  | brace _ ih =>
    intro stk rest
    simp only [List.cons_append, List.append_assoc, checkPDALoop]
    simp [ih, checkPDALoop, pairsAt_paren, pairsAt_brace, pairsAt_bracket]
  | bracket _ ih =>
    intro stk rest
    simp only [List.cons_append, List.append_assoc, checkPDALoop]
    simp [ih, checkPDALoop, pairsAt_paren, pairsAt_brace, pairsAt_bracket]

theorem Balanced.wrap {o c : Nat} (h : IsPair o c) {b : List Nat} (hb : Balanced b) :
    Balanced (o :: b ++ [c]) := by
  rcases h with ⟨rfl, rfl⟩ | ⟨rfl, rfl⟩ | ⟨rfl, rfl⟩
  · exact Balanced.paren hb
  · exact Balanced.brace hb
  · exact Balanced.bracket hb

theorem Closes.prepend {x : List Nat} (hx : Balanced x) {stk w : List Nat}
    (h : Closes stk w) : Closes stk (x ++ w) := by
  cases h with
  | done hw => exact Closes.done (Balanced.append hx hw)
  | close hb hoc hrest =>
    rw [← List.append_assoc]
    exact Closes.close (Balanced.append hx hb) hoc hrest

theorem Closes.cons_inv {o : Nat} {stk w : List Nat} (h : Closes (o :: stk) w) :
    ∃ b c w', w = b ++ c :: w' ∧ Balanced b ∧ IsPair o c ∧ Closes stk w' := by
  generalize hs : o :: stk = s at h
  cases h with
  | done _ => cases hs
  | close hb hoc hrest =>
    cases hs
    exact ⟨_, _, _, rfl, hb, hoc, hrest⟩

theorem checkPDALoop_closes (w : List Nat) :
    ∀ stk, checkPDALoop stk w = true → Closes stk (w.filter isBracket) := by
  induction w with
  | nil =>
    intro stk h
    cases stk with
    | nil => exact Closes.done Balanced.empty
    | cons t stk' => simp [checkPDALoop] at h
  | cons c w ih =>
    intro stk h
    simp only [checkPDALoop] at h
    split at h
    · rename_i hopen
      have hb : isBracket c = true := by
        rcases hopen with h | h | h <;> subst h <;> rfl
      rw [List.filter_cons_of_pos hb]
      have hcl := ih _ h
      obtain ⟨b, c2, w2, hw2, hbal, hoc, hrest⟩ := hcl.cons_inv
      have := Closes.prepend (Balanced.wrap hoc hbal) hrest
      simpa [hw2] using this
    · split at h
      · rename_i hclose
        have hb : isBracket c = true := by
          rcases hclose with h | h | h <;> subst h <;> rfl
        rw [List.filter_cons_of_pos hb]
        cases stk with
        | nil => simp at h
        | cons t stk' =>
          simp only [] at h
          split at h
          · simp at h
          · rename_i htop
            have htop2 : t = pairsAt c := by simpa using htop
            have hoc : IsPair t c := by
              rcases hclose with h | h | h <;> subst h <;> subst htop2 <;>
                simp [IsPair, pairsAt_paren, pairsAt_brace, pairsAt_bracket]
            have := Closes.close Balanced.empty hoc (ih _ h)
            simpa using this
      · rename_i h1 h2
        have hb : ¬ isBracket c = true := by
          simp only [isBracket, Bool.or_eq_true, decide_eq_true_eq]
          omega
        rw [List.filter_cons_of_neg hb]
        exact ih _ h

/-- C1. `checkPDA s` is true exactly when the subsequence of `s` made of the six
    bracket characters is a correctly nested word of the grammar
    `B ::= empty | B B | ( B ) | { B } | [ B ]`. -/
theorem checkPDA_iff_balanced (s : List Nat) :
    checkPDA s = true ↔ Balanced (s.filter isBracket) := by
  constructor
  · intro h
    have := checkPDALoop_closes s [] h
    cases this with
    | done hw => exact hw
  · intro h
    have := checkPDALoop_balanced h [] []
    rw [List.append_nil] at this
    unfold checkPDA
    rw [← checkPDALoop_filter, this]
    rfl

/-! ### The two built automata -/

theorem identifierDFA_built :
    buildIdentifierNFA_thompson.bind subsetConstruction = some identifierDFA := by decide!

theorem numberDFA_built :
    buildNumberNFA_thompson.bind subsetConstruction = some numberDFA := by decide!

theorem tokenizeBuilt_eq (input : List Nat) :
    tokenizeBuilt input = tokenizeWithDFA input identifierDFA numberDFA := by
  have h1 := identifierDFA_built
  have h2 := numberDFA_built
  unfold tokenizeBuilt
  cases hId : buildIdentifierNFA_thompson with
  | none => rw [hId] at h1; cases h1
  | some nId =>
    cases hNum : buildNumberNFA_thompson with
    | none => rw [hNum] at h2; cases h2
    | some nNum =>
      rw [hId] at h1; rw [hNum] at h2
      simp only [Option.some_bind] at h1 h2
      simp [h1, h2]

/-- C4 (the code at the failing input). The number DFA accepts `3.14.15`, a word
    with two `.` characters that does not match `[0-9]+(\.[0-9]+)?`. -/
theorem numberDFA_accepts_two_dots :
    (buildNumberNFA_thompson.bind subsetConstruction).map
        (fun d => dfaAccepts d (bytes "3.14.15")) = some true ∧
      (bytes "3.14.15").count 46 = 2 ∧ ¬ MatchesNumber (bytes "3.14.15") := by
  refine ⟨by rw [numberDFA_built]; decide!, by decide, ?_⟩
  rintro ⟨a, _, ha, h | ⟨b, _, hb, h⟩⟩
  · have : (46 : Nat) ∈ a := by rw [← h]; decide
    exact absurd (ha 46 this) (by decide)
  · have hcount : (bytes "3.14.15").count 46 = 2 := by decide
    rw [h, List.count_append, List.count_cons_self] at hcount
    have h1 : a.count 46 = 0 := List.count_eq_zero.mpr (fun hm => absurd (ha 46 hm) (by decide))
    have h2 : b.count 46 = 0 := List.count_eq_zero.mpr (fun hm => absurd (hb 46 hm) (by decide))
    omega

/-- C7. On `int x = 42;` the tokenizer with the two built DFAs yields five
    tokens: Keyword `int` at 1:1, Identifier `x` at 1:5, Operator `=` at 1:7,
    Number `42` at 1:9 and Delimiter `;` at 1:11. -/
theorem tokenize_int_x_42 :
    tokenizeBuilt (bytes "int x = 42;") =
      some [⟨"Keyword", bytes "int", 1, 1⟩, ⟨"Identifier", bytes "x", 1, 5⟩,
            ⟨"Operator", bytes "=", 1, 7⟩, ⟨"Number", bytes "42", 1, 9⟩,
            ⟨"Delimiter", bytes ";", 1, 11⟩] := by
  rw [tokenizeBuilt_eq]; decide!

/-! ### dfaLongestMatch -/

theorem vecGet?_isSome {α : Type} (v : List α) (i : Int) (h0 : 0 ≤ i) (h1 : i < (v.length : Int)) :
    ∃ a, vecGet? v i = some a := by
  unfold vecGet?
  rw [if_pos h0]
  have : i.toNat < v.length := by omega
  exact ⟨v[i.toNat], List.getElem?_eq_getElem this⟩

theorem vecGet?_mem {α : Type} {v : List α} {i : Int} {a : α} (h : vecGet? v i = some a) :
    a ∈ v := by
  unfold vecGet? at h
  split at h
  · exact List.getElem?_mem h
  · cases h

theorem mapFind_mem {K V : Type} [DecidableEq K] {m : List (K × V)} {k : K} {v : V}
    (h : mapFind m k = some v) : (k, v) ∈ m := by
  induction m with
  | nil => cases h
  | cons p m ih =>
    obtain ⟨k', v'⟩ := p
    simp only [mapFind] at h
    split at h
    · rename_i hk
      cases h; subst hk
      exact List.mem_cons_self _ _
    · exact List.mem_cons_of_mem _ (ih h)

theorem DFA.WF.step {d : DFA} (hd : d.WF) {cur : Int} {row : List (Nat × Int)} {c : Nat} {nxt : Int}
    (hrow : vecGet? d.trans cur = some row) (hnxt : mapFind row c = some nxt) :
    0 ≤ nxt ∧ nxt < (d.trans.length : Int) := by
  have := hd.2.2.2 row (vecGet?_mem hrow) (c, nxt) (mapFind_mem hnxt)
  rw [hd.1]
  exact this

theorem dfaAcceptsFrom_cons {d : DFA} {cur : Int} {c : Nat} {w : List Nat} {row : List (Nat × Int)}
    (hrow : vecGet? d.trans cur = some row) :
    dfaAcceptsFrom d cur (c :: w) ↔ ∃ nxt, mapFind row c = some nxt ∧ dfaAcceptsFrom d nxt w := by
  unfold dfaAcceptsFrom
  simp only [dfaRunFrom, hrow]
  cases hf : mapFind row c with
  | none => simp
  | some nxt => simp

/-- The loop of `dfaLongestMatch` on a well-formed DFA: it returns, and its
    result is the old `lastAcceptPos` or the last offset of the longest
    accepted non-empty prefix. -/
theorem dfaLongestMatchLoop_spec {d : DFA} (hd : d.WF) (rest : List Nat) :
    ∀ (i : Nat) (cur last : Int), 0 ≤ cur → cur < (d.trans.length : Int) → last < (i : Int) →
      ∃ L, dfaLongestMatchLoop d rest i cur last = some L ∧
        (L = last ∨ ∃ k, 1 ≤ k ∧ k ≤ rest.length ∧ L = (i : Int) + k - 1 ∧
            dfaAcceptsFrom d cur (rest.take k)) ∧
        (∀ k, 1 ≤ k → k ≤ rest.length → dfaAcceptsFrom d cur (rest.take k) →
            (i : Int) + k - 1 ≤ L) := by
  induction rest with
  | nil =>
    intro i cur last _ _ _
    refine ⟨last, rfl, Or.inl rfl, ?_⟩
    intro k hk1 hk2 _
    simp at hk2; omega
  | cons c rest ih =>
    intro i cur last h0 h1 hlast
    obtain ⟨row, hrow⟩ := vecGet?_isSome d.trans cur h0 h1
    simp only [dfaLongestMatchLoop, hrow]
    cases hf : mapFind row c with
    | none =>
      refine ⟨last, rfl, Or.inl rfl, ?_⟩
      intro k hk1 _ hacc
      obtain ⟨k', rfl⟩ : ∃ k', k = k' + 1 := ⟨k - 1, by omega⟩
      rw [List.take_succ_cons, dfaAcceptsFrom_cons hrow] at hacc
      obtain ⟨nxt, hn, _⟩ := hacc
      rw [hf] at hn; cases hn
    | some nxt =>
      have hnxt := hd.step hrow hf
      simp only []
      have hlast' : (if nxt ∈ d.accepts then (i : Int) else last) < ((i + 1 : Nat) : Int) := by
        split <;> push_cast <;> omega
      obtain ⟨L, hL, hach, hmax⟩ := ih (i + 1) nxt _ hnxt.1 hnxt.2 hlast'
      refine ⟨L, hL, ?_, ?_⟩
      · rcases hach with hEq | ⟨k, hk1, hk2, hLk, hacc⟩
        · by_cases hin : nxt ∈ d.accepts
          · right
            refine ⟨1, le_refl _, by simp, ?_, ?_⟩
            · rw [hEq, if_pos hin]; simp
            · rw [List.take_succ_cons, dfaAcceptsFrom_cons hrow]
              exact ⟨nxt, hf, nxt, by simp [dfaRunFrom], hin⟩
          · left; rw [hEq, if_neg hin]
        · right
          refine ⟨k + 1, by omega, by simp; omega, by rw [hLk]; push_cast; ring, ?_⟩
          rw [List.take_succ_cons, dfaAcceptsFrom_cons hrow]
          exact ⟨nxt, hf, hacc⟩
      · intro k hk1 hk2 hacc
        obtain ⟨k', rfl⟩ : ∃ k', k = k' + 1 := ⟨k - 1, by omega⟩
        rw [List.take_succ_cons, dfaAcceptsFrom_cons hrow] at hacc
        obtain ⟨nxt', hn, hacc'⟩ := hacc
        rw [hf] at hn; cases hn
        by_cases hk0 : k' = 0
        · subst hk0
          obtain ⟨q, hq, hqa⟩ := hacc'
          simp [dfaRunFrom] at hq
          subst hq
          -- the prefix of length one is accepted, so `lastAcceptPos` was set to `i`
          rcases hach with hEq | ⟨k, hk1', _, hLk, _⟩
          · rw [hEq, if_pos hqa]; simp
          · rw [hLk]; push_cast; omega
        · have := hmax k' (by omega) (by simp at hk2; omega) hacc'
          push_cast at this ⊢
          omega

theorem dfaAccepts_iff (d : DFA) (w : List Nat) :
    dfaAccepts d w = true ↔ dfaAcceptsFrom d d.start w := by
  unfold dfaAccepts dfaAcceptsFrom
  cases dfaRunFrom d d.start w with
  | none => simp
  | some q => simp

/-- On a well-formed DFA `dfaLongestMatch` returns the largest `k ≥ 1` such that
    the `k` bytes from offset `pos` are accepted, and 0 when there is none. -/
theorem dfaLongestMatch_spec {d : DFA} (hd : d.WF) (s : List Nat) (pos : Nat) :
    ∃ m : Nat, dfaLongestMatch d s pos = some (m : Int) ∧
      (∀ k, 1 ≤ k → pos + k ≤ s.length → dfaAccepts d ((s.drop pos).take k) = true → k ≤ m) ∧
      (m ≠ 0 → pos + m ≤ s.length ∧ dfaAccepts d ((s.drop pos).take m) = true) := by
  obtain ⟨hlen, hs0, hs1, _⟩ := id hd
  have hne : d.rev.isEmpty = false := by
    cases hr : d.rev with
    | nil => rw [hr] at hs1; simp at hs1; omega
    | cons a l => rfl
  have hguard : ¬ (d.start < 0 ∨ d.start ≥ (d.rev.length : Int)) := by omega
  obtain ⟨L, hL, hach, hmax⟩ := dfaLongestMatchLoop_spec hd (s.drop pos) pos d.start (-1) hs0
    (by rw [hlen]; exact hs1) (by omega)
  unfold dfaLongestMatch
  simp only [hne, if_neg hguard, hL, Bool.false_eq_true, if_false, Option.bind_eq_bind,
    Option.some_bind]
  have hdl : (s.drop pos).length = s.length - pos := List.length_drop _ _
  rcases hach with hEq | ⟨k, hk1, hk2, hLk, hacc⟩
  · refine ⟨0, ?_, ?_, ?_⟩
    · rw [hEq]; simp
    · intro k hk1 hk2 hacc
      have := hmax k hk1 (by omega) ((dfaAccepts_iff _ _).mp hacc)
      omega
    · intro h; exact absurd rfl h
  · refine ⟨k, ?_, ?_, ?_⟩
    · rw [if_pos (by omega), hLk]; congr 1; omega
    · intro k' hk1' hk2' hacc'
      have := hmax k' hk1' (by omega) ((dfaAccepts_iff _ _).mp hacc')
      omega
    · intro _
      exact ⟨by omega, (dfaAccepts_iff _ _).mpr hacc⟩

theorem dfaLongestMatchLoop_bound (d : DFA) (rest : List Nat) :
    ∀ (i : Nat) (cur last L : Int), dfaLongestMatchLoop d rest i cur last = some L →
      L = last ∨ ((i : Int) ≤ L ∧ L < (i : Int) + rest.length) := by
  induction rest with
  | nil =>
    intro i cur last L h
    simp only [dfaLongestMatchLoop] at h
    left; cases h; rfl
  | cons c rest ih =>
    intro i cur last L h
    simp only [dfaLongestMatchLoop] at h
    split at h
    · cases h
    · split at h
      · left; cases h; rfl
      · have := ih _ _ _ _ h
        simp only [List.length_cons]
        push_cast at this ⊢
        rcases this with h1 | h1
        · split at h1
          · right; omega
          · left; exact h1
        · right; omega

/-- On every DFA the result of `dfaLongestMatch` is 0 or a positive number of
    bytes that the text has from `pos` on. -/
theorem dfaLongestMatch_bound {d : DFA} {s : List Nat} {pos : Nat} {m : Int}
    (h : dfaLongestMatch d s pos = some m) :
    m = 0 ∨ (1 ≤ m ∧ (pos : Int) + m ≤ s.length) := by
  unfold dfaLongestMatch at h
  split at h
  · left; cases h; rfl
  · split at h
    · left; cases h; rfl
    · cases hl : dfaLongestMatchLoop d (s.drop pos) pos d.start (-1) with
      | none => rw [hl] at h; cases h
      | some L =>
        rw [hl] at h
        simp only [Option.bind_eq_bind, Option.some_bind, Option.some.injEq] at h
        have := dfaLongestMatchLoop_bound d _ _ _ _ _ hl
        rw [List.length_drop] at this
        rcases this with h1 | h1
        · left; rw [h1] at h; simpa using h.symm
        · right; rw [if_pos (by omega)] at h; omega

/-! ### The identifier automaton -/

theorem mapFind_filter_map (l : List Nat) (p : Nat → Bool) (v : Int) (c : Nat) :
    mapFind ((l.filter p).map (fun x => (x, v))) c = if c ∈ l ∧ p c = true then some v else none := by
  induction l with
  | nil => simp [mapFind]
  | cons x l ih =>
    by_cases hp : p x = true
    · rw [List.filter_cons_of_pos hp, List.map_cons]
      simp only [mapFind, ih, List.mem_cons]
      by_cases hc : c = x
      · subst hc; simp [hp]
      · simp [hc]
    · rw [List.filter_cons_of_neg hp, ih]
      by_cases hc : c = x
      · subst hc; simp [hp]
      · simp [hc]

theorem mapFind_range_filter (p : Nat → Bool) (hp : ∀ c, p c = true → c < 128) (v : Int) (c : Nat) :
    mapFind (((List.range 128).filter p).map (fun x => (x, v))) c = if p c = true then some v else none := by
  rw [mapFind_filter_map]
  by_cases h : p c = true
  · simp [h, hp c h]
  · simp [h]

theorem isIdentifierChar_lt {c : Nat} (h : isIdentifierChar c = true) : c < 128 := by
  simp only [isIdentifierChar, isLetter, isDigit, Bool.or_eq_true, Bool.and_eq_true,
    decide_eq_true_eq] at h
  omega

theorem identifierDFA_run2 (w : List Nat) :
    dfaRunFrom identifierDFA 2 w = if ∀ x ∈ w, isIdentifierChar x = true then some 2 else none := by
  induction w with
  | nil => simp [dfaRunFrom]
  | cons c w ih =>
    have hrow : vecGet? identifierDFA.trans 2 = some
        (((List.range 128).filter isIdentifierChar).map (fun c => (c, (2 : Int)))) := rfl
    simp only [dfaRunFrom, hrow, mapFind_range_filter _ (fun _ => isIdentifierChar_lt)]
    by_cases hc : isIdentifierChar c = true
    · simp [hc, ih]
    · simp [hc]

theorem identifierDFA_run1 (w : List Nat) :
    dfaRunFrom identifierDFA 1 w =
      if ∀ x ∈ w, isIdentifierChar x = true then some (if w = [] then 1 else 2) else none := by
  cases w with
  | nil => simp [dfaRunFrom]
  | cons c w =>
    have hrow : vecGet? identifierDFA.trans 1 = some
        (((List.range 128).filter isIdentifierChar).map (fun c => (c, (2 : Int)))) := rfl
    simp only [dfaRunFrom, hrow, mapFind_range_filter _ (fun _ => isIdentifierChar_lt)]
    by_cases hc : isIdentifierChar c = true
    · simp [hc, identifierDFA_run2]
    · simp [hc]

theorem identifierDFA_accepts (w : List Nat) :
    dfaAccepts identifierDFA w = true ↔ MatchesIdentifier w := by
  unfold dfaAccepts MatchesIdentifier
  cases w with
  | nil => simp [dfaRunFrom, identifierDFA]
  | cons c w =>
    have hrow : vecGet? identifierDFA.trans identifierDFA.start = some
        (((List.range 128).filter (fun c => isLetter c || c = 95)).map (fun c => (c, (1 : Int)))) := rfl
    have hlt : ∀ c, (fun c => isLetter c || decide (c = 95)) c = true → c < 128 := by
      intro c h
      simp only [isLetter, Bool.or_eq_true, Bool.and_eq_true, decide_eq_true_eq] at h
      omega
    simp only [dfaRunFrom, hrow, mapFind_range_filter _ hlt]
    by_cases hc : (isLetter c || decide (c = 95)) = true
    · simp only [hc, if_true, identifierDFA_run1]
      have hc' : isLetter c = true ∨ c = 95 := by simpa using hc
      by_cases hw : ∀ x ∈ w, isIdentifierChar x = true
      · rw [if_pos hw]
        constructor
        · intro _; exact ⟨c, w, rfl, hc', hw⟩
        · intro _
          by_cases hnil : w = []
          · simp only [hnil, if_true]; decide
          · simp only [hnil, if_false]; decide
      · rw [if_neg hw]
        constructor
        · intro h; cases h
        · rintro ⟨c', w', heq, _, hw'⟩
          cases heq
          exact absurd hw' hw
    · simp only [hc, if_false]
      constructor
      · intro h; cases h
      · rintro ⟨c', w', heq, hc', _⟩
        cases heq
        exact absurd (by simpa using hc') hc

/-- C6. The identifier automaton accepts `w` exactly when `w` is non-empty, its
    first byte is an ASCII letter or `_`, and every later byte is an ASCII
    letter, an ASCII digit or `_`. -/
theorem identifier_language :
    ∃ d, buildIdentifierNFA_thompson.bind subsetConstruction = some d ∧
      ∀ w, dfaAccepts d w = true ↔ MatchesIdentifier w :=
  ⟨identifierDFA, identifierDFA_built, identifierDFA_accepts⟩

/-! ### tokenizeWithDFA -/

theorem identifierDFA_WF : identifierDFA.WF := by unfold DFA.WF; decide!

theorem numberDFA_WF : numberDFA.WF := by unfold DFA.WF; decide!

/-- The cursor loop over a matched token of `k` bytes returns when the text has
    `k` bytes from the cursor on; it moves the cursor by `k` and emits nothing. -/
theorem advance_some (input : List Nat) :
    ∀ (k : Nat) (st : TokState), st.i + k ≤ input.length →
      ∃ st', advance input k st = some st' ∧ st'.i = st.i + k ∧ st'.out = st.out := by
  intro k
  induction k with
  | zero => intro st _; exact ⟨st, rfl, rfl, rfl⟩
  | succ k ih =>
    intro st h
    have hlt : st.i < input.length := by omega
    simp only [advance, List.getElem?_eq_getElem hlt]
    split
    · obtain ⟨st', h1, h2, h3⟩ := ih { st with line := st.line + 1, col := 1, i := st.i + 1 }
        (by simp only []; omega)
      exact ⟨st', h1, by rw [h2]; simp only []; omega, h3⟩
    · obtain ⟨st', h1, h2, h3⟩ := ih { st with i := st.i + 1, col := st.col + 1 }
        (by simp only []; omega)
      exact ⟨st', h1, by rw [h2]; simp only []; omega, h3⟩

/-- Over bytes that hold no line feed the cursor loop keeps the line and adds
    the number of bytes to the column. -/
theorem advance_no_lf (input : List Nat) :
    ∀ (k : Nat) (st : TokState), st.i + k ≤ input.length →
      (∀ j, st.i ≤ j → j < st.i + k → input[j]? ≠ some 10) →
      advance input k st = some { st with i := st.i + k, col := st.col + k } := by
  intro k
  induction k with
  | zero => intro st _ _; rfl
  | succ k ih =>
    intro st h hno
    have hlt : st.i < input.length := by omega
    have hc : input[st.i] ≠ 10 := by
      have := hno st.i (le_refl _) (by omega)
      rw [List.getElem?_eq_getElem hlt] at this
      simpa using this
    simp only [advance, List.getElem?_eq_getElem hlt, if_neg hc]
    rw [ih _ (by simp only []; omega) (fun j h1 h2 => hno j (by simp only [] at h1; omega)
      (by simp only [] at h2; omega))]
    simp only [TokState.mk.injEq, Option.some.injEq]
    refine ⟨by omega, trivial, by omega, trivial⟩

theorem identStart_class {c : Nat} (h : isLetter c = true ∨ c = 95) :
    isWhitespace c = false ∧ c ∉ operators ∧ c ∉ delimiters := by
  have hc : (65 ≤ c ∧ c ≤ 90) ∨ (97 ≤ c ∧ c ≤ 122) ∨ c = 95 := by
    simp only [isLetter, Bool.or_eq_true, Bool.and_eq_true, decide_eq_true_eq] at h
    omega
  refine ⟨?_, ?_, ?_⟩
  · simp only [isWhitespace, Bool.or_eq_false_iff, decide_eq_false_iff_not]
    omega
  · simp only [operators, List.mem_cons, List.mem_singleton, List.not_mem_nil, or_false]
    omega
  · simp only [delimiters, List.mem_cons, List.mem_singleton, List.not_mem_nil, or_false]
    omega

theorem tokenize_identifier_word_aux (w : List Nat) (hw : MatchesIdentifier w) :
    tokenizeWithDFA w identifierDFA numberDFA =
      some [⟨if w ∈ keywords then "Keyword" else "Identifier", w, 1, 1⟩] := by
  obtain ⟨c, rest, rfl, hc, hrest⟩ := id hw
  obtain ⟨hws, hop, hdel⟩ := identStart_class hc
  -- the identifier match covers the whole word
  obtain ⟨m, hm, hmax, hach⟩ := dfaLongestMatch_spec identifierDFA_WF (c :: rest) 0
  have hacc : dfaAccepts identifierDFA (((c :: rest).drop 0).take (c :: rest).length) = true := by
    rw [List.drop_zero, List.take_length]; exact (identifierDFA_accepts _).mpr hw
  have hm1 := hmax (c :: rest).length (by simp) (by simp) hacc
  have hm2 := (hach (by simp at hm1; omega)).1
  have hmeq : m = rest.length + 1 := by simp at hm1 hm2; omega
  subst hmeq
  obtain ⟨m2, hm2', -, hach2⟩ := dfaLongestMatch_spec numberDFA_WF (c :: rest) 0
  have hm2le : m2 ≤ rest.length + 1 := by
    by_cases h0 : m2 = 0
    · omega
    · have := (hach2 h0).1; simp at this; omega
  obtain ⟨st', hadv, hi, hout⟩ := advance_some (c :: rest) (rest.length + 1)
    ⟨0, 1, 1, [⟨if (c :: rest) ∈ keywords then "Keyword" else "Identifier", c :: rest, 1, 1⟩]⟩
    (by simp)
  have hstep : tokStep (c :: rest) identifierDFA numberDFA ⟨0, 1, 1, []⟩ = some st' := by
    have hsub : substr (c :: rest) 0 ((rest.length + 1 : Nat) : Int) = c :: rest := by
      unfold substr
      rw [if_neg (by omega), List.drop_zero, Int.toNat_ofNat]
      exact List.take_of_length_le (by simp)
    have hnz : ¬ (((rest.length + 1 : Nat) : Int) = 0 ∧ (m2 : Int) = 0) := by omega
    have hge : ((rest.length + 1 : Nat) : Int) ≥ (m2 : Int) := by omega
    simp only [tokStep, List.getElem?_cons_zero, hws, Bool.false_eq_true, if_false, hop, hdel,
      hm, hm2', Option.bind_eq_bind, Option.some_bind, if_neg hnz, if_pos hge, hsub,
      Int.toNat_ofNat, List.nil_append]
    exact hadv
  unfold tokenizeWithDFA
  simp only [List.length_cons]
  unfold tokLoop
  simp only [List.length_cons, Nat.zero_lt_succ, if_true, hstep]
  unfold tokLoop
  rw [if_neg (by rw [hi]; simp), hout]

/-- C8. With the built DFAs, a word that matches `[A-Za-z_][A-Za-z0-9_]*` is
    tokenized into exactly one token whose text is the whole word; its type is
    Keyword when the word is in the keyword list and Identifier otherwise. -/
theorem tokenize_identifier_word (w : List Nat) (hw : MatchesIdentifier w) :
    ∃ t, tokenizeBuilt w = some [t] ∧ t.text = w ∧
      t.type = if w ∈ keywords then "Keyword" else "Identifier" :=
  ⟨_, by rw [tokenizeBuilt_eq]; exact tokenize_identifier_word_aux w hw, rfl, rfl⟩

/-- The words `return` and `returning`: one Keyword token, one Identifier token. -/
theorem tokenize_identifier_word_witness :
    (MatchesIdentifier (bytes "return") ∧
      ∃ t, tokenizeBuilt (bytes "return") = some [t] ∧ t.text = bytes "return" ∧
        t.type = "Keyword") ∧
    (MatchesIdentifier (bytes "returning") ∧
      ∃ t, tokenizeBuilt (bytes "returning") = some [t] ∧ t.text = bytes "returning" ∧
        t.type = "Identifier") := by
  have h1 : MatchesIdentifier (bytes "return") :=
    ⟨114, bytes "eturn", by decide, by decide, by decide⟩
  have h2 : MatchesIdentifier (bytes "returning") :=
    ⟨114, bytes "eturning", by decide, by decide, by decide⟩
  obtain ⟨t1, ha, hb, hc⟩ := tokenize_identifier_word _ h1
  obtain ⟨t2, ha2, hb2, hc2⟩ := tokenize_identifier_word _ h2
  refine ⟨⟨h1, t1, ha, hb, ?_⟩, ⟨h2, t2, ha2, hb2, ?_⟩⟩
  · rw [hc]; decide
  · rw [hc2]; decide

theorem getElem?_take_drop_one {input : List Nat} {i c : Nat} (h : input[i]? = some c) :
    (input.drop i).take 1 = [c] := by
  obtain ⟨hlt, hc⟩ := List.getElem?_eq_some.mp h
  rw [List.drop_eq_getElem_cons hlt, hc]
  rfl

theorem advance_one {input : List Nat} {st : TokState} {c : Nat} (h : input[st.i]? = some c)
    (hc : c ≠ 10) : advance input 1 st = some { st with i := st.i + 1, col := st.col + 1 } := by
  simp only [advance, h, if_neg hc]

theorem substr_of_nonneg (input : List Nat) (i : Nat) {len : Int} (h : 0 ≤ len) :
    substr input i len = (input.drop i).take len.toNat := by
  unfold substr; rw [if_neg (by omega)]

/-- What one pass of the tokenizer loop does: it skips one whitespace byte, or it
    emits one token that starts at the cursor, carries the current line and
    column, and moves the cursor over the bytes of the token. -/
theorem tokStep_cases {input : List Nat} {dId dNum : DFA} {st st' : TokState}
    (h : tokStep input dId dNum st = some st') :
    ∃ c, input[st.i]? = some c ∧
      ((isWhitespace c = true ∧
          st' = (if c = 10 then { st with line := st.line + 1, col := 1, i := st.i + 1 }
                 else if c = 13 then { st with i := st.i + 1, col := 1 }
                 else { st with i := st.i + 1, col := st.col + 1 })) ∨
       (isWhitespace c = false ∧ ∃ (type : String) (len : Nat),
          1 ≤ len ∧ st.i + len ≤ input.length ∧
          advance input len
            { st with out := st.out ++ [⟨type, (input.drop st.i).take len, st.line, st.col⟩] }
            = some st' ∧
          ((c ∈ operators ∧ type = "Operator" ∧ len = 1) ∨
           (c ∉ operators ∧ c ∈ delimiters ∧ type = "Delimiter" ∧ len = 1) ∨
           (c ∉ operators ∧ c ∉ delimiters ∧ ∃ lenId lenNum : Int,
              dfaLongestMatch dId input st.i = some lenId ∧
              dfaLongestMatch dNum input st.i = some lenNum ∧
              ((lenId = 0 ∧ lenNum = 0 ∧ type = "Unknown" ∧ len = 1) ∨
               (¬ (lenId = 0 ∧ lenNum = 0) ∧ lenNum ≤ lenId ∧ lenId = (len : Int) ∧
                  type = if (input.drop st.i).take len ∈ keywords then "Keyword"
                         else "Identifier") ∨
               (lenId < lenNum ∧ lenNum = (len : Int) ∧ type = "Number")))))) := by
  unfold tokStep at h
  cases hc : input[st.i]? with
  | none => rw [hc] at h; cases h
  | some c =>
    rw [hc] at h
    simp only [] at h
    refine ⟨c, rfl, ?_⟩
    have hlt : st.i < input.length := (List.getElem?_eq_some.mp hc).1
    by_cases hws : isWhitespace c = true
    · left
      refine ⟨hws, ?_⟩
      rw [if_pos hws] at h
      by_cases h10 : c = 10
      · rw [if_pos h10] at h ⊢; exact (Option.some.inj h).symm
      · rw [if_neg h10] at h ⊢
        by_cases h13 : c = 13
        · rw [if_pos h13] at h ⊢; exact (Option.some.inj h).symm
        · rw [if_neg h13] at h ⊢; exact (Option.some.inj h).symm
    · right
      have hws' : isWhitespace c = false := by simpa using hws
      have hne : c ≠ 10 := by
        intro h10; subst h10; exact hws rfl
      refine ⟨hws', ?_⟩
      rw [if_neg hws] at h
      have h1 := getElem?_take_drop_one hc
      by_cases hop : c ∈ operators
      · rw [if_pos hop] at h
        cases h
        refine ⟨"Operator", 1, le_refl _, by omega, ?_, Or.inl ⟨hop, rfl, rfl⟩⟩
        rw [h1, advance_one (by simpa using hc) hne]
      · rw [if_neg hop] at h
        by_cases hdel : c ∈ delimiters
        · rw [if_pos hdel] at h
          cases h
          refine ⟨"Delimiter", 1, le_refl _, by omega, ?_, Or.inr (Or.inl ⟨hop, hdel, rfl, rfl⟩)⟩
          rw [h1, advance_one (by simpa using hc) hne]
        · rw [if_neg hdel] at h
          cases hId : dfaLongestMatch dId input st.i with
          | none => rw [hId] at h; cases h
          | some lenId =>
            cases hNum : dfaLongestMatch dNum input st.i with
            | none => rw [hId, hNum] at h; cases h
            | some lenNum =>
              rw [hId, hNum] at h
              simp only [Option.bind_eq_bind, Option.some_bind] at h
              have bId := dfaLongestMatch_bound hId
              have bNum := dfaLongestMatch_bound hNum
              by_cases hz : lenId = 0 ∧ lenNum = 0
              · rw [if_pos hz] at h
                cases h
                refine ⟨"Unknown", 1, le_refl _, by omega, ?_,
                  Or.inr (Or.inr ⟨hop, hdel, lenId, lenNum, rfl, rfl, Or.inl ⟨hz.1, hz.2, rfl, rfl⟩⟩)⟩
                rw [h1, advance_one (by simpa using hc) hne]
              · rw [if_neg hz] at h
                by_cases hge : lenId ≥ lenNum
                · rw [if_pos hge, substr_of_nonneg _ _ (by omega)] at h
                  refine ⟨_, lenId.toNat, by omega, by omega, h,
                    Or.inr (Or.inr ⟨hop, hdel, lenId, lenNum, rfl, rfl,
                      Or.inr (Or.inl ⟨hz, hge, by omega, rfl⟩)⟩)⟩
                · rw [if_neg hge, substr_of_nonneg _ _ (by omega)] at h
                  refine ⟨_, lenNum.toNat, by omega, by omega, h,
                    Or.inr (Or.inr ⟨hop, hdel, lenId, lenNum, rfl, rfl,
                      Or.inr (Or.inr ⟨by omega, by omega, rfl⟩)⟩)⟩

theorem advance_out (input : List Nat) :
    ∀ (k : Nat) (st st' : TokState), advance input k st = some st' →
      st'.out = st.out ∧ st'.i = st.i + k := by
  intro k
  induction k with
  | zero => intro st st' h; cases h; exact ⟨rfl, rfl⟩
  | succ k ih =>
    intro st st' h
    simp only [advance] at h
    split at h
    · cases h
    · split at h
      · have := ih _ _ h; simp only [] at this; exact ⟨this.1, by omega⟩
      · have := ih _ _ h; simp only [] at this; exact ⟨this.1, by omega⟩

/-- One pass of the tokenizer loop moves the cursor forward, within the text,
    and appends at most one token to the output. -/
theorem tokStep_progress {input : List Nat} {dId dNum : DFA} {st st' : TokState}
    (h : tokStep input dId dNum st = some st') :
    st.i < st'.i ∧ st'.i ≤ input.length ∧ (st'.out = st.out ∨ ∃ t, st'.out = st.out ++ [t]) := by
  obtain ⟨c, hc, hcase⟩ := tokStep_cases h
  have hlt : st.i < input.length := (List.getElem?_eq_some.mp hc).1
  rcases hcase with ⟨_, hst⟩ | ⟨_, type, len, h1, h2, hadv, _⟩
  · subst hst
    split
    · exact ⟨by simp, by simp; omega, Or.inl rfl⟩
    · split
      · exact ⟨by simp, by simp; omega, Or.inl rfl⟩
      · exact ⟨by simp, by simp; omega, Or.inl rfl⟩
  · have := advance_out input _ _ _ hadv
    simp only [] at this
    exact ⟨by omega, by omega, Or.inr ⟨_, this.1⟩⟩

theorem tokLoop_prefix (input : List Nat) (dId dNum : DFA) :
    ∀ (fuel : Nat) (st : TokState) (toks : List TokenItem),
      tokLoop input dId dNum fuel st = some toks → ∃ l, toks = st.out ++ l := by
  intro fuel
  induction fuel with
  | zero =>
    intro st toks h
    unfold tokLoop at h
    split at h
    · cases h
    · cases h; exact ⟨[], by simp⟩
  | succ fuel ih =>
    intro st toks h
    unfold tokLoop at h
    split at h
    · simp only [] at h
      split at h
      · cases h
      · rename_i st' hstep
        obtain ⟨l, hl⟩ := ih _ _ h
        rcases (tokStep_progress hstep).2.2 with ho | ⟨t, ho⟩
        · exact ⟨l, by rw [hl, ho]⟩
        · exact ⟨t :: l, by rw [hl, ho]; simp⟩
    · cases h; exact ⟨[], by simp⟩

theorem count_take_succ (input : List Nat) (i : Nat) (a : Nat) :
    (input.take (i + 1)).count a = (input.take i).count a + if input[i]? = some a then 1 else 0 := by
  rw [List.take_succ, List.count_append]
  cases h : input[i]? with
  | none => simp
  | some c =>
    by_cases hc : c = a
    · subst hc; simp
    · have : ¬ (some c = some a) := by simpa using hc
      have hcnt : List.count a [c] = 0 :=
        List.count_eq_zero.mpr (by simp; exact fun h => hc h.symm)
      simp [hc, hcnt]

theorem count_take_add (input : List Nat) (i : Nat) (a : Nat) :
    ∀ k, (∀ j, i ≤ j → j < i + k → input[j]? ≠ some a) →
      (input.take (i + k)).count a = (input.take i).count a := by
  intro k
  induction k with
  | zero => intro _; rfl
  | succ k ih =>
    intro h
    rw [← Nat.add_assoc, count_take_succ, ih (fun j h1 h2 => h j h1 (by omega)),
      if_neg (h (i + k) (by omega) (by omega))]
    rfl

theorem lastBreak_add (input : List Nat) (i : Nat) :
    ∀ k, (∀ j, i ≤ j → j < i + k → input[j]? ≠ some 10 ∧ input[j]? ≠ some 13) →
      lastBreak input (i + k) = lastBreak input i := by
  intro k
  induction k with
  | zero => intro _; rfl
  | succ k ih =>
    intro h
    rw [← Nat.add_assoc]
    simp only [lastBreak]
    have := h (i + k) (by omega) (by omega)
    rw [if_neg (by simp only [not_or]; exact this)]
    exact ih (fun j h1 h2 => h j h1 (by omega))

/-- Every byte that a DFA reads on a run has a transition in one of its rows. -/
theorem dfaRunFrom_keys (d : DFA) (w : List Nat) :
    ∀ (cur q : Int), dfaRunFrom d cur w = some q →
      ∀ c ∈ w, ∃ row ∈ d.trans, (mapFind row c).isSome = true := by
  induction w with
  | nil => intro _ _ _ c hc; cases hc
  | cons a w ih =>
    intro cur q h c hc
    simp only [dfaRunFrom] at h
    split at h
    · cases h
    · rename_i row hrow
      split at h
      · cases h
      · rename_i nxt hnxt
        rcases List.mem_cons.mp hc with rfl | hc'
        · exact ⟨row, vecGet?_mem hrow, by rw [hnxt]; rfl⟩
        · exact ih _ _ h c hc'

theorem built_no_break_keys :
    ∀ row, row ∈ identifierDFA.trans ∨ row ∈ numberDFA.trans →
      mapFind row 10 = none ∧ mapFind row 13 = none := by
  intro row h
  rcases h with h | h
  · have : ∀ row ∈ identifierDFA.trans, mapFind row 10 = none ∧ mapFind row 13 = none := by
      decide!
    exact this row h
  · have : ∀ row ∈ numberDFA.trans, mapFind row 10 = none ∧ mapFind row 13 = none := by
      decide!
    exact this row h

/-- A word accepted by one of the two built DFAs holds neither a line feed nor
    a carriage return. -/
theorem built_accepts_no_break {d : DFA} (hd : d = identifierDFA ∨ d = numberDFA)
    {w : List Nat} (h : dfaAccepts d w = true) : ∀ c ∈ w, c ≠ 10 ∧ c ≠ 13 := by
  intro c hc
  obtain ⟨q, hq, _⟩ := (dfaAccepts_iff _ _).mp h
  obtain ⟨row, hrow, hsome⟩ := dfaRunFrom_keys d w _ _ hq c hc
  have hk := built_no_break_keys row (by rcases hd with rfl | rfl; exact Or.inl hrow; exact Or.inr hrow)
  constructor
  · rintro rfl; rw [hk.1] at hsome; cases hsome
  · rintro rfl; rw [hk.2] at hsome; cases hsome

/-- The longest match of a built DFA covers no line feed and no carriage return. -/
theorem built_match_no_break {d : DFA} (hd : d = identifierDFA ∨ d = numberDFA)
    {input : List Nat} {i len : Nat} (h : dfaLongestMatch d input i = some (len : Int))
    (hlen : 1 ≤ len) :
    ∀ j, i ≤ j → j < i + len → input[j]? ≠ some 10 ∧ input[j]? ≠ some 13 := by
  have hwf : d.WF := by rcases hd with rfl | rfl; exact identifierDFA_WF; exact numberDFA_WF
  obtain ⟨m, hm, _, hach⟩ := dfaLongestMatch_spec hwf input i
  rw [hm] at h
  have hmeq : m = len := by simpa using h
  subst hmeq
  obtain ⟨hle, hacc⟩ := hach (by omega)
  have hno := built_accepts_no_break hd hacc
  intro j h1 h2
  have hj : j < input.length := by omega
  have hmem : input[j] ∈ (input.drop i).take m := by
    rw [List.mem_iff_getElem]
    refine ⟨j - i, by simp; omega, ?_⟩
    simp only [List.getElem_take, List.getElem_drop]
    congr 1; omega
  have := hno _ hmem
  rw [List.getElem?_eq_getElem hj]
  simp only [ne_eq, Option.some.injEq]
  exact this

/-- With the built DFAs, a pass that emits a token moves the cursor over bytes
    that are neither line feeds nor carriage returns. -/
theorem tokStep_token_no_break {input : List Nat} {st : TokState} {c : Nat} {type : String}
    {len : Nat} (hc : input[st.i]? = some c) (hws : isWhitespace c = false) (hlen : 1 ≤ len)
    (hcls : (c ∈ operators ∧ type = "Operator" ∧ len = 1) ∨
           (c ∉ operators ∧ c ∈ delimiters ∧ type = "Delimiter" ∧ len = 1) ∨
           (c ∉ operators ∧ c ∉ delimiters ∧ ∃ lenId lenNum : Int,
              dfaLongestMatch identifierDFA input st.i = some lenId ∧
              dfaLongestMatch numberDFA input st.i = some lenNum ∧
              ((lenId = 0 ∧ lenNum = 0 ∧ type = "Unknown" ∧ len = 1) ∨
               (¬ (lenId = 0 ∧ lenNum = 0) ∧ lenNum ≤ lenId ∧ lenId = (len : Int) ∧
                  type = if (input.drop st.i).take len ∈ keywords then "Keyword"
                         else "Identifier") ∨
               (lenId < lenNum ∧ lenNum = (len : Int) ∧ type = "Number")))) :
    ∀ j, st.i ≤ j → j < st.i + len → input[j]? ≠ some 10 ∧ input[j]? ≠ some 13 := by
  have hone : len = 1 → ∀ j, st.i ≤ j → j < st.i + len →
      input[j]? ≠ some 10 ∧ input[j]? ≠ some 13 := by
    intro h1 j hj1 hj2
    have hj : j = st.i := by omega
    subst hj
    rw [hc]
    constructor
    · intro h; cases h; exact absurd hws (by decide)
    · intro h; cases h; exact absurd hws (by decide)
  rcases hcls with ⟨_, _, h1⟩ | ⟨_, _, _, h1⟩ | ⟨_, _, lenId, lenNum, hId, hNum, hsub⟩
  · exact hone h1
  · exact hone h1
  · rcases hsub with ⟨_, _, _, h1⟩ | ⟨_, _, heq, _⟩ | ⟨_, heq, _⟩
    · exact hone h1
    · rw [heq] at hId
      exact built_match_no_break (Or.inl rfl) hId hlen
    · rw [heq] at hNum
      exact built_match_no_break (Or.inr rfl) hNum hlen

/-- With the built DFAs every pass of the tokenizer loop keeps the line equal to
    1 plus the number of line feeds before the cursor, and the column equal to
    the distance of the cursor from the last line feed or carriage return. -/
theorem tokStep_lineCol {input : List Nat} {st st' : TokState}
    (h : tokStep input identifierDFA numberDFA st = some st')
    (hline : st.line = 1 + (input.take st.i).count 10)
    (hcol : (st.col : Int) = (st.i : Int) - lastBreak input st.i) :
    st'.line = 1 + (input.take st'.i).count 10 ∧
      (st'.col : Int) = (st'.i : Int) - lastBreak input st'.i := by
  obtain ⟨c, hc, hcase⟩ := tokStep_cases h
  rcases hcase with ⟨_, hst⟩ | ⟨hws, type, len, h1, h2, hadv, hcls⟩
  · subst hst
    by_cases h10 : c = 10
    · subst h10
      simp only [if_true, count_take_succ, hc, lastBreak, true_or]
      constructor
      · omega
      · push_cast; omega
    · rw [if_neg h10]
      have hne : ¬ (some c = some 10) := by simpa using h10
      by_cases h13 : c = 13
      · subst h13
        simp only [if_true, count_take_succ, hc, lastBreak, or_true, if_neg hne]
        constructor
        · omega
        · push_cast; omega
      · rw [if_neg h13]
        have hne' : ¬ (some c = some 10 ∨ some c = some 13) := by simp [h10, h13]
        simp only [count_take_succ, hc, lastBreak, if_neg hne, if_neg hne']
        constructor
        · omega
        · push_cast; omega
  · have hno := tokStep_token_no_break hc hws h1 hcls
    have hadv2 := advance_no_lf input len
      { st with out := st.out ++ [⟨type, (input.drop st.i).take len, st.line, st.col⟩] } h2
      (fun j hj1 hj2 => (hno j hj1 hj2).1)
    rw [hadv2] at hadv
    cases hadv
    simp only []
    rw [count_take_add input st.i 10 len (fun j hj1 hj2 => (hno j hj1 hj2).1),
      lastBreak_add input st.i len hno]
    constructor
    · exact hline
    · push_cast; omega

theorem tokReach_lineCol {input : List Nat} {st : TokState}
    (h : TokReach input identifierDFA numberDFA ⟨0, 1, 1, []⟩ st) :
    st.line = 1 + (input.take st.i).count 10 ∧
      (st.col : Int) = (st.i : Int) - lastBreak input st.i := by
  induction h with
  | refl => exact ⟨by simp, by simp [lastBreak]⟩
  | step _ _ hstep ih => exact tokStep_lineCol hstep ih.1 ih.2

/-- C10. With the two built DFAs, a token that the scanner emits when its cursor
    is at the byte offset `st.i` has as line 1 plus the number of line feeds
    before that offset, and as column the distance of that offset from the last
    line feed or carriage return before it (from `-1` when there is none). -/
theorem token_line_col (dId dNum : DFA)
    (hId : buildIdentifierNFA_thompson.bind subsetConstruction = some dId)
    (hNum : buildNumberNFA_thompson.bind subsetConstruction = some dNum)
    (input : List Nat) (st st' : TokState) (t : TokenItem)
    (hreach : TokReach input dId dNum ⟨0, 1, 1, []⟩ st)
    (hstep : tokStep input dId dNum st = some st') (hout : st'.out = st.out ++ [t]) :
    t.line = 1 + (input.take st.i).count 10 ∧
      (t.col : Int) = (st.i : Int) - lastBreak input st.i := by
  have e1 : dId = identifierDFA := by rw [identifierDFA_built] at hId; exact (Option.some.inj hId).symm
  have e2 : dNum = numberDFA := by rw [numberDFA_built] at hNum; exact (Option.some.inj hNum).symm
  subst e1 e2
  obtain ⟨hline, hcol⟩ := tokReach_lineCol hreach
  obtain ⟨c, hc, hcase⟩ := tokStep_cases hstep
  rcases hcase with ⟨_, hst⟩ | ⟨hws, type, len, h1, h2, hadv, hcls⟩
  · exfalso
    have : st'.out = st.out := by
      subst hst
      split
      · rfl
      · split <;> rfl
    rw [this] at hout
    have := congrArg List.length hout
    simp at this
  · have ho := (advance_out input _ _ _ hadv).1
    simp only [] at ho
    rw [ho] at hout
    have := List.append_cancel_left hout
    simp only [List.cons.injEq, and_true] at this
    subst this
    exact ⟨hline, hcol⟩

/-- The text `a\n\rb`: the token `b` at offset 3 has line 2 and column 1. -/
theorem token_line_col_witness :
    (buildIdentifierNFA_thompson.bind subsetConstruction = some identifierDFA ∧
      buildNumberNFA_thompson.bind subsetConstruction = some numberDFA ∧
      TokReach [97, 10, 13, 98] identifierDFA numberDFA ⟨0, 1, 1, []⟩
        ⟨3, 2, 1, [⟨"Identifier", [97], 1, 1⟩]⟩ ∧
      tokStep [97, 10, 13, 98] identifierDFA numberDFA ⟨3, 2, 1, [⟨"Identifier", [97], 1, 1⟩]⟩ =
        some ⟨4, 2, 2, [⟨"Identifier", [97], 1, 1⟩, ⟨"Identifier", [98], 2, 1⟩]⟩) ∧
    ((2 : Nat) = 1 + (List.take 3 [97, 10, 13, 98]).count 10 ∧
      ((1 : Nat) : Int) = ((3 : Nat) : Int) - lastBreak [97, 10, 13, 98] 3) := by
  have hreach : TokReach [97, 10, 13, 98] identifierDFA numberDFA ⟨0, 1, 1, []⟩
      ⟨3, 2, 1, [⟨"Identifier", [97], 1, 1⟩]⟩ :=
    have r1 : TokReach [97, 10, 13, 98] identifierDFA numberDFA ⟨0, 1, 1, []⟩
        ⟨1, 1, 2, [⟨"Identifier", [97], 1, 1⟩]⟩ :=
      TokReach.step (TokReach.refl _) (by decide) (by decide!)
    have r2 : TokReach [97, 10, 13, 98] identifierDFA numberDFA ⟨0, 1, 1, []⟩
        ⟨2, 2, 1, [⟨"Identifier", [97], 1, 1⟩]⟩ :=
      TokReach.step r1 (by decide) (by decide!)
    TokReach.step r2 (by decide) (by decide!)
  have hstep : tokStep [97, 10, 13, 98] identifierDFA numberDFA
      ⟨3, 2, 1, [⟨"Identifier", [97], 1, 1⟩]⟩ =
      some ⟨4, 2, 2, [⟨"Identifier", [97], 1, 1⟩, ⟨"Identifier", [98], 2, 1⟩]⟩ := by decide!
  exact ⟨⟨identifierDFA_built, numberDFA_built, hreach, hstep⟩,
    token_line_col identifierDFA numberDFA identifierDFA_built numberDFA_built
      [97, 10, 13, 98] ⟨3, 2, 1, [⟨"Identifier", [97], 1, 1⟩]⟩
      ⟨4, 2, 2, [⟨"Identifier", [97], 1, 1⟩, ⟨"Identifier", [98], 2, 1⟩]⟩
      ⟨"Identifier", [98], 2, 1⟩ hreach hstep rfl⟩

theorem TokReach.head {input : List Nat} {dId dNum : DFA} {st st1 st2 : TokState}
    (hlt : st.i < input.length) (hstep : tokStep input dId dNum st = some st1)
    (h : TokReach input dId dNum st1 st2) : TokReach input dId dNum st st2 := by
  induction h with
  | refl => exact TokReach.step (TokReach.refl _) hlt hstep
  | step _ hlt' hstep' ih => exact TokReach.step ih hlt' hstep'

/-- The result of the tokenizer loop is the output of a state that the loop
    reaches and in which the cursor stands at the end of the text. -/
theorem tokLoop_reach (input : List Nat) (dId dNum : DFA) :
    ∀ (fuel : Nat) (st : TokState) (toks : List TokenItem),
      tokLoop input dId dNum fuel st = some toks →
      ∃ st', TokReach input dId dNum st st' ∧ ¬ st'.i < input.length ∧ st'.out = toks := by
  intro fuel
  induction fuel with
  | zero =>
    intro st toks h
    unfold tokLoop at h
    split at h
    · cases h
    · rename_i hlt; cases h; exact ⟨st, TokReach.refl _, hlt, rfl⟩
  | succ fuel ih =>
    intro st toks h
    unfold tokLoop at h
    split at h
    · rename_i hlt
      simp only [] at h
      split at h
      · cases h
      · rename_i st1 hstep
        obtain ⟨st', hr, hend, hout⟩ := ih _ _ h
        exact ⟨st', TokReach.head hlt hstep hr, hend, hout⟩
    · rename_i hlt; cases h; exact ⟨st, TokReach.refl _, hlt, rfl⟩

/-- With two well-formed DFAs every pass of the tokenizer loop returns. -/
theorem tokStep_some {input : List Nat} {dId dNum : DFA} (hId : dId.WF) (hNum : dNum.WF)
    {st : TokState} (hlt : st.i < input.length) :
    ∃ st', tokStep input dId dNum st = some st' := by
  obtain ⟨m1, h1, _, _⟩ := dfaLongestMatch_spec hId input st.i
  obtain ⟨m2, h2, _, _⟩ := dfaLongestMatch_spec hNum input st.i
  have b1 := dfaLongestMatch_bound h1
  have b2 := dfaLongestMatch_bound h2
  unfold tokStep
  rw [List.getElem?_eq_getElem hlt]
  simp only [h1, h2, Option.bind_eq_bind, Option.some_bind]
  split
  · split
    · exact ⟨_, rfl⟩
    · split <;> exact ⟨_, rfl⟩
  · split
    · exact ⟨_, rfl⟩
    · split
      · exact ⟨_, rfl⟩
      · split
        · exact ⟨_, rfl⟩
        · split
          · obtain ⟨st', hadv, _, _⟩ := advance_some input (m1 : Int).toNat
              { st with out := st.out ++ [⟨if substr input st.i (m1 : Int) ∈ keywords then "Keyword"
                else "Identifier", substr input st.i (m1 : Int), st.line, st.col⟩] }
              (by simp only [Int.toNat_ofNat]; omega)
            exact ⟨st', hadv⟩
          · obtain ⟨st', hadv, _, _⟩ := advance_some input (m2 : Int).toNat
              { st with out := st.out ++ [⟨"Number", substr input st.i (m2 : Int), st.line,
                st.col⟩] }
              (by simp only [Int.toNat_ofNat]; omega)
            exact ⟨st', hadv⟩

/-- With two well-formed DFAs the tokenizer loop returns when its fuel covers
    the bytes that are left. -/
theorem tokLoop_some {input : List Nat} {dId dNum : DFA} (hId : dId.WF) (hNum : dNum.WF) :
    ∀ (fuel : Nat) (st : TokState), input.length ≤ st.i + fuel →
      ∃ toks, tokLoop input dId dNum fuel st = some toks := by
  intro fuel
  induction fuel with
  | zero =>
    intro st h
    unfold tokLoop
    rw [if_neg (by omega)]
    exact ⟨_, rfl⟩
  | succ fuel ih =>
    intro st h
    unfold tokLoop
    by_cases hlt : st.i < input.length
    · rw [if_pos hlt]
      obtain ⟨st', hst⟩ := tokStep_some hId hNum hlt
      simp only [hst]
      exact ih st' (by have := (tokStep_progress hst).1; omega)
    · rw [if_neg hlt]
      exact ⟨_, rfl⟩

/-- With two well-formed DFAs `tokenizeWithDFA` returns on every input. -/
theorem tokenizeWithDFA_some {dId dNum : DFA} (hId : dId.WF) (hNum : dNum.WF)
    (input : List Nat) : ∃ toks, tokenizeWithDFA input dId dNum = some toks :=
  tokLoop_some hId hNum input.length ⟨0, 1, 1, []⟩ (by simp)

/-- With the two built DFAs the tokenizer returns on every input. -/
theorem tokenizeBuilt_some (input : List Nat) : ∃ toks, tokenizeBuilt input = some toks := by
  rw [tokenizeBuilt_eq]
  exact tokenizeWithDFA_some identifierDFA_WF numberDFA_WF input

/-! ### Sets as strictly ascending lists -/

theorem mem_setInsert {x a : Int} {s : List Int} : a ∈ setInsert x s ↔ a = x ∨ a ∈ s := by
  induction s with
  | nil => simp [setInsert]
  | cons y ys ih =>
    simp only [setInsert]
    split
    · simp
    · split
      · rename_i h; subst h; simp
      · simp only [List.mem_cons, ih]
        constructor
        · rintro (h | h | h)
          · exact Or.inr (Or.inl h)
          · exact Or.inl h
          · exact Or.inr (Or.inr h)
        · rintro (h | h | h)
          · exact Or.inr (Or.inl h)
          · exact Or.inl h
          · exact Or.inr (Or.inr h)

theorem setInsert_sorted {x : Int} {s : List Int} (hs : s.Pairwise (· < ·)) :
    (setInsert x s).Pairwise (· < ·) := by
  induction s with
  | nil => simp [setInsert]
  | cons y ys ih =>
    obtain ⟨hy, hys⟩ := List.pairwise_cons.mp hs
    simp only [setInsert]
    split
    · rename_i hlt
      refine List.pairwise_cons.mpr ⟨?_, hs⟩
      intro b hb
      rcases List.mem_cons.mp hb with rfl | hb
      · exact hlt
      · exact lt_trans hlt (hy b hb)
    · split
      · exact hs
      · rename_i h1 h2
        refine List.pairwise_cons.mpr ⟨?_, ih hys⟩
        intro b hb
        rcases mem_setInsert.mp hb with rfl | hb
        · omega
        · exact hy b hb

theorem sorted_nodup {s : List Int} (hs : s.Pairwise (· < ·)) : s.Nodup :=
  hs.imp (fun h => ne_of_lt h)

/-- Two strictly ascending lists with the same members are equal. -/
theorem sorted_ext {s t : List Int} (hs : s.Pairwise (· < ·)) (ht : t.Pairwise (· < ·))
    (h : ∀ a, a ∈ s ↔ a ∈ t) : s = t :=
  List.eq_of_perm_of_sorted ((List.perm_ext_iff_of_nodup (sorted_nodup hs) (sorted_nodup ht)).mpr h)
    hs ht

/-! ### epsClosure -/

theorem filter_length_le {α : Type} (p q : α → Bool) (T : List α)
    (hpq : ∀ x, p x = true → q x = true) : (T.filter p).length ≤ (T.filter q).length := by
  induction T with
  | nil => exact le_refl _
  | cons b T ih =>
    by_cases hpb : p b = true
    · rw [List.filter_cons_of_pos hpb, List.filter_cons_of_pos (hpq b hpb)]
      simp only [List.length_cons]; omega
    · rw [List.filter_cons_of_neg hpb]
      by_cases hqb : q b = true
      · rw [List.filter_cons_of_pos hqb]; simp only [List.length_cons]; omega
      · rw [List.filter_cons_of_neg hqb]; exact ih

theorem filter_length_lt {α : Type} (p q : α → Bool) (T : List α)
    (hpq : ∀ x, p x = true → q x = true) {a : α} (ha : a ∈ T) (hq : q a = true)
    (hp : ¬ p a = true) : (T.filter p).length < (T.filter q).length := by
  induction T with
  | nil => cases ha
  | cons b T ih =>
    have hle := filter_length_le p q T hpq
    rcases List.mem_cons.mp ha with rfl | haT
    · rw [List.filter_cons_of_neg hp, List.filter_cons_of_pos hq]
      simp only [List.length_cons]; omega
    · have := ih haT
      by_cases hpb : p b = true
      · rw [List.filter_cons_of_pos hpb, List.filter_cons_of_pos (hpq b hpb)]
        simp only [List.length_cons]; omega
      · rw [List.filter_cons_of_neg hpb]
        by_cases hqb : q b = true
        · rw [List.filter_cons_of_pos hqb]; simp only [List.length_cons]; omega
        · rw [List.filter_cons_of_neg hqb]; exact this

theorem epsPending_insert_lt (n : NFA) {res : List Int} {x : Int} (hx : x ∈ n.epsTargets)
    (hres : x ∉ res) : epsPending n (setInsert x res) < epsPending n res := by
  unfold epsPending
  refine filter_length_lt _ _ _ ?_ hx (by simpa using hres) ?_
  · intro y hy
    simp only [decide_eq_true_eq] at hy ⊢
    exact fun h => hy (mem_setInsert.mpr (Or.inr h))
  · simp only [decide_eq_true_eq, not_not]
    exact mem_setInsert.mpr (Or.inl rfl)

/-- The inner loop of `epsClosure` adds the targets `eps` to `res`, pushes the
    new ones, and does not raise the bound on the work that is left. -/
theorem epsClosureInner_spec (n : NFA) (eps : List Int) :
    ∀ (res stvec : List Int), (∀ x ∈ eps, x ∈ n.epsTargets) →
      (∀ x, x ∈ (epsClosureInner eps res stvec).1 ↔ x ∈ res ∨ x ∈ eps) ∧
      (∀ x, x ∈ (epsClosureInner eps res stvec).2 ↔ x ∈ stvec ∨ (x ∈ eps ∧ x ∉ res)) ∧
      (res.Pairwise (· < ·) → (epsClosureInner eps res stvec).1.Pairwise (· < ·)) ∧
      (epsClosureInner eps res stvec).2.length + epsPending n (epsClosureInner eps res stvec).1 ≤
        stvec.length + epsPending n res := by
  induction eps with
  | nil => intro res stvec _; simp [epsClosureInner]
  | cons nxt rest ih =>
    intro res stvec hT
    have hT' : ∀ x ∈ rest, x ∈ n.epsTargets := fun x hx => hT x (List.mem_cons_of_mem _ hx)
    simp only [epsClosureInner]
    by_cases hin : nxt ∈ res
    · rw [if_pos hin]
      obtain ⟨h1, h2, h3, h4⟩ := ih res stvec hT'
      refine ⟨?_, ?_, h3, h4⟩
      · intro x; rw [h1, List.mem_cons]
        constructor
        · rintro (h | h); exact Or.inl h; exact Or.inr (Or.inr h)
        · rintro (h | rfl | h); exact Or.inl h; exact Or.inl hin; exact Or.inr h
      · intro x; rw [h2, List.mem_cons]
        constructor
        · rintro (h | ⟨h, h'⟩); exact Or.inl h; exact Or.inr ⟨Or.inr h, h'⟩
        · rintro (h | ⟨rfl | h, h'⟩)
          · exact Or.inl h
          · exact absurd hin h'
          · exact Or.inr ⟨h, h'⟩
    · rw [if_neg hin]
      obtain ⟨h1, h2, h3, h4⟩ := ih (setInsert nxt res) (nxt :: stvec) hT'
      have hlt := epsPending_insert_lt n (hT nxt (List.mem_cons_self _ _)) hin
      refine ⟨?_, ?_, fun hs => h3 (setInsert_sorted hs), ?_⟩
      · intro x; rw [h1, mem_setInsert, List.mem_cons]
        constructor
        · rintro ((h | h) | h)
          · exact Or.inr (Or.inl h)
          · exact Or.inl h
          · exact Or.inr (Or.inr h)
        · rintro (h | h | h)
          · exact Or.inl (Or.inr h)
          · exact Or.inl (Or.inl h)
          · exact Or.inr h
      · intro x; rw [h2, mem_setInsert, List.mem_cons, List.mem_cons]
        constructor
        · rintro ((rfl | h) | ⟨h, h'⟩)
          · exact Or.inr ⟨Or.inl rfl, hin⟩
          · exact Or.inl h
          · push_neg at h'
            exact Or.inr ⟨Or.inr h, h'.2⟩
        · rintro (h | ⟨rfl | h, h'⟩)
          · exact Or.inl (Or.inr h)
          · exact Or.inl (Or.inl rfl)
          · by_cases hx : x = nxt
            · exact Or.inl (Or.inl hx)
            · exact Or.inr ⟨h, by push_neg; exact ⟨hx, h'⟩⟩
      · simp only [List.length_cons] at h4
        omega

theorem eps_mem_epsTargets {n : NFA} {q : Int} {st : NFAState} (h : vecGet? n.states q = some st) :
    ∀ x ∈ st.eps, x ∈ n.epsTargets := by
  intro x hx
  unfold NFA.epsTargets
  rw [List.mem_flatten]
  exact ⟨st.eps, List.mem_map.mpr ⟨st, vecGet?_mem h, rfl⟩, hx⟩

theorem epsTargets_length (n : NFA) : n.epsTargets.length = n.epsCount := by
  unfold NFA.epsTargets NFA.epsCount
  rw [List.length_flatten, List.map_map]
  rfl

theorem epsPending_le (n : NFA) (res : List Int) : epsPending n res ≤ n.epsCount := by
  unfold epsPending
  rw [← epsTargets_length]
  exact List.length_filter_le _ _

/-- The loop of `epsClosure` returns when its fuel covers the stack and the
    epsilon targets that are still outside `res`, and it keeps its invariant. -/
theorem epsClosureLoop_spec (n : NFA) (S : List Int) :
    ∀ (fuel : Nat) (res stvec : List Int), EpsInv n S res stvec →
      stvec.length + epsPending n res ≤ fuel →
      ∃ r, epsClosureLoop n fuel res stvec = some r ∧ EpsInv n S r [] := by
  intro fuel
  induction fuel with
  | zero =>
    intro res stvec hinv hfuel
    cases stvec with
    | nil => exact ⟨res, by simp [epsClosureLoop], hinv⟩
    | cons s stvec => simp at hfuel
  | succ fuel ih =>
    intro res stvec hinv hfuel
    cases stvec with
    | nil => exact ⟨res, by simp [epsClosureLoop], hinv⟩
    | cons s stvec =>
      obtain ⟨hsorted, hstack, hS, hreach, hclosed⟩ := hinv
      simp only [epsClosureLoop]
      cases hst : vecGet? n.states s with
      | none =>
        simp only []
        refine ih res stvec ⟨hsorted, fun x hx => hstack x (List.mem_cons_of_mem _ hx), hS, hreach,
          ?_⟩ (by simp only [List.length_cons] at hfuel; omega)
        intro x hx hxs y hy
        by_cases hxeq : x = s
        · subst hxeq
          obtain ⟨st, h1, _⟩ := hy
          rw [hst] at h1; cases h1
        · exact hclosed x hx (by simp [hxeq, hxs]) y hy
      | some st =>
        simp only []
        obtain ⟨h1, h2, h3, h4⟩ := epsClosureInner_spec n st.eps res stvec (eps_mem_epsTargets hst)
        refine ih _ _ ⟨h3 hsorted, ?_, ?_, ?_, ?_⟩
          (by simp only [List.length_cons] at hfuel; omega)
        · intro x hx
          rcases (h2 x).mp hx with h | ⟨h, _⟩
          · exact (h1 x).mpr (Or.inl (hstack x (List.mem_cons_of_mem _ h)))
          · exact (h1 x).mpr (Or.inr h)
        · intro x hx; exact (h1 x).mpr (Or.inl (hS x hx))
        · intro x hx
          rcases (h1 x).mp hx with h | h
          · exact hreach x h
          · obtain ⟨s0, hs0, hr⟩ := hreach s (hstack s (List.mem_cons_self _ _))
            exact ⟨s0, hs0, hr.tail ⟨st, hst, h⟩⟩
        · intro x hx hxs y hy
          by_cases hxres : x ∈ res
          · by_cases hxeq : x = s
            · subst hxeq
              obtain ⟨st', h1', hy'⟩ := hy
              rw [hst] at h1'; cases h1'
              exact (h1 y).mpr (Or.inr hy')
            · have hx2 : x ∉ s :: stvec := by
                intro hmem
                rcases List.mem_cons.mp hmem with h | h
                · exact hxeq h
                · exact hxs ((h2 x).mpr (Or.inl h))
              exact (h1 y).mpr (Or.inl (hclosed x hxres hx2 y hy))
          · rcases (h1 x).mp hx with h | h
            · exact absurd h hxres
            · exact absurd ((h2 x).mpr (Or.inr ⟨h, hxres⟩)) hxs

theorem EpsInv.mem_iff {n : NFA} {S r : List Int} (h : EpsInv n S r []) (x : Int) :
    x ∈ r ↔ ∃ s ∈ S, Relation.ReflTransGen (EpsStep n) s x := by
  obtain ⟨_, _, hS, hreach, hclosed⟩ := h
  constructor
  · exact hreach x
  · rintro ⟨s, hs, hr⟩
    induction hr with
    | refl => exact hS s hs
    | tail _ hstep ih => exact hclosed _ ih (List.not_mem_nil _) _ hstep

/-- The function `epsClosure` returns, and its result is the strictly ascending
    list of the states that epsilon edges reach from `S`. -/
theorem epsClosure_spec (n : NFA) (S : List Int) (hS : S.Pairwise (· < ·)) :
    ∃ r, epsClosure n S = some r ∧ r.Pairwise (· < ·) ∧
      ∀ x, x ∈ r ↔ ∃ s ∈ S, Relation.ReflTransGen (EpsStep n) s x := by
  have hinv : EpsInv n S S S.reverse :=
    ⟨hS, fun x hx => List.mem_reverse.mp hx, fun x hx => hx,
      fun x hx => ⟨x, hx, Relation.ReflTransGen.refl⟩,
      fun x hx hxs => absurd (List.mem_reverse.mpr hx) hxs⟩
  obtain ⟨r, hr, hfin⟩ := epsClosureLoop_spec n S (S.length + n.epsCount) S S.reverse hinv
    (by rw [List.length_reverse]; have := epsPending_le n S; omega)
  exact ⟨r, hr, hfin.1, hfin.mem_iff⟩

/-! ### moveOnChar -/

theorem foldl_setInsert_spec (tgts : List Int) :
    ∀ res : List Int,
      (∀ x, x ∈ tgts.foldl (fun r nxt => setInsert nxt r) res ↔ x ∈ res ∨ x ∈ tgts) ∧
      (res.Pairwise (· < ·) → (tgts.foldl (fun r nxt => setInsert nxt r) res).Pairwise (· < ·)) := by
  induction tgts with
  | nil => intro res; simp
  | cons t tgts ih =>
    intro res
    obtain ⟨h1, h2⟩ := ih (setInsert t res)
    simp only [List.foldl_cons]
    refine ⟨?_, fun hs => h2 (setInsert_sorted hs)⟩
    intro x
    rw [h1, mem_setInsert, List.mem_cons]
    constructor
    · rintro ((h | h) | h)
      · exact Or.inr (Or.inl h)
      · exact Or.inl h
      · exact Or.inr (Or.inr h)
    · rintro (h | h | h)
      · exact Or.inl (Or.inr h)
      · exact Or.inl (Or.inl h)
      · exact Or.inr h

theorem moveOnCharStep_spec (n : NFA) (c : Nat) (res : List Int) (s : Int) :
    (∀ x, x ∈ moveOnCharStep n c res s ↔ x ∈ res ∨ SymStep n c s x) ∧
    (res.Pairwise (· < ·) → (moveOnCharStep n c res s).Pairwise (· < ·)) := by
  unfold moveOnCharStep SymStep
  cases hst : vecGet? n.states s with
  | none => simp
  | some st =>
    cases htg : mapFind st.trans c with
    | none => simp [htg]
    | some tgts =>
      obtain ⟨f1, f2⟩ := foldl_setInsert_spec tgts res
      simp only [htg]
      refine ⟨fun x => (f1 x).trans ?_, f2⟩
      constructor
      · rintro (h | h)
        · exact Or.inl h
        · exact Or.inr ⟨st, tgts, rfl, htg, h⟩
      · rintro (h | ⟨st', tg, h1, h2, h3⟩)
        · exact Or.inl h
        · cases h1; rw [htg] at h2; cases h2; exact Or.inr h3

theorem moveOnChar_fold_spec (n : NFA) (c : Nat) (S : List Int) :
    ∀ res : List Int,
      (∀ x, x ∈ S.foldl (moveOnCharStep n c) res ↔ x ∈ res ∨ ∃ s ∈ S, SymStep n c s x) ∧
      (res.Pairwise (· < ·) → (S.foldl (moveOnCharStep n c) res).Pairwise (· < ·)) := by
  induction S with
  | nil => intro res; simp
  | cons s S ih =>
    intro res
    simp only [List.foldl_cons]
    obtain ⟨g1, g2⟩ := moveOnCharStep_spec n c res s
    obtain ⟨h1, h2⟩ := ih (moveOnCharStep n c res s)
    refine ⟨?_, fun hs => h2 (g2 hs)⟩
    intro x; rw [h1, g1]
    constructor
    · rintro ((h | h) | ⟨s', hs', hstep⟩)
      · exact Or.inl h
      · exact Or.inr ⟨s, List.mem_cons_self _ _, h⟩
      · exact Or.inr ⟨s', List.mem_cons_of_mem _ hs', hstep⟩
    · rintro (h | ⟨s', hs', hstep⟩)
      · exact Or.inl (Or.inl h)
      · rcases List.mem_cons.mp hs' with rfl | hs'
        · exact Or.inl (Or.inr hstep)
        · exact Or.inr ⟨s', hs', hstep⟩

/-- The members of `moveOnChar n S c` are the targets of the transitions
    labelled `c` that leave an in-range state of `S`. -/
theorem mem_moveOnChar (n : NFA) (S : List Int) (c : Nat) (x : Int) :
    x ∈ moveOnChar n S c ↔ ∃ s ∈ S, SymStep n c s x := by
  unfold moveOnChar
  rw [(moveOnChar_fold_spec n c S []).1 x]
  simp

theorem moveOnChar_sorted (n : NFA) (S : List Int) (c : Nat) :
    (moveOnChar n S c).Pairwise (· < ·) :=
  (moveOnChar_fold_spec n c S []).2 List.Pairwise.nil

/-! ### Maps as association lists -/

theorem mapFind_mapSet {V : Type} (k : Nat) (v : V) (m : List (Nat × V)) (k' : Nat) :
    mapFind (mapSet k v m) k' = if k' = k then some v else mapFind m k' := by
  induction m with
  | nil => simp [mapSet, mapFind]
  | cons p m ih =>
    obtain ⟨k0, v0⟩ := p
    simp only [mapSet]
    by_cases h1 : k < k0
    · rw [if_pos h1]; simp only [mapFind]
    · rw [if_neg h1]
      by_cases h2 : k = k0
      · subst h2
        rw [if_pos rfl]; simp only [mapFind]
        by_cases h3 : k' = k
        · simp [h3]
        · simp [h3]
      · rw [if_neg h2]; simp only [mapFind, ih]
        by_cases h3 : k' = k0
        · subst h3
          have : ¬ k' = k := fun h => h2 h.symm
          simp [this]
        · simp [h3]

theorem mem_mapSet {V : Type} {k : Nat} {v : V} {m : List (Nat × V)} {p : Nat × V}
    (h : p ∈ mapSet k v m) : p = (k, v) ∨ p ∈ m := by
  induction m with
  | nil => simpa [mapSet] using h
  | cons q m ih =>
    obtain ⟨k0, v0⟩ := q
    simp only [mapSet] at h
    split at h
    · rcases List.mem_cons.mp h with h | h
      · exact Or.inl h
      · exact Or.inr h
    · split at h
      · rcases List.mem_cons.mp h with h | h
        · exact Or.inl h
        · exact Or.inr (List.mem_cons_of_mem _ h)
      · rcases List.mem_cons.mp h with h | h
        · exact Or.inr (by rw [h]; exact List.mem_cons_self _ _)
        · rcases ih h with h | h
          · exact Or.inl h
          · exact Or.inr (List.mem_cons_of_mem _ h)

theorem mapSet_sorted {V : Type} (k : Nat) (v : V) {m : List (Nat × V)}
    (hm : m.Pairwise (fun p q => p.1 < q.1)) :
    (mapSet k v m).Pairwise (fun p q => p.1 < q.1) := by
  induction m with
  | nil => simp [mapSet]
  | cons q m ih =>
    obtain ⟨k0, v0⟩ := q
    obtain ⟨h0, hm'⟩ := List.pairwise_cons.mp hm
    simp only [mapSet]
    split
    · rename_i hlt
      refine List.pairwise_cons.mpr ⟨?_, hm⟩
      intro b hb
      rcases List.mem_cons.mp hb with rfl | hb
      · exact hlt
      · exact lt_trans hlt (h0 b hb)
    · split
      · rename_i _ heq
        subst heq
        exact List.pairwise_cons.mpr ⟨h0, hm'⟩
      · rename_i h1 h2
        refine List.pairwise_cons.mpr ⟨?_, ih hm'⟩
        intro b hb
        rcases mem_mapSet hb with rfl | hb
        · show k0 < k; omega
        · exact h0 b hb

theorem mapSet_append_last {V : Type} (k : Nat) (v : V) (m : List (Nat × V))
    (h : ∀ p ∈ m, p.1 < k) : mapSet k v m = m ++ [(k, v)] := by
  induction m with
  | nil => rfl
  | cons q m ih =>
    obtain ⟨k0, v0⟩ := q
    have h0 : k0 < k := h (k0, v0) (List.mem_cons_self _ _)
    simp only [mapSet]
    rw [if_neg (by omega), if_neg (by omega), ih (fun p hp => h p (List.mem_cons_of_mem _ hp))]
    rfl

theorem mapFind_of_mem_sorted {V : Type} {m : List (Nat × V)}
    (hm : m.Pairwise (fun p q => p.1 < q.1)) {k : Nat} {v : V} (h : (k, v) ∈ m) :
    mapFind m k = some v := by
  induction m with
  | nil => cases h
  | cons q m ih =>
    obtain ⟨k0, v0⟩ := q
    obtain ⟨h0, hm'⟩ := List.pairwise_cons.mp hm
    simp only [mapFind]
    rcases List.mem_cons.mp h with h | h
    · cases h; simp
    · have := h0 _ h
      rw [if_neg (by simp only [] at this; omega)]
      exact ih hm' h

theorem mapFind_append {K V : Type} [DecidableEq K] (m₁ m₂ : List (K × V)) (k : K) :
    mapFind (m₁ ++ m₂) k = (mapFind m₁ k).orElse (fun _ => mapFind m₂ k) := by
  induction m₁ with
  | nil => simp [mapFind]
  | cons p m ih =>
    obtain ⟨k0, v0⟩ := p
    simp only [List.cons_append, mapFind]
    split
    · rfl
    · exact ih

/-! ### The bound on the number of DFA states -/

/-- Pairwise different strictly ascending lists over the members of `U` are at
    most `2 ^ U.length` many. -/
theorem subsets_length_le (U : List Int) (L : List (List Int)) (hnd : L.Nodup)
    (hL : ∀ S ∈ L, S.Pairwise (· < ·) ∧ ∀ x ∈ S, x ∈ U) : L.length ≤ 2 ^ U.length := by
  have hinj : ∀ S ∈ L, ∀ T ∈ L, S.toFinset = T.toFinset → S = T := by
    intro S hS T hT h
    refine sorted_ext (hL S hS).1 (hL T hT).1 (fun a => ?_)
    rw [← List.mem_toFinset, h, List.mem_toFinset]
  have hnd' : (L.map List.toFinset).Nodup := List.Nodup.map_on hinj hnd
  have hsub : (L.map List.toFinset).toFinset ⊆ U.toFinset.powerset := by
    intro F hF
    rw [List.mem_toFinset, List.mem_map] at hF
    obtain ⟨S, hS, rfl⟩ := hF
    rw [Finset.mem_powerset]
    intro x hx
    rw [List.mem_toFinset] at hx ⊢
    exact (hL S hS).2 x hx
  calc L.length = (L.map List.toFinset).length := (List.length_map _ _).symm
    _ = (L.map List.toFinset).toFinset.card := (List.toFinset_card_of_nodup hnd').symm
    _ ≤ U.toFinset.powerset.card := Finset.card_le_card hsub
    _ = 2 ^ U.toFinset.card := Finset.card_powerset _
    _ ≤ 2 ^ U.length := Nat.pow_le_pow_right (by decide) (List.toFinset_card_le U)

/-! ### Lists that grow at the end -/

theorem snoc_get_lt {α : Type} (l : List α) (a : α) {k : Nat} (h : k < l.length) :
    (l ++ [a])[k]? = l[k]? := List.getElem?_append_left h

theorem snoc_get_len {α : Type} (l : List α) (a : α) : (l ++ [a])[l.length]? = some a := by
  rw [List.getElem?_append_right (le_refl _)]; simp

theorem snoc_get_some {α : Type} {l : List α} {a b : α} {k : Nat} (h : (l ++ [a])[k]? = some b) :
    (k < l.length ∧ l[k]? = some b) ∨ (k = l.length ∧ b = a) := by
  by_cases hk : k < l.length
  · rw [snoc_get_lt l a hk] at h; exact Or.inl ⟨hk, h⟩
  · have hlen := (List.getElem?_eq_some.mp h).1
    simp only [List.length_append, List.length_singleton] at hlen
    have hk' : k = l.length := by omega
    subst hk'
    rw [snoc_get_len] at h
    exact Or.inr ⟨rfl, (Option.some.inj h).symm⟩

theorem get_some_snoc {α : Type} {l : List α} (a : α) {b : α} {k : Nat} (h : l[k]? = some b) :
    (l ++ [a])[k]? = some b := by
  rw [snoc_get_lt l a (List.getElem?_eq_some.mp h).1]; exact h

/-! ### The universe of an NFA -/

theorem start_mem_universe (n : NFA) : n.start ∈ n.universe := List.mem_cons_self _ _

theorem EpsStep.eps_mem_universe {n : NFA} {q r : Int} (h : EpsStep n q r) : r ∈ n.universe := by
  obtain ⟨st, hst, hr⟩ := h
  unfold NFA.universe
  refine List.mem_cons_of_mem _ (List.mem_flatten.mpr ⟨_, List.mem_map.mpr ⟨st, vecGet?_mem hst, rfl⟩, ?_⟩)
  exact List.mem_append_left _ hr

theorem SymStep.sym_mem_universe {n : NFA} {c : Nat} {q r : Int} (h : SymStep n c q r) :
    r ∈ n.universe := by
  obtain ⟨st, tgts, hst, htg, hr⟩ := h
  unfold NFA.universe
  refine List.mem_cons_of_mem _ (List.mem_flatten.mpr ⟨_, List.mem_map.mpr ⟨st, vecGet?_mem hst, rfl⟩, ?_⟩)
  refine List.mem_append_right _ (List.mem_flatten.mpr ⟨tgts, ?_, hr⟩)
  exact List.mem_map.mpr ⟨(c, tgts), mapFind_mem htg, rfl⟩

theorem epsReach_mem_universe {n : NFA} {s x : Int} (hs : s ∈ n.universe)
    (h : Relation.ReflTransGen (EpsStep n) s x) : x ∈ n.universe := by
  induction h with
  | refl => exact hs
  | tail _ hstep _ => exact hstep.eps_mem_universe

/-- The closure of a strictly ascending list of universe members is a good
    NFA-set: it is returned, strictly ascending, closed under epsilon edges,
    within the universe, and it holds the list. -/
theorem epsClosure_good (n : NFA) (S : List Int) (hS : S.Pairwise (· < ·))
    (hU : ∀ x ∈ S, x ∈ n.universe) :
    ∃ T, epsClosure n S = some T ∧ T.Pairwise (· < ·) ∧
      (∀ x ∈ T, ∀ y, EpsStep n x y → y ∈ T) ∧ (∀ x ∈ T, x ∈ n.universe) ∧
      (∀ x ∈ S, x ∈ T) ∧ (∀ x, x ∈ T ↔ ∃ s ∈ S, Relation.ReflTransGen (EpsStep n) s x) := by
  obtain ⟨T, hT, hsorted, hmem⟩ := epsClosure_spec n S hS
  refine ⟨T, hT, hsorted, ?_, ?_, ?_, hmem⟩
  · intro x hx y hy
    obtain ⟨s, hs, hr⟩ := (hmem x).mp hx
    exact (hmem y).mpr ⟨s, hs, hr.tail hy⟩
  · intro x hx
    obtain ⟨s, hs, hr⟩ := (hmem x).mp hx
    exact epsReach_mem_universe (hU s hs) hr
  · intro x hx
    exact (hmem x).mpr ⟨x, hx, Relation.ReflTransGen.refl⟩

/-- The target of the subset construction: none when the move is empty, and
    otherwise the closure of the move, a non-empty good NFA-set. -/
theorem subsetTarget_cases (n : NFA) (S : List Int) (c : Nat) :
    (moveOnChar n S c = [] ∧ subsetTarget n S c = none) ∨
    (moveOnChar n S c ≠ [] ∧ ∃ T, epsClosure n (moveOnChar n S c) = some T ∧
      subsetTarget n S c = some T ∧ T ≠ [] ∧ T.Pairwise (· < ·) ∧
      (∀ x ∈ T, ∀ y, EpsStep n x y → y ∈ T) ∧ (∀ x ∈ T, x ∈ n.universe) ∧
      (∀ x, x ∈ T ↔ ∃ m ∈ moveOnChar n S c, Relation.ReflTransGen (EpsStep n) m x)) := by
  unfold subsetTarget
  cases hm : moveOnChar n S c with
  | nil => left; exact ⟨rfl, by simp⟩
  | cons a l =>
    right
    have hU : ∀ x ∈ moveOnChar n S c, x ∈ n.universe := by
      intro x hx
      obtain ⟨s, _, hstep⟩ := (mem_moveOnChar n S c x).mp hx
      exact hstep.sym_mem_universe
    obtain ⟨T, hT, hsorted, hclosed, hTU, hsub, hmem⟩ :=
      epsClosure_good n (moveOnChar n S c) (moveOnChar_sorted n S c) hU
    rw [hm] at hT hsub hmem
    refine ⟨by simp, T, hT, by simpa using hT, ?_, hsorted, hclosed, hTU, hmem⟩
    intro hnil
    have := hsub a (List.mem_cons_self _ _)
    rw [hnil] at this
    cases this

/-! ### The main loop of subsetConstruction -/

theorem rowBound_succ (i c k : Nat) :
    rowBound i (c + 1) k = if k = i then c + 1 else rowBound i c k := by
  unfold rowBound
  by_cases h1 : k < i
  · have : k ≠ i := by omega
    simp [h1, this]
  · by_cases h2 : k = i
    · simp [h2]
    · simp [h1, h2]

theorem rowBound_self (i c : Nat) : rowBound i c i = c := by simp [rowBound]

theorem rowBound_gt {i c k : Nat} (h : i < k) : rowBound i c k = 0 := by
  unfold rowBound
  rw [if_neg (by omega), if_neg (by omega)]

theorem rowBound_next (i k : Nat) : rowBound i 128 k = rowBound (i + 1) 0 k := by
  unfold rowBound
  by_cases h1 : k < i
  · rw [if_pos h1, if_pos (by omega)]
  · rw [if_neg h1]
    by_cases h2 : k = i
    · rw [if_pos h2, if_pos (by omega)]
    · rw [if_neg h2, if_neg (by omega)]
      by_cases h3 : k = i + 1
      · rw [if_pos h3]
      · rw [if_neg h3]

/-- A new NFA-set appended to the DFA under construction keeps the invariant. -/
theorem SubsetCore.extend {n : NFA} {d : DFA} {i c a : Nat} (h : SubsetCore n d i c a)
    (hm : MappingInv d) (hp : PredInv d d.rev.length) (hi : i < d.rev.length)
    {T : List Int} (hT : T ∉ d.rev) (hsorted : T.Pairwise (· < ·))
    (hclosed : ∀ x ∈ T, ∀ y, EpsStep n x y → y ∈ T) (hU : ∀ x ∈ T, x ∈ n.universe) :
    SubsetCore n { d with mapping := d.mapping ++ [(T, (d.rev.length : Int))],
                          rev := d.rev ++ [T], trans := d.trans ++ [[]] } i c a ∧
    MappingInv { d with mapping := d.mapping ++ [(T, (d.rev.length : Int))],
                        rev := d.rev ++ [T], trans := d.trans ++ [[]] } ∧
    PredInv { d with mapping := d.mapping ++ [(T, (d.rev.length : Int))],
                     rev := d.rev ++ [T], trans := d.trans ++ [[]] } d.rev.length := by
  have hlen := h.len_trans
  refine ⟨?_, ?_, ?_⟩
  · exact
    { start0 := h.start0
      len_trans := by simp [hlen]
      acc_le := by have := h.acc_le; simp; omega
      rev_head := by
        obtain ⟨S0, h1, h2⟩ := h.rev_head
        exact ⟨S0, h1, get_some_snoc T h2⟩
      rev_nodup := by
        simp only []
        rw [List.nodup_append]
        refine ⟨h.rev_nodup, List.nodup_singleton _, ?_⟩
        intro x hx hx'
        rw [List.mem_singleton] at hx'
        subst hx'; exact hT hx
      rev_sets := by
        intro S hS
        rcases List.mem_append.mp hS with hS | hS
        · exact h.rev_sets S hS
        · rw [List.mem_singleton] at hS; subst hS
          exact ⟨hsorted, hclosed, hU⟩
      row_sorted := by
        intro row hrow
        rcases List.mem_append.mp hrow with hrow | hrow
        · exact h.row_sorted row hrow
        · rw [List.mem_singleton] at hrow; subst hrow
          exact List.Pairwise.nil
      row_none := by
        intro k row S c' hrow hS hc' hnone
        rcases snoc_get_some hrow with ⟨hk, hrow'⟩ | ⟨_, rfl⟩
        · have hS' : d.rev[k]? = some S := by
            rw [← snoc_get_lt d.rev T (by omega)]; exact hS
          exact h.row_none k row S c' hrow' hS' hc' hnone
        · rfl
      row_some := by
        intro k row S c' T' hrow hS hc' hsome
        rcases snoc_get_some hrow with ⟨hk, hrow'⟩ | ⟨hk, _⟩
        · have hS' : d.rev[k]? = some S := by
            rw [← snoc_get_lt d.rev T (by omega)]; exact hS
          obtain ⟨jn, h1, h2⟩ := h.row_some k row S c' T' hrow' hS' hc' hsome
          exact ⟨jn, h1, get_some_snoc T h2⟩
        · rw [rowBound_gt (by omega)] at hc'
          omega
      row_rest := by
        intro k row c' hrow hc'
        rcases snoc_get_some hrow with ⟨_, hrow'⟩ | ⟨_, rfl⟩
        · exact h.row_rest k row c' hrow' hc'
        · rfl
      accepts_sorted := h.accepts_sorted
      accepts_iff := by
        intro j
        rw [h.accepts_iff j]
        have hacc := h.acc_le
        constructor
        · rintro ⟨k, h1, h2, S, h3, h4⟩
          exact ⟨k, h1, h2, S, get_some_snoc T h3, h4⟩
        · rintro ⟨k, h1, h2, S, h3, h4⟩
          refine ⟨k, h1, h2, S, ?_, h4⟩
          rw [← snoc_get_lt d.rev T (by omega)]; exact h3 }
  · intro S j
    simp only []
    rw [mapFind_append]
    constructor
    · intro hfind
      cases hold : mapFind d.mapping S with
      | some j' =>
        rw [hold] at hfind
        simp only [Option.orElse] at hfind
        have hjj : j' = j := Option.some.inj hfind
        subst hjj
        obtain ⟨k, h1, h2⟩ := (hm S j').mp hold
        exact ⟨k, h1, get_some_snoc T h2⟩
      | none =>
        rw [hold] at hfind
        simp only [Option.orElse, mapFind] at hfind
        split at hfind
        · rename_i heq
          cases hfind
          exact ⟨d.rev.length, rfl, by rw [heq]; exact snoc_get_len _ _⟩
        · cases hfind
    · rintro ⟨k, h1, h2⟩
      rcases snoc_get_some h2 with ⟨_, h2'⟩ | ⟨hk, hS⟩
      · have := (hm S j).mpr ⟨k, h1, h2'⟩
        rw [this]; rfl
      · subst hS hk
        have hnone : mapFind d.mapping S = none := by
          cases hold : mapFind d.mapping S with
          | none => rfl
          | some j' =>
            obtain ⟨k, _, h2⟩ := (hm S j').mp hold
            exact absurd (List.getElem?_mem h2) hT
        rw [hnone, h1]
        simp [Option.orElse, mapFind]
  · intro j hj0 hjp
    obtain ⟨k, c', row, hk, hrow, hfind⟩ := hp j hj0 hjp
    exact ⟨k, c', row, hk, get_some_snoc [] hrow, hfind⟩

/-- Recording the transition of the state `i` on the symbol `c` keeps the
    invariant and moves it to the next symbol. -/
theorem SubsetCore.install {n : NFA} {d : DFA} {i c a p : Nat} (h : SubsetCore n d i c a)
    (hm : MappingInv d) (hp : PredInv d p) {curSet T : List Int} {row : List (Nat × Int)}
    {jn : Nat} (hcur : d.rev[i]? = some curSet) (hrow : d.trans[i]? = some row)
    (hT : subsetTarget n curSet c = some T) (hj : d.rev[jn]? = some T) :
    SubsetCore n { d with trans := d.trans.set i (mapSet c (jn : Int) row) } i (c + 1) a ∧
    MappingInv { d with trans := d.trans.set i (mapSet c (jn : Int) row) } ∧
    PredInv { d with trans := d.trans.set i (mapSet c (jn : Int) row) } p ∧
    ∃ row', (d.trans.set i (mapSet c (jn : Int) row))[i]? = some row' ∧
      mapFind row' c = some (jn : Int) := by
  have hilt : i < d.trans.length := (List.getElem?_eq_some.mp hrow).1
  have hget : ∀ k row', (d.trans.set i (mapSet c (jn : Int) row))[k]? = some row' →
      (k = i ∧ row' = mapSet c (jn : Int) row) ∨ (k ≠ i ∧ d.trans[k]? = some row') := by
    intro k row' hk
    by_cases hki : k = i
    · subst hki
      rw [List.getElem?_set_self hilt] at hk
      exact Or.inl ⟨rfl, (Option.some.inj hk).symm⟩
    · rw [List.getElem?_set_ne (fun h => hki h.symm)] at hk
      exact Or.inr ⟨hki, hk⟩
  refine ⟨?_, hm, ?_, ⟨_, List.getElem?_set_self hilt, by rw [mapFind_mapSet]; simp⟩⟩
  · exact
    { start0 := h.start0
      len_trans := by simp [h.len_trans]
      acc_le := h.acc_le
      rev_head := h.rev_head
      rev_nodup := h.rev_nodup
      rev_sets := h.rev_sets
      row_sorted := by
        intro row' hrow'
        rcases List.mem_or_eq_of_mem_set hrow' with hr | hr
        · exact h.row_sorted row' hr
        · rw [hr]
          exact mapSet_sorted _ _ (h.row_sorted row (List.getElem?_mem hrow))
      row_none := by
        intro k row' S c' hk hS hc' hnone
        rcases hget k row' hk with ⟨rfl, rfl⟩ | ⟨hki, hk'⟩
        · rw [hcur] at hS; cases hS
          rw [rowBound_self] at hc'
          rw [mapFind_mapSet]
          by_cases hcc : c' = c
          · subst hcc; rw [hT] at hnone; cases hnone
          · rw [if_neg hcc]
            exact h.row_none k row curSet c' hrow hcur (by rw [rowBound_self]; omega) hnone
        · rw [rowBound_succ, if_neg hki] at hc'
          exact h.row_none k row' S c' hk' hS hc' hnone
      row_some := by
        intro k row' S c' T' hk hS hc' hsome
        rcases hget k row' hk with ⟨rfl, rfl⟩ | ⟨hki, hk'⟩
        · rw [hcur] at hS; cases hS
          rw [rowBound_self] at hc'
          rw [mapFind_mapSet]
          by_cases hcc : c' = c
          · subst hcc; rw [hT] at hsome; cases hsome
            exact ⟨jn, by simp, hj⟩
          · rw [if_neg hcc]
            exact h.row_some k row curSet c' T' hrow hcur (by rw [rowBound_self]; omega) hsome
        · rw [rowBound_succ, if_neg hki] at hc'
          exact h.row_some k row' S c' T' hk' hS hc' hsome
      row_rest := by
        intro k row' c' hk hc'
        rcases hget k row' hk with ⟨rfl, rfl⟩ | ⟨hki, hk'⟩
        · rw [rowBound_self] at hc'
          rw [mapFind_mapSet, if_neg (by omega)]
          exact h.row_rest k row c' hrow (by rw [rowBound_self]; omega)
        · rw [rowBound_succ, if_neg hki] at hc'
          exact h.row_rest k row' c' hk' hc'
      accepts_sorted := h.accepts_sorted
      accepts_iff := h.accepts_iff }
  · intro j hj0 hjp
    obtain ⟨k, c', row0, hk, hrow0, hfind⟩ := hp j hj0 hjp
    by_cases hki : k = i
    · subst hki
      rw [hrow] at hrow0; cases hrow0
      refine ⟨k, c', _, hk, List.getElem?_set_self hilt, ?_⟩
      rw [mapFind_mapSet]
      have hc' : c' < c := by
        by_contra hge
        have := h.row_rest k row c' hrow (by rw [rowBound_self]; omega)
        rw [this] at hfind; cases hfind
      rw [if_neg (by omega)]
      exact hfind
    · exact ⟨k, c', row0, hk, by
        show (d.trans.set i _)[k]? = some row0
        rw [List.getElem?_set_ne (fun h => hki h.symm)]; exact hrow0, hfind⟩

theorem vecGet?_natCast {α : Type} (v : List α) (i : Nat) : vecGet? v (i : Int) = v[i]? := by
  unfold vecGet?
  rw [if_pos (by omega), Int.toNat_ofNat]

theorem vecModify?_natCast {α : Type} {v : List α} {i : Nat} {a : α} (f : α → α)
    (h : v[i]? = some a) : vecModify? v (i : Int) f = some (v.set i (f a)) := by
  unfold vecModify?
  rw [vecGet?_natCast, h]
  simp only [Int.toNat_ofNat]

/-- A symbol on which the NFA-set of the state `i` has no move keeps the
    invariant and moves it to the next symbol. -/
theorem SubsetCore.skip {n : NFA} {d : DFA} {i c a : Nat} (h : SubsetCore n d i c a)
    {curSet : List Int} (hcur : d.rev[i]? = some curSet)
    (hT : subsetTarget n curSet c = none) : SubsetCore n d i (c + 1) a :=
  { start0 := h.start0
    len_trans := h.len_trans
    acc_le := h.acc_le
    rev_head := h.rev_head
    rev_nodup := h.rev_nodup
    rev_sets := h.rev_sets
    row_sorted := h.row_sorted
    row_none := by
      intro k row S c' hk hS hc' hnone
      rw [rowBound_succ] at hc'
      by_cases hki : k = i
      · subst hki
        rw [if_pos rfl] at hc'
        by_cases hcc : c' = c
        · exact h.row_rest k row c' hk (by rw [rowBound_self]; omega)
        · exact h.row_none k row S c' hk hS (by rw [rowBound_self]; omega) hnone
      · rw [if_neg hki] at hc'
        exact h.row_none k row S c' hk hS hc' hnone
    row_some := by
      intro k row S c' T' hk hS hc' hsome
      rw [rowBound_succ] at hc'
      by_cases hki : k = i
      · subst hki
        rw [if_pos rfl] at hc'
        by_cases hcc : c' = c
        · subst hcc
          rw [hcur] at hS; cases hS
          rw [hT] at hsome; cases hsome
        · exact h.row_some k row S c' T' hk hS (by rw [rowBound_self]; omega) hsome
      · rw [if_neg hki] at hc'
        exact h.row_some k row S c' T' hk hS hc' hsome
    row_rest := by
      intro k row c' hk hc'
      rw [rowBound_succ] at hc'
      by_cases hki : k = i
      · subst hki
        rw [if_pos rfl] at hc'
        exact h.row_rest k row c' hk (by rw [rowBound_self]; omega)
      · rw [if_neg hki] at hc'
        exact h.row_rest k row c' hk hc'
    accepts_sorted := h.accepts_sorted
    accepts_iff := h.accepts_iff }

/-- The body of the symbol loop of `subsetConstruction` returns and keeps the
    invariant of the main loop. -/
theorem subsetStep_spec {n : NFA} {d : DFA} {i c : Nat} (h : SubsetCore n d i c (i + 1))
    (hm : MappingInv d) (hp : PredInv d d.rev.length) {curSet : List Int}
    (hcur : d.rev[i]? = some curSet) :
    ∃ d', subsetStep n curSet i d c = some d' ∧ SubsetCore n d' i (c + 1) (i + 1) ∧
      MappingInv d' ∧ PredInv d' d'.rev.length ∧ d'.rev[i]? = some curSet := by
  have hi : i < d.rev.length := (List.getElem?_eq_some.mp hcur).1
  have hit : i < d.trans.length := by rw [h.len_trans]; exact hi
  have hrow : d.trans[i]? = some d.trans[i] := List.getElem?_eq_getElem hit
  unfold subsetStep
  rcases subsetTarget_cases n curSet c with ⟨hmv, hnone⟩ | ⟨hmv, T, hcl, hsome, hTne, hsorted, hclosed, hU, _⟩
  · refine ⟨d, ?_, h.skip hcur hnone, hm, hp, hcur⟩
    simp [hmv]
  · have hmv' : (moveOnChar n curSet c).isEmpty = false := by
      cases hmm : moveOnChar n curSet c with
      | nil => exact absurd hmm hmv
      | cons _ _ => rfl
    have hT' : T.isEmpty = false := by
      cases hTT : T with
      | nil => exact absurd hTT hTne
      | cons _ _ => rfl
    simp only [hmv', Bool.false_eq_true, if_false, hcl, Option.bind_eq_bind, Option.some_bind, hT']
    cases hfind : mapFind d.mapping T with
    | some j =>
      obtain ⟨k, hjk, hk⟩ := (hm T j).mp hfind
      subst hjk
      obtain ⟨g1, g2, g3, _⟩ := h.install hm hp hcur hrow hsome hk
      simp only [Option.isNone_some, Bool.false_eq_true, if_false, hfind, Option.some_bind,
        vecModify?_natCast _ hrow]
      exact ⟨_, rfl, g1, g2, g3, hcur⟩
    | none =>
      have hTrev : T ∉ d.rev := by
        intro hmem
        obtain ⟨k, hk⟩ := List.mem_iff_getElem?.mp hmem
        have := (hm T k).mpr ⟨k, rfl, hk⟩
        rw [hfind] at this; cases this
      obtain ⟨e1, e2, e3⟩ := h.extend hm hp hi hTrev hsorted hclosed hU
      have hlast : (d.rev ++ [T])[d.rev.length]? = some T := snoc_get_len _ _
      have hfind1 := (e2 T (d.rev.length : Int)).mpr ⟨d.rev.length, rfl, hlast⟩
      have hrow1 : (d.trans ++ [[]])[i]? = some d.trans[i] := get_some_snoc [] hrow
      have hcur1 : (d.rev ++ [T])[i]? = some curSet := get_some_snoc T hcur
      obtain ⟨g1, g2, g3, row', hr1, hr2⟩ :=
        SubsetCore.install e1 e2 e3 hcur1 hrow1 hsome hlast
      simp only [] at hfind1
      simp only [Option.isNone_none, if_true, hfind1, Option.some_bind,
        vecModify?_natCast _ hrow1]
      refine ⟨_, rfl, g1, g2, ?_, hcur1⟩
      intro j hj0 hjlt
      simp only [List.length_append, List.length_singleton] at hjlt
      by_cases hjl : j < d.rev.length
      · exact g3 j hj0 hjl
      · have hje : j = d.rev.length := by omega
        subst hje
        exact ⟨i, c, row', hi, hr1, hr2⟩

theorem subsetStep_fold_spec {n : NFA} {i : Nat} {curSet : List Int} (m : Nat) :
    ∀ (d : DFA), SubsetCore n d i 0 (i + 1) → MappingInv d → PredInv d d.rev.length →
      d.rev[i]? = some curSet →
      ∃ d', (List.range m).foldlM (subsetStep n curSet i) d = some d' ∧
        SubsetCore n d' i m (i + 1) ∧ MappingInv d' ∧ PredInv d' d'.rev.length ∧
        d'.rev[i]? = some curSet := by
  induction m with
  | zero =>
    intro d h hm hp hcur
    exact ⟨d, rfl, h, hm, hp, hcur⟩
  | succ m ih =>
    intro d h hm hp hcur
    obtain ⟨d1, hd1, h1, hm1, hp1, hcur1⟩ := ih d h hm hp hcur
    obtain ⟨d2, hd2, h2, hm2, hp2, hcur2⟩ := subsetStep_spec h1 hm1 hp1 hcur1
    refine ⟨d2, ?_, h2, hm2, hp2, hcur2⟩
    rw [List.range_succ, List.foldlM_append, hd1]
    simp only [Option.bind_eq_bind, Option.some_bind, List.foldlM_cons, List.foldlM_nil, hd2]
    rfl

/-- The acceptance test of the state `i` keeps the invariant. -/
theorem SubsetCore.mark {n : NFA} {d : DFA} {i : Nat} (h : SubsetCore n d i 0 i)
    {curSet : List Int} (hcur : d.rev[i]? = some curSet) :
    SubsetCore n
      (if n.accepts.any (fun a => decide (a ∈ curSet)) = true then
        { d with accepts := setInsert (i : Int) d.accepts } else d) i 0 (i + 1) := by
  have hi : i < d.rev.length := (List.getElem?_eq_some.mp hcur).1
  by_cases hany : n.accepts.any (fun a => decide (a ∈ curSet)) = true
  · rw [if_pos hany]
    exact
    { start0 := h.start0
      len_trans := h.len_trans
      acc_le := hi
      rev_head := h.rev_head
      rev_nodup := h.rev_nodup
      rev_sets := h.rev_sets
      row_sorted := h.row_sorted
      row_none := h.row_none
      row_some := h.row_some
      row_rest := h.row_rest
      accepts_sorted := setInsert_sorted h.accepts_sorted
      accepts_iff := by
        intro j
        simp only []
        rw [mem_setInsert, h.accepts_iff j]
        constructor
        · rintro (hj | ⟨k, h1, h2, h3⟩)
          · exact ⟨i, hj, by omega, curSet, hcur, hany⟩
          · exact ⟨k, h1, by omega, h3⟩
        · rintro ⟨k, h1, h2, h3⟩
          by_cases hki : k = i
          · left; rw [h1, hki]
          · right; exact ⟨k, h1, by omega, h3⟩ }
  · rw [if_neg hany]
    exact
    { start0 := h.start0
      len_trans := h.len_trans
      acc_le := hi
      rev_head := h.rev_head
      rev_nodup := h.rev_nodup
      rev_sets := h.rev_sets
      row_sorted := h.row_sorted
      row_none := h.row_none
      row_some := h.row_some
      row_rest := h.row_rest
      accepts_sorted := h.accepts_sorted
      accepts_iff := by
        intro j
        rw [h.accepts_iff j]
        constructor
        · rintro ⟨k, h1, h2, h3⟩
          exact ⟨k, h1, by omega, h3⟩
        · rintro ⟨k, h1, h2, S, h3, h4⟩
          by_cases hki : k = i
          · subst hki
            rw [hcur] at h3; cases h3
            exact absurd h4 hany
          · exact ⟨k, h1, by omega, S, h3, h4⟩ }

/-- When all symbols of the state `i` are handled the invariant holds at the
    state `i + 1`. -/
theorem SubsetCore.next {n : NFA} {d : DFA} {i : Nat} (h : SubsetCore n d i 128 (i + 1)) :
    SubsetCore n d (i + 1) 0 (i + 1) :=
  { start0 := h.start0
    len_trans := h.len_trans
    acc_le := h.acc_le
    rev_head := h.rev_head
    rev_nodup := h.rev_nodup
    rev_sets := h.rev_sets
    row_sorted := h.row_sorted
    row_none := fun k row S c' hk hS hc' => h.row_none k row S c' hk hS (by rw [rowBound_next]; exact hc')
    row_some := fun k row S c' T hk hS hc' =>
      h.row_some k row S c' T hk hS (by rw [rowBound_next]; exact hc')
    row_rest := fun k row c' hk hc' => h.row_rest k row c' hk (by rw [rowBound_next]; exact hc')
    accepts_sorted := h.accepts_sorted
    accepts_iff := h.accepts_iff }

/-- The main loop of `subsetConstruction` returns within its fuel, with every
    state handled. -/
theorem subsetLoop_spec (n : NFA) :
    ∀ (fuel i : Nat) (d : DFA), SubsetCore n d i 0 i → MappingInv d → PredInv d d.rev.length →
      2 ^ n.universe.length ≤ fuel + i →
      ∃ d', subsetLoop n fuel i d = some d' ∧ SubsetCore n d' d'.rev.length 0 d'.rev.length ∧
        PredInv d' d'.rev.length := by
  intro fuel
  induction fuel with
  | zero =>
    intro i d h hm hp hfuel
    have hbound := subsets_length_le n.universe d.rev h.rev_nodup
      (fun S hS => ⟨(h.rev_sets S hS).1, (h.rev_sets S hS).2.2⟩)
    have hle := h.acc_le
    have hi : i = d.rev.length := by omega
    rw [subsetLoop, dif_neg (by omega)]
    subst hi
    exact ⟨d, rfl, h, hp⟩
  | succ fuel ih =>
    intro i d h hm hp hfuel
    rw [subsetLoop]
    by_cases hi : i < d.rev.length
    · rw [dif_pos hi]
      have hcur : d.rev[i]? = some d.rev[i] := List.getElem?_eq_getElem hi
      have h1 := h.mark hcur
      obtain ⟨d2, hd2, h2, hm2, hp2, _⟩ := subsetStep_fold_spec 128 _ h1
        (by split <;> exact hm) (by split <;> exact hp) (by split <;> exact hcur)
      obtain ⟨d3, hd3, h3⟩ := ih (i + 1) d2 h2.next hm2 hp2 (by omega)
      refine ⟨d3, ?_, h3⟩
      simp only [Option.bind_eq_bind, hd2, Option.some_bind]
      exact hd3
    · rw [dif_neg hi]
      have hle := h.acc_le
      have hi' : i = d.rev.length := by omega
      subst hi'
      exact ⟨d, rfl, h, hp⟩

/-! ### The reachability sweep and the remapping -/

/-- The DFA that the main loop hands over is ready for the sweep. -/
theorem SubsetCore.pruneReady {n : NFA} {d : DFA}
    (h : SubsetCore n d d.rev.length 0 d.rev.length) (hp : PredInv d d.rev.length) :
    PruneReady d := by
  have hpos : 0 < d.rev.length := by
    obtain ⟨S0, _, h0⟩ := h.rev_head
    exact (List.getElem?_eq_some.mp h0).1
  have htgt : ∀ (k : Nat) (row : List (Nat × Int)), d.trans[k]? = some row →
      ∀ c' j, mapFind row c' = some j → ∃ jn : Nat, j = (jn : Int) ∧ jn < d.rev.length := by
    intro k row hrow c' j hfind
    have hk : k < d.rev.length := by rw [← h.len_trans]; exact (List.getElem?_eq_some.mp hrow).1
    have hS : d.rev[k]? = some d.rev[k] := List.getElem?_eq_getElem hk
    have hb : rowBound d.rev.length 0 k = 128 := by unfold rowBound; rw [if_pos hk]
    have hc' : c' < 128 := by
      by_contra hge
      have := h.row_rest k row c' hrow (by rw [hb]; omega)
      rw [this] at hfind; cases hfind
    cases hT : subsetTarget n d.rev[k] c' with
    | none =>
      have := h.row_none k row _ c' hrow hS (by rw [hb]; exact hc') hT
      rw [this] at hfind; cases hfind
    | some T =>
      obtain ⟨jn, h1, h2⟩ := h.row_some k row _ c' T hrow hS (by rw [hb]; exact hc') hT
      rw [h1] at hfind
      exact ⟨jn, (Option.some.inj hfind).symm, (List.getElem?_eq_some.mp h2).1⟩
  exact
  { start0 := h.start0
    len_trans := h.len_trans
    rev_pos := hpos
    row_sorted := h.row_sorted
    row_targets := by
      intro row hrow kv hkv
      obtain ⟨k, hk⟩ := List.mem_iff_getElem?.mp hrow
      exact htgt k row hk kv.1 kv.2 (mapFind_of_mem_sorted (h.row_sorted row hrow) hkv)
    accepts_sorted := h.accepts_sorted
    accepts_range := by
      intro j hj
      obtain ⟨k, h1, h2, _⟩ := (h.accepts_iff j).mp hj
      exact ⟨k, h1, h2⟩
    pred := hp }

theorem pruneInner_spec (d : DFA) (kvs : List (Nat × Int)) :
    ∀ (seen : List Bool) (q : List Int), SweepInv d seen q →
      (∀ kv ∈ kvs, ∃ k : Nat, kv.2 = (k : Int) ∧ k < d.rev.length) →
      ∃ seen' q', pruneInner kvs seen q = some (seen', q') ∧ SweepInv d seen' q' ∧
        (∃ ext, q' = q ++ ext) ∧ ∀ kv ∈ kvs, kv.2 ∈ q' := by
  induction kvs with
  | nil =>
    intro seen q hinv _
    exact ⟨seen, q, rfl, hinv, ⟨[], by simp⟩, fun kv hkv => by cases hkv⟩
  | cons kv rest ih =>
    intro seen q hinv hval
    obtain ⟨hlen, hnd, hq⟩ := hinv
    obtain ⟨k, hk, hklt⟩ := hval kv (List.mem_cons_self _ _)
    have hval' : ∀ kv ∈ rest, ∃ k : Nat, kv.2 = (k : Int) ∧ k < d.rev.length :=
      fun kv' h' => hval kv' (List.mem_cons_of_mem _ h')
    have hkseen : k < seen.length := by omega
    simp only [pruneInner, hk, vecGet?_natCast, List.getElem?_eq_getElem hkseen]
    cases hb : seen[k] with
    | true =>
      simp only []
      obtain ⟨seen', q', h1, h2, ⟨ext, h3⟩, h4⟩ := ih seen q ⟨hlen, hnd, hq⟩ hval'
      refine ⟨seen', q', h1, h2, ⟨ext, h3⟩, ?_⟩
      intro kv' hkv'
      rcases List.mem_cons.mp hkv' with rfl | hkv'
      · rw [h3, hk]
        refine List.mem_append_left _ ((hq _).mpr ⟨k, rfl, ?_⟩)
        rw [List.getElem?_eq_getElem hkseen, hb]
      · exact h4 kv' hkv'
    | false =>
      simp only [Int.toNat_ofNat]
      have hknot : (k : Int) ∉ q := by
        intro hmem
        obtain ⟨k', hk', hs⟩ := (hq _).mp hmem
        have : k' = k := by omega
        subst this
        rw [List.getElem?_eq_getElem hkseen, hb] at hs
        cases hs
      have hinv' : SweepInv d (seen.set k true) (q ++ [(k : Int)]) := by
        refine ⟨by simp [hlen], ?_, ?_⟩
        · rw [List.nodup_append]
          refine ⟨hnd, List.nodup_singleton _, ?_⟩
          intro x hx hx'
          rw [List.mem_singleton] at hx'
          subst hx'; exact hknot hx
        · intro v
          rw [List.mem_append, List.mem_singleton, hq v]
          constructor
          · rintro (⟨k', h1, h2⟩ | h1)
            · refine ⟨k', h1, ?_⟩
              by_cases hkk : k = k'
              · subst hkk; exact List.getElem?_set_self hkseen
              · rw [List.getElem?_set_ne hkk]; exact h2
            · exact ⟨k, h1, List.getElem?_set_self hkseen⟩
          · rintro ⟨k', h1, h2⟩
            by_cases hkk : k = k'
            · subst hkk; exact Or.inr h1
            · rw [List.getElem?_set_ne hkk] at h2
              exact Or.inl ⟨k', h1, h2⟩
      obtain ⟨seen', q', h1, h2, ⟨ext, h3⟩, h4⟩ := ih _ _ hinv' hval'
      refine ⟨seen', q', h1, h2, ⟨(k : Int) :: ext, by rw [h3]; simp⟩, ?_⟩
      intro kv' hkv'
      rcases List.mem_cons.mp hkv' with rfl | hkv'
      · rw [h3, hk]
        exact List.mem_append_left _ (List.mem_append_right _ (List.mem_singleton_self _))
      · exact h4 kv' hkv'

/-- The queue of the sweep is never longer than the number of states. -/
theorem SweepInv.length_le {d : DFA} {seen : List Bool} {q : List Int} (h : SweepInv d seen q) :
    q.length ≤ d.rev.length := by
  obtain ⟨hlen, hnd, hq⟩ := h
  have hinj : ∀ x ∈ q, ∀ y ∈ q, Int.toNat x = Int.toNat y → x = y := by
    intro x hx y hy hxy
    obtain ⟨kx, h1, _⟩ := (hq x).mp hx
    obtain ⟨ky, h2, _⟩ := (hq y).mp hy
    subst h1 h2
    simp only [Int.toNat_ofNat] at hxy
    rw [hxy]
  have hnd' : (q.map Int.toNat).Nodup := List.Nodup.map_on hinj hnd
  have hsub : (q.map Int.toNat).toFinset ⊆ Finset.range d.rev.length := by
    intro x hx
    rw [List.mem_toFinset, List.mem_map] at hx
    obtain ⟨v, hv, rfl⟩ := hx
    obtain ⟨k, h1, h2⟩ := (hq v).mp hv
    subst h1
    rw [Finset.mem_range, Int.toNat_ofNat, ← hlen]
    exact (List.getElem?_eq_some.mp h2).1
  calc q.length = (q.map Int.toNat).length := (List.length_map _ _).symm
    _ = (q.map Int.toNat).toFinset.card := (List.toFinset_card_of_nodup hnd').symm
    _ ≤ (Finset.range d.rev.length).card := Finset.card_le_card hsub
    _ = d.rev.length := Finset.card_range _

/-- The reachability sweep returns within its fuel, with the transitions of
    every queued state followed. -/
theorem pruneLoop_spec {d : DFA} (hd : PruneReady d) :
    ∀ (fuel idx : Nat) (seen : List Bool) (q : List Int), SweepInv d seen q →
      SweepClosed d q idx → idx ≤ q.length → (0 : Int) ∈ q → d.rev.length ≤ fuel + idx →
      ∃ seen', pruneLoop d fuel idx seen q = some seen' ∧
        ∃ q', SweepInv d seen' q' ∧ SweepClosed d q' q'.length ∧ (0 : Int) ∈ q' := by
  intro fuel
  induction fuel with
  | zero =>
    intro idx seen q hinv hcl hidx h0 hfuel
    have := hinv.length_le
    have hi : idx = q.length := by omega
    rw [pruneLoop, dif_neg (by omega)]
    subst hi
    exact ⟨seen, rfl, q, hinv, hcl, h0⟩
  | succ fuel ih =>
    intro idx seen q hinv hcl hidx h0 hfuel
    rw [pruneLoop]
    by_cases hi : idx < q.length
    · rw [dif_pos hi]
      simp only []
      have hu : q[idx] ∈ q := List.getElem_mem hi
      obtain ⟨k, hk, hks⟩ := (hinv.2.2 _).mp hu
      have hklt : k < d.trans.length := by
        rw [hd.len_trans, ← hinv.1]; exact (List.getElem?_eq_some.mp hks).1
      have hrow : vecGet? d.trans q[idx] = some d.trans[k] := by
        rw [hk, vecGet?_natCast]; exact List.getElem?_eq_getElem hklt
      obtain ⟨seen', q', h1, h2, ⟨ext, h3⟩, h4⟩ := pruneInner_spec d d.trans[k] seen q hinv
        (hd.row_targets _ (List.getElem_mem hklt))
      have hcl' : SweepClosed d q' (idx + 1) := by
        intro p u row hp hpu hrow' kv hkv
        by_cases hpi : p < idx
        · have hpu' : q[p]? = some u := by
            rw [h3, List.getElem?_append_left (by omega)] at hpu; exact hpu
          rw [h3]
          exact List.mem_append_left _ (hcl p u row hpi hpu' hrow' kv hkv)
        · have hpe : p = idx := by omega
          subst hpe
          rw [h3, List.getElem?_append_left hi, List.getElem?_eq_getElem hi] at hpu
          cases hpu
          rw [hrow] at hrow'; cases hrow'
          exact h4 kv hkv
      obtain ⟨seen'', hs, hfin⟩ := ih (idx + 1) seen' q' h2 hcl'
        (by rw [h3]; simp; omega) (by rw [h3]; exact List.mem_append_left _ h0) (by omega)
      refine ⟨seen'', ?_, hfin⟩
      simp only [hrow, h1, Option.bind_eq_bind, Option.some_bind]
      exact hs
    · rw [dif_neg hi]
      have hi' : idx = q.length := by omega
      subst hi'
      exact ⟨seen, rfl, q, hinv, hcl, h0⟩

/-- After the sweep every state is marked. -/
theorem sweep_all {d : DFA} (hd : PruneReady d) {seen : List Bool} {q : List Int}
    (hinv : SweepInv d seen q) (hcl : SweepClosed d q q.length) (h0 : (0 : Int) ∈ q) :
    seen = List.replicate d.rev.length true := by
  have hall : ∀ k : Nat, k < d.rev.length → (k : Int) ∈ q := by
    intro k
    induction k using Nat.strong_induction_on with
    | _ k ih =>
      intro hk
      by_cases hk0 : k = 0
      · subst hk0; exact h0
      · obtain ⟨k', c', row, hk', hrow, hfind⟩ := hd.pred k (by omega) hk
        have hk'q := ih k' hk' (by omega)
        obtain ⟨p, hp⟩ := List.mem_iff_getElem?.mp hk'q
        have hplt := (List.getElem?_eq_some.mp hp).1
        have := hcl p _ row hplt hp (by rw [vecGet?_natCast]; exact hrow) _ (mapFind_mem hfind)
        exact this
  apply List.ext_getElem?
  intro k
  by_cases hk : k < d.rev.length
  · rw [List.getElem?_replicate_of_lt hk]
    obtain ⟨k', h1, h2⟩ := (hinv.2.2 _).mp (hall k hk)
    have : k' = k := by omega
    subst this
    exact h2
  · rw [List.getElem?_eq_none (by rw [hinv.1]; omega),
      List.getElem?_eq_none (by simp; omega)]

/-- The sweep of `subsetConstruction` marks every state. -/
theorem sweep_result {d : DFA} (hd : PruneReady d) :
    ((vecModify? (List.replicate d.rev.length false) d.start (fun _ => true)).bind
      (fun seen => pruneLoop d d.rev.length 0 seen [d.start])) =
      some (List.replicate d.rev.length true) := by
  have hpos := hd.rev_pos
  have hget : (List.replicate d.rev.length false)[0]? = some false :=
    List.getElem?_replicate_of_lt hpos
  have hmod : vecModify? (List.replicate d.rev.length false) d.start (fun _ => true) =
      some ((List.replicate d.rev.length false).set 0 true) := by
    rw [hd.start0]
    exact vecModify?_natCast (i := 0) _ hget
  rw [hmod, hd.start0]
  simp only [Option.some_bind]
  have hinv : SweepInv d ((List.replicate d.rev.length false).set 0 true) [(0 : Int)] := by
    refine ⟨by simp, List.nodup_singleton _, ?_⟩
    intro v
    rw [List.mem_singleton]
    constructor
    · intro hv; exact ⟨0, hv, List.getElem?_set_self (by simp; exact hpos)⟩
    · rintro ⟨k, h1, h2⟩
      by_cases hk : k = 0
      · subst hk; exact h1
      · rw [List.getElem?_set_ne (fun h => hk h.symm)] at h2
        have := List.getElem?_replicate (n := d.rev.length) (a := false) (m := k)
        rw [this] at h2
        split at h2 <;> cases h2
  obtain ⟨seen', hs, q', h1, h2, h3⟩ := pruneLoop_spec hd d.rev.length 0 _ _ hinv
    (fun p u row hp => absurd hp (by omega)) (by simp) (List.mem_singleton_self _) (by omega)
  rw [hs, sweep_all hd h1 h2 h3]

theorem set_of_get {α : Type} {l : List α} {m : Nat} {a : α} (h : l[m]? = some a) :
    l.set m a = l := by
  apply List.ext_getElem?
  intro k
  by_cases hk : m = k
  · subst hk
    rw [List.getElem?_set_self (List.getElem?_eq_some.mp h).1, h]
  · rw [List.getElem?_set_ne hk]

/-- With every state marked the remapping is the identity on `0..len-1`. -/
theorem buildRemap_all (m : Nat) :
    ∀ (i : Nat) (remap : List (Int × Int)), remap.length = i →
      buildRemap (List.replicate m true) i remap =
        remap ++ (List.range' i m).map (fun k : Nat => ((k : Int), (k : Int))) := by
  induction m with
  | zero => intro i remap _; simp [buildRemap]
  | succ m ih =>
    intro i remap hlen
    rw [List.replicate_succ]
    simp only [buildRemap, if_true]
    rw [ih (i + 1) _ (by simp [hlen]), hlen, List.range'_succ]
    simp

theorem mapFind_idRemap (m : Nat) :
    ∀ (s k : Nat), s ≤ k → k < s + m →
      mapFind ((List.range' s m).map (fun k : Nat => ((k : Int), (k : Int)))) (k : Int) =
        some (k : Int) := by
  induction m with
  | zero => intro s k h1 h2; omega
  | succ m ih =>
    intro s k h1 h2
    rw [List.range'_succ, List.map_cons]
    simp only [mapFind]
    by_cases hks : k = s
    · subst hks; simp
    · rw [if_neg (by omega)]
      exact ih (s + 1) k (by omega) (by omega)

/-- With every state marked and the identity remapping, the copy of a row
    rebuilds the row entry by entry. -/
theorem copyTrans_spec (len m : Nat) (rest : List (Nat × Int)) :
    ∀ (pre : List (Nat × Int)) (D : DFA), D.trans[m]? = some pre →
      (pre ++ rest).Pairwise (fun p q => p.1 < q.1) →
      (∀ kv ∈ rest, ∃ k : Nat, kv.2 = (k : Int) ∧ k < len) →
      copyTrans (List.replicate len true)
          ((List.range' 0 len).map (fun k : Nat => ((k : Int), (k : Int)))) (m : Int) rest D =
        some { D with trans := D.trans.set m (pre ++ rest) } := by
  induction rest with
  | nil =>
    intro pre D hpre _ _
    simp only [copyTrans, List.append_nil]
    rw [set_of_get hpre]
  | cons kv rest ih =>
    intro pre D hpre hsorted hval
    obtain ⟨k, hk, hklt⟩ := hval kv (List.mem_cons_self _ _)
    have hseen : vecGet? (List.replicate len true) kv.2 = some true := by
      rw [hk, vecGet?_natCast]; exact List.getElem?_replicate_of_lt hklt
    have hfind : mapFind ((List.range' 0 len).map (fun k : Nat => ((k : Int), (k : Int)))) kv.2 =
        some kv.2 := by
      rw [hk]; exact mapFind_idRemap len 0 k (by omega) (by omega)
    have hlast : mapSet kv.1 kv.2 pre = pre ++ [kv] := by
      rw [mapSet_append_last]
      intro p hp
      have := List.pairwise_append.mp hsorted
      exact this.2.2 p hp kv (List.mem_cons_self _ _)
    simp only [copyTrans, hseen, hfind, Option.bind_eq_bind, Option.some_bind,
      vecModify?_natCast _ hpre, hlast]
    have hmlt : m < D.trans.length := (List.getElem?_eq_some.mp hpre).1
    rw [ih (pre ++ [kv]) _ (List.getElem?_set_self hmlt)
      (by rw [List.append_assoc]; exact hsorted)
      (fun kv' h' => hval kv' (List.mem_cons_of_mem _ h'))]
    simp only [List.set_set, List.append_assoc, List.singleton_append]

theorem take_replicate_set {α : Type} (l : List α) (x : α) {m len : Nat} (hm : m < l.length)
    (hlen : l.length = len) :
    (l.take m ++ List.replicate (len - m) x).set m l[m] =
      l.take (m + 1) ++ List.replicate (len - (m + 1)) x := by
  have h1 : len - m = (len - (m + 1)) + 1 := by omega
  have h3 : (l.take m).length = m := by rw [List.length_take]; omega
  rw [h1, List.replicate_succ, List.set_append_right _ _ (by omega), h3, Nat.sub_self,
    List.set_cons_zero, List.take_succ, List.getElem?_eq_getElem hm, List.append_assoc]
  rfl

theorem take_replicate_get {α : Type} (l : List α) (x : α) {m len : Nat} (hm : m < l.length)
    (hlen : l.length = len) : (l.take m ++ List.replicate (len - m) x)[m]? = some x := by
  have h3 : (l.take m).length = m := by rw [List.length_take]; omega
  rw [List.getElem?_append_right (by omega), h3, Nat.sub_self]
  exact List.getElem?_replicate_of_lt (by omega)

theorem accepts_filter_succ {acc : List Int} (hs : acc.Pairwise (· < ·)) (m : Nat) :
    (if (m : Int) ∈ acc then
        setInsert (m : Int) (acc.filter (fun j => decide (j < (m : Int))))
      else acc.filter (fun j => decide (j < (m : Int)))) =
      acc.filter (fun j => decide (j < ((m + 1 : Nat) : Int))) := by
  have hf1 : (acc.filter (fun j => decide (j < (m : Int)))).Pairwise (· < ·) := hs.filter _
  have hf2 : (acc.filter (fun j => decide (j < ((m + 1 : Nat) : Int)))).Pairwise (· < ·) :=
    hs.filter _
  by_cases hm : (m : Int) ∈ acc
  · rw [if_pos hm]
    refine sorted_ext (setInsert_sorted hf1) hf2 (fun x => ?_)
    rw [mem_setInsert, List.mem_filter, List.mem_filter]
    simp only [decide_eq_true_eq]
    constructor
    · rintro (h | ⟨h1, h2⟩)
      · subst h; exact ⟨hm, by push_cast; omega⟩
      · exact ⟨h1, by push_cast; omega⟩
    · rintro ⟨h1, h2⟩
      by_cases hx : x = (m : Int)
      · exact Or.inl hx
      · exact Or.inr ⟨h1, by push_cast at h2; omega⟩
  · rw [if_neg hm]
    refine sorted_ext hf1 hf2 (fun x => ?_)
    rw [List.mem_filter, List.mem_filter]
    simp only [decide_eq_true_eq]
    constructor
    · rintro ⟨h1, h2⟩; exact ⟨h1, by push_cast; omega⟩
    · rintro ⟨h1, h2⟩
      refine ⟨h1, ?_⟩
      have : x ≠ (m : Int) := fun h => hm (h ▸ h1)
      push_cast at h2; omega

/-- With every state marked, the loop that fills `d2` copies the states one by
    one. -/
theorem copyStates_spec {d : DFA} (hd : PruneReady d) (r : Nat) :
    ∀ m : Nat, m + r = d.rev.length →
      copyStates d (List.replicate d.rev.length true)
          ((List.range' 0 d.rev.length).map (fun k : Nat => ((k : Int), (k : Int))))
          ((List.range' m r).map (fun k : Nat => ((k : Int), (k : Int)))) (copyPartial d m) =
        some (copyPartial d d.rev.length) := by
  induction r with
  | zero =>
    intro m hm
    have : m = d.rev.length := by omega
    subst this
    rfl
  | succ r ih =>
    intro m hm
    have hmlt : m < d.rev.length := by omega
    have hmt : m < d.trans.length := by rw [hd.len_trans]; exact hmlt
    rw [List.range'_succ, List.map_cons]
    simp only [copyStates, vecGet?_natCast, List.getElem?_eq_getElem hmlt,
      List.getElem?_eq_getElem hmt, Option.bind_eq_bind, Option.some_bind]
    have hrev : (copyPartial d m).rev[m]? = some [] := take_replicate_get d.rev [] hmlt rfl
    rw [vecModify?_natCast _ hrev]
    simp only [Option.some_bind]
    have htr : (copyPartial d m).trans[m]? = some [] :=
      take_replicate_get d.trans [] hmt hd.len_trans
    rw [copyTrans_spec d.rev.length m d.trans[m] [] _ (by split <;> exact htr)
      (by simpa using hd.row_sorted _ (List.getElem_mem hmt))
      (hd.row_targets _ (List.getElem_mem hmt))]
    simp only [Option.some_bind, List.nil_append]
    have hnext : (if (m : Int) ∈ d.accepts then
          { mapping := (copyPartial d m).mapping, rev := (copyPartial d m).rev.set m d.rev[m],
            trans := (copyPartial d m).trans.set m d.trans[m],
            accepts := setInsert (m : Int) (copyPartial d m).accepts,
            start := (copyPartial d m).start }
        else
          { mapping := (copyPartial d m).mapping, rev := (copyPartial d m).rev.set m d.rev[m],
            trans := (copyPartial d m).trans.set m d.trans[m],
            accepts := (copyPartial d m).accepts,
            start := (copyPartial d m).start } : DFA) = copyPartial d (m + 1) := by
      have ha := accepts_filter_succ hd.accepts_sorted m
      unfold copyPartial
      simp only []
      rw [take_replicate_set d.rev [] hmlt rfl, take_replicate_set d.trans [] hmt hd.len_trans]
      split
      · rename_i hin
        rw [if_pos hin] at ha
        rw [ha]
      · rename_i hin
        rw [if_neg hin] at ha
        rw [ha]
    have := ih (m + 1) (by omega)
    rw [← hnext] at this
    convert this using 2
    split <;> rfl

theorem copyPartial_zero {d : DFA} (hd : PruneReady d) :
    copyPartial d 0 =
      { start := 0, rev := List.replicate d.rev.length [],
        trans := List.replicate d.rev.length [] } := by
  unfold copyPartial
  have : d.accepts.filter (fun j => decide (j < ((0 : Nat) : Int))) = [] := by
    rw [List.filter_eq_nil_iff]
    intro j hj
    obtain ⟨k, hk, _⟩ := hd.accepts_range j hj
    simp only [decide_eq_true_eq]
    subst hk
    omega
  rw [this]
  simp

theorem copyPartial_full {d : DFA} (hd : PruneReady d) :
    copyPartial d d.rev.length = { d with mapping := [] } := by
  unfold copyPartial
  have h1 : d.accepts.filter (fun j => decide (j < (d.rev.length : Int))) = d.accepts := by
    rw [List.filter_eq_self]
    intro j hj
    obtain ⟨k, hk, hlt⟩ := hd.accepts_range j hj
    simp only [decide_eq_true_eq]
    subst hk
    omega
  have h2 : d.trans.take d.rev.length = d.trans := by
    rw [← hd.len_trans]; exact List.take_length _
  rw [h1, h2, List.take_length, Nat.sub_self, hd.start0]
  simp

/-- On the DFA that the main loop hands over, the sweep and the remapping
    change nothing but the `mapping`, which the returned DFA leaves empty. -/
theorem pruneDFA_spec {d : DFA} (hd : PruneReady d) :
    pruneDFA d = some { d with mapping := [] } := by
  have hsweep := sweep_result hd
  have hrem := buildRemap_all d.rev.length 0 [] rfl
  rw [List.nil_append] at hrem
  have hstart : mapFind ((List.range' 0 d.rev.length).map (fun k : Nat => ((k : Int), (k : Int))))
      d.start = some 0 := by
    rw [hd.start0]
    exact mapFind_idRemap d.rev.length 0 0 (le_refl _) (by have := hd.rev_pos; omega)
  unfold pruneDFA
  cases hmod : vecModify? (List.replicate d.rev.length false) d.start (fun _ => true) with
  | none => rw [hmod] at hsweep; cases hsweep
  | some s0 =>
    rw [hmod] at hsweep
    simp only [Option.some_bind] at hsweep
    simp only [Option.bind_eq_bind]
    rw [hmod, Option.some_bind, hsweep, Option.some_bind, hrem, hstart, Option.some_bind,
      List.length_map, List.length_range']
    rw [← copyPartial_zero hd, ← copyPartial_full hd]
    have := copyStates_spec hd d.rev.length 0 (by omega)
    exact this

theorem rowBound_zero (k : Nat) : rowBound 0 0 k = 0 := by
  unfold rowBound
  rw [if_neg (by omega)]
  split <;> rfl

/-- The main loop of `subsetConstruction`, started on the closure of the start
    state, returns within its fuel, with every state handled. -/
theorem subsetLoop_start (n : NFA) :
    ∃ S0 d1, epsClosure n [n.start] = some S0 ∧
      subsetLoop n (2 ^ n.universe.length) 0
        { mapping := [(S0, 0)], rev := [S0], trans := [[]] } = some d1 ∧
      SubsetCore n d1 d1.rev.length 0 d1.rev.length ∧ PredInv d1 d1.rev.length := by
  obtain ⟨S0, hS0, hsorted, hclosed, hU, _, _⟩ := epsClosure_good n [n.start]
    (List.pairwise_singleton _ _) (fun x hx => by
      rw [List.mem_singleton] at hx; subst hx; exact start_mem_universe n)
  have hcore : SubsetCore n { mapping := [(S0, 0)], rev := [S0], trans := [[]] } 0 0 0 :=
    { start0 := rfl
      len_trans := rfl
      acc_le := Nat.zero_le _
      rev_head := ⟨S0, hS0, rfl⟩
      rev_nodup := List.nodup_singleton _
      rev_sets := by
        intro S hS
        rw [List.mem_singleton] at hS; subst hS
        exact ⟨hsorted, hclosed, hU⟩
      row_sorted := by
        intro row hrow
        rw [List.mem_singleton] at hrow; subst hrow
        exact List.Pairwise.nil
      row_none := by
        intro k row S c' _ _ hc' _
        rw [rowBound_zero] at hc'; omega
      row_some := by
        intro k row S c' T _ _ hc' _
        rw [rowBound_zero] at hc'; omega
      row_rest := by
        intro k row c' hk _
        have : row ∈ [([] : List (Nat × Int))] := List.getElem?_mem hk
        rw [List.mem_singleton] at this; subst this
        rfl
      accepts_sorted := List.Pairwise.nil
      accepts_iff := by
        intro j
        constructor
        · intro h; cases h
        · rintro ⟨k, _, hk, _⟩; omega }
  have hmap : MappingInv { mapping := [(S0, 0)], rev := [S0], trans := [[]] } := by
    intro S j
    simp only [mapFind]
    constructor
    · intro h
      split at h
      · rename_i heq
        cases h
        exact ⟨0, rfl, by rw [heq]; rfl⟩
      · cases h
    · rintro ⟨k, hk, hS⟩
      have hk0 : k = 0 := by
        have := (List.getElem?_eq_some.mp hS).1
        simp at this; omega
      subst hk0
      simp only [List.getElem?_cons_zero, Option.some.injEq] at hS
      rw [if_pos hS.symm, hk]; rfl
  have hpred : PredInv { mapping := [(S0, 0)], rev := [S0], trans := [[]] }
      (DFA.rev { mapping := [(S0, 0)], rev := [S0], trans := [[]] }).length := by
    intro j h0 h1
    simp at h1; omega
  obtain ⟨d1, hd1, hc1, hp1⟩ := subsetLoop_spec n (2 ^ n.universe.length) 0 _ hcore hmap hpred
    (by omega)
  exact ⟨S0, d1, hS0, hd1, hc1, hp1⟩

/-- The function `subsetConstruction` returns on every NFA, and the DFA it
    returns satisfies the invariant of the main loop with every state handled;
    its `mapping` is empty. -/
theorem subsetConstruction_spec (n : NFA) :
    ∃ d, subsetConstruction n = some d ∧ SubsetCore n d d.rev.length 0 d.rev.length ∧
      PredInv d d.rev.length ∧ d.mapping = [] := by
  obtain ⟨S0, d1, hS0, hd1, hc1, hp1⟩ := subsetLoop_start n
  have hprune := pruneDFA_spec (hc1.pruneReady hp1)
  refine ⟨{ d1 with mapping := [] }, ?_, ?_, hp1, rfl⟩
  · unfold subsetConstruction
    simp only [Option.bind_eq_bind, hS0, Option.some_bind, hd1, hprune]
  · exact
    { start0 := hc1.start0
      len_trans := hc1.len_trans
      acc_le := hc1.acc_le
      rev_head := hc1.rev_head
      rev_nodup := hc1.rev_nodup
      rev_sets := hc1.rev_sets
      row_sorted := hc1.row_sorted
      row_none := hc1.row_none
      row_some := hc1.row_some
      row_rest := hc1.row_rest
      accepts_sorted := hc1.accepts_sorted
      accepts_iff := hc1.accepts_iff }

/-! ### The language of the DFA of subsetConstruction -/

theorem NFA.Path.of_eps {n : NFA} {s t q : Int} {w : List Nat}
    (h : Relation.ReflTransGen (EpsStep n) s t) (hp : NFA.Path n t w q) : NFA.Path n s w q := by
  induction h using Relation.ReflTransGen.head_induction_on with
  | refl => exact hp
  | head hstep _ ih => exact NFA.Path.eps hstep ih

theorem NFA.Path.nil_eps {n : NFA} {s q : Int} {w : List Nat} (h : NFA.Path n s w q)
    (hw : w = []) : Relation.ReflTransGen (EpsStep n) s q := by
  induction h with
  | refl => exact Relation.ReflTransGen.refl
  | eps hstep _ ih => exact Relation.ReflTransGen.head hstep (ih hw)
  | sym _ _ _ => cases hw

theorem NFA.Path.cons_split {n : NFA} {s q : Int} {w : List Nat} (h : NFA.Path n s w q)
    {c : Nat} {w' : List Nat} (hw : w = c :: w') :
    ∃ s' r, Relation.ReflTransGen (EpsStep n) s s' ∧ SymStep n c s' r ∧ NFA.Path n r w' q := by
  induction h with
  | refl => cases hw
  | eps hstep _ ih =>
    obtain ⟨s', r, h1, h2, h3⟩ := ih hw
    exact ⟨s', r, Relation.ReflTransGen.head hstep h1, h2, h3⟩
  | sym hstep hp _ =>
    cases hw
    exact ⟨_, _, Relation.ReflTransGen.refl, hstep, hp⟩

theorem closed_of_eps {n : NFA} {S : List Int} (hS : ∀ x ∈ S, ∀ y, EpsStep n x y → y ∈ S)
    {s t : Int} (hs : s ∈ S) (h : Relation.ReflTransGen (EpsStep n) s t) : t ∈ S := by
  induction h with
  | refl => exact hs
  | tail _ hstep ih => exact hS _ ih _ hstep

/-- On the DFA of `subsetConstruction` the run from the state `k` over `w` ends
    in the state whose NFA-set holds the NFA states that paths spelling `w`
    reach from the NFA-set of `k`; it stops short when there are none. -/
theorem dfaRunFrom_subset {n : NFA} {d : DFA} (h : SubsetCore n d d.rev.length 0 d.rev.length)
    (w : List Nat) (hw : ∀ c ∈ w, c < 128) :
    ∀ (k : Nat) (S : List Int), d.rev[k]? = some S →
      (∀ j, dfaRunFrom d (k : Int) w = some j →
        ∃ (jn : Nat) (T : List Int), j = (jn : Int) ∧ d.rev[jn]? = some T ∧
          ∀ q, q ∈ T ↔ ∃ s ∈ S, NFA.Path n s w q) ∧
      (dfaRunFrom d (k : Int) w = none → ∀ q, ¬ ∃ s ∈ S, NFA.Path n s w q) := by
  induction w with
  | nil =>
    intro k S hS
    have hcl := (h.rev_sets S (List.getElem?_mem hS)).2.1
    constructor
    · intro j hj
      simp only [dfaRunFrom, Option.some.injEq] at hj
      refine ⟨k, S, hj.symm, hS, fun q => ⟨fun hq => ⟨q, hq, NFA.Path.refl q⟩, ?_⟩⟩
      rintro ⟨s, hs, hp⟩
      exact closed_of_eps hcl hs (hp.nil_eps rfl)
    · intro hnone; simp [dfaRunFrom] at hnone
  | cons c w ih =>
    intro k S hS
    have hk : k < d.rev.length := (List.getElem?_eq_some.mp hS).1
    have hkt : k < d.trans.length := by rw [h.len_trans]; exact hk
    have hrow : d.trans[k]? = some d.trans[k] := List.getElem?_eq_getElem hkt
    have hcl := (h.rev_sets S (List.getElem?_mem hS)).2.1
    have hb : c < rowBound d.rev.length 0 k := by
      unfold rowBound; rw [if_pos hk]; exact hw c (List.mem_cons_self _ _)
    have hw' : ∀ c ∈ w, c < 128 := fun c' hc' => hw c' (List.mem_cons_of_mem _ hc')
    simp only [dfaRunFrom, vecGet?_natCast, hrow]
    rcases subsetTarget_cases n S c with ⟨hmv, hnone⟩ | ⟨_, T, _, hsome, _, _, _, _, hT⟩
    · rw [h.row_none k _ S c hrow hS hb hnone]
      refine ⟨fun j hj => (by cases hj), fun _ q => ?_⟩
      rintro ⟨s, hs, hp⟩
      obtain ⟨s', r, h1, h2, _⟩ := hp.cons_split rfl
      have : r ∈ moveOnChar n S c :=
        (mem_moveOnChar n S c r).mpr ⟨s', closed_of_eps hcl hs h1, h2⟩
      rw [hmv] at this; cases this
    · obtain ⟨jn, hfind, hjn⟩ := h.row_some k _ S c T hrow hS hb hsome
      rw [hfind]
      simp only []
      have hequiv : ∀ q, (∃ t ∈ T, NFA.Path n t w q) ↔ ∃ s ∈ S, NFA.Path n s (c :: w) q := by
        intro q
        constructor
        · rintro ⟨t, ht, hp⟩
          obtain ⟨m, hm, hmt⟩ := (hT t).mp ht
          obtain ⟨s, hs, hstep⟩ := (mem_moveOnChar n S c m).mp hm
          exact ⟨s, hs, NFA.Path.sym hstep (NFA.Path.of_eps hmt hp)⟩
        · rintro ⟨s, hs, hp⟩
          obtain ⟨s', r, h1, h2, h3⟩ := hp.cons_split rfl
          have hr : r ∈ moveOnChar n S c :=
            (mem_moveOnChar n S c r).mpr ⟨s', closed_of_eps hcl hs h1, h2⟩
          exact ⟨r, (hT r).mpr ⟨r, hr, Relation.ReflTransGen.refl⟩, h3⟩
      obtain ⟨ih1, ih2⟩ := ih hw' jn T hjn
      constructor
      · intro j hj
        obtain ⟨jn', T', h1, h2, h3⟩ := ih1 j hj
        exact ⟨jn', T', h1, h2, fun q => (h3 q).trans (hequiv q)⟩
      · intro hnone q hq
        exact ih2 hnone q ((hequiv q).mpr hq)

/-- The DFA of `subsetConstruction` accepts the words over `0..127` that the
    NFA accepts. -/
theorem dfaAccepts_subset {n : NFA} {d : DFA}
    (h : SubsetCore n d d.rev.length 0 d.rev.length) (w : List Nat) (hw : ∀ c ∈ w, c < 128) :
    dfaAccepts d w = true ↔ n.Accepts w := by
  obtain ⟨S0, hS0, h0⟩ := h.rev_head
  obtain ⟨S0', hS0', _, hmem0⟩ := epsClosure_spec n [n.start] (List.pairwise_singleton _ _)
  rw [hS0] at hS0'; cases hS0'
  have hstart : ∀ q, (∃ s ∈ S0, NFA.Path n s w q) ↔ NFA.Path n n.start w q := by
    intro q
    constructor
    · rintro ⟨s, hs, hp⟩
      obtain ⟨s0, hs0, hr⟩ := (hmem0 s).mp hs
      rw [List.mem_singleton] at hs0; subst hs0
      exact NFA.Path.of_eps hr hp
    · intro hp
      exact ⟨n.start, (hmem0 _).mpr ⟨n.start, List.mem_singleton_self _, Relation.ReflTransGen.refl⟩, hp⟩
  obtain ⟨r1, r2⟩ := dfaRunFrom_subset h w hw 0 S0 h0
  rw [dfaAccepts_iff]
  unfold dfaAcceptsFrom NFA.Accepts
  rw [h.start0]
  constructor
  · rintro ⟨j, hj, hacc⟩
    obtain ⟨jn, T, h1, h2, h3⟩ := r1 j hj
    obtain ⟨k, hk1, _, S, hk3, hany⟩ := (h.accepts_iff j).mp hacc
    have hkj : k = jn := by omega
    subst hkj
    rw [h2] at hk3; cases hk3
    obtain ⟨a, ha, hin⟩ := List.any_eq_true.mp hany
    simp only [decide_eq_true_eq] at hin
    exact ⟨a, (hstart a).mp ((h3 a).mp hin), ha⟩
  · rintro ⟨a, hp, ha⟩
    cases hrun : dfaRunFrom d ((0 : Nat) : Int) w with
    | none => exact absurd ((hstart a).mpr hp) (r2 hrun a)
    | some j =>
      obtain ⟨jn, T, h1, h2, h3⟩ := r1 j hrun
      refine ⟨j, rfl, (h.accepts_iff j).mpr ⟨jn, h1, (List.getElem?_eq_some.mp h2).1, T, h2, ?_⟩⟩
      exact List.any_eq_true.mpr ⟨a, ha, by
        simp only [decide_eq_true_eq]; exact (h3 a).mpr ((hstart a).mpr hp)⟩

/-- The DFA of `subsetConstruction` is well formed. -/
theorem SubsetCore.wf {n : NFA} {d : DFA} (h : SubsetCore n d d.rev.length 0 d.rev.length)
    (hp : PredInv d d.rev.length) : d.WF := by
  have hr := h.pruneReady hp
  refine ⟨hr.len_trans, by rw [hr.start0], by rw [hr.start0]; exact_mod_cast hr.rev_pos, ?_⟩
  intro row hrow kv hkv
  obtain ⟨k, hk, hlt⟩ := hr.row_targets row hrow kv hkv
  rw [hk]
  exact ⟨by omega, by exact_mod_cast hlt⟩

/-- C2. On the DFA that `subsetConstruction` returns, `dfaLongestMatch d s pos`
    is the largest `k ≥ 1` with `pos + k ≤ |s|` such that the run of the DFA from
    its start state over the `k` bytes from offset `pos` finds a transition on
    every byte and ends in an accepting state; it is 0 when there is no such
    `k`. -/
theorem dfaLongestMatch_largest (n : NFA) :
    ∃ d, subsetConstruction n = some d ∧ ∀ (s : List Nat) (pos : Nat),
      ∃ m : Nat, dfaLongestMatch d s pos = some (m : Int) ∧
        (∀ k, 1 ≤ k → pos + k ≤ s.length →
          dfaAccepts d ((s.drop pos).take k) = true → k ≤ m) ∧
        (m ≠ 0 → pos + m ≤ s.length ∧ dfaAccepts d ((s.drop pos).take m) = true) := by
  obtain ⟨d, hd, hcore, hpred, _⟩ := subsetConstruction_spec n
  exact ⟨d, hd, fun s pos => dfaLongestMatch_spec (hcore.wf hpred) s pos⟩

/-- C3. For every NFA and every word `w` over the symbols `0..127`, the DFA
    that `subsetConstruction` returns accepts `w` (its run from the start state
    finds every transition and ends in an accepting state) exactly when some
    path of the NFA from its start state that spells `w`, epsilon moves allowed
    anywhere, ends in an accepting state. -/
theorem subsetConstruction_language (n : NFA) (w : List Nat) (hw : ∀ c ∈ w, c < 128) :
    ∃ d, subsetConstruction n = some d ∧ (dfaAccepts d w = true ↔ n.Accepts w) := by
  obtain ⟨d, hd, hcore, _, _⟩ := subsetConstruction_spec n
  exact ⟨d, hd, dfaAccepts_subset hcore w hw⟩

/-- An NFA with three states, `0 -a-> 1 -eps-> 2 -b-> 2`, and the word `ab`. -/
theorem subsetConstruction_language_witness :
    (∀ c ∈ [97, 98], c < 128) ∧
    ∃ d, subsetConstruction
        { states := [{ id := 0, trans := [(97, [1])] }, { id := 1, eps := [2] },
                     { id := 2, trans := [(98, [2])] }],
          start := 0, accepts := [2] } = some d ∧
      (dfaAccepts d [97, 98] = true ↔
        NFA.Accepts
          { states := [{ id := 0, trans := [(97, [1])] }, { id := 1, eps := [2] },
                       { id := 2, trans := [(98, [2])] }],
            start := 0, accepts := [2] } [97, 98]) :=
  ⟨by decide, subsetConstruction_language _ [97, 98] (by decide)⟩

/-! ### The states, transitions and accepting set of the DFA of subsetConstruction -/

theorem dfaRunFrom_append (d : DFA) (u v : List Nat) :
    ∀ q : Int, dfaRunFrom d q (u ++ v) = (dfaRunFrom d q u).bind (fun r => dfaRunFrom d r v) := by
  induction u with
  | nil => intro q; rfl
  | cons c u ih =>
    intro q
    simp only [List.cons_append, dfaRunFrom]
    cases vecGet? d.trans q with
    | none => rfl
    | some row =>
      simp only []
      cases mapFind row c with
      | none => rfl
      | some nxt => exact ih nxt

/-- C15. Every state index of the DFA that `subsetConstruction` returns is
    reached from the start state by a run over some word, that is by a finite
    sequence of the DFA's own transitions. -/
theorem subsetConstruction_reachable (n : NFA) :
    ∃ d, subsetConstruction n = some d ∧ d.trans.length = d.rev.length ∧
      ∀ k : Nat, k < d.rev.length → ∃ w, dfaRunFrom d d.start w = some (k : Int) := by
  obtain ⟨d, hd, hcore, hpred, _⟩ := subsetConstruction_spec n
  refine ⟨d, hd, hcore.len_trans, ?_⟩
  intro k
  induction k using Nat.strong_induction_on with
  | _ k ih =>
    intro hk
    by_cases hk0 : k = 0
    · subst hk0
      exact ⟨[], by rw [hcore.start0]; rfl⟩
    · obtain ⟨k', c, row, hk', hrow, hfind⟩ := hpred k (by omega) hk
      obtain ⟨w, hw⟩ := ih k' hk' (by omega)
      refine ⟨w ++ [c], ?_⟩
      rw [dfaRunFrom_append, hw]
      simp only [Option.some_bind, dfaRunFrom, vecGet?_natCast, hrow, hfind]

theorem nodup_getElem?_inj {α : Type} {l : List α} (hl : l.Nodup) {i j : Nat} {a : α}
    (hi : l[i]? = some a) (hj : l[j]? = some a) : i = j := by
  obtain ⟨hi1, hi2⟩ := List.getElem?_eq_some.mp hi
  obtain ⟨hj1, hj2⟩ := List.getElem?_eq_some.mp hj
  exact (List.Nodup.getElem_inj_iff hl).mp (hi2.trans hj2.symm)

/-- C16. In the DFA that `subsetConstruction` returns, for every state `i` with
    NFA-set `S` and every symbol `c` below 128: the row of `i` has no entry for
    `c` when `moveOnChar(n, S, c)` is empty; otherwise it has the entry `j`,
    the one state whose NFA-set is `epsClosure(n, moveOnChar(n, S, c))`. The
    keys of a row are strictly ascending, so no state has two targets for the
    same symbol. -/
theorem subsetConstruction_transitions (n : NFA) :
    ∃ d, subsetConstruction n = some d ∧ d.trans.length = d.rev.length ∧
      (∀ row ∈ d.trans, row.Pairwise (fun p q => p.1 < q.1)) ∧
      ∀ (i : Nat) (S : List Int) (row : List (Nat × Int)),
        d.rev[i]? = some S → d.trans[i]? = some row → ∀ c : Nat, c < 128 →
          (moveOnChar n S c = [] → mapFind row c = none) ∧
          (moveOnChar n S c ≠ [] → ∃ (j : Nat) (T : List Int),
            mapFind row c = some (j : Int) ∧ epsClosure n (moveOnChar n S c) = some T ∧
            d.rev[j]? = some T ∧ ∀ j' : Nat, d.rev[j']? = some T → j' = j) := by
  obtain ⟨d, hd, hcore, _, _⟩ := subsetConstruction_spec n
  refine ⟨d, hd, hcore.len_trans, hcore.row_sorted, ?_⟩
  intro i S row hS hrow c hc
  have hi : i < d.rev.length := (List.getElem?_eq_some.mp hS).1
  have hb : c < rowBound d.rev.length 0 i := by unfold rowBound; rw [if_pos hi]; exact hc
  rcases subsetTarget_cases n S c with ⟨hmv, hnone⟩ | ⟨hmv, T, hcl, hsome, _⟩
  · exact ⟨fun _ => hcore.row_none i row S c hrow hS hb hnone, fun h => absurd hmv h⟩
  · refine ⟨fun h => absurd h hmv, fun _ => ?_⟩
    obtain ⟨j, hfind, hj⟩ := hcore.row_some i row S c T hrow hS hb hsome
    exact ⟨j, T, hfind, hcl, hj, fun j' hj' => nodup_getElem?_inj hcore.rev_nodup hj' hj⟩

/-- C17. In the DFA that `subsetConstruction` returns, a state index belongs to
    `d.accepts` exactly when its NFA-set has an element in common with
    `n.accepts`; `d.accepts` holds state indices only. -/
theorem subsetConstruction_accepts (n : NFA) :
    ∃ d, subsetConstruction n = some d ∧
      (∀ j ∈ d.accepts, ∃ i : Nat, j = (i : Int) ∧ i < d.rev.length) ∧
      ∀ (i : Nat) (S : List Int), d.rev[i]? = some S →
        ((i : Int) ∈ d.accepts ↔ ∃ a, a ∈ S ∧ a ∈ n.accepts) := by
  obtain ⟨d, hd, hcore, _, _⟩ := subsetConstruction_spec n
  refine ⟨d, hd, ?_, ?_⟩
  · intro j hj
    obtain ⟨k, h1, h2, _⟩ := (hcore.accepts_iff j).mp hj
    exact ⟨k, h1, h2⟩
  · intro i S hS
    rw [hcore.accepts_iff]
    constructor
    · rintro ⟨k, h1, _, S', h3, h4⟩
      have hki : k = i := by omega
      subst hki
      rw [hS] at h3; cases h3
      obtain ⟨a, ha, hin⟩ := List.any_eq_true.mp h4
      exact ⟨a, by simpa using hin, ha⟩
    · rintro ⟨a, haS, han⟩
      exact ⟨i, rfl, (List.getElem?_eq_some.mp hS).1, S, hS,
        List.any_eq_true.mpr ⟨a, han, by simpa using haS⟩⟩

/-- C18. The DFA that `subsetConstruction` returns has the start state 0, and
    the NFA-set of its state 0 is `epsClosure(n, {n.start})`. -/
theorem subsetConstruction_start (n : NFA) :
    ∃ d, subsetConstruction n = some d ∧ d.start = 0 ∧
      ∃ S0, epsClosure n [n.start] = some S0 ∧ d.rev[0]? = some S0 := by
  obtain ⟨d, hd, hcore, _, _⟩ := subsetConstruction_spec n
  exact ⟨d, hd, hcore.start0, hcore.rev_head⟩

/-- C19. For every NFA and every set `S` of state ids `epsClosure` returns; its
    result is the set of the ids that zero or more epsilon edges reach from a
    member of `S`: it contains `S`, it is closed under the epsilon edges of the
    in-range states, and it lies within every set with these two properties. -/
theorem epsClosure_least (n : NFA) (S : List Int) (hS : S.Pairwise (· < ·)) :
    ∃ r, epsClosure n S = some r ∧ r.Pairwise (· < ·) ∧
      (∀ x, x ∈ r ↔ ∃ s ∈ S, Relation.ReflTransGen (EpsStep n) s x) ∧
      (∀ x ∈ S, x ∈ r) ∧ (∀ x ∈ r, ∀ y, EpsStep n x y → y ∈ r) ∧
      ∀ X : Int → Prop, (∀ x ∈ S, X x) → (∀ x y, X x → EpsStep n x y → X y) →
        ∀ x ∈ r, X x := by
  obtain ⟨r, hr, hsorted, hmem⟩ := epsClosure_spec n S hS
  refine ⟨r, hr, hsorted, hmem, ?_, ?_, ?_⟩
  · intro x hx
    exact (hmem x).mpr ⟨x, hx, Relation.ReflTransGen.refl⟩
  · intro x hx y hy
    obtain ⟨s, hs, hreach⟩ := (hmem x).mp hx
    exact (hmem y).mpr ⟨s, hs, hreach.tail hy⟩
  · intro X hXS hXcl x hx
    obtain ⟨s, hs, hreach⟩ := (hmem x).mp hx
    induction hreach with
    | refl => exact hXS s hs
    | tail hst hstep ih => exact hXcl _ _ (ih ((hmem _).mpr ⟨s, hs, hst⟩)) hstep

/-- The NFA of three states with the epsilon edges `0 → 1 → 2` and the set `{0}`. -/
theorem epsClosure_least_witness :
    ([0] : List Int).Pairwise (· < ·) ∧
    ∃ r, epsClosure { states := [{ id := 0, eps := [1] }, { id := 1, eps := [2] }, { id := 2 }] }
        [0] = some r ∧ r.Pairwise (· < ·) ∧
      (∀ x, x ∈ r ↔ ∃ s ∈ ([0] : List Int), Relation.ReflTransGen
        (EpsStep { states := [{ id := 0, eps := [1] }, { id := 1, eps := [2] }, { id := 2 }] })
        s x) ∧
      (∀ x ∈ ([0] : List Int), x ∈ r) ∧
      (∀ x ∈ r, ∀ y,
        EpsStep { states := [{ id := 0, eps := [1] }, { id := 1, eps := [2] }, { id := 2 }] }
          x y → y ∈ r) ∧
      ∀ X : Int → Prop, (∀ x ∈ ([0] : List Int), X x) →
        (∀ x y, X x →
          EpsStep { states := [{ id := 0, eps := [1] }, { id := 1, eps := [2] }, { id := 2 }] }
            x y → X y) →
        ∀ x ∈ r, X x :=
  ⟨List.pairwise_singleton _ _, epsClosure_least _ [0] (List.pairwise_singleton _ _)⟩

theorem vecGet?_map {α β : Type} (f : α → β) (v : List α) (i : Int) :
    vecGet? (v.map f) i = (vecGet? v i).map f := by
  unfold vecGet?
  split
  · exact List.getElem?_map f v i.toNat
  · rfl

theorem SymStep.of_same_trans {n n' : NFA}
    (h : n'.states.map (fun st => st.trans) = n.states.map (fun st => st.trans))
    {c : Nat} {s t : Int} (hs : SymStep n' c s t) : SymStep n c s t := by
  obtain ⟨st', tgts, h1, h2, h3⟩ := hs
  have h4 : vecGet? (n'.states.map (fun st => st.trans)) s = some st'.trans := by
    rw [vecGet?_map, h1]; rfl
  rw [h, vecGet?_map] at h4
  cases hst : vecGet? n.states s with
  | none => rw [hst] at h4; cases h4
  | some st =>
    rw [hst] at h4
    simp only [Option.map_some', Option.some.injEq] at h4
    exact ⟨st, tgts, hst, by rw [h4]; exact h2, h3⟩

/-- C20. The result of `moveOnChar(n, S, c)` is the set of the ids `t` such
    that some in-range state of `S` has a transition labelled `c` to `t`. It is
    empty when no state of `S` has a transition on `c`, and it is the same for
    every NFA with the same labelled transitions, whatever its epsilon edges. -/
theorem moveOnChar_exact (n : NFA) (S : List Int) (c : Nat) :
    (moveOnChar n S c).Pairwise (· < ·) ∧
      (∀ t, t ∈ moveOnChar n S c ↔ ∃ s ∈ S, SymStep n c s t) ∧
      ((∀ s ∈ S, ∀ t, ¬ SymStep n c s t) → moveOnChar n S c = []) ∧
      ∀ n' : NFA, n'.states.map (fun st => st.trans) = n.states.map (fun st => st.trans) →
        moveOnChar n' S c = moveOnChar n S c := by
  refine ⟨moveOnChar_sorted n S c, mem_moveOnChar n S c, ?_, ?_⟩
  · intro hno
    cases hm : moveOnChar n S c with
    | nil => rfl
    | cons a l =>
      have : a ∈ moveOnChar n S c := by rw [hm]; exact List.mem_cons_self _ _
      obtain ⟨s, hs, hstep⟩ := (mem_moveOnChar n S c a).mp this
      exact absurd hstep (hno s hs a)
  · intro n' h
    refine sorted_ext (moveOnChar_sorted n' S c) (moveOnChar_sorted n S c) (fun t => ?_)
    rw [mem_moveOnChar, mem_moveOnChar]
    constructor
    · rintro ⟨s, hs, hstep⟩; exact ⟨s, hs, hstep.of_same_trans h⟩
    · rintro ⟨s, hs, hstep⟩; exact ⟨s, hs, hstep.of_same_trans h.symm⟩

/-! ### Termination and progress of tokenizeWithDFA -/

theorem tokStep_count {input : List Nat} {dId dNum : DFA} {st1 st2 : TokState}
    (hstep : tokStep input dId dNum st1 = some st2)
    (ih : st1.out.length ≤ st1.i ∧ st1.i ≤ input.length ∧ ∀ t ∈ st1.out, t.text ≠ []) :
    st2.out.length ≤ st2.i ∧ st2.i ≤ input.length ∧ ∀ t ∈ st2.out, t.text ≠ [] := by
  obtain ⟨ih1, ih2, ih3⟩ := ih
  obtain ⟨hlt, hle, _⟩ := tokStep_progress hstep
  obtain ⟨c, hc, hcase⟩ := tokStep_cases hstep
  rcases hcase with ⟨_, hst⟩ | ⟨_, type, len, h1, h2, hadv, _⟩
  · have hout : st2.out = st1.out := by
      subst hst
      split
      · rfl
      · split <;> rfl
    rw [hout]
    exact ⟨by omega, hle, ih3⟩
  · obtain ⟨ho, hi⟩ := advance_out input _ _ _ hadv
    simp only [] at ho hi
    rw [ho]
    refine ⟨by simp only [List.length_append, List.length_singleton]; omega, hle, ?_⟩
    intro t ht
    rcases List.mem_append.mp ht with ht | ht
    · exact ih3 t ht
    · rw [List.mem_singleton] at ht
      subst ht
      simp only []
      intro hnil
      have := congrArg List.length hnil
      simp only [List.length_take, List.length_drop, List.length_nil] at this
      omega

/-- Along the tokenizer loop the output never has more tokens than the cursor
    has passed bytes, the cursor stays within the text, and no token has an
    empty text. -/
theorem tokReach_count {input : List Nat} {dId dNum : DFA} {st : TokState}
    (h : TokReach input dId dNum ⟨0, 1, 1, []⟩ st) :
    st.out.length ≤ st.i ∧ st.i ≤ input.length ∧ ∀ t ∈ st.out, t.text ≠ [] := by
  induction h with
  | refl => exact ⟨Nat.le_refl _, Nat.zero_le _, fun t ht => by cases ht⟩
  | step _ _ hstep ih => exact tokStep_count hstep ih

/-- C13. With the DFAs that `subsetConstruction` returns for any two NFAs,
    `tokenizeWithDFA` returns on every input: both longest matches are 0 or a
    number of bytes from 1 to the number of bytes left, every pass of the loop
    returns and moves the cursor forward by at least one byte and not past the
    end of the text, every token has a non-empty text, and there are at most as
    many tokens as the input has bytes. -/
theorem tokenize_terminates (nId nNum : NFA) :
    ∃ dId dNum, subsetConstruction nId = some dId ∧ subsetConstruction nNum = some dNum ∧
      ∀ input : List Nat,
        (∀ pos : Nat, ∃ a b : Int, dfaLongestMatch dId input pos = some a ∧
          dfaLongestMatch dNum input pos = some b ∧
          (a = 0 ∨ (1 ≤ a ∧ (pos : Int) + a ≤ input.length)) ∧
          (b = 0 ∨ (1 ≤ b ∧ (pos : Int) + b ≤ input.length))) ∧
        (∀ st : TokState, st.i < input.length →
          ∃ st', tokStep input dId dNum st = some st' ∧ st.i < st'.i ∧
            st'.i ≤ input.length) ∧
        ∃ toks, tokenizeWithDFA input dId dNum = some toks ∧ (∀ t ∈ toks, t.text ≠ []) ∧
          toks.length ≤ input.length := by
  obtain ⟨dId, hId, cId, pId, _⟩ := subsetConstruction_spec nId
  obtain ⟨dNum, hNum, cNum, pNum, _⟩ := subsetConstruction_spec nNum
  have wId := cId.wf pId
  have wNum := cNum.wf pNum
  refine ⟨dId, dNum, hId, hNum, fun input => ⟨?_, ?_, ?_⟩⟩
  · intro pos
    obtain ⟨a, ha, _, _⟩ := dfaLongestMatch_spec wId input pos
    obtain ⟨b, hb, _, _⟩ := dfaLongestMatch_spec wNum input pos
    exact ⟨a, b, ha, hb, dfaLongestMatch_bound ha, dfaLongestMatch_bound hb⟩
  · intro st hlt
    obtain ⟨st', hst⟩ := tokStep_some wId wNum hlt
    exact ⟨st', hst, (tokStep_progress hst).1, (tokStep_progress hst).2.1⟩
  · obtain ⟨toks, htoks⟩ := tokenizeWithDFA_some wId wNum input
    obtain ⟨st, hreach, _, hout⟩ := tokLoop_reach input dId dNum _ _ _ htoks
    obtain ⟨h1, h2, h3⟩ := tokReach_count hreach
    rw [hout] at h1 h3
    exact ⟨toks, htoks, h3, by omega⟩

/-! ### The bytes of the tokens of the two built DFAs -/

theorem built_row_keys :
    ∀ row, row ∈ identifierDFA.trans ∨ row ∈ numberDFA.trans →
      ∀ kv ∈ row, isIdentifierChar kv.1 = true ∨ kv.1 = 46 := by
  intro row h
  rcases h with h | h
  · have : ∀ row ∈ identifierDFA.trans, ∀ kv ∈ row, isIdentifierChar kv.1 = true ∨ kv.1 = 46 := by
      decide!
    exact this row h
  · have : ∀ row ∈ numberDFA.trans, ∀ kv ∈ row, isIdentifierChar kv.1 = true ∨ kv.1 = 46 := by
      decide!
    exact this row h

/-- A word accepted by one of the two built DFAs is made of identifier
    characters and dots. -/
theorem built_accepts_keys {d : DFA} (hd : d = identifierDFA ∨ d = numberDFA)
    {w : List Nat} (h : dfaAccepts d w = true) :
    ∀ c ∈ w, isIdentifierChar c = true ∨ c = 46 := by
  intro c hc
  obtain ⟨q, hq, _⟩ := (dfaAccepts_iff _ _).mp h
  obtain ⟨row, hrow, hsome⟩ := dfaRunFrom_keys d w _ _ hq c hc
  cases hf : mapFind row c with
  | none => rw [hf] at hsome; cases hsome
  | some v =>
    exact built_row_keys row (by rcases hd with rfl | rfl; exact Or.inl hrow; exact Or.inr hrow)
      (c, v) (mapFind_mem hf)

theorem key_class {c : Nat} (h : isIdentifierChar c = true ∨ c = 46) :
    isWhitespace c = false ∧ c ∉ operators ∧ c ∉ delimiters := by
  have hc : (65 ≤ c ∧ c ≤ 90) ∨ (97 ≤ c ∧ c ≤ 122) ∨ (48 ≤ c ∧ c ≤ 57) ∨ c = 95 ∨ c = 46 := by
    simp only [isIdentifierChar, isLetter, isDigit, Bool.or_eq_true, Bool.and_eq_true,
      decide_eq_true_eq] at h
    omega
  refine ⟨?_, ?_, ?_⟩
  · simp only [isWhitespace, Bool.or_eq_false_iff, decide_eq_false_iff_not]
    omega
  · simp only [operators, List.mem_cons, List.mem_singleton, List.not_mem_nil, or_false]
    omega
  · simp only [delimiters, List.mem_cons, List.mem_singleton, List.not_mem_nil, or_false]
    omega

theorem operators_not_delimiters {c : Nat} (h : c ∈ operators) : c ∉ delimiters := by
  simp only [operators, List.mem_cons, List.mem_singleton, List.not_mem_nil, or_false] at h
  simp only [delimiters, List.mem_cons, List.mem_singleton, List.not_mem_nil, or_false]
  omega

/-- The longest match of a built DFA, when not 0, covers identifier characters
    and dots only. -/
theorem built_match_keys {d : DFA} (hd : d = identifierDFA ∨ d = numberDFA)
    {input : List Nat} {i len : Nat} (h : dfaLongestMatch d input i = some (len : Int))
    (hlen : 1 ≤ len) :
    ∀ c ∈ (input.drop i).take len, isIdentifierChar c = true ∨ c = 46 := by
  have hwf : d.WF := by rcases hd with rfl | rfl; exact identifierDFA_WF; exact numberDFA_WF
  obtain ⟨m, hm, _, hach⟩ := dfaLongestMatch_spec hwf input i
  rw [hm] at h
  have hmeq : m = len := by simpa using h
  subst hmeq
  exact built_accepts_keys hd (hach (by omega)).2

/-- One pass of the tokenizer loop with the two built DFAs: it skips one
    whitespace byte, or it emits the next `len` bytes as one token, none of
    them whitespace; an Operator or Delimiter token is one byte of that set, and
    the bytes of every other token are neither operators nor delimiters. -/
theorem tokStep_built {input : List Nat} {st st' : TokState}
    (h : tokStep input identifierDFA numberDFA st = some st') :
    (∃ c, input[st.i]? = some c ∧ isWhitespace c = true ∧ st'.i = st.i + 1 ∧
        st'.out = st.out) ∨
    (∃ (type : String) (len : Nat), 1 ≤ len ∧ st.i + len ≤ input.length ∧
        st'.i = st.i + len ∧
        st'.out = st.out ++ [⟨type, (input.drop st.i).take len, st.line, st.col⟩] ∧
        (∀ x ∈ (input.drop st.i).take len, isWhitespace x = false) ∧
        ((type = "Operator" ∧ ∃ c, (input.drop st.i).take len = [c] ∧ c ∈ operators ∧
            c ∉ delimiters) ∨
         (type = "Delimiter" ∧ ∃ c, (input.drop st.i).take len = [c] ∧ c ∈ delimiters ∧
            c ∉ operators) ∨
         (type ≠ "Operator" ∧ type ≠ "Delimiter" ∧
            ∀ x ∈ (input.drop st.i).take len, x ∉ operators ∧ x ∉ delimiters))) := by
  obtain ⟨c, hc, hcase⟩ := tokStep_cases h
  rcases hcase with ⟨hws, hst⟩ | ⟨hws, type, len, h1, h2, hadv, hcls⟩
  · left
    refine ⟨c, hc, hws, ?_, ?_⟩
    · subst hst
      split
      · rfl
      · split <;> rfl
    · subst hst
      split
      · rfl
      · split <;> rfl
  · right
    obtain ⟨ho, hi⟩ := advance_out input _ _ _ hadv
    simp only [] at ho hi
    refine ⟨type, len, h1, h2, hi, ho, ?_⟩
    have hseg1 : len = 1 → (input.drop st.i).take len = [c] := by
      intro hl; subst hl; exact getElem?_take_drop_one hc
    rcases hcls with ⟨hop, ht, hl⟩ | ⟨hop, hdel, ht, hl⟩ | ⟨hop, hdel, lenId, lenNum, hId, hNum, hsub⟩
    · refine ⟨?_, Or.inl ⟨ht, c, hseg1 hl, hop, operators_not_delimiters hop⟩⟩
      rw [hseg1 hl]; intro x hx; rw [List.mem_singleton] at hx; subst hx; exact hws
    · refine ⟨?_, Or.inr (Or.inl ⟨ht, c, hseg1 hl, hdel, hop⟩)⟩
      rw [hseg1 hl]; intro x hx; rw [List.mem_singleton] at hx; subst hx; exact hws
    · rcases hsub with ⟨_, _, ht, hl⟩ | ⟨_, _, heq, ht⟩ | ⟨_, heq, ht⟩
      · refine ⟨?_, Or.inr (Or.inr ⟨by rw [ht]; decide, by rw [ht]; decide, ?_⟩)⟩
        · rw [hseg1 hl]; intro x hx; rw [List.mem_singleton] at hx; subst hx; exact hws
        · rw [hseg1 hl]; intro x hx; rw [List.mem_singleton] at hx; subst hx
          exact ⟨hop, hdel⟩
      · rw [heq] at hId
        have hk := built_match_keys (Or.inl rfl) hId h1
        refine ⟨fun x hx => (key_class (hk x hx)).1, Or.inr (Or.inr ⟨?_, ?_, fun x hx =>
          (key_class (hk x hx)).2⟩)⟩
        · rw [ht]; split <;> decide
        · rw [ht]; split <;> decide
      · rw [heq] at hNum
        have hk := built_match_keys (Or.inr rfl) hNum h1
        exact ⟨fun x hx => (key_class (hk x hx)).1, Or.inr (Or.inr ⟨by rw [ht]; decide,
          by rw [ht]; decide, fun x hx => (key_class (hk x hx)).2⟩)⟩

theorem whitespace_class {c : Nat} (h : isWhitespace c = true) :
    c ∉ operators ∧ c ∉ delimiters := by
  have hc : c = 32 ∨ c = 9 ∨ c = 10 ∨ c = 13 ∨ c = 12 ∨ c = 11 := by
    simp only [isWhitespace, Bool.or_eq_true, decide_eq_true_eq] at h
    omega
  constructor
  · simp only [operators, List.mem_cons, List.mem_singleton, List.not_mem_nil, or_false]
    omega
  · simp only [delimiters, List.mem_cons, List.mem_singleton, List.not_mem_nil, or_false]
    omega

theorem take_succ_of_get {input : List Nat} {i c : Nat} (h : input[i]? = some c) :
    input.take (i + 1) = input.take i ++ [c] := by
  rw [List.take_add, getElem?_take_drop_one h]

/-- A pass of the tokenizer loop that keeps the tokens of type `tag` in step
    with the bytes of the set `P` keeps their texts equal to those bytes. -/
theorem tag_filter_step (tag : String) (P : List Nat) {input : List Nat} {st st' : TokState}
    (ih : (st.out.filter (fun t => decide (t.type = tag))).map (fun t => t.text) =
      ((input.take st.i).filter (fun c => decide (c ∈ P))).map (fun c => [c]))
    (hcase : (∃ c, input[st.i]? = some c ∧ c ∉ P ∧ st'.i = st.i + 1 ∧ st'.out = st.out) ∨
      (∃ (type : String) (len line col : Nat), st'.i = st.i + len ∧
        st'.out = st.out ++ [⟨type, (input.drop st.i).take len, line, col⟩] ∧
        ((type = tag ∧ ∃ c, (input.drop st.i).take len = [c] ∧ c ∈ P) ∨
         (type ≠ tag ∧ ∀ x ∈ (input.drop st.i).take len, x ∉ P)))) :
    (st'.out.filter (fun t => decide (t.type = tag))).map (fun t => t.text) =
      ((input.take st'.i).filter (fun c => decide (c ∈ P))).map (fun c => [c]) := by
  rcases hcase with ⟨c, hc, hcP, hi, ho⟩ | ⟨type, len, line, col, hi, ho, hcls⟩
  · rw [hi, ho, take_succ_of_get hc, List.filter_append, ih]
    have : [c].filter (fun c => decide (c ∈ P)) = [] := by
      rw [List.filter_eq_nil_iff]
      intro a ha; rw [List.mem_singleton] at ha; subst ha; simpa using hcP
    rw [this, List.append_nil]
  · rw [hi, ho, List.take_add, List.filter_append, List.filter_append, List.map_append,
      List.map_append, ih]
    congr 1
    rcases hcls with ⟨ht, c, hseg, hcP⟩ | ⟨ht, hseg⟩
    · rw [hseg]
      have h1 : [c].filter (fun c => decide (c ∈ P)) = [c] := by
        rw [List.filter_eq_self]
        intro a ha; rw [List.mem_singleton] at ha; subst ha; simpa using hcP
      rw [h1]
      simp [ht]
    · have h1 : ((input.drop st.i).take len).filter (fun c => decide (c ∈ P)) = [] := by
        rw [List.filter_eq_nil_iff]
        intro a ha; simpa using hseg a ha
      rw [h1]
      simp [ht]

theorem tokStep_bytes {input : List Nat} {st st' : TokState}
    (hstep : tokStep input identifierDFA numberDFA st = some st')
    (ih : ((st.out.filter (fun t => decide (t.type = "Operator"))).map (fun t => t.text) =
        ((input.take st.i).filter (fun c => decide (c ∈ operators))).map (fun c => [c])) ∧
      ((st.out.filter (fun t => decide (t.type = "Delimiter"))).map (fun t => t.text) =
        ((input.take st.i).filter (fun c => decide (c ∈ delimiters))).map (fun c => [c])) ∧
      ((st.out.map (fun t => t.text)).flatten =
        (input.take st.i).filter (fun c => !isWhitespace c)) ∧
      ∀ t ∈ st.out, ∀ x ∈ t.text, isWhitespace x = false) :
    ((st'.out.filter (fun t => decide (t.type = "Operator"))).map (fun t => t.text) =
      ((input.take st'.i).filter (fun c => decide (c ∈ operators))).map (fun c => [c])) ∧
    ((st'.out.filter (fun t => decide (t.type = "Delimiter"))).map (fun t => t.text) =
      ((input.take st'.i).filter (fun c => decide (c ∈ delimiters))).map (fun c => [c])) ∧
    ((st'.out.map (fun t => t.text)).flatten =
      (input.take st'.i).filter (fun c => !isWhitespace c)) ∧
    ∀ t ∈ st'.out, ∀ x ∈ t.text, isWhitespace x = false := by
  obtain ⟨ih1, ih2, ih3, ih4⟩ := ih
  have hb := tokStep_built hstep
  refine ⟨tag_filter_step "Operator" operators ih1 ?_,
    tag_filter_step "Delimiter" delimiters ih2 ?_, ?_, ?_⟩
  · rcases hb with ⟨c, hc, hws, hi, ho⟩ | ⟨type, len, _, _, hi, ho, _, hcls⟩
    · exact Or.inl ⟨c, hc, (whitespace_class hws).1, hi, ho⟩
    · refine Or.inr ⟨type, len, _, _, hi, ho, ?_⟩
      rcases hcls with ⟨ht, c, hseg, hop, _⟩ | ⟨ht, c, hseg, _, hop⟩ | ⟨ht, _, hseg⟩
      · exact Or.inl ⟨ht, c, hseg, hop⟩
      · refine Or.inr ⟨by rw [ht]; decide, ?_⟩
        rw [hseg]; intro x hx; rw [List.mem_singleton] at hx; subst hx; exact hop
      · exact Or.inr ⟨ht, fun x hx => (hseg x hx).1⟩
  · rcases hb with ⟨c, hc, hws, hi, ho⟩ | ⟨type, len, _, _, hi, ho, _, hcls⟩
    · exact Or.inl ⟨c, hc, (whitespace_class hws).2, hi, ho⟩
    · refine Or.inr ⟨type, len, _, _, hi, ho, ?_⟩
      rcases hcls with ⟨ht, c, hseg, _, hdel⟩ | ⟨ht, c, hseg, hdel, _⟩ | ⟨_, ht, hseg⟩
      · refine Or.inr ⟨by rw [ht]; decide, ?_⟩
        rw [hseg]; intro x hx; rw [List.mem_singleton] at hx; subst hx; exact hdel
      · exact Or.inl ⟨ht, c, hseg, hdel⟩
      · exact Or.inr ⟨ht, fun x hx => (hseg x hx).2⟩
  · rcases hb with ⟨c, hc, hws, hi, ho⟩ | ⟨type, len, _, _, hi, ho, hnows, _⟩
    · rw [hi, ho, take_succ_of_get hc, List.filter_append, ih3]
      have : [c].filter (fun c => !isWhitespace c) = [] := by
        rw [List.filter_eq_nil_iff]
        intro a ha; rw [List.mem_singleton] at ha; subst ha; simp [hws]
      rw [this, List.append_nil]
    · rw [hi, ho, List.take_add, List.filter_append, List.map_append, List.flatten_append, ih3]
      congr 1
      have : ((input.drop st.i).take len).filter (fun c => !isWhitespace c) =
          (input.drop st.i).take len := by
        rw [List.filter_eq_self]
        intro a ha; simp [hnows a ha]
      rw [this]
      simp
  · rcases hb with ⟨c, hc, hws, hi, ho⟩ | ⟨type, len, _, _, hi, ho, hnows, _⟩
    · rw [ho]; exact ih4
    · rw [ho]
      intro t ht
      rcases List.mem_append.mp ht with ht | ht
      · exact ih4 t ht
      · rw [List.mem_singleton] at ht; subst ht; exact hnows

/-- With the built DFAs, along the tokenizer loop: the texts of the Operator
    tokens are the operator bytes before the cursor, the texts of the Delimiter
    tokens are the delimiter bytes before the cursor, the token texts together
    are the bytes before the cursor that are not whitespace, and no token text
    holds a whitespace byte. -/
theorem tokReach_bytes {input : List Nat} {st : TokState}
    (h : TokReach input identifierDFA numberDFA ⟨0, 1, 1, []⟩ st) :
    ((st.out.filter (fun t => decide (t.type = "Operator"))).map (fun t => t.text) =
      ((input.take st.i).filter (fun c => decide (c ∈ operators))).map (fun c => [c])) ∧
    ((st.out.filter (fun t => decide (t.type = "Delimiter"))).map (fun t => t.text) =
      ((input.take st.i).filter (fun c => decide (c ∈ delimiters))).map (fun c => [c])) ∧
    ((st.out.map (fun t => t.text)).flatten =
      (input.take st.i).filter (fun c => !isWhitespace c)) ∧
    ∀ t ∈ st.out, ∀ x ∈ t.text, isWhitespace x = false := by
  induction h with
  | refl => exact ⟨rfl, rfl, rfl, fun t ht => by cases ht⟩
  | step _ _ hstep ih => exact tokStep_bytes hstep ih

/-- The tokens of the tokenizer with the built DFAs, and the state of the loop
    that holds them with the cursor at the end of the text. -/
theorem tokenizeBuilt_final (input : List Nat) :
    ∃ toks st, tokenizeBuilt input = some toks ∧
      TokReach input identifierDFA numberDFA ⟨0, 1, 1, []⟩ st ∧ st.out = toks ∧
      input.take st.i = input := by
  obtain ⟨toks, htoks⟩ := tokenizeBuilt_some input
  have h2 := htoks
  rw [tokenizeBuilt_eq] at h2
  obtain ⟨st, hreach, hend, hout⟩ := tokLoop_reach input _ _ _ _ _ h2
  exact ⟨toks, st, htoks, hreach, hout, List.take_of_length_le (by omega)⟩

/-- C12. With the built DFAs the tokenizer returns on every input; the texts
    of its Operator tokens, in order, are the bytes of the input that belong to
    the operator set, in order, each as a one-byte text, and the texts of its
    Delimiter tokens are in the same way the bytes of the delimiter set. -/
theorem tokenize_operators_delimiters (input : List Nat) :
    ∃ toks, tokenizeBuilt input = some toks ∧
      (toks.filter (fun t => decide (t.type = "Operator"))).map (fun t => t.text) =
        (input.filter (fun c => decide (c ∈ operators))).map (fun c => [c]) ∧
      (toks.filter (fun t => decide (t.type = "Delimiter"))).map (fun t => t.text) =
        (input.filter (fun c => decide (c ∈ delimiters))).map (fun c => [c]) := by
  obtain ⟨toks, st, htoks, hreach, hout, htake⟩ := tokenizeBuilt_final input
  obtain ⟨h1, h2, _, _⟩ := tokReach_bytes hreach
  rw [hout, htake] at h1 h2
  exact ⟨toks, htoks, h1, h2⟩

/-- C14. With the built DFAs the tokenizer returns on every input; the
    concatenation of its token texts, in order, is the input without its
    whitespace bytes, and no token text holds a whitespace byte. -/
theorem tokenize_concat (input : List Nat) :
    ∃ toks, tokenizeBuilt input = some toks ∧
      (toks.map (fun t => t.text)).flatten = input.filter (fun c => !isWhitespace c) ∧
      ∀ t ∈ toks, ∀ x ∈ t.text, isWhitespace x = false := by
  obtain ⟨toks, st, htoks, hreach, hout, htake⟩ := tokenizeBuilt_final input
  obtain ⟨_, _, h3, h4⟩ := tokReach_bytes hreach
  rw [hout, htake] at h3
  rw [hout] at h4
  exact ⟨toks, htoks, h3, h4⟩

/-! ### The first token -/

/-- C9. On a text whose first byte is neither whitespace nor an operator nor a
    delimiter, with any two DFAs whose longest matches at offset 0 are `lenId`
    and `lenNum`, not both 0: the first pass emits a token, which is the first
    token of the result; when `lenId ≥ lenNum` its text is the first `lenId`
    bytes and its type Keyword or Identifier, otherwise its type is Number and
    its text the first `lenNum` bytes. With two well-formed DFAs the tokenizer
    returns, and this token is the first of the list that it returns. -/
theorem tokenize_first_token (dId dNum : DFA) (c : Nat) (rest : List Nat) (lenId lenNum : Int)
    (hws : isWhitespace c = false) (hop : c ∉ operators) (hdel : c ∉ delimiters)
    (hId : dfaLongestMatch dId (c :: rest) 0 = some lenId)
    (hNum : dfaLongestMatch dNum (c :: rest) 0 = some lenNum)
    (hnz : ¬ (lenId = 0 ∧ lenNum = 0)) :
    ∃ t, (∃ st', tokStep (c :: rest) dId dNum ⟨0, 1, 1, []⟩ = some st' ∧ st'.out = [t]) ∧
      (∀ toks, tokenizeWithDFA (c :: rest) dId dNum = some toks → toks.head? = some t) ∧
      (lenNum ≤ lenId → t.text = (c :: rest).take lenId.toNat ∧
          (t.type = "Keyword" ∨ t.type = "Identifier")) ∧
      (lenId < lenNum → t.type = "Number" ∧ t.text = (c :: rest).take lenNum.toNat) ∧
      (dId.WF → dNum.WF →
        ∃ toks, tokenizeWithDFA (c :: rest) dId dNum = some toks ∧ toks.head? = some t) := by
  have bId := dfaLongestMatch_bound hId
  have bNum := dfaLongestMatch_bound hNum
  -- the first pass
  have hstep : ∃ st' t, tokStep (c :: rest) dId dNum ⟨0, 1, 1, []⟩ = some st' ∧ st'.out = [t] ∧
      (lenNum ≤ lenId → t.text = (c :: rest).take lenId.toNat ∧
          (t.type = "Keyword" ∨ t.type = "Identifier")) ∧
      (lenId < lenNum → t.type = "Number" ∧ t.text = (c :: rest).take lenNum.toNat) := by
    simp only [tokStep, List.getElem?_cons_zero, hws, Bool.false_eq_true, if_false, hop, hdel,
      hId, hNum, Option.bind_eq_bind, Option.some_bind, if_neg hnz, List.nil_append]
    by_cases hge : lenId ≥ lenNum
    · rw [if_pos hge]
      obtain ⟨st', hadv, _, hout⟩ := advance_some (c :: rest) lenId.toNat
        ⟨0, 1, 1, [⟨if substr (c :: rest) 0 lenId ∈ keywords then "Keyword" else "Identifier",
          substr (c :: rest) 0 lenId, 1, 1⟩]⟩ (by simp only [List.length_cons] at bId ⊢; omega)
      refine ⟨st', _, hadv, hout, fun _ => ⟨?_, ?_⟩, fun hlt => absurd hlt (by omega)⟩
      · simp only []; rw [substr_of_nonneg _ _ (by omega), List.drop_zero]
      · simp only []; split
        · exact Or.inl rfl
        · exact Or.inr rfl
    · rw [if_neg hge]
      obtain ⟨st', hadv, _, hout⟩ := advance_some (c :: rest) lenNum.toNat
        ⟨0, 1, 1, [⟨"Number", substr (c :: rest) 0 lenNum, 1, 1⟩]⟩
        (by simp only [List.length_cons] at bNum ⊢; omega)
      refine ⟨st', _, hadv, hout, fun hle => absurd hle (by omega), fun _ => ⟨rfl, ?_⟩⟩
      simp only []; rw [substr_of_nonneg _ _ (by omega), List.drop_zero]
  obtain ⟨st', t, hst, hout, h1, h2⟩ := hstep
  have hhead : ∀ toks, tokenizeWithDFA (c :: rest) dId dNum = some toks →
      toks.head? = some t := by
    intro toks htoks
    unfold tokenizeWithDFA at htoks
    simp only [List.length_cons] at htoks
    unfold tokLoop at htoks
    simp only [List.length_cons, Nat.zero_lt_succ, if_true, hst] at htoks
    obtain ⟨l, hl⟩ := tokLoop_prefix _ _ _ _ _ _ htoks
    rw [hl, hout]; rfl
  refine ⟨t, ⟨st', hst, hout⟩, hhead, h1, h2, fun hI hN => ?_⟩
  obtain ⟨toks, htoks⟩ := tokenizeWithDFA_some hI hN (c :: rest)
  exact ⟨toks, htoks, hhead toks htoks⟩

/-- The text `x1 ` with the two built DFAs: the identifier match of length 2
    wins, and the tokenizer returns the one token Identifier `x1`. -/
theorem tokenize_first_token_witness :
    (isWhitespace 120 = false ∧ 120 ∉ operators ∧ 120 ∉ delimiters ∧
      dfaLongestMatch identifierDFA (120 :: [49, 32]) 0 = some 2 ∧
      dfaLongestMatch numberDFA (120 :: [49, 32]) 0 = some 0 ∧ ¬ ((2 : Int) = 0 ∧ (0 : Int) = 0)) ∧
    (∃ t, (∃ st', tokStep (120 :: [49, 32]) identifierDFA numberDFA ⟨0, 1, 1, []⟩ = some st' ∧
          st'.out = [t]) ∧
      (∀ toks, tokenizeWithDFA (120 :: [49, 32]) identifierDFA numberDFA = some toks →
          toks.head? = some t) ∧
      ((0 : Int) ≤ 2 → t.text = (120 :: [49, 32]).take (2 : Int).toNat ∧
          (t.type = "Keyword" ∨ t.type = "Identifier")) ∧
      ((2 : Int) < 0 → t.type = "Number" ∧ t.text = (120 :: [49, 32]).take (0 : Int).toNat) ∧
      (identifierDFA.WF → numberDFA.WF →
        ∃ toks, tokenizeWithDFA (120 :: [49, 32]) identifierDFA numberDFA = some toks ∧
          toks.head? = some t)) ∧
    (identifierDFA.WF ∧ numberDFA.WF ∧
      tokenizeWithDFA (120 :: [49, 32]) identifierDFA numberDFA =
        some [⟨"Identifier", [120, 49], 1, 1⟩]) :=
  ⟨⟨by decide, by decide, by decide, by decide!, by decide!, by decide⟩,
   tokenize_first_token identifierDFA numberDFA 120 [49, 32] 2 0 (by decide) (by decide)
     (by decide) (by decide!) (by decide!) (by decide),
   ⟨identifierDFA_WF, numberDFA_WF, by decide!⟩⟩

/-! ### Scanning after an unrecognized byte -/

theorem dfaLongestMatchLoop_shift (d : DFA) (rest : List Nat) :
    ∀ (i : Nat) (cur last0 last1 : Int),
      ((last0 < 0 ∧ last1 < 0) ∨ (0 ≤ last0 ∧ last1 = last0 + 1)) →
      (dfaLongestMatchLoop d rest i cur last0 = none ∧
        dfaLongestMatchLoop d rest (i + 1) cur last1 = none) ∨
      ∃ L0 L1, dfaLongestMatchLoop d rest i cur last0 = some L0 ∧
        dfaLongestMatchLoop d rest (i + 1) cur last1 = some L1 ∧
        ((L0 < 0 ∧ L1 < 0) ∨ (0 ≤ L0 ∧ L1 = L0 + 1)) := by
  induction rest with
  | nil =>
    intro i cur last0 last1 h
    exact Or.inr ⟨last0, last1, rfl, rfl, h⟩
  | cons c rest ih =>
    intro i cur last0 last1 h
    simp only [dfaLongestMatchLoop]
    cases vecGet? d.trans cur with
    | none => exact Or.inl ⟨rfl, rfl⟩
    | some row =>
      simp only []
      cases mapFind row c with
      | none => exact Or.inr ⟨last0, last1, rfl, rfl, h⟩
      | some nxt =>
        simp only []
        apply ih
        by_cases hacc : nxt ∈ d.accepts
        · rw [if_pos hacc, if_pos hacc]
          right; constructor
          · omega
          · push_cast; ring
        · rw [if_neg hacc, if_neg hacc]; exact h

/-- The longest match at an offset depends on the bytes from that offset on
    only. -/
theorem dfaLongestMatch_cons (d : DFA) (c : Nat) (s : List Nat) (pos : Nat) :
    dfaLongestMatch d (c :: s) (pos + 1) = dfaLongestMatch d s pos := by
  unfold dfaLongestMatch
  split
  · rfl
  · split
    · rfl
    · rw [List.drop_succ_cons]
      rcases dfaLongestMatchLoop_shift d (s.drop pos) pos d.start (-1) (-1)
        (Or.inl ⟨by omega, by omega⟩) with ⟨h0, h1⟩ | ⟨L0, L1, h0, h1, hR⟩
      · rw [h0, h1]; rfl
      · rw [h0, h1]
        simp only [Option.bind_eq_bind, Option.some_bind, Option.some.injEq]
        rcases hR with ⟨ha, hb⟩ | ⟨ha, hb⟩
        · rw [if_neg (by omega), if_neg (by omega)]
        · rw [if_pos (by omega), if_pos (by omega)]
          push_cast; omega

theorem substr_cons (c : Nat) (s : List Nat) (i : Nat) (len : Int) :
    substr (c :: s) (i + 1) len = substr s i len := by
  unfold substr
  rw [List.drop_succ_cons]

theorem advance_shift (c : Nat) (rest : List Nat) :
    ∀ (k : Nat) (s s' : TokState), s.i = s'.i + 1 →
      (advance rest k s' = none ∧ advance (c :: rest) k s = none) ∨
      ∃ r r', advance (c :: rest) k s = some r ∧ advance rest k s' = some r' ∧
        r.i = r'.i + 1 := by
  intro k
  induction k with
  | zero => intro s s' h; exact Or.inr ⟨s, s', rfl, rfl, h⟩
  | succ k ih =>
    intro s s' h
    simp only [advance, h, List.getElem?_cons_succ]
    cases rest[s'.i]? with
    | none => exact Or.inl ⟨rfl, rfl⟩
    | some b =>
      simp only []
      split
      · exact ih _ _ (by simp only [])
      · exact ih _ _ (by simp only [])

/-- One pass of the tokenizer loop on `c :: rest` with the cursor behind `c`
    does what the pass on `rest` does one byte earlier: both stop, or both
    return, the cursors still one byte apart, and they emit nothing or tokens
    of the same type and text. -/
theorem tokStep_shift (dId dNum : DFA) (c : Nat) (rest : List Nat) (s s' : TokState)
    (h : s.i = s'.i + 1) :
    (tokStep rest dId dNum s' = none ∧ tokStep (c :: rest) dId dNum s = none) ∨
    ∃ r r', tokStep (c :: rest) dId dNum s = some r ∧ tokStep rest dId dNum s' = some r' ∧
      r.i = r'.i + 1 ∧
      ((r.out = s.out ∧ r'.out = s'.out) ∨
        ∃ ta tb, r.out = s.out ++ [ta] ∧ r'.out = s'.out ++ [tb] ∧ ta.type = tb.type ∧
          ta.text = tb.text) := by
  unfold tokStep
  rw [h, List.getElem?_cons_succ, dfaLongestMatch_cons, dfaLongestMatch_cons]
  simp only [substr_cons]
  cases rest[s'.i]? with
  | none => exact Or.inl ⟨rfl, rfl⟩
  | some b =>
    simp only []
    by_cases hws : isWhitespace b = true
    · simp only [hws, if_true]
      by_cases h10 : b = 10
      · simp only [h10, if_true]
        exact Or.inr ⟨_, _, rfl, rfl, by simp only [h], Or.inl ⟨rfl, rfl⟩⟩
      · by_cases h13 : b = 13
        · simp only [h13, if_true]
          exact Or.inr ⟨_, _, rfl, rfl, by simp only [h], Or.inl ⟨rfl, rfl⟩⟩
        · simp only [h10, h13, if_false]
          exact Or.inr ⟨_, _, rfl, rfl, by simp only [h], Or.inl ⟨rfl, rfl⟩⟩
    · simp only [hws, Bool.false_eq_true, if_false]
      by_cases hop : b ∈ operators
      · simp only [hop, if_true]
        exact Or.inr ⟨_, _, rfl, rfl, by simp only [h], Or.inr ⟨_, _, rfl, rfl, rfl, rfl⟩⟩
      · by_cases hdel : b ∈ delimiters
        · simp only [hop, hdel, if_true, if_false]
          exact Or.inr ⟨_, _, rfl, rfl, by simp only [h], Or.inr ⟨_, _, rfl, rfl, rfl, rfl⟩⟩
        · simp only [hop, hdel, if_false]
          cases dfaLongestMatch dId rest s'.i with
          | none => exact Or.inl ⟨rfl, rfl⟩
          | some lenId =>
            cases dfaLongestMatch dNum rest s'.i with
            | none => exact Or.inl ⟨rfl, rfl⟩
            | some lenNum =>
              simp only [Option.bind_eq_bind, Option.some_bind]
              by_cases hz : lenId = 0 ∧ lenNum = 0
              · simp only [hz, and_self, if_true]
                exact Or.inr ⟨_, _, rfl, rfl, by simp only [h],
                  Or.inr ⟨_, _, rfl, rfl, rfl, rfl⟩⟩
              · rw [if_neg hz, if_neg hz]
                by_cases hge : lenId ≥ lenNum
                · rw [if_pos hge, if_pos hge]
                  rcases advance_shift c rest lenId.toNat
                    ⟨s'.i + 1, s.line, s.col, s.out ++ [⟨if substr rest s'.i lenId ∈ keywords then
                      "Keyword" else "Identifier", substr rest s'.i lenId, s.line, s.col⟩]⟩
                    { s' with out := s'.out ++ [⟨if substr rest s'.i lenId ∈ keywords then
                      "Keyword" else "Identifier", substr rest s'.i lenId, s'.line, s'.col⟩] }
                    rfl with ⟨h0, h1⟩ | ⟨r, r', h0, h1, hi⟩
                  · exact Or.inl ⟨h0, h1⟩
                  · refine Or.inr ⟨r, r', h0, h1, hi, Or.inr ⟨_, _,
                      (advance_out _ _ _ _ h0).1, (advance_out _ _ _ _ h1).1, rfl, rfl⟩⟩
                · rw [if_neg hge, if_neg hge]
                  rcases advance_shift c rest lenNum.toNat
                    ⟨s'.i + 1, s.line, s.col, s.out ++ [⟨"Number", substr rest s'.i lenNum,
                      s.line, s.col⟩]⟩
                    { s' with out := s'.out ++ [⟨"Number", substr rest s'.i lenNum, s'.line,
                      s'.col⟩] }
                    rfl with ⟨h0, h1⟩ | ⟨r, r', h0, h1, hi⟩
                  · exact Or.inl ⟨h0, h1⟩
                  · refine Or.inr ⟨r, r', h0, h1, hi, Or.inr ⟨_, _,
                      (advance_out _ _ _ _ h0).1, (advance_out _ _ _ _ h1).1, rfl, rfl⟩⟩

/-- The tokenizer loop on `c :: rest` with the cursor behind `c` yields the
    types and texts that the loop on `rest` yields one byte earlier. -/
theorem tokLoop_shift (dId dNum : DFA) (c : Nat) (rest : List Nat) :
    ∀ (fuel : Nat) (s s' : TokState) (pre : List (String × List Nat)), s.i = s'.i + 1 →
      s.out.map (fun t => (t.type, t.text)) = pre ++ s'.out.map (fun t => (t.type, t.text)) →
      (tokLoop (c :: rest) dId dNum fuel s).map (List.map (fun t => (t.type, t.text))) =
        (tokLoop rest dId dNum fuel s').map
          (fun toks => pre ++ toks.map (fun t => (t.type, t.text))) := by
  intro fuel
  induction fuel with
  | zero =>
    intro s s' pre hi hout
    unfold tokLoop
    by_cases hlt : s'.i < rest.length
    · rw [if_pos hlt, if_pos (by simp only [List.length_cons]; omega)]; rfl
    · rw [if_neg hlt, if_neg (by simp only [List.length_cons]; omega)]
      simp only [Option.map_some', hout]
  | succ fuel ih =>
    intro s s' pre hi hout
    unfold tokLoop
    by_cases hlt : s'.i < rest.length
    · rw [if_pos hlt, if_pos (by simp only [List.length_cons]; omega)]
      rcases tokStep_shift dId dNum c rest s s' hi with ⟨h0, h1⟩ | ⟨r, r', h0, h1, hri, hro⟩
      · simp only [h0, h1]; rfl
      · simp only [h0, h1]
        apply ih r r' pre hri
        rcases hro with ⟨ha, hb⟩ | ⟨ta, tb, ha, hb, hty, htx⟩
        · rw [ha, hb]; exact hout
        · rw [ha, hb, List.map_append, List.map_append, hout, List.append_assoc]
          simp only [List.map_cons, List.map_nil, hty, htx]
    · rw [if_neg hlt, if_neg (by simp only [List.length_cons]; omega)]
      simp only [Option.map_some', hout]

/-- C11. On a text `c :: rest` whose first byte is neither whitespace nor an
    operator nor a delimiter, with any two DFAs whose longest matches at
    offset 0 are both 0: the first pass returns and emits the Unknown token of
    text `c`, and the types and texts of the result are this token followed by
    the types and texts that the tokenizer gives on `rest`; the tokenizer
    returns on `c :: rest` exactly when it returns on `rest`. With two
    well-formed DFAs the tokenizer returns on both texts, and the list that it
    returns on `c :: rest` starts with the Unknown token of text `c` at line 1,
    column 1. -/
theorem tokenize_unknown (dId dNum : DFA) (c : Nat) (rest : List Nat)
    (hws : isWhitespace c = false) (hop : c ∉ operators) (hdel : c ∉ delimiters)
    (hId : dfaLongestMatch dId (c :: rest) 0 = some 0)
    (hNum : dfaLongestMatch dNum (c :: rest) 0 = some 0) :
    tokStep (c :: rest) dId dNum ⟨0, 1, 1, []⟩ = some ⟨1, 1, 2, [⟨"Unknown", [c], 1, 1⟩]⟩ ∧
    (tokenizeWithDFA (c :: rest) dId dNum).map (List.map (fun t => (t.type, t.text))) =
      (tokenizeWithDFA rest dId dNum).map
        (fun toks => ("Unknown", [c]) :: toks.map (fun t => (t.type, t.text))) ∧
    (tokenizeWithDFA (c :: rest) dId dNum).isSome = (tokenizeWithDFA rest dId dNum).isSome ∧
    (dId.WF → dNum.WF → ∃ toks toks', tokenizeWithDFA rest dId dNum = some toks ∧
      tokenizeWithDFA (c :: rest) dId dNum = some toks' ∧
      toks'.head? = some ⟨"Unknown", [c], 1, 1⟩ ∧
      toks'.map (fun t => (t.type, t.text)) =
        ("Unknown", [c]) :: toks.map (fun t => (t.type, t.text))) := by
  have hstep : tokStep (c :: rest) dId dNum ⟨0, 1, 1, []⟩ =
      some ⟨1, 1, 2, [⟨"Unknown", [c], 1, 1⟩]⟩ := by
    simp only [tokStep, List.getElem?_cons_zero, hws, Bool.false_eq_true, if_false, hop, hdel,
      hId, hNum, Option.bind_eq_bind, Option.some_bind, and_self, if_true, List.nil_append]
  have heq : (tokenizeWithDFA (c :: rest) dId dNum).map (List.map (fun t => (t.type, t.text))) =
      (tokenizeWithDFA rest dId dNum).map
        (fun toks => ("Unknown", [c]) :: toks.map (fun t => (t.type, t.text))) := by
    unfold tokenizeWithDFA
    simp only [List.length_cons]
    rw [tokLoop, if_pos (by simp)]
    simp only [hstep]
    exact tokLoop_shift dId dNum c rest rest.length _ _ [("Unknown", [c])] rfl rfl
  have hhead : ∀ toks', tokenizeWithDFA (c :: rest) dId dNum = some toks' →
      toks'.head? = some ⟨"Unknown", [c], 1, 1⟩ := by
    intro toks' htoks
    unfold tokenizeWithDFA at htoks
    simp only [List.length_cons] at htoks
    unfold tokLoop at htoks
    simp only [List.length_cons, Nat.zero_lt_succ, if_true, hstep] at htoks
    obtain ⟨l, hl⟩ := tokLoop_prefix _ _ _ _ _ _ htoks
    rw [hl]; rfl
  refine ⟨hstep, heq, ?_, fun hI hN => ?_⟩
  · have h := congrArg Option.isSome heq
    simpa only [Option.isSome_map'] using h
  · obtain ⟨toks, htoks⟩ := tokenizeWithDFA_some hI hN rest
    obtain ⟨toks', htoks'⟩ := tokenizeWithDFA_some hI hN (c :: rest)
    refine ⟨toks, toks', htoks, htoks', hhead toks' htoks', ?_⟩
    rw [htoks, htoks'] at heq
    exact Option.some.inj heq

/-- The text `@a` with the two built DFAs: the tokenizer returns the Unknown
    `@`, then the Identifier `a` that it returns on `a`. -/
theorem tokenize_unknown_witness :
    (isWhitespace 64 = false ∧ 64 ∉ operators ∧ 64 ∉ delimiters ∧
      dfaLongestMatch identifierDFA (64 :: [97]) 0 = some 0 ∧
      dfaLongestMatch numberDFA (64 :: [97]) 0 = some 0) ∧
    (tokStep (64 :: [97]) identifierDFA numberDFA ⟨0, 1, 1, []⟩ =
        some ⟨1, 1, 2, [⟨"Unknown", [64], 1, 1⟩]⟩ ∧
      (tokenizeWithDFA (64 :: [97]) identifierDFA numberDFA).map
          (List.map (fun t => (t.type, t.text))) =
        (tokenizeWithDFA [97] identifierDFA numberDFA).map
          (fun toks => ("Unknown", [64]) :: toks.map (fun t => (t.type, t.text))) ∧
      (tokenizeWithDFA (64 :: [97]) identifierDFA numberDFA).isSome =
        (tokenizeWithDFA [97] identifierDFA numberDFA).isSome ∧
      (identifierDFA.WF → numberDFA.WF → ∃ toks toks',
        tokenizeWithDFA [97] identifierDFA numberDFA = some toks ∧
        tokenizeWithDFA (64 :: [97]) identifierDFA numberDFA = some toks' ∧
        toks'.head? = some ⟨"Unknown", [64], 1, 1⟩ ∧
        toks'.map (fun t => (t.type, t.text)) =
          ("Unknown", [64]) :: toks.map (fun t => (t.type, t.text)))) ∧
    (identifierDFA.WF ∧ numberDFA.WF ∧
      tokenizeWithDFA [97] identifierDFA numberDFA = some [⟨"Identifier", [97], 1, 1⟩] ∧
      tokenizeWithDFA (64 :: [97]) identifierDFA numberDFA =
        some [⟨"Unknown", [64], 1, 1⟩, ⟨"Identifier", [97], 1, 2⟩]) :=
  ⟨⟨by decide, by decide, by decide, by decide!, by decide!⟩,
   tokenize_unknown identifierDFA numberDFA 64 [97] (by decide) (by decide) (by decide)
     (by decide!) (by decide!),
   ⟨identifierDFA_WF, numberDFA_WF, by decide!, by decide!⟩⟩

/-! ### The traced longest match -/

/-- The loop with the trace computes the `lastAcceptPos` of the loop without. -/
theorem dfaLongestMatchWithTraceLoop_fst (d : DFA) (rest : List Nat) :
    ∀ (i : Nat) (cur last : Int) (path : List Int),
      (dfaLongestMatchWithTraceLoop d rest i cur last path).map Prod.fst =
        dfaLongestMatchLoop d rest i cur last := by
  induction rest with
  | nil => intro i cur last path; rfl
  | cons c rest ih =>
    intro i cur last path
    unfold dfaLongestMatchWithTraceLoop dfaLongestMatchLoop
    cases vecGet? d.trans cur with
    | none => rfl
    | some row =>
      simp only []
      cases mapFind row c with
      | none => rfl
      | some nxt => exact ih _ _ _ _

/-- C21. For every DFA, text and offset, the length that
    `dfaLongestMatchWithTrace` returns is the result of `dfaLongestMatch`: the
    one returns exactly when the other does, with the same length. On a
    well-formed DFA both return. -/
theorem dfaLongestMatchWithTrace_length (d : DFA) (s : List Nat) (pos : Nat) :
    (dfaLongestMatchWithTrace d s pos).map Prod.fst = dfaLongestMatch d s pos ∧
      (d.WF → ∃ len path, dfaLongestMatchWithTrace d s pos = some (len, path) ∧
        dfaLongestMatch d s pos = some len) := by
  have key : (dfaLongestMatchWithTrace d s pos).map Prod.fst = dfaLongestMatch d s pos := by
    unfold dfaLongestMatchWithTrace dfaLongestMatch
    by_cases h1 : d.rev.isEmpty = true
    · rw [if_pos h1, if_pos h1]; rfl
    · rw [if_neg h1, if_neg h1]
      by_cases h2 : d.start < 0 ∨ d.start ≥ (d.rev.length : Int)
      · rw [if_pos h2, if_pos h2]; rfl
      · rw [if_neg h2, if_neg h2]
        rw [← dfaLongestMatchWithTraceLoop_fst d (s.drop pos) pos d.start (-1) [d.start]]
        cases dfaLongestMatchWithTraceLoop d (s.drop pos) pos d.start (-1) [d.start] with
        | none => rfl
        | some r => rfl
  refine ⟨key, fun hd => ?_⟩
  obtain ⟨m, hm, -⟩ := dfaLongestMatch_spec hd s pos
  rw [hm] at key
  cases h : dfaLongestMatchWithTrace d s pos with
  | none => rw [h] at key; cases key
  | some r =>
    rw [h] at key
    obtain ⟨len, path⟩ := r
    simp only [Option.map_some', Option.some.injEq] at key
    exact ⟨len, path, by rw [key], by rw [hm, key]⟩

/-- The loop of `dfaLongestMatchWithTrace` on a well-formed DFA returns; it
    appends to the path one state per byte that has a transition, each the
    target of the transition from the state before, and stops at the end of the
    text or at the first byte without a transition. -/
theorem dfaLongestMatchWithTraceLoop_spec {d : DFA} (hd : d.WF) (rest : List Nat) :
    ∀ (i : Nat) (cur last : Int) (path : List Int), 0 ≤ cur → cur < (d.trans.length : Int) →
      ∃ (L : Int) (p : List Int),
        dfaLongestMatchWithTraceLoop d rest i cur last path = some (L, path ++ p) ∧
        p.length ≤ rest.length ∧
        (∀ j : Nat, j < p.length → ∃ (q : Int) (c : Nat) (row : List (Nat × Int)) (q' : Int),
          (cur :: p)[j]? = some q ∧ rest[j]? = some c ∧ vecGet? d.trans q = some row ∧
          mapFind row c = some q' ∧ p[j]? = some q') ∧
        (p.length = rest.length ∨ ∃ (q : Int) (c : Nat) (row : List (Nat × Int)),
          (cur :: p)[p.length]? = some q ∧ rest[p.length]? = some c ∧
          vecGet? d.trans q = some row ∧ mapFind row c = none) ∧
        (L = last ∨ ((i : Int) ≤ L ∧ L < (i : Int) + p.length)) := by
  induction rest with
  | nil =>
    intro i cur last path _ _
    refine ⟨last, [], ?_, le_refl _, ?_, Or.inl rfl, Or.inl rfl⟩
    · simp only [dfaLongestMatchWithTraceLoop, List.append_nil]
    · intro j hj; exact absurd hj (Nat.not_lt_zero _)
  | cons c rest ih =>
    intro i cur last path h0 h1
    obtain ⟨row, hrow⟩ := vecGet?_isSome d.trans cur h0 h1
    unfold dfaLongestMatchWithTraceLoop
    simp only [hrow]
    cases hf : mapFind row c with
    | none =>
      refine ⟨last, [], ?_, Nat.zero_le _, ?_, Or.inr ⟨cur, c, row, by simp, by simp, hrow, hf⟩,
        Or.inl rfl⟩
      · simp only [List.append_nil]
      · intro j hj; exact absurd hj (Nat.not_lt_zero _)
    | some nxt =>
      simp only []
      have hmem := hd.2.2.2 row (vecGet?_mem hrow) (c, nxt) (mapFind_mem hf)
      have hn0 : 0 ≤ nxt := hmem.1
      have hn1 : nxt < (d.trans.length : Int) := by rw [hd.1]; exact hmem.2
      obtain ⟨L, p, hrun, hlen, hchain, hstop, hL⟩ :=
        ih (i + 1) nxt (if nxt ∈ d.accepts then (i : Int) else last) (path ++ [nxt]) hn0 hn1
      refine ⟨L, nxt :: p, ?_, ?_, ?_, ?_, ?_⟩
      · rw [hrun, List.append_assoc]; rfl
      · simp only [List.length_cons]; omega
      · intro j hj
        cases j with
        | zero => exact ⟨cur, c, row, nxt, by simp, by simp, hrow, hf, by simp⟩
        | succ j =>
          simp only [List.length_cons, Nat.add_lt_add_iff_right] at hj
          obtain ⟨q, c', row', q', e1, e2, e3, e4, e5⟩ := hchain j hj
          exact ⟨q, c', row', q', by simpa only [List.getElem?_cons_succ] using e1,
            by simpa only [List.getElem?_cons_succ] using e2, e3, e4,
            by simpa only [List.getElem?_cons_succ] using e5⟩
      · rcases hstop with h | ⟨q, c', row', e1, e2, e3, e4⟩
        · left; simp only [List.length_cons, h]
        · right
          exact ⟨q, c', row', by simpa only [List.length_cons, List.getElem?_cons_succ] using e1,
            by simpa only [List.length_cons, List.getElem?_cons_succ] using e2, e3, e4⟩
      · simp only [List.length_cons, Nat.cast_add, Nat.cast_one] at hL ⊢
        rcases hL with h | ⟨ha, hb⟩
        · by_cases hacc : nxt ∈ d.accepts
          · rw [if_pos hacc] at h; right; omega
          · rw [if_neg hacc] at h; left; exact h
        · right; omega

/-- C22. For the DFA that `subsetConstruction` returns, every text `s` and
    every offset `pos` within it, `dfaLongestMatchWithTrace` returns a length
    and a trace of `1 + k` entries: the first is the start state, entry `j + 1`
    is the target of the transition from entry `j` on the byte `s[pos + j]`, the
    scan stopped after `k` bytes at the end of the text or at a byte with no
    transition, and the trace has at least `1 + length` entries. -/
theorem dfaLongestMatchWithTrace_trace (n : NFA) :
    ∃ d, subsetConstruction n = some d ∧ ∀ (s : List Nat) (pos : Nat), pos ≤ s.length →
      ∃ (len : Int) (path : List Int) (k : Nat),
        dfaLongestMatchWithTrace d s pos = some (len, path) ∧
        path[0]? = some d.start ∧ path.length = 1 + k ∧ pos + k ≤ s.length ∧
        (∀ j : Nat, j < k → ∃ (q : Int) (c : Nat) (row : List (Nat × Int)) (q' : Int),
          path[j]? = some q ∧ s[pos + j]? = some c ∧ vecGet? d.trans q = some row ∧
          mapFind row c = some q' ∧ path[j + 1]? = some q') ∧
        (pos + k = s.length ∨ ∃ (q : Int) (c : Nat) (row : List (Nat × Int)),
          path[k]? = some q ∧ s[pos + k]? = some c ∧ vecGet? d.trans q = some row ∧
          mapFind row c = none) ∧
        0 ≤ len ∧ 1 + len ≤ (path.length : Int) := by
  obtain ⟨d, hd, hcore, hpred, -⟩ := subsetConstruction_spec n
  have hwf : d.WF := SubsetCore.wf hcore hpred
  refine ⟨d, hd, fun s pos hpos => ?_⟩
  have hs0 : 0 ≤ d.start := hwf.2.1
  have hs1 : d.start < (d.rev.length : Int) := hwf.2.2.1
  have hs2 : d.start < (d.trans.length : Int) := by rw [hwf.1]; exact hs1
  obtain ⟨L, p, hrun, hlen, hchain, hstop, hL⟩ :=
    dfaLongestMatchWithTraceLoop_spec hwf (s.drop pos) pos d.start (-1) [d.start] hs0 hs2
  have hne : d.rev.isEmpty = false := by
    cases hr : d.rev with
    | nil => rw [hr] at hs1; simp only [List.length_nil, Nat.cast_zero] at hs1; omega
    | cons a l => rfl
  have hrng : ¬ (d.start < 0 ∨ d.start ≥ (d.rev.length : Int)) := by omega
  have hdl : (s.drop pos).length = s.length - pos := List.length_drop _ _
  refine ⟨if L ≥ 0 then L - (pos : Int) + 1 else 0, d.start :: p, p.length, ?_, by simp, ?_, ?_,
    ?_, ?_, ?_, ?_⟩
  · unfold dfaLongestMatchWithTrace
    rw [hne, if_neg (by simp), if_neg hrng, hrun]
    rfl
  · simp only [List.length_cons]; omega
  · omega
  · intro j hj
    obtain ⟨q, c, row, q', e1, e2, e3, e4, e5⟩ := hchain j hj
    rw [List.getElem?_drop] at e2
    exact ⟨q, c, row, q', e1, e2, e3, e4, by simpa only [List.getElem?_cons_succ] using e5⟩
  · rcases hstop with h | ⟨q, c, row, e1, e2, e3, e4⟩
    · left; omega
    · right
      rw [List.getElem?_drop] at e2
      exact ⟨q, c, row, e1, e2, e3, e4⟩
  · split <;> omega
  · simp only [List.length_cons, Nat.cast_add, Nat.cast_one]
    split <;> omega

/-! ### Rejection by `checkPDA` -/

/-- A word that `checkPDA` accepts leaves every stack as it found it. -/
theorem checkPDALoop_accepted {u : List Nat} (hu : checkPDA u = true) (stk rest : List Nat) :
    checkPDALoop stk (u ++ rest) = checkPDALoop stk rest := by
  have hb : Balanced (u.filter isBracket) := by
    have := checkPDALoop_closes u [] hu
    cases this with
    | done hw => exact hw
  rw [← checkPDALoop_filter (u ++ rest), List.filter_append, checkPDALoop_balanced hb,
    checkPDALoop_filter]

/-- After any prefix the loop of `checkPDA` has returned false or goes on with
    some stack. -/
theorem checkPDALoop_prefix (p : List Nat) :
    ∀ (stk rest : List Nat), checkPDALoop stk (p ++ rest) = false ∨
      ∃ stk', checkPDALoop stk (p ++ rest) = checkPDALoop stk' rest := by
  induction p with
  | nil => intro stk rest; exact Or.inr ⟨stk, rfl⟩
  | cons c p ih =>
    intro stk rest
    rw [List.cons_append]
    by_cases ho : c = 40 ∨ c = 123 ∨ c = 91
    · have e : checkPDALoop stk (c :: (p ++ rest)) = checkPDALoop (c :: stk) (p ++ rest) := by
        simp only [checkPDALoop, ho, if_true]
      rw [e]; exact ih _ _
    · by_cases hc : c = 41 ∨ c = 125 ∨ c = 93
      · cases stk with
        | nil =>
          left
          simp only [checkPDALoop, ho, hc, if_true, if_false]
        | cons top stk' =>
          by_cases ht : top ≠ pairsAt c
          · left
            simp only [checkPDALoop, ho, hc, if_true, if_false, if_pos ht]
          · have e : checkPDALoop (top :: stk') (c :: (p ++ rest)) =
                checkPDALoop stk' (p ++ rest) := by
              simp only [checkPDALoop, ho, hc, if_true, if_false, if_neg ht]
            rw [e]; exact ih _ _
      · have e : checkPDALoop stk (c :: (p ++ rest)) = checkPDALoop stk (p ++ rest) := by
          simp only [checkPDALoop, ho, hc, if_false]
        rw [e]; exact ih _ _

/-- C23. A closing bracket that cannot be matched makes `checkPDA` return false
    whatever follows: after a word that `checkPDA` accepts, where the stack is
    empty, and after an opening bracket of another kind followed by a word that
    `checkPDA` accepts, where the top of the stack does not match. -/
theorem checkPDA_rejects :
    (∀ (u : List Nat) (c : Nat) (t : List Nat), checkPDA u = true →
      (c = 41 ∨ c = 125 ∨ c = 93) → checkPDA (u ++ c :: t) = false) ∧
    (∀ (p : List Nat) (o : Nat) (v : List Nat) (c : Nat) (t : List Nat),
      (o = 40 ∨ o = 123 ∨ o = 91) → checkPDA v = true → (c = 41 ∨ c = 125 ∨ c = 93) →
      ¬ IsPair o c → checkPDA (p ++ o :: (v ++ c :: t)) = false) := by
  constructor
  · intro u c t hu hc
    unfold checkPDA
    rw [checkPDALoop_accepted hu]
    rcases hc with h | h | h <;> subst h <;> rfl
  · intro p o v c t ho hv hc hpair
    unfold checkPDA
    rcases checkPDALoop_prefix p [] (o :: (v ++ c :: t)) with h | ⟨stk, h⟩
    · exact h
    · rw [h]
      have h1 : checkPDALoop stk (o :: (v ++ c :: t)) = checkPDALoop (o :: stk) (v ++ c :: t) := by
        simp only [checkPDALoop, ho, if_true]
      rw [h1, checkPDALoop_accepted hv]
      have hno : ¬ (c = 40 ∨ c = 123 ∨ c = 91) := by omega
      have htop : o ≠ pairsAt c := by
        intro he
        apply hpair
        unfold IsPair
        rcases hc with h | h | h <;> subst h
        · left; exact ⟨he, rfl⟩
        · right; left; exact ⟨he, rfl⟩
        · right; right; exact ⟨he, rfl⟩
      simp only [checkPDALoop, hno, hc, if_true, if_false, if_pos htop]

/-- The texts `())(` and `x([]}`: the second and the fifth byte cannot be
    matched. -/
theorem checkPDA_rejects_witness :
    (checkPDA (bytes "()") = true ∧ checkPDA (bytes "()" ++ 41 :: bytes "(") = false) ∧
    (checkPDA (bytes "[]") = true ∧ ¬ IsPair 40 125 ∧
      checkPDA (bytes "x" ++ 40 :: (bytes "[]" ++ 125 :: [])) = false) :=
  ⟨⟨by decide, checkPDA_rejects.1 (bytes "()") 41 (bytes "(") (by decide) (by decide)⟩,
   ⟨by decide, (by unfold IsPair; decide),
    checkPDA_rejects.2 (bytes "x") 40 (bytes "[]") 125 [] (by decide) (by decide) (by decide)
      (by unfold IsPair; decide)⟩⟩

/-- C24. `checkPDA` returns true on `(a[b]{c})`, false on `(a[b)]` and true on
    the empty string. -/
theorem checkPDA_examples :
    checkPDA (bytes "(a[b]{c})") = true ∧ checkPDA (bytes "(a[b)]") = false ∧
      checkPDA (bytes "") = true := by
  decide

/-- C25. With the DFAs that `subsetConstruction` returns for the two built
    NFAs: the identifier DFA matches 6 bytes of `abc123 ` at offset 0, the
    number DFA matches 3 bytes of `123abc`, and the identifier DFA matches none
    of `123abc`. -/
theorem longestMatch_examples :
    ∃ idDFA numDFA, buildIdentifierNFA_thompson.bind subsetConstruction = some idDFA ∧
      buildNumberNFA_thompson.bind subsetConstruction = some numDFA ∧
      dfaLongestMatch idDFA (bytes "abc123 ") 0 = some 6 ∧
      dfaLongestMatch numDFA (bytes "123abc") 0 = some 3 ∧
      dfaLongestMatch idDFA (bytes "123abc") 0 = some 0 :=
  ⟨identifierDFA, numberDFA, identifierDFA_built, numberDFA_built, by decide!, by decide!,
    by decide!⟩

/-! ### Bytes outside the ASCII range -/

/-- The main loop of `subsetConstruction` sets transitions on symbols below 128
    only. -/
theorem SubsetCore.keys_lt {n : NFA} {d : DFA}
    (h : SubsetCore n d d.rev.length 0 d.rev.length) :
    ∀ row ∈ d.trans, ∀ kv ∈ row, kv.1 < 128 := by
  intro row hrow kv hkv
  obtain ⟨k, hk, hget⟩ := List.getElem_of_mem hrow
  have hget' : d.trans[k]? = some row := by rw [List.getElem?_eq_getElem hk, hget]
  by_contra hge
  have hb : rowBound d.rev.length 0 k ≤ kv.1 := by
    unfold rowBound
    rw [h.len_trans] at hk
    rw [if_pos hk]; omega
  have hnone := h.row_rest k row kv.1 hget' hb
  have hsome := mapFind_of_mem_sorted (h.row_sorted row hrow) (show (kv.1, kv.2) ∈ row from hkv)
  rw [hnone] at hsome
  cases hsome

/-- On a byte that labels no transition of a well-formed DFA the longest match
    is 0. -/
theorem dfaLongestMatch_no_key {d : DFA} (hd : d.WF) {c : Nat}
    (hc : ∀ row ∈ d.trans, mapFind row c = none) {s : List Nat} {pos : Nat}
    (hs : s[pos]? = some c) : dfaLongestMatch d s pos = some 0 := by
  obtain ⟨hlt, hget⟩ := List.getElem?_eq_some.mp hs
  have hs0 : 0 ≤ d.start := hd.2.1
  have hs1 : d.start < (d.rev.length : Int) := hd.2.2.1
  have hs2 : d.start < (d.trans.length : Int) := by rw [hd.1]; exact hs1
  have hne : d.rev.isEmpty = false := by
    cases hr : d.rev with
    | nil => rw [hr] at hs1; simp only [List.length_nil, Nat.cast_zero] at hs1; omega
    | cons a l => rfl
  have hrng : ¬ (d.start < 0 ∨ d.start ≥ (d.rev.length : Int)) := by omega
  obtain ⟨row, hrow⟩ := vecGet?_isSome d.trans d.start hs0 hs2
  unfold dfaLongestMatch
  rw [hne, if_neg (by simp), if_neg hrng, List.drop_eq_getElem_cons hlt, hget]
  simp only [dfaLongestMatchLoop, hrow, hc row (vecGet?_mem hrow), Option.bind_eq_bind,
    Option.some_bind]
  rfl

theorem key_lt {c : Nat} (h : isIdentifierChar c = true ∨ c = 46) : c < 128 := by
  rcases h with h | h
  · exact isIdentifierChar_lt h
  · omega

theorem special_lt {c : Nat} (h : isWhitespace c = true ∨ c ∈ operators ∨ c ∈ delimiters) :
    c < 128 := by
  rcases h with h | h | h
  · simp only [isWhitespace, Bool.or_eq_true, decide_eq_true_eq] at h
    omega
  · simp only [operators, List.mem_cons, List.mem_singleton, List.not_mem_nil, or_false] at h
    omega
  · simp only [delimiters, List.mem_cons, List.mem_singleton, List.not_mem_nil, or_false] at h
    omega

/-- One pass of the tokenizer loop with the built DFAs skips a byte below 128,
    emits a token whose bytes are all below 128, or emits the Unknown token of
    one byte that is 128 or more. -/
theorem tokStep_high {input : List Nat} {st st' : TokState}
    (h : tokStep input identifierDFA numberDFA st = some st') :
    (∃ c, input[st.i]? = some c ∧ c < 128 ∧ st'.i = st.i + 1 ∧ st'.out = st.out) ∨
    (∃ (type : String) (len : Nat), st'.i = st.i + len ∧
        st'.out = st.out ++ [⟨type, (input.drop st.i).take len, st.line, st.col⟩] ∧
        ((∀ x ∈ (input.drop st.i).take len, x < 128) ∨
         (type = "Unknown" ∧ ∃ c, (input.drop st.i).take len = [c] ∧ 128 ≤ c))) := by
  obtain ⟨c, hc, hcase⟩ := tokStep_cases h
  rcases hcase with ⟨hws, hst⟩ | ⟨hws, type, len, h1, h2, hadv, hcls⟩
  · left
    refine ⟨c, hc, special_lt (Or.inl hws), ?_, ?_⟩
    · subst hst
      split
      · rfl
      · split <;> rfl
    · subst hst
      split
      · rfl
      · split <;> rfl
  · right
    obtain ⟨ho, hi⟩ := advance_out input _ _ _ hadv
    simp only [] at ho hi
    refine ⟨type, len, hi, ho, ?_⟩
    have hseg1 : len = 1 → (input.drop st.i).take len = [c] := by
      intro hl; subst hl; exact getElem?_take_drop_one hc
    have hone : len = 1 → c < 128 → ∀ x ∈ (input.drop st.i).take len, x < 128 := by
      intro hl hlt x hx
      rw [hseg1 hl, List.mem_singleton] at hx
      subst hx; exact hlt
    rcases hcls with ⟨hop, _, hl⟩ | ⟨_, hdel, _, hl⟩ | ⟨_, _, lenId, lenNum, hId, hNum, hsub⟩
    · exact Or.inl (hone hl (special_lt (Or.inr (Or.inl hop))))
    · exact Or.inl (hone hl (special_lt (Or.inr (Or.inr hdel))))
    · rcases hsub with ⟨_, _, ht, hl⟩ | ⟨_, _, heq, _⟩ | ⟨_, heq, _⟩
      · by_cases hlt : c < 128
        · exact Or.inl (hone hl hlt)
        · exact Or.inr ⟨ht, c, hseg1 hl, by omega⟩
      · rw [heq] at hId
        exact Or.inl (fun x hx => key_lt (built_match_keys (Or.inl rfl) hId h1 x hx))
      · rw [heq] at hNum
        exact Or.inl (fun x hx => key_lt (built_match_keys (Or.inr rfl) hNum h1 x hx))

/-- A pass of the tokenizer loop with the built DFAs keeps the tokens that hold
    a byte of 128 or more in step with these bytes of the text. -/
theorem tokStep_high_filter {input : List Nat} {st st' : TokState}
    (hstep : tokStep input identifierDFA numberDFA st = some st')
    (ih : (st.out.filter (fun t => t.text.any (fun x => decide (128 ≤ x)))).map
        (fun t => (t.type, t.text)) =
      ((input.take st.i).filter (fun c => decide (128 ≤ c))).map (fun c => ("Unknown", [c]))) :
    (st'.out.filter (fun t => t.text.any (fun x => decide (128 ≤ x)))).map
        (fun t => (t.type, t.text)) =
      ((input.take st'.i).filter (fun c => decide (128 ≤ c))).map
        (fun c => ("Unknown", [c])) := by
  rcases tokStep_high hstep with ⟨c, hc, hlt, hi, ho⟩ | ⟨type, len, hi, ho, hcls⟩
  · rw [hi, ho, take_succ_of_get hc, List.filter_append, ih]
    have : [c].filter (fun c => decide (128 ≤ c)) = [] := by
      rw [List.filter_eq_nil_iff]
      intro a ha; rw [List.mem_singleton] at ha; subst ha
      simp only [decide_eq_true_eq]; omega
    rw [this, List.append_nil]
  · rw [hi, ho, List.take_add, List.filter_append, List.filter_append, List.map_append,
      List.map_append, ih]
    congr 1
    rcases hcls with hlow | ⟨ht, c, hseg, hge⟩
    · have h1 : ((input.drop st.i).take len).filter (fun c => decide (128 ≤ c)) = [] := by
        rw [List.filter_eq_nil_iff]
        intro a ha
        have := hlow a ha
        simp only [decide_eq_true_eq]; omega
      have h2 : ((input.drop st.i).take len).any (fun x => decide (128 ≤ x)) = false := by
        rw [List.any_eq_false]
        intro a ha
        have := hlow a ha
        simp only [decide_eq_true_eq]; omega
      rw [h1]
      simp only [List.filter_cons, h2, Bool.false_eq_true, if_false, List.filter_nil,
        List.map_nil]
    · rw [hseg, ht]
      have h1 : [c].filter (fun c => decide (128 ≤ c)) = [c] := by
        rw [List.filter_eq_self]
        intro a ha; rw [List.mem_singleton] at ha; subst ha
        simpa only [decide_eq_true_eq] using hge
      have h2 : [c].any (fun x => decide (128 ≤ x)) = true := by
        simp only [List.any_cons, List.any_nil, Bool.or_false, decide_eq_true_eq]; exact hge
      rw [h1]
      simp only [List.filter_cons, h2, if_true, List.filter_nil, List.map_cons, List.map_nil]

theorem tokReach_high {input : List Nat} {st : TokState}
    (h : TokReach input identifierDFA numberDFA ⟨0, 1, 1, []⟩ st) :
    (st.out.filter (fun t => t.text.any (fun x => decide (128 ≤ x)))).map
        (fun t => (t.type, t.text)) =
      ((input.take st.i).filter (fun c => decide (128 ≤ c))).map
        (fun c => ("Unknown", [c])) := by
  induction h with
  | refl => rfl
  | step _ _ hstep ih => exact tokStep_high_filter hstep ih

/-- C27. Every transition of the DFA that `subsetConstruction` returns, for any
    NFA, is labelled with a symbol below 128, so its longest match is 0 at
    every offset that holds a byte of 128 or more. With the built DFAs the
    tokens that hold such a byte are, in order, the Unknown tokens of one byte
    for the bytes of 128 or more of the text, in order. -/
theorem subsetConstruction_ascii (n : NFA) :
    (∃ d, subsetConstruction n = some d ∧ (∀ row ∈ d.trans, ∀ kv ∈ row, kv.1 < 128) ∧
      ∀ (s : List Nat) (pos c : Nat), s[pos]? = some c → 128 ≤ c →
        dfaLongestMatch d s pos = some 0) ∧
    ∀ input : List Nat, ∃ toks, tokenizeBuilt input = some toks ∧
      (toks.filter (fun t => t.text.any (fun x => decide (128 ≤ x)))).map
          (fun t => (t.type, t.text)) =
        (input.filter (fun c => decide (128 ≤ c))).map (fun c => ("Unknown", [c])) := by
  constructor
  · obtain ⟨d, hd, hcore, hpred, -⟩ := subsetConstruction_spec n
    have hkeys := SubsetCore.keys_lt hcore
    refine ⟨d, hd, hkeys, fun s pos c hs hge => ?_⟩
    apply dfaLongestMatch_no_key (SubsetCore.wf hcore hpred) _ hs
    intro row hrow
    cases hf : mapFind row c with
    | none => rfl
    | some v =>
      have := hkeys row hrow (c, v) (mapFind_mem hf)
      simp only [] at this
      omega
  · intro input
    obtain ⟨toks, st, htoks, hreach, hout, htake⟩ := tokenizeBuilt_final input
    have h := tokReach_high hreach
    rw [hout, htake] at h
    exact ⟨toks, htoks, h⟩

/-! ### An empty character class -/

/-- C26. The NFA around `makeCharClass` on an empty symbol list has two states
    and no edge; `subsetConstruction` returns on it the DFA of the one state
    `{0}`, not accepting and without transitions, and `dfaLongestMatch` with
    this DFA returns 0 on every text at every offset. -/
theorem emptyClass_dfa :
    ∃ n d, emptyClassNFA = some n ∧ n.states.length = 2 ∧ n.start = 0 ∧ n.accepts = [1] ∧
      subsetConstruction n = some d ∧ d.rev = [[0]] ∧ d.trans = [[]] ∧ d.accepts = [] ∧
      d.start = 0 ∧ ∀ (s : List Nat) (pos : Nat), dfaLongestMatch d s pos = some 0 := by
  refine ⟨{ states := [{ id := 0 }, { id := 1 }], start := 0, accepts := [1] },
    { rev := [[0]], trans := [[]] }, by decide!, rfl, rfl, rfl, by decide!, rfl, rfl, rfl, rfl,
    fun s pos => ?_⟩
  unfold dfaLongestMatch
  rw [if_neg (by decide), if_neg (by decide)]
  cases s.drop pos with
  | nil => rfl
  | cons c rest => rfl

/-! ### The size of the DFA -/

theorem mem_universe_cases {n : NFA} {x : Int} (h : x ∈ n.universe) :
    x = n.start ∨ ∃ st ∈ n.states, x ∈ st.eps ∨ ∃ kv ∈ st.trans, x ∈ kv.2 := by
  unfold NFA.universe at h
  rcases List.mem_cons.mp h with h | h
  · exact Or.inl h
  · right
    obtain ⟨l, hl, hx⟩ := List.mem_flatten.mp h
    obtain ⟨st, hst, rfl⟩ := List.mem_map.mp hl
    refine ⟨st, hst, ?_⟩
    rcases List.mem_append.mp hx with hx | hx
    · exact Or.inl hx
    · right
      obtain ⟨l', hl', hx'⟩ := List.mem_flatten.mp hx
      obtain ⟨kv, hkv, rfl⟩ := List.mem_map.mp hl'
      exact ⟨kv, hkv, hx'⟩

/-- C28. On every NFA `subsetConstruction` returns, and so does `epsClosure` on
    every set; the DFA has at least one state, and when the start and all
    targets of the NFA are indices of its states the DFA has at most `2 ^ m`
    states, `m` being the number of states of the NFA. -/
theorem subsetConstruction_size (n : NFA) :
    (∀ S : List Int, S.Pairwise (· < ·) → ∃ T, epsClosure n S = some T) ∧
    ∃ d, subsetConstruction n = some d ∧ 1 ≤ d.rev.length ∧
      ((0 ≤ n.start ∧ n.start < (n.states.length : Int)) → n.TargetsValid →
        d.rev.length ≤ 2 ^ n.states.length) := by
  constructor
  · intro S hS
    obtain ⟨T, hT, -⟩ := epsClosure_spec n S hS
    exact ⟨T, hT⟩
  · obtain ⟨d, hd, hcore, -, -⟩ := subsetConstruction_spec n
    refine ⟨d, hd, ?_, fun hstart htgt => ?_⟩
    · obtain ⟨S0, -, h0⟩ := hcore.rev_head
      have := (List.getElem?_eq_some.mp h0).1
      omega
    · have hU : ∀ x ∈ n.universe, x ∈ (List.range n.states.length).map (fun k : Nat => (k : Int)) := by
        intro x hx
        have hr : 0 ≤ x ∧ x < (n.states.length : Int) := by
          rcases mem_universe_cases hx with h | ⟨st, hst, h | ⟨kv, hkv, h⟩⟩
          · rw [h]; exact hstart
          · exact (htgt st hst).1 x h
          · exact (htgt st hst).2 kv hkv x h
        rw [List.mem_map]
        refine ⟨x.toNat, List.mem_range.mpr (by omega), by omega⟩
      have := subsets_length_le ((List.range n.states.length).map (fun k : Nat => (k : Int)))
        d.rev hcore.rev_nodup
        (fun S hS => ⟨(hcore.rev_sets S hS).1, fun x hx => hU x ((hcore.rev_sets S hS).2.2 x hx)⟩)
      simpa only [List.length_map, List.length_range] using this

/-! ### The combinators of `nfa.cpp` -/

theorem vecGet?_set {α : Type} (v : List α) (k : Nat) (a : α) (q : Int) (hk : k < v.length) :
    vecGet? (v.set k a) q = if q = (k : Int) then some a else vecGet? v q := by
  unfold vecGet?
  by_cases h0 : 0 ≤ q
  · rw [if_pos h0, if_pos h0, List.getElem?_set]
    by_cases hq : q = (k : Int)
    · subst hq
      simp only [Int.toNat_ofNat, if_true, hk]
    · rw [if_neg hq, if_neg (by omega)]
  · rw [if_neg h0, if_neg h0, if_neg (by omega)]

theorem NFA.Keeps.keeps_refl (n : NFA) : n.Keeps n :=
  ⟨rfl, rfl, fun _ st h => ⟨st, h, rfl⟩, fun _ _ h => h, fun _ _ _ h => h⟩

theorem NFA.Keeps.trans {n n1 n2 : NFA} (h1 : n.Keeps n1) (h2 : n1.Keeps n2) : n.Keeps n2 := by
  obtain ⟨a1, b1, c1, d1, e1⟩ := h1
  obtain ⟨a2, b2, c2, d2, e2⟩ := h2
  refine ⟨a2.trans a1, b2.trans b1, fun i st h => ?_, fun q r h => d2 q r (d1 q r h),
    fun c q r h => e2 c q r (e1 c q r h)⟩
  obtain ⟨st1, hs1, hid1⟩ := c1 i st h
  obtain ⟨st2, hs2, hid2⟩ := c2 i st1 hs1
  exact ⟨st2, hs2, hid2.trans hid1⟩

theorem NFA.Ext.comp {n n1 n2 : NFA} {j k : Nat} (h1 : n.Ext n1 j) (h2 : n1.Ext n2 k) :
    n.Ext n2 (j + k) :=
  ⟨by rw [h2.len, h1.len, Nat.add_assoc], h1.keeps.trans h2.keeps, fun h => h2.ids (h1.ids h),
    fun h => h2.tgts (h1.tgts h)⟩

/-- The method `newState` appends one state without edges, its id being its
    index. -/
theorem newState_ext (n : NFA) :
    n.newState.2 = (n.states.length : Int) ∧ n.Ext n.newState.1 1 ∧
      (∀ q r, EpsStep n.newState.1 q r ↔ EpsStep n q r) ∧
      (∀ c q r, SymStep n.newState.1 c q r ↔ SymStep n c q r) := by
  have hget : ∀ (q : Int) (st : NFAState), vecGet? n.newState.1.states q = some st →
      vecGet? n.states q = some st ∨ (st.eps = [] ∧ st.trans = []) := by
    intro q st h
    unfold vecGet? at h ⊢
    by_cases h0 : 0 ≤ q
    · rw [if_pos h0] at h ⊢
      simp only [NFA.newState] at h
      by_cases hq : q.toNat < n.states.length
      · rw [List.getElem?_append_left hq] at h; exact Or.inl h
      · rw [List.getElem?_append_right (by omega)] at h
        right
        cases hk : q.toNat - n.states.length with
        | zero =>
          rw [hk] at h
          simp only [List.getElem?_cons_zero, Option.some.injEq] at h
          subst h; exact ⟨rfl, rfl⟩
        | succ m => rw [hk] at h; simp at h
    · rw [if_neg h0] at h; cases h
  have hold : ∀ (q : Int) (st : NFAState), vecGet? n.states q = some st →
      vecGet? n.newState.1.states q = some st := by
    intro q st h
    unfold vecGet? at h ⊢
    by_cases h0 : 0 ≤ q
    · rw [if_pos h0] at h ⊢
      simp only [NFA.newState]
      rw [List.getElem?_append_left (List.getElem?_eq_some.mp h).1]; exact h
    · rw [if_neg h0] at h; cases h
  refine ⟨rfl, ⟨?_, ⟨rfl, rfl, ?_, ?_, ?_⟩, ?_, ?_⟩, ?_, ?_⟩
  · simp only [NFA.newState, List.length_append, List.length_singleton]
  · intro i st h
    refine ⟨st, ?_, rfl⟩
    simp only [NFA.newState]
    rw [List.getElem?_append_left (List.getElem?_eq_some.mp h).1]; exact h
  · rintro q r ⟨st, hst, hr⟩; exact ⟨st, hold q st hst, hr⟩
  · rintro c q r ⟨st, tg, hst, hf, hr⟩; exact ⟨st, tg, hold q st hst, hf, hr⟩
  · intro hids i hi
    simp only [NFA.newState, List.length_append, List.length_singleton] at hi ⊢
    by_cases hlt : i < n.states.length
    · rw [List.getElem?_append_left hlt]; exact hids i hlt
    · have : i = n.states.length := by omega
      subst this
      rw [List.getElem?_append_right (le_refl _)]
      simp only [Nat.sub_self, List.getElem?_cons_zero, Option.map_some']
  · intro htg st hst
    simp only [NFA.newState, List.mem_append, List.mem_singleton, List.length_append,
      List.length_singleton, Nat.cast_add, Nat.cast_one] at hst ⊢
    rcases hst with hst | hst
    · obtain ⟨h1, h2⟩ := htg st hst
      exact ⟨fun x hx => ⟨(h1 x hx).1, by have := (h1 x hx).2; omega⟩,
        fun kv hkv x hx => ⟨(h2 kv hkv x hx).1, by have := (h2 kv hkv x hx).2; omega⟩⟩
    · subst hst
      exact ⟨fun x hx => (by cases hx), fun kv hkv => (by cases hkv)⟩
  · intro q r
    constructor
    · rintro ⟨st, hst, hr⟩
      rcases hget q st hst with h | ⟨h, -⟩
      · exact ⟨st, h, hr⟩
      · rw [h] at hr; cases hr
    · rintro ⟨st, hst, hr⟩; exact ⟨st, hold q st hst, hr⟩
  · intro c q r
    constructor
    · rintro ⟨st, tg, hst, hf, hr⟩
      rcases hget q st hst with h | ⟨-, h⟩
      · exact ⟨st, tg, h, hf, hr⟩
      · rw [h] at hf; cases hf
    · rintro ⟨st, tg, hst, hf, hr⟩; exact ⟨st, tg, hold q st hst, hf, hr⟩

/-- The NFA with its state `k` replaced by a state of the same id. -/
theorem setState_spec (n n' : NFA) (k : Nat) (st st' : NFAState)
    (hn : n'.states = n.states.set k st') (hk : n.states[k]? = some st)
    (hid : st'.id = st.id) :
    (∀ q : Int, vecGet? (n.states.set k st') q =
      if q = (k : Int) then some st' else vecGet? n.states q) ∧
    (∀ (i : Nat) (sti : NFAState), n.states[i]? = some sti →
      ∃ sti', n'.states[i]? = some sti' ∧ sti'.id = sti.id) ∧
    (n.IdsValid → n'.IdsValid) ∧
    (((∀ x ∈ st'.eps, 0 ≤ x ∧ x < (n.states.length : Int)) ∧
        ∀ kv ∈ st'.trans, ∀ x ∈ kv.2, 0 ≤ x ∧ x < (n.states.length : Int)) →
      n.TargetsValid → n'.TargetsValid) := by
  have hlt : k < n.states.length := (List.getElem?_eq_some.mp hk).1
  have hi : ∀ (i : Nat) (sti : NFAState), n.states[i]? = some sti →
      ∃ sti', n'.states[i]? = some sti' ∧ sti'.id = sti.id := by
    intro i sti h
    rw [hn, List.getElem?_set]
    by_cases hki : k = i
    · subst hki
      rw [if_pos rfl, if_pos hlt]
      rw [hk] at h
      exact ⟨st', rfl, by rw [hid, Option.some.inj h]⟩
    · rw [if_neg hki]; exact ⟨sti, h, rfl⟩
  refine ⟨fun q => vecGet?_set _ _ _ _ hlt, hi, ?_, ?_⟩
  · intro hids
    unfold NFA.IdsValid
    intro i hlen
    rw [hn, List.length_set] at hlen
    have h := hids i hlen
    cases hsi : n.states[i]? with
    | none => rw [hsi] at h; cases h
    | some sti =>
      rw [hsi] at h
      obtain ⟨sti', h1, h2⟩ := hi i sti hsi
      simp only [h1, Option.map_some', h2]
      exact h
  · intro hnew htg
    unfold NFA.TargetsValid
    rw [hn]
    intro s hs
    rw [List.length_set]
    rcases List.mem_or_eq_of_mem_set hs with h | h
    · exact htg s h
    · subst h; exact hnew

/-- The edges of the NFA with its state `k` replaced by the state `st'`. -/
theorem setState_steps (n n' : NFA) (k : Nat) (st st' : NFAState)
    (hn : n'.states = n.states.set k st') (hk : n.states[k]? = some st) :
    (∀ r, EpsStep n (k : Int) r ↔ r ∈ st.eps) ∧
    (∀ c r, SymStep n c (k : Int) r ↔ ∃ tg, mapFind st.trans c = some tg ∧ r ∈ tg) ∧
    (∀ q r, EpsStep n' q r ↔
      (q ≠ (k : Int) ∧ EpsStep n q r) ∨ (q = (k : Int) ∧ r ∈ st'.eps)) ∧
    (∀ c q r, SymStep n' c q r ↔
      (q ≠ (k : Int) ∧ SymStep n c q r) ∨
        (q = (k : Int) ∧ ∃ tg, mapFind st'.trans c = some tg ∧ r ∈ tg)) := by
  unfold EpsStep SymStep
  rw [hn]
  have hlt : k < n.states.length := (List.getElem?_eq_some.mp hk).1
  have hst : vecGet? n.states (k : Int) = some st := by rw [vecGet?_natCast]; exact hk
  have hget : ∀ q : Int, vecGet? (n.states.set k st') q =
      if q = (k : Int) then some st' else vecGet? n.states q :=
    fun q => vecGet?_set _ _ _ _ hlt
  refine ⟨fun r => ?_, fun c r => ?_, fun q r => ?_, fun c q r => ?_⟩
  · constructor
    · rintro ⟨s, hs, hr⟩
      rw [hst] at hs
      rw [Option.some.inj hs]; exact hr
    · intro hr; exact ⟨st, hst, hr⟩
  · constructor
    · rintro ⟨s, tg, hs, hf, hr⟩
      rw [hst] at hs
      rw [← Option.some.inj hs] at hf
      exact ⟨tg, hf, hr⟩
    · rintro ⟨tg, hf, hr⟩; exact ⟨st, tg, hst, hf, hr⟩
  · by_cases hq : q = (k : Int)
    · constructor
      · rintro ⟨s, hs, hr⟩
        have hs' : vecGet? (n.states.set k st') q = some s := hs
        rw [hget q, if_pos hq] at hs'
        rw [← Option.some.inj hs'] at hr
        exact Or.inr ⟨hq, hr⟩
      · rintro (⟨hne, -⟩ | ⟨-, hr⟩)
        · exact absurd hq hne
        · refine ⟨st', ?_, hr⟩
          rw [hget q, if_pos hq]
    · constructor
      · rintro ⟨s, hs, hr⟩
        have hs' : vecGet? (n.states.set k st') q = some s := hs
        rw [hget q, if_neg hq] at hs'
        exact Or.inl ⟨hq, s, hs', hr⟩
      · rintro (⟨-, s, hs, hr⟩ | ⟨he, -⟩)
        · refine ⟨s, ?_, hr⟩
          rw [hget q, if_neg hq]; exact hs
        · exact absurd he hq
  · by_cases hq : q = (k : Int)
    · constructor
      · rintro ⟨s, tg, hs, hf, hr⟩
        have hs' : vecGet? (n.states.set k st') q = some s := hs
        rw [hget q, if_pos hq] at hs'
        rw [← Option.some.inj hs'] at hf
        exact Or.inr ⟨hq, tg, hf, hr⟩
      · rintro (⟨hne, -⟩ | ⟨-, tg, hf, hr⟩)
        · exact absurd hq hne
        · refine ⟨st', tg, ?_, hf, hr⟩
          rw [hget q, if_pos hq]
    · constructor
      · rintro ⟨s, tg, hs, hf, hr⟩
        have hs' : vecGet? (n.states.set k st') q = some s := hs
        rw [hget q, if_neg hq] at hs'
        exact Or.inl ⟨hq, s, tg, hs', hf, hr⟩
      · rintro (⟨-, s, tg, hs, hf, hr⟩ | ⟨he, -⟩)
        · refine ⟨s, tg, ?_, hf, hr⟩
          rw [hget q, if_neg hq]; exact hs
        · exact absurd he hq

/-- The method `addEps` on a state of the NFA returns; it adds the one epsilon
    edge and nothing else. -/
theorem addEps_ext (n : NFA) (src dst : Int) (hs0 : 0 ≤ src)
    (hs1 : src < (n.states.length : Int)) :
    ∃ n', n.addEps src dst = some n' ∧ n'.states.length = n.states.length ∧ n.Keeps n' ∧
      (n.IdsValid → n'.IdsValid) ∧
      ((0 ≤ dst ∧ dst < (n.states.length : Int)) → n.TargetsValid → n'.TargetsValid) ∧
      (∀ q r, EpsStep n' q r ↔ EpsStep n q r ∨ (q = src ∧ r = dst)) ∧
      (∀ c q r, SymStep n' c q r ↔ SymStep n c q r) := by
  obtain ⟨k, rfl⟩ : ∃ k : Nat, src = (k : Int) := ⟨src.toNat, by omega⟩
  have hlt : k < n.states.length := by omega
  obtain ⟨st, hst⟩ : ∃ st, n.states[k]? = some st :=
    ⟨n.states[k], List.getElem?_eq_getElem hlt⟩
  obtain ⟨st', hst'⟩ : ∃ st' : NFAState, st' = { st with eps := setInsert dst st.eps } :=
    ⟨_, rfl⟩
  obtain ⟨n', hn'⟩ : ∃ n' : NFA, n' = { n with states := n.states.set k st' } := ⟨_, rfl⟩
  have hn : n'.states = n.states.set k st' := by rw [hn']
  obtain ⟨-, hids, hidv, htv⟩ := setState_spec n n' k st st' hn hst (by rw [hst'])
  obtain ⟨he0, hs0', he1, hs1'⟩ := setState_steps n n' k st st' hn hst
  have heps : ∀ q r, EpsStep n' q r ↔ EpsStep n q r ∨ (q = (k : Int) ∧ r = dst) := by
    intro q r
    rw [he1 q r]
    by_cases hq : q = (k : Int)
    · subst hq
      rw [he0 r, hst']
      simp only [ne_eq, not_true_eq_false, false_and, true_and, false_or]
      rw [mem_setInsert]; exact Or.comm
    · simp only [ne_eq, hq, not_false_eq_true, true_and, false_and, or_false]
  have hsym : ∀ c q r, SymStep n' c q r ↔ SymStep n c q r := by
    intro c q r
    rw [hs1' c q r]
    by_cases hq : q = (k : Int)
    · subst hq
      rw [hs0' c r, hst']
      simp only [ne_eq, not_true_eq_false, false_and, true_and, false_or]
    · simp only [ne_eq, hq, not_false_eq_true, true_and, false_and, or_false]
  refine ⟨n', ?_, by rw [hn, List.length_set], ⟨by rw [hn'], by rw [hn'], hids,
    fun q r h => (heps q r).mpr (Or.inl h), fun c q r h => (hsym c q r).mpr h⟩, hidv, ?_, heps,
    hsym⟩
  · unfold NFA.addEps
    rw [vecModify?_natCast _ hst, hn', hst']; rfl
  · intro hd htg
    apply htv _ htg
    have hold := htg st (List.getElem?_mem hst)
    rw [hst']
    refine ⟨fun x hx => ?_, hold.2⟩
    rcases mem_setInsert.mp hx with h | h
    · rw [h]; exact hd
    · exact hold.1 x h

/-- The method `addTrans` on a state of the NFA returns; it adds the one
    labelled transition and nothing else. -/
theorem addTrans_ext (n : NFA) (src : Int) (c : Nat) (dst : Int) (hs0 : 0 ≤ src)
    (hs1 : src < (n.states.length : Int)) :
    ∃ n', n.addTrans src c dst = some n' ∧ n'.states.length = n.states.length ∧ n.Keeps n' ∧
      (n.IdsValid → n'.IdsValid) ∧
      ((0 ≤ dst ∧ dst < (n.states.length : Int)) → n.TargetsValid → n'.TargetsValid) ∧
      (∀ q r, EpsStep n' q r ↔ EpsStep n q r) ∧
      (∀ c' q r, SymStep n' c' q r ↔ SymStep n c' q r ∨ (c' = c ∧ q = src ∧ r = dst)) := by
  obtain ⟨k, rfl⟩ : ∃ k : Nat, src = (k : Int) := ⟨src.toNat, by omega⟩
  have hlt : k < n.states.length := by omega
  obtain ⟨st, hst⟩ : ∃ st, n.states[k]? = some st :=
    ⟨n.states[k], List.getElem?_eq_getElem hlt⟩
  obtain ⟨st', hst'⟩ : ∃ st' : NFAState, st' =
      { st with trans := mapSet c (setInsert dst ((mapFind st.trans c).getD [])) st.trans } :=
    ⟨_, rfl⟩
  obtain ⟨n', hn'⟩ : ∃ n' : NFA, n' = { n with states := n.states.set k st' } := ⟨_, rfl⟩
  have hn : n'.states = n.states.set k st' := by rw [hn']
  obtain ⟨-, hids, hidv, htv⟩ := setState_spec n n' k st st' hn hst (by rw [hst'])
  obtain ⟨he0, hs0', he1, hs1'⟩ := setState_steps n n' k st st' hn hst
  have heps : ∀ q r, EpsStep n' q r ↔ EpsStep n q r := by
    intro q r
    rw [he1 q r]
    by_cases hq : q = (k : Int)
    · subst hq
      rw [he0 r, hst']
      simp only [ne_eq, not_true_eq_false, false_and, true_and, false_or]
    · simp only [ne_eq, hq, not_false_eq_true, true_and, false_and, or_false]
  have hsym : ∀ c' q r, SymStep n' c' q r ↔
      SymStep n c' q r ∨ (c' = c ∧ q = (k : Int) ∧ r = dst) := by
    intro c' q r
    rw [hs1' c' q r]
    by_cases hq : q = (k : Int)
    · subst hq
      rw [hs0' c' r, hst']
      simp only [ne_eq, not_true_eq_false, false_and, true_and, false_or, mapFind_mapSet]
      by_cases hc : c' = c
      · subst hc
        simp only [if_true, Option.some.injEq, true_and, exists_eq_left']
        rw [mem_setInsert]
        cases hm : mapFind st.trans c' with
        | none =>
          simp only [Option.getD_none, List.not_mem_nil, or_false, false_and, exists_false,
            false_or, reduceCtorEq]
        | some tg0 =>
          simp only [Option.getD_some, Option.some.injEq, exists_eq_left']
          exact Or.comm
      · simp only [hc, if_false, false_and, or_false]
    · simp only [ne_eq, hq, not_false_eq_true, true_and, false_and, and_false, or_false]
  refine ⟨n', ?_, by rw [hn, List.length_set], ⟨by rw [hn'], by rw [hn'], hids,
    fun q r h => (heps q r).mpr h, fun c' q r h => (hsym c' q r).mpr (Or.inl h)⟩, hidv, ?_,
    heps, hsym⟩
  · unfold NFA.addTrans
    rw [vecModify?_natCast _ hst, hn', hst']; rfl
  · intro hd htg
    apply htv _ htg
    have hold := htg st (List.getElem?_mem hst)
    rw [hst']
    refine ⟨hold.1, fun kv hkv x hx => ?_⟩
    rcases mem_mapSet hkv with h | h
    · subst h
      rcases mem_setInsert.mp hx with h | h
      · rw [h]; exact hd
      · cases hm : mapFind st.trans c with
        | none => rw [hm] at h; cases h
        | some tg0 =>
          rw [hm] at h
          exact hold.2 (c, tg0) (mapFind_mem hm) x h
    · exact hold.2 kv h x hx

theorem NFA.Ext.ext_refl (n : NFA) : n.Ext n 0 :=
  ⟨rfl, NFA.Keeps.keeps_refl n, fun h => h, fun h => h⟩

theorem addEps_step (n : NFA) (src dst : Int)
    (hs : 0 ≤ src ∧ src < (n.states.length : Int)) (hd : 0 ≤ dst ∧ dst < (n.states.length : Int)) :
    ∃ n', n.addEps src dst = some n' ∧ n.Ext n' 0 := by
  obtain ⟨n', h, hlen, hk, hi, ht, -, -⟩ := addEps_ext n src dst hs.1 hs.2
  exact ⟨n', h, ⟨hlen, hk, hi, ht hd⟩⟩

theorem addTrans_step (n : NFA) (src : Int) (c : Nat) (dst : Int)
    (hs : 0 ≤ src ∧ src < (n.states.length : Int)) (hd : 0 ≤ dst ∧ dst < (n.states.length : Int)) :
    ∃ n', n.addTrans src c dst = some n' ∧ n.Ext n' 0 := by
  obtain ⟨n', h, hlen, hk, hi, ht, -, -⟩ := addTrans_ext n src c dst hs.1 hs.2
  exact ⟨n', h, ⟨hlen, hk, hi, ht hd⟩⟩

/-- Two calls of `newState` append two states; their ids are the old length
    and the old length plus one. -/
theorem newState_twice (n : NFA) :
    n.newState.2 = (n.states.length : Int) ∧
      n.newState.1.newState.2 = (n.states.length : Int) + 1 ∧
      n.Ext n.newState.1.newState.1 2 := by
  obtain ⟨hs, hx1, -, -⟩ := newState_ext n
  obtain ⟨ht, hx2, -, -⟩ := newState_ext n.newState.1
  refine ⟨hs, ?_, hx1.comp hx2⟩
  rw [ht, hx1.len]; push_cast; rfl

theorem makeChar_ext (n : NFA) (c : Nat) :
    ∃ n', makeChar n c =
        some (n', ⟨(n.states.length : Int), (n.states.length : Int) + 1⟩) ∧ n.Ext n' 2 := by
  obtain ⟨hs, ht, hx⟩ := newState_twice n
  have e : makeChar n c =
      if c = 0 then
        (n.newState.1.newState.1.addEps n.newState.2 n.newState.1.newState.2).bind
          (fun n' => some (n', ⟨n.newState.2, n.newState.1.newState.2⟩))
      else
        (n.newState.1.newState.1.addTrans n.newState.2 c n.newState.1.newState.2).bind
          (fun n' => some (n', ⟨n.newState.2, n.newState.1.newState.2⟩)) := rfl
  rw [e, hs, ht]
  have hlen := hx.len
  have hsr : 0 ≤ (n.states.length : Int) ∧
      (n.states.length : Int) < (n.newState.1.newState.1.states.length : Int) := by
    rw [hlen]; push_cast; omega
  have htr : 0 ≤ (n.states.length : Int) + 1 ∧
      (n.states.length : Int) + 1 < (n.newState.1.newState.1.states.length : Int) := by
    rw [hlen]; push_cast; omega
  by_cases hc : c = 0
  · obtain ⟨n3, h3, hx3⟩ := addEps_step _ _ _ hsr htr
    rw [if_pos hc, h3]
    exact ⟨n3, rfl, hx.comp hx3⟩
  · obtain ⟨n3, h3, hx3⟩ := addTrans_step _ _ c _ hsr htr
    rw [if_neg hc, h3]
    exact ⟨n3, rfl, hx.comp hx3⟩

/-- A call of `addEps` between states of an NFA that extends `n`. -/
theorem addEps_chain {n m : NFA} {k : Nat} (hx : n.Ext m k) (src dst : Int)
    (hs : 0 ≤ src ∧ src < (n.states.length : Int) + k)
    (hd : 0 ≤ dst ∧ dst < (n.states.length : Int) + k) :
    ∃ m', m.addEps src dst = some m' ∧ n.Ext m' k := by
  have hlen := hx.len
  obtain ⟨m', h, hx'⟩ := addEps_step m src dst (by rw [hlen]; push_cast; exact hs)
    (by rw [hlen]; push_cast; exact hd)
  exact ⟨m', h, hx.comp hx'⟩

theorem addTrans_fold (s t : Int) (allowed : List Nat) :
    ∀ m : NFA, (0 ≤ s ∧ s < (m.states.length : Int)) → (0 ≤ t ∧ t < (m.states.length : Int)) →
      ∃ m', allowed.foldlM (fun n c => n.addTrans s c t) m = some m' ∧ m.Ext m' 0 := by
  induction allowed with
  | nil => intro m _ _; exact ⟨m, rfl, NFA.Ext.ext_refl m⟩
  | cons c rest ih =>
    intro m hs ht
    obtain ⟨m1, h1, hx1⟩ := addTrans_step m s c t hs ht
    have hlen := hx1.len
    obtain ⟨m2, h2, hx2⟩ := ih m1 (by rw [hlen]; exact hs) (by rw [hlen]; exact ht)
    refine ⟨m2, ?_, hx1.comp hx2⟩
    rw [List.foldlM_cons, h1]
    exact h2

theorem makeCharClass_ext (n : NFA) (allowed : List Nat) :
    ∃ n', makeCharClass n allowed =
        some (n', ⟨(n.states.length : Int), (n.states.length : Int) + 1⟩) ∧ n.Ext n' 2 := by
  obtain ⟨hs, ht, hx⟩ := newState_twice n
  have e : makeCharClass n allowed =
      (allowed.foldlM (fun (m : NFA) c => m.addTrans n.newState.2 c n.newState.1.newState.2)
        n.newState.1.newState.1).bind
        (fun n' => some (n', ⟨n.newState.2, n.newState.1.newState.2⟩)) := rfl
  rw [e, hs, ht]
  have hlen := hx.len
  obtain ⟨n3, h3, hx3⟩ := addTrans_fold (n.states.length : Int) ((n.states.length : Int) + 1)
    allowed n.newState.1.newState.1 (by rw [hlen]; push_cast; omega)
    (by rw [hlen]; push_cast; omega)
  rw [h3]
  exact ⟨n3, rfl, hx.comp hx3⟩

theorem concatFrag_ext (n : NFA) (a b : Fragment) (ha : a.InRange n) (hb : b.InRange n) :
    ∃ n', concatFrag n a b = some (n', ⟨a.start, b.accept⟩) ∧ n.Ext n' 0 ∧
      (∀ q r, EpsStep n' q r ↔ EpsStep n q r ∨ (q = a.accept ∧ r = b.start)) ∧
      (∀ c q r, SymStep n' c q r ↔ SymStep n c q r) := by
  obtain ⟨n', h, hlen, hk, hi, ht, he, hsym⟩ := addEps_ext n a.accept b.start ha.2.1 ha.2.2
  have e : concatFrag n a b =
      (n.addEps a.accept b.start).bind (fun n' => some (n', ⟨a.start, b.accept⟩)) := rfl
  rw [e, h]
  exact ⟨n', rfl, ⟨hlen, hk, hi, ht hb.1⟩, he, hsym⟩

theorem altFrag_ext (n : NFA) (a b : Fragment) (ha : a.InRange n) (hb : b.InRange n) :
    ∃ n', altFrag n a b =
        some (n', ⟨(n.states.length : Int), (n.states.length : Int) + 1⟩) ∧ n.Ext n' 2 := by
  obtain ⟨hs, ht, hx⟩ := newState_twice n
  have e : altFrag n a b =
      (n.newState.1.newState.1.addEps n.newState.2 a.start).bind (fun n3 =>
        (n3.addEps n.newState.2 b.start).bind (fun n4 =>
          (n4.addEps a.accept n.newState.1.newState.2).bind (fun n5 =>
            (n5.addEps b.accept n.newState.1.newState.2).bind (fun n6 =>
              some (n6, ⟨n.newState.2, n.newState.1.newState.2⟩))))) := rfl
  rw [e, hs, ht]
  obtain ⟨⟨a0, a1⟩, ⟨a2, a3⟩⟩ := ha
  obtain ⟨⟨b0, b1⟩, ⟨b2, b3⟩⟩ := hb
  obtain ⟨n3, h3, x3⟩ := addEps_chain hx (n.states.length : Int) a.start
    (by push_cast; omega) (by push_cast; omega)
  obtain ⟨n4, h4, x4⟩ := addEps_chain x3 (n.states.length : Int) b.start
    (by push_cast; omega) (by push_cast; omega)
  obtain ⟨n5, h5, x5⟩ := addEps_chain x4 a.accept ((n.states.length : Int) + 1)
    (by push_cast; omega) (by push_cast; omega)
  obtain ⟨n6, h6, x6⟩ := addEps_chain x5 b.accept ((n.states.length : Int) + 1)
    (by push_cast; omega) (by push_cast; omega)
  simp only [h3, h4, h5, h6, Option.some_bind]
  exact ⟨n6, rfl, x6⟩

theorem starFrag_ext (n : NFA) (a : Fragment) (ha : a.InRange n) :
    ∃ n', starFrag n a =
        some (n', ⟨(n.states.length : Int), (n.states.length : Int) + 1⟩) ∧ n.Ext n' 2 := by
  obtain ⟨hs, ht, hx⟩ := newState_twice n
  have e : starFrag n a =
      (n.newState.1.newState.1.addEps n.newState.2 a.start).bind (fun n3 =>
        (n3.addEps n.newState.2 n.newState.1.newState.2).bind (fun n4 =>
          (n4.addEps a.accept a.start).bind (fun n5 =>
            (n5.addEps a.accept n.newState.1.newState.2).bind (fun n6 =>
              some (n6, ⟨n.newState.2, n.newState.1.newState.2⟩))))) := rfl
  rw [e, hs, ht]
  obtain ⟨⟨a0, a1⟩, ⟨a2, a3⟩⟩ := ha
  obtain ⟨n3, h3, x3⟩ := addEps_chain hx (n.states.length : Int) a.start
    (by push_cast; omega) (by push_cast; omega)
  obtain ⟨n4, h4, x4⟩ := addEps_chain x3 (n.states.length : Int) ((n.states.length : Int) + 1)
    (by push_cast; omega) (by push_cast; omega)
  obtain ⟨n5, h5, x5⟩ := addEps_chain x4 a.accept a.start
    (by push_cast; omega) (by push_cast; omega)
  obtain ⟨n6, h6, x6⟩ := addEps_chain x5 a.accept ((n.states.length : Int) + 1)
    (by push_cast; omega) (by push_cast; omega)
  simp only [h3, h4, h5, h6, Option.some_bind]
  exact ⟨n6, rfl, x6⟩

theorem optFrag_ext (n : NFA) (a : Fragment) (ha : a.InRange n) :
    ∃ n', optFrag n a =
        some (n', ⟨(n.states.length : Int), (n.states.length : Int) + 1⟩) ∧ n.Ext n' 2 := by
  obtain ⟨hs, ht, hx⟩ := newState_twice n
  have e : optFrag n a =
      (n.newState.1.newState.1.addEps n.newState.2 a.start).bind (fun n3 =>
        (n3.addEps n.newState.2 n.newState.1.newState.2).bind (fun n4 =>
          (n4.addEps a.accept n.newState.1.newState.2).bind (fun n5 =>
            some (n5, ⟨n.newState.2, n.newState.1.newState.2⟩)))) := rfl
  rw [e, hs, ht]
  obtain ⟨⟨a0, a1⟩, ⟨a2, a3⟩⟩ := ha
  obtain ⟨n3, h3, x3⟩ := addEps_chain hx (n.states.length : Int) a.start
    (by push_cast; omega) (by push_cast; omega)
  obtain ⟨n4, h4, x4⟩ := addEps_chain x3 (n.states.length : Int) ((n.states.length : Int) + 1)
    (by push_cast; omega) (by push_cast; omega)
  obtain ⟨n5, h5, x5⟩ := addEps_chain x4 a.accept ((n.states.length : Int) + 1)
    (by push_cast; omega) (by push_cast; omega)
  simp only [h3, h4, h5, Option.some_bind]
  exact ⟨n5, rfl, x5⟩

theorem plusFrag_ext (n : NFA) (a : Fragment) (ha : a.InRange n) :
    ∃ n', plusFrag n a = some (n', ⟨a.start, (n.states.length : Int) + 1⟩) ∧ n.Ext n' 2 := by
  obtain ⟨n1, h1, x1⟩ := starFrag_ext n a ha
  have hlen := x1.len
  obtain ⟨⟨a0, a1⟩, ⟨a2, a3⟩⟩ := ha
  obtain ⟨n2, h2, x2, -, -⟩ := concatFrag_ext n1 a
    ⟨(n.states.length : Int), (n.states.length : Int) + 1⟩
    ⟨⟨a0, by rw [hlen]; push_cast; omega⟩, ⟨a2, by rw [hlen]; push_cast; omega⟩⟩
    ⟨⟨by dsimp only; omega, by rw [hlen]; dsimp only; push_cast; omega⟩,
      ⟨by dsimp only; omega, by rw [hlen]; dsimp only; push_cast; omega⟩⟩
  have e : plusFrag n a = (starFrag n a).bind (fun p => concatFrag p.1 a p.2) := rfl
  rw [e, h1]
  exact ⟨n2, h2, x1.comp x2⟩

/-- C29. On every NFA `n` of length `len` and every two fragments within it:
    `makeChar`, `makeCharClass`, `altFrag`, `starFrag`, `optFrag` and `plusFrag`
    return an NFA of `len + 2` states, `concatFrag` returns one of `len` states
    whose edges are those of `n` and the epsilon edge from `a.accept` to
    `b.start`, with the fragment `(a.start, b.accept)`. The NFA returned keeps
    the start, the accepting set, the state at every index with its id, every
    epsilon edge and every labelled transition. -/
theorem combinators_frame (n : NFA) (a b : Fragment) (c : Nat) (allowed : List Nat)
    (ha : a.InRange n) (hb : b.InRange n) :
    (∃ n', makeChar n c = some (n', ⟨(n.states.length : Int), (n.states.length : Int) + 1⟩) ∧
      n'.states.length = n.states.length + 2 ∧ n.Keeps n') ∧
    (∃ n', makeCharClass n allowed =
        some (n', ⟨(n.states.length : Int), (n.states.length : Int) + 1⟩) ∧
      n'.states.length = n.states.length + 2 ∧ n.Keeps n') ∧
    (∃ n', altFrag n a b = some (n', ⟨(n.states.length : Int), (n.states.length : Int) + 1⟩) ∧
      n'.states.length = n.states.length + 2 ∧ n.Keeps n') ∧
    (∃ n', starFrag n a = some (n', ⟨(n.states.length : Int), (n.states.length : Int) + 1⟩) ∧
      n'.states.length = n.states.length + 2 ∧ n.Keeps n') ∧
    (∃ n', optFrag n a = some (n', ⟨(n.states.length : Int), (n.states.length : Int) + 1⟩) ∧
      n'.states.length = n.states.length + 2 ∧ n.Keeps n') ∧
    (∃ n', plusFrag n a = some (n', ⟨a.start, (n.states.length : Int) + 1⟩) ∧
      n'.states.length = n.states.length + 2 ∧ n.Keeps n') ∧
    (∃ n', concatFrag n a b = some (n', ⟨a.start, b.accept⟩) ∧
      n'.states.length = n.states.length ∧ n.Keeps n' ∧
      (∀ q r, EpsStep n' q r ↔ EpsStep n q r ∨ (q = a.accept ∧ r = b.start)) ∧
      (∀ s q r, SymStep n' s q r ↔ SymStep n s q r)) := by
  refine ⟨?_, ?_, ?_, ?_, ?_, ?_, ?_⟩
  · obtain ⟨n', h, hx⟩ := makeChar_ext n c
    exact ⟨n', h, hx.len, hx.keeps⟩
  · obtain ⟨n', h, hx⟩ := makeCharClass_ext n allowed
    exact ⟨n', h, hx.len, hx.keeps⟩
  · obtain ⟨n', h, hx⟩ := altFrag_ext n a b ha hb
    exact ⟨n', h, hx.len, hx.keeps⟩
  · obtain ⟨n', h, hx⟩ := starFrag_ext n a ha
    exact ⟨n', h, hx.len, hx.keeps⟩
  · obtain ⟨n', h, hx⟩ := optFrag_ext n a ha
    exact ⟨n', h, hx.len, hx.keeps⟩
  · obtain ⟨n', h, hx⟩ := plusFrag_ext n a ha
    exact ⟨n', h, hx.len, hx.keeps⟩
  · obtain ⟨n', h, hx, he, hs⟩ := concatFrag_ext n a b ha hb
    exact ⟨n', h, hx.len, hx.keeps, he, hs⟩

/-- The NFA of two states, the fragments `(0, 1)` and `(1, 0)`, the symbol `a`
    and the class `ab`. -/
theorem combinators_frame_witness :
    (Fragment.InRange pairNFA ⟨0, 1⟩ ∧ Fragment.InRange pairNFA ⟨1, 0⟩) ∧
    ((∃ n', makeChar pairNFA 97 =
        some (n', ⟨(pairNFA.states.length : Int), (pairNFA.states.length : Int) + 1⟩) ∧
      n'.states.length = pairNFA.states.length + 2 ∧ pairNFA.Keeps n') ∧
    (∃ n', makeCharClass pairNFA [97, 98] =
        some (n', ⟨(pairNFA.states.length : Int), (pairNFA.states.length : Int) + 1⟩) ∧
      n'.states.length = pairNFA.states.length + 2 ∧ pairNFA.Keeps n') ∧
    (∃ n', altFrag pairNFA ⟨0, 1⟩ ⟨1, 0⟩ =
        some (n', ⟨(pairNFA.states.length : Int), (pairNFA.states.length : Int) + 1⟩) ∧
      n'.states.length = pairNFA.states.length + 2 ∧ pairNFA.Keeps n') ∧
    (∃ n', starFrag pairNFA ⟨0, 1⟩ =
        some (n', ⟨(pairNFA.states.length : Int), (pairNFA.states.length : Int) + 1⟩) ∧
      n'.states.length = pairNFA.states.length + 2 ∧ pairNFA.Keeps n') ∧
    (∃ n', optFrag pairNFA ⟨0, 1⟩ =
        some (n', ⟨(pairNFA.states.length : Int), (pairNFA.states.length : Int) + 1⟩) ∧
      n'.states.length = pairNFA.states.length + 2 ∧ pairNFA.Keeps n') ∧
    (∃ n', plusFrag pairNFA ⟨0, 1⟩ =
        some (n', ⟨(⟨0, 1⟩ : Fragment).start, (pairNFA.states.length : Int) + 1⟩) ∧
      n'.states.length = pairNFA.states.length + 2 ∧ pairNFA.Keeps n') ∧
    (∃ n', concatFrag pairNFA ⟨0, 1⟩ ⟨1, 0⟩ =
        some (n', ⟨(⟨0, 1⟩ : Fragment).start, (⟨1, 0⟩ : Fragment).accept⟩) ∧
      n'.states.length = pairNFA.states.length ∧ pairNFA.Keeps n' ∧
      (∀ q r, EpsStep n' q r ↔
        EpsStep pairNFA q r ∨ (q = (⟨0, 1⟩ : Fragment).accept ∧ r = (⟨1, 0⟩ : Fragment).start)) ∧
      (∀ s q r, SymStep n' s q r ↔ SymStep pairNFA s q r))) :=
  ⟨⟨by decide, by decide⟩,
   combinators_frame pairNFA ⟨0, 1⟩ ⟨1, 0⟩ 97 [97, 98] (by decide) (by decide)⟩

/-! ### The NFAs that the combinators build -/

/-- A call whose fragment arguments lie within the NFA returns, and the
    fragment that it returns lies within the NFA that it returns. -/
theorem Call.run_ext (n : NFA) (k : Call) (h : ∀ a ∈ k.args, a.InRange n) :
    ∃ (n' : NFA) (f : Fragment) (j : Nat), k.run n = some (n', f) ∧ n.Ext n' j ∧
      f.InRange n' := by
  have hnew : ∀ n' : NFA, n.Ext n' 2 →
      Fragment.InRange n' ⟨(n.states.length : Int), (n.states.length : Int) + 1⟩ := by
    intro n' hx
    have hlen := hx.len
    exact ⟨⟨by dsimp only; omega, by rw [hlen]; dsimp only; push_cast; omega⟩,
      ⟨by dsimp only; omega, by rw [hlen]; dsimp only; push_cast; omega⟩⟩
  cases k with
  | char c =>
    obtain ⟨n', hr, hx⟩ := makeChar_ext n c
    exact ⟨n', _, 2, hr, hx, hnew n' hx⟩
  | charClass allowed =>
    obtain ⟨n', hr, hx⟩ := makeCharClass_ext n allowed
    exact ⟨n', _, 2, hr, hx, hnew n' hx⟩
  | concat a b =>
    have ha := h a (by simp [Call.args])
    have hb := h b (by simp [Call.args])
    obtain ⟨n', hr, hx, -, -⟩ := concatFrag_ext n a b ha hb
    have hlen := hx.len
    refine ⟨n', _, 0, hr, hx, ⟨⟨ha.1.1, ?_⟩, ⟨hb.2.1, ?_⟩⟩⟩
    · rw [hlen]; exact ha.1.2
    · rw [hlen]; exact hb.2.2
  | alt a b =>
    obtain ⟨n', hr, hx⟩ := altFrag_ext n a b (h a (by simp [Call.args]))
      (h b (by simp [Call.args]))
    exact ⟨n', _, 2, hr, hx, hnew n' hx⟩
  | star a =>
    obtain ⟨n', hr, hx⟩ := starFrag_ext n a (h a (by simp [Call.args]))
    exact ⟨n', _, 2, hr, hx, hnew n' hx⟩
  | plus a =>
    have ha := h a (by simp [Call.args])
    obtain ⟨n', hr, hx⟩ := plusFrag_ext n a ha
    have hlen := hx.len
    refine ⟨n', _, 2, hr, hx, ⟨⟨ha.1.1, ?_⟩, (hnew n' hx).2⟩⟩
    have := ha.1.2
    rw [hlen]; dsimp only; push_cast; omega
  | opt a =>
    obtain ⟨n', hr, hx⟩ := optFrag_ext n a (h a (by simp [Call.args]))
    exact ⟨n', _, 2, hr, hx, hnew n' hx⟩

/-- One more call keeps the ids, the targets and the returned fragments
    valid. -/
theorem built_step {n n' : NFA} {fs : List Fragment} {f : Fragment} (k : Call)
    (ih : n.IdsValid ∧ n.TargetsValid ∧ ∀ g ∈ fs, g.InRange n)
    (hargs : ∀ a ∈ k.args, a ∈ fs) (hrun : k.run n = some (n', f)) :
    n'.IdsValid ∧ n'.TargetsValid ∧ ∀ g ∈ fs ++ [f], g.InRange n' := by
  obtain ⟨n1, f1, j, hr, hx, hf⟩ := Call.run_ext n k (fun a ha => ih.2.2 a (hargs a ha))
  rw [hrun] at hr
  have hr' := Option.some.inj hr
  have e1 : n' = n1 := congrArg Prod.fst hr'
  have e2 : f = f1 := congrArg Prod.snd hr'
  subst e1; subst e2
  refine ⟨hx.ids ih.1, hx.tgts ih.2.1, fun g hg => ?_⟩
  rcases List.mem_append.mp hg with hg | hg
  · have hlen := hx.len
    obtain ⟨⟨g0, g1⟩, ⟨g2, g3⟩⟩ := ih.2.2 g hg
    exact ⟨⟨g0, by rw [hlen]; push_cast; omega⟩, ⟨g2, by rw [hlen]; push_cast; omega⟩⟩
  · rw [List.mem_singleton] at hg
    rw [hg]; exact hf

theorem Built.valid {n : NFA} {fs : List Fragment} (h : Built n fs) :
    n.IdsValid ∧ n.TargetsValid ∧ ∀ g ∈ fs, g.InRange n := by
  induction h with
  | empty =>
    exact ⟨fun i hi => absurd hi (Nat.not_lt_zero i), fun st hst => (by cases hst),
      fun g hg => (by cases hg)⟩
  | call k _ hargs hrun ih => exact built_step k ih hargs hrun

/-- A builder whose result passes the check returns a valid NFA with a valid
    start and one valid accepting state. -/
theorem builder_valid (o : Option NFA)
    (h : o.map (fun n => decide (n.IdsValid ∧ n.TargetsValid ∧
      (0 ≤ n.start ∧ n.start < (n.states.length : Int)) ∧ n.accepts.length = 1 ∧
      ∀ a ∈ n.accepts, 0 ≤ a ∧ a < (n.states.length : Int))) = some true) :
    ∃ (n : NFA) (a : Int), o = some n ∧ n.IdsValid ∧ n.TargetsValid ∧
      (0 ≤ n.start ∧ n.start < (n.states.length : Int)) ∧ n.accepts = [a] ∧
      (0 ≤ a ∧ a < (n.states.length : Int)) := by
  cases o with
  | none => cases h
  | some n =>
    simp only [Option.map_some', Option.some.injEq, decide_eq_true_eq] at h
    obtain ⟨h1, h2, h3, h4, h5⟩ := h
    cases hacc : n.accepts with
    | nil => rw [hacc] at h4; cases h4
    | cons a rest =>
      cases rest with
      | nil =>
        refine ⟨n, a, rfl, h1, h2, h3, hacc, h5 a (by rw [hacc]; exact List.mem_singleton.mpr rfl)⟩
      | cons b rest' => rw [hacc] at h4; simp at h4

/-- C30. Every NFA that a sequence of combinator calls makes of the empty NFA,
    the fragment arguments being fragments that earlier calls returned, has the
    id `i` in its state `i` and only indices of states as epsilon and transition
    targets, and the entry and exit of every returned fragment are indices of
    states; on such an NFA every further call of this kind returns. The NFAs of
    `buildIdentifierNFA_thompson` and `buildNumberNFA_thompson` have these
    properties, a start that is an index of a state and one accepting state,
    which is an index of a state. -/
theorem built_valid :
    (∀ (n : NFA) (fs : List Fragment), Built n fs →
      n.IdsValid ∧ n.TargetsValid ∧ ∀ f ∈ fs, f.InRange n) ∧
    (∀ (n : NFA) (fs : List Fragment) (k : Call), Built n fs → (∀ a ∈ k.args, a ∈ fs) →
      ∃ n' f, k.run n = some (n', f) ∧ Built n' (fs ++ [f])) ∧
    (∃ (n : NFA) (a : Int), buildIdentifierNFA_thompson = some n ∧ n.IdsValid ∧
      n.TargetsValid ∧ (0 ≤ n.start ∧ n.start < (n.states.length : Int)) ∧ n.accepts = [a] ∧
      (0 ≤ a ∧ a < (n.states.length : Int))) ∧
    (∃ (n : NFA) (a : Int), buildNumberNFA_thompson = some n ∧ n.IdsValid ∧
      n.TargetsValid ∧ (0 ≤ n.start ∧ n.start < (n.states.length : Int)) ∧ n.accepts = [a] ∧
      (0 ≤ a ∧ a < (n.states.length : Int))) := by
  refine ⟨fun n fs h => h.valid, fun n fs k h hargs => ?_,
    builder_valid _ (by decide!), builder_valid _ (by decide!)⟩
  obtain ⟨n', f, j, hr, -, -⟩ := Call.run_ext n k (fun a ha => h.valid.2.2 a (hargs a ha))
  exact ⟨n', f, hr, Built.call k h hargs hr⟩

/-! ### Further properties of `checkPDA` and of the DFA -/

/-- C35. `checkPDA` returns on a string what it returns on the string without
    its characters other than the six brackets. -/
theorem checkPDA_ignores (s : List Nat) :
    checkPDA s = checkPDA (s.filter (fun c => isBracket c)) ∧
      ∀ c ∈ s.filter (fun c => isBracket c),
        c = 40 ∨ c = 41 ∨ c = 91 ∨ c = 93 ∨ c = 123 ∨ c = 125 := by
  constructor
  · unfold checkPDA
    exact (checkPDALoop_filter s []).symm
  · intro c hc
    have h := (List.mem_filter.mp hc).2
    simp only [isBracket, Bool.or_eq_true, decide_eq_true_eq] at h
    omega

theorem dfaLongestMatchWithTrace_fst (d : DFA) (s : List Nat) (pos : Nat) :
    (dfaLongestMatchWithTrace d s pos).map Prod.fst = dfaLongestMatch d s pos := by
  unfold dfaLongestMatchWithTrace dfaLongestMatch
  by_cases h1 : d.rev.isEmpty = true
  · rw [if_pos h1, if_pos h1]; rfl
  · rw [if_neg h1, if_neg h1]
    by_cases h2 : d.start < 0 ∨ d.start ≥ (d.rev.length : Int)
    · rw [if_pos h2, if_pos h2]; rfl
    · rw [if_neg h2, if_neg h2]
      rw [← dfaLongestMatchWithTraceLoop_fst d (s.drop pos) pos d.start (-1) [d.start]]
      cases dfaLongestMatchWithTraceLoop d (s.drop pos) pos d.start (-1) [d.start] with
      | none => rfl
      | some r => rfl

/-- C36. The DFA that `subsetConstruction` returns is well formed: as many
    rows of transitions as NFA-sets, at least one, the start state 0, and every
    transition target and every accepting state an index of a state. On it
    `dfaLongestMatch` and `dfaLongestMatchWithTrace` return, for every text and
    every offset, the same length, which is at least 0 and at most the number
    of bytes from the offset to the end of the text. -/
theorem subsetConstruction_wf (n : NFA) :
    ∃ d, subsetConstruction n = some d ∧ d.trans.length = d.rev.length ∧ 1 ≤ d.rev.length ∧
      d.start = 0 ∧
      (∀ row ∈ d.trans, ∀ kv ∈ row, 0 ≤ kv.2 ∧ kv.2 < (d.rev.length : Int)) ∧
      (∀ j ∈ d.accepts, 0 ≤ j ∧ j < (d.rev.length : Int)) ∧
      ∀ (s : List Nat) (pos : Nat), ∃ (len : Int) (path : List Int),
        dfaLongestMatch d s pos = some len ∧
        dfaLongestMatchWithTrace d s pos = some (len, path) ∧
        0 ≤ len ∧ len ≤ ((s.length - pos : Nat) : Int) := by
  obtain ⟨d, hd, hcore, hpred, -⟩ := subsetConstruction_spec n
  have hwf : d.WF := SubsetCore.wf hcore hpred
  refine ⟨d, hd, hwf.1, ?_, hcore.start0, hwf.2.2.2, ?_, fun s pos => ?_⟩
  · have h0 := hwf.2.1
    have h1 := hwf.2.2.1
    omega
  · intro j hj
    obtain ⟨k, hk, hlt, -⟩ := (hcore.accepts_iff j).mp hj
    omega
  · obtain ⟨m, hm, -, hm2⟩ := dfaLongestMatch_spec hwf s pos
    have key := dfaLongestMatchWithTrace_fst d s pos
    rw [hm] at key
    cases h : dfaLongestMatchWithTrace d s pos with
    | none => rw [h] at key; cases key
    | some r =>
      rw [h] at key
      obtain ⟨len, path⟩ := r
      simp only [Option.map_some', Option.some.injEq] at key
      refine ⟨(m : Int), path, hm, by rw [key], by omega, ?_⟩
      by_cases h0 : m = 0
      · subst h0; simp
      · have := (hm2 h0).1
        omega

/-- C37. In the DFA that `subsetConstruction` returns the NFA-sets of two
    different states are different, and the NFA-set of every state is not empty
    and holds every epsilon successor of its members. -/
theorem subsetConstruction_sets (n : NFA) :
    ∃ d, subsetConstruction n = some d ∧
      (∀ (i j : Nat) (S : List Int), d.rev[i]? = some S → d.rev[j]? = some S → i = j) ∧
      ∀ S ∈ d.rev, S ≠ [] ∧ ∀ x ∈ S, ∀ y, EpsStep n x y → y ∈ S := by
  obtain ⟨d, hd, hcore, hpred, -⟩ := subsetConstruction_spec n
  refine ⟨d, hd, fun i j S hi hj => nodup_getElem?_inj hcore.rev_nodup hi hj, fun S hS => ?_⟩
  refine ⟨?_, (hcore.rev_sets S hS).2.1⟩
  obtain ⟨k, hk, hget⟩ := List.getElem_of_mem hS
  have hSk : d.rev[k]? = some S := by rw [List.getElem?_eq_getElem hk, hget]
  by_cases hk0 : k = 0
  · subst hk0
    obtain ⟨S0, hS0, h0⟩ := hcore.rev_head
    rw [hSk] at h0
    have hSS : S = S0 := Option.some.inj h0
    subst hSS
    obtain ⟨r, hr, -, hmem⟩ := epsClosure_spec n [n.start] (List.pairwise_singleton _ _)
    rw [hS0] at hr
    have hrS : S = r := Option.some.inj hr
    subst hrS
    intro hnil
    have : n.start ∈ S := (hmem n.start).mpr ⟨n.start, List.mem_singleton.mpr rfl,
      Relation.ReflTransGen.refl⟩
    rw [hnil] at this
    cases this
  · obtain ⟨k', c', row, hlt, hrow, hfind⟩ := hpred k (by omega) hk
    have hk' : k' < d.rev.length := by omega
    have hS' : d.rev[k']? = some d.rev[k'] := List.getElem?_eq_getElem hk'
    have hb : rowBound d.rev.length 0 k' = 128 := by unfold rowBound; rw [if_pos hk']
    by_cases hc : c' < 128
    · rcases subsetTarget_cases n d.rev[k'] c' with ⟨-, hnone⟩ | ⟨-, T, -, hsome, hne, -⟩
      · have := hcore.row_none k' row d.rev[k'] c' hrow hS' (by rw [hb]; exact hc) hnone
        rw [this] at hfind; cases hfind
      · obtain ⟨jn, hj, hT⟩ := hcore.row_some k' row d.rev[k'] c' T hrow hS'
          (by rw [hb]; exact hc) hsome
        rw [hj] at hfind
        have hjk : jn = k := by
          have := Option.some.inj hfind
          omega
        subst hjk
        rw [hSk] at hT
        rw [Option.some.inj hT]; exact hne
    · have := hcore.row_rest k' row c' hrow (by rw [hb]; omega)
      rw [this] at hfind; cases hfind

/-! ### The subset construction of `main.cpp` -/

theorem epsClosureInner_stack (eps : List Int) :
    ∀ (res stvec : List Int), ∀ x ∈ (epsClosureInner eps res stvec).2, x ∈ stvec ∨ x ∈ eps := by
  induction eps with
  | nil => intro res stvec x hx; exact Or.inl hx
  | cons e eps ih =>
    intro res stvec x hx
    unfold epsClosureInner at hx
    by_cases he : e ∈ res
    · rw [if_pos he] at hx
      rcases ih _ _ x hx with h | h
      · exact Or.inl h
      · exact Or.inr (List.mem_cons_of_mem _ h)
    · rw [if_neg he] at hx
      rcases ih _ _ x hx with h | h
      · rcases List.mem_cons.mp h with h | h
        · exact Or.inr (by rw [h]; exact List.mem_cons_self _ _)
        · exact Or.inl h
      · exact Or.inr (List.mem_cons_of_mem _ h)

/-- While the stack holds indices of states only, the loop of the `epsClosure`
    of `main.cpp` is the loop of the `epsClosure` of `dfa.cpp`. -/
theorem mainEpsClosureLoop_eq {n : NFA} (htg : n.TargetsValid) :
    ∀ (fuel : Nat) (res stvec : List Int),
      (∀ x ∈ stvec, 0 ≤ x ∧ x < (n.states.length : Int)) →
      Main.epsClosureLoop n fuel res stvec = epsClosureLoop n fuel res stvec := by
  intro fuel
  induction fuel with
  | zero =>
    intro res stvec _
    cases stvec with
    | nil => rfl
    | cons s stvec => rfl
  | succ fuel ih =>
    intro res stvec hst
    cases stvec with
    | nil => rfl
    | cons s stvec =>
      obtain ⟨hs0, hs1⟩ := hst s (List.mem_cons_self _ _)
      obtain ⟨st, hget⟩ := vecGet?_isSome n.states s hs0 hs1
      unfold Main.epsClosureLoop epsClosureLoop
      simp only [hget]
      apply ih
      intro x hx
      rcases epsClosureInner_stack st.eps res stvec x hx with h | h
      · exact hst x (List.mem_cons_of_mem _ h)
      · exact (htg st (vecGet?_mem hget)).1 x h

theorem mainEpsClosure_eq {n : NFA} (htg : n.TargetsValid) (S : List Int)
    (hS : ∀ x ∈ S, 0 ≤ x ∧ x < (n.states.length : Int)) :
    Main.epsClosure n S = epsClosure n S := by
  unfold Main.epsClosure epsClosure
  exact mainEpsClosureLoop_eq htg _ _ _ (fun x hx => hS x (List.mem_reverse.mp hx))

theorem mainMoveOnChar_eq (n : NFA) (c : Nat) (S : List Int)
    (hS : ∀ x ∈ S, 0 ≤ x ∧ x < (n.states.length : Int)) :
    Main.moveOnChar n S c = some (moveOnChar n S c) := by
  unfold Main.moveOnChar moveOnChar
  generalize ([] : List Int) = res
  induction S generalizing res with
  | nil => rfl
  | cons s S ih =>
    obtain ⟨hs0, hs1⟩ := hS s (List.mem_cons_self _ _)
    obtain ⟨st, hget⟩ := vecGet?_isSome n.states s hs0 hs1
    rw [List.foldlM_cons, List.foldl_cons]
    have hstep : Main.moveOnCharStep n c res s = some (moveOnCharStep n c res s) := by
      unfold Main.moveOnCharStep moveOnCharStep
      simp only [hget]
      cases mapFind st.trans c with
      | none => rfl
      | some tg => rfl
    rw [hstep]
    exact ih (fun x hx => hS x (List.mem_cons_of_mem _ hx)) _

/-- The targets of the transitions of a valid NFA are indices of states. -/
theorem moveOnChar_valid {n : NFA} (htg : n.TargetsValid) (S : List Int) (c : Nat) :
    ∀ x ∈ moveOnChar n S c, 0 ≤ x ∧ x < (n.states.length : Int) := by
  intro x hx
  obtain ⟨s, -, st, tg, hst, hf, hr⟩ := (mem_moveOnChar n S c x).mp hx
  exact (htg st (vecGet?_mem hst)).2 (c, tg) (mapFind_mem hf) x hr

/-- The epsilon closure of a set of indices of states of a valid NFA is a set
    of indices of states. -/
theorem epsClosure_valid {n : NFA} (htg : n.TargetsValid) {S T : List Int}
    (hS : S.Pairwise (· < ·)) (hv : ∀ x ∈ S, 0 ≤ x ∧ x < (n.states.length : Int))
    (h : epsClosure n S = some T) : ∀ x ∈ T, 0 ≤ x ∧ x < (n.states.length : Int) := by
  obtain ⟨r, hr, -, hmem⟩ := epsClosure_spec n S hS
  rw [h] at hr
  have hTr : T = r := Option.some.inj hr
  subst hTr
  intro x hx
  obtain ⟨s, hs, hreach⟩ := (hmem x).mp hx
  induction hreach with
  | refl => exact hv s hs
  | tail _ hstep _ =>
    obtain ⟨st, hst, hy⟩ := hstep
    exact (htg st (vecGet?_mem hst)).1 _ hy

theorem mainSubsetStep_eq {n : NFA} (htg : n.TargetsValid) (curSet : List Int)
    (hcur : ∀ x ∈ curSet, 0 ≤ x ∧ x < (n.states.length : Int)) (i : Nat) (d : DFA) (c : Nat) :
    Main.subsetStep n curSet i d c = subsetStep n curSet i d c := by
  unfold Main.subsetStep subsetStep
  rw [mainMoveOnChar_eq n c curSet hcur]
  simp only [Option.bind_eq_bind, Option.some_bind]
  rw [mainEpsClosure_eq htg _ (moveOnChar_valid htg curSet c)]

/-- One symbol of the main loop of `subsetConstruction` on a valid NFA keeps
    the NFA-sets sets of indices of states. -/
theorem subsetStep_valid {n : NFA} (htg : n.TargetsValid) (curSet : List Int) (i : Nat)
    (d d' : DFA) (c : Nat) (h : subsetStep n curSet i d c = some d')
    (hd : ∀ S ∈ d.rev, ∀ x ∈ S, 0 ≤ x ∧ x < (n.states.length : Int)) :
    ∀ S ∈ d'.rev, ∀ x ∈ S, 0 ≤ x ∧ x < (n.states.length : Int) := by
  unfold subsetStep at h
  simp only [] at h
  by_cases hm : (moveOnChar n curSet c).isEmpty = true
  · rw [if_pos hm] at h
    rw [← Option.some.inj h]; exact hd
  · rw [if_neg hm] at h
    cases he : epsClosure n (moveOnChar n curSet c) with
    | none => rw [he] at h; cases h
    | some epsed =>
      rw [he] at h
      simp only [Option.bind_eq_bind, Option.some_bind] at h
      have hev := epsClosure_valid htg (moveOnChar_sorted n curSet c)
        (moveOnChar_valid htg curSet c) he
      by_cases hee : epsed.isEmpty = true
      · rw [if_pos hee] at h
        rw [← Option.some.inj h]; exact hd
      · rw [if_neg hee] at h
        by_cases hnew : (mapFind d.mapping epsed).isNone = true
        · rw [if_pos hnew] at h
          cases hdst : mapFind (d.mapping ++ [(epsed, (d.rev.length : Int))]) epsed with
          | none => rw [hdst] at h; cases h
          | some dst =>
            rw [hdst] at h
            simp only [Option.some_bind] at h
            cases htr : vecModify? (d.trans ++ [[]]) (i : Int) (mapSet c dst) with
            | none => rw [htr] at h; cases h
            | some tr =>
              rw [htr] at h
              simp only [Option.some_bind] at h
              rw [← Option.some.inj h]
              intro S hS
              rcases List.mem_append.mp hS with h1 | h1
              · exact hd S h1
              · rw [List.mem_singleton] at h1; rw [h1]; exact hev
        · rw [if_neg hnew] at h
          cases hdst : mapFind d.mapping epsed with
          | none => rw [hdst] at h; cases h
          | some dst =>
            rw [hdst] at h
            simp only [Option.some_bind] at h
            cases htr : vecModify? d.trans (i : Int) (mapSet c dst) with
            | none => rw [htr] at h; cases h
            | some tr =>
              rw [htr] at h
              simp only [Option.some_bind] at h
              rw [← Option.some.inj h]
              exact hd

theorem subsetStep_fold_valid {n : NFA} (htg : n.TargetsValid) (curSet : List Int) (i : Nat)
    (l : List Nat) :
    ∀ (d d' : DFA), l.foldlM (subsetStep n curSet i) d = some d' →
      (∀ S ∈ d.rev, ∀ x ∈ S, 0 ≤ x ∧ x < (n.states.length : Int)) →
      ∀ S ∈ d'.rev, ∀ x ∈ S, 0 ≤ x ∧ x < (n.states.length : Int) := by
  induction l with
  | nil =>
    intro d d' h hd
    rw [List.foldlM_nil] at h
    rw [← Option.some.inj h]; exact hd
  | cons c l ih =>
    intro d d' h hd
    rw [List.foldlM_cons] at h
    cases hs : subsetStep n curSet i d c with
    | none => rw [hs] at h; cases h
    | some d1 =>
      rw [hs] at h
      exact ih d1 d' h (subsetStep_valid htg curSet i d d1 c hs hd)


/-- On a valid NFA the main loop of the `subsetConstruction` of `main.cpp` is
    the main loop of the `subsetConstruction` of `dfa.cpp`. -/
theorem mainSubsetLoop_eq {n : NFA} (htg : n.TargetsValid) :
    ∀ (fuel i : Nat) (d : DFA),
      (∀ S ∈ d.rev, ∀ x ∈ S, 0 ≤ x ∧ x < (n.states.length : Int)) →
      Main.subsetLoop n fuel i d = subsetLoop n fuel i d := by
  intro fuel
  induction fuel with
  | zero =>
    intro i d _
    rw [Main.subsetLoop, subsetLoop]
  | succ fuel ih =>
    intro i d hd
    rw [Main.subsetLoop, subsetLoop]
    by_cases hi : i < d.rev.length
    · rw [dif_pos hi, dif_pos hi]
      have hcur : ∀ x ∈ d.rev[i], 0 ≤ x ∧ x < (n.states.length : Int) :=
        hd _ (List.getElem_mem hi)
      have hfun : Main.subsetStep n d.rev[i] i = subsetStep n d.rev[i] i := by
        funext d0 c
        exact mainSubsetStep_eq htg _ hcur i d0 c
      simp only [hfun]
      generalize hmark : (if n.accepts.any (fun a => decide (a ∈ d.rev[i])) = true then
        ({ d with accepts := setInsert (i : Int) d.accepts } : DFA) else d) = dm
      have hdm : ∀ S ∈ dm.rev, ∀ x ∈ S, 0 ≤ x ∧ x < (n.states.length : Int) := by
        rw [← hmark]
        split
        · exact hd
        · exact hd
      cases hfold : (List.range 128).foldlM (subsetStep n d.rev[i] i) dm with
      | none => simp only [Option.bind_eq_bind, Option.none_bind]
      | some d1 =>
        simp only [Option.bind_eq_bind, Option.some_bind]
        exact ih (i + 1) d1 (subsetStep_fold_valid htg _ i _ dm d1 hfold hdm)
    · rw [dif_neg hi, dif_neg hi]

/-- C31. The sweep at the end of `subsetConstruction` marks every state that
    the main loop found, and the DFA returned is the DFA of the main loop with
    the same NFA-sets in the same order, the same transitions, the same
    accepting set and the same start. On an NFA whose start and targets are
    indices of states the `subsetConstruction` of `main.cpp` returns a DFA with
    the same `rev`, `trans`, `accepts` and `start`. -/
theorem subsetConstruction_prune (n : NFA) :
    ∃ S0 d1 d, epsClosure n [n.start] = some S0 ∧
      subsetLoop n (2 ^ n.universe.length) 0
        { mapping := [(S0, 0)], rev := [S0], trans := [[]] } = some d1 ∧
      ((vecModify? (List.replicate d1.rev.length false) d1.start (fun _ => true)).bind
        (fun seen => pruneLoop d1 d1.rev.length 0 seen [d1.start])) =
        some (List.replicate d1.rev.length true) ∧
      pruneDFA d1 = some d ∧ subsetConstruction n = some d ∧
      d.rev = d1.rev ∧ d.trans = d1.trans ∧ d.accepts = d1.accepts ∧ d.start = d1.start ∧
      ((0 ≤ n.start ∧ n.start < (n.states.length : Int)) → n.TargetsValid →
        ∃ dm, Main.subsetConstruction n = some dm ∧ dm.rev = d.rev ∧ dm.trans = d.trans ∧
          dm.accepts = d.accepts ∧ dm.start = d.start) := by
  obtain ⟨S0, d1, hS0, hd1, hc1, hp1⟩ := subsetLoop_start n
  have hready := hc1.pruneReady hp1
  have hprune := pruneDFA_spec hready
  refine ⟨S0, d1, { d1 with mapping := [] }, hS0, hd1, sweep_result hready, hprune, ?_, rfl, rfl,
    rfl, rfl, fun hstart htg => ?_⟩
  · unfold subsetConstruction
    simp only [Option.bind_eq_bind, hS0, Option.some_bind, hd1, hprune]
  · have hsv : ∀ x ∈ [n.start], 0 ≤ x ∧ x < (n.states.length : Int) := by
      intro x hx; rw [List.mem_singleton] at hx; rw [hx]; exact hstart
    have hS0v := epsClosure_valid htg (List.pairwise_singleton _ _) hsv hS0
    have hloop := mainSubsetLoop_eq htg (2 ^ n.universe.length) 0
      { mapping := [(S0, 0)], rev := [S0], trans := [[]] }
      (by intro S hS; rw [List.mem_singleton.mp hS]; exact hS0v)
    refine ⟨{ d1 with start := 0 }, ?_, rfl, rfl, rfl, hc1.start0.symm⟩
    unfold Main.subsetConstruction
    simp only [Option.bind_eq_bind, mainEpsClosure_eq htg _ hsv, hS0, Option.some_bind, hloop,
      hd1]

/-! ### The hand-built automata of `main.cpp` -/

theorem mainIdentifierDFA_built :
    Main.buildIdentifierNFA.bind Main.subsetConstruction = some Main.identifierDFA := by
  decide!

theorem mainNumberDFA_built :
    Main.buildNumberNFA.bind Main.subsetConstruction = some Main.numberDFA := by
  decide!

theorem mainTokenizeBuilt_eq (input : List Nat) :
    Main.tokenizeBuilt input =
      Main.tokenizeWithDFA input Main.identifierDFA Main.numberDFA := by
  have h1 := mainIdentifierDFA_built
  have h2 := mainNumberDFA_built
  unfold Main.tokenizeBuilt
  cases hId : Main.buildIdentifierNFA with
  | none => rw [hId] at h1; cases h1
  | some nId =>
    cases hNum : Main.buildNumberNFA with
    | none => rw [hNum] at h2; cases h2
    | some nNum =>
      rw [hId] at h1; rw [hNum] at h2
      simp only [Option.some_bind] at h1 h2
      simp only [Option.bind_eq_bind, Option.some_bind, h1, h2]

theorem isDigit_lt {c : Nat} (h : isDigit c = true) : c < 128 := by
  simp only [isDigit, Bool.and_eq_true, decide_eq_true_eq] at h
  omega

theorem dfaAcceptsFrom_nil (d : DFA) (cur : Int) : dfaAcceptsFrom d cur [] ↔ cur ∈ d.accepts := by
  unfold dfaAcceptsFrom
  simp only [dfaRunFrom, Option.some.injEq, exists_eq_left']

theorem mainNumberDFA_from3 (w : List Nat) :
    dfaAcceptsFrom Main.numberDFA 3 w ↔ ∀ x ∈ w, isDigit x = true := by
  induction w with
  | nil => rw [dfaAcceptsFrom_nil]; simp [Main.numberDFA]
  | cons c w ih =>
    have hrow : vecGet? Main.numberDFA.trans 3 = some
        (((List.range 128).filter isDigit).map (fun c => (c, (3 : Int)))) := rfl
    rw [dfaAcceptsFrom_cons hrow, mapFind_range_filter _ (fun _ => isDigit_lt)]
    by_cases hc : isDigit c = true
    · simp only [hc, if_true, Option.some.injEq, exists_eq_left', ih, List.mem_cons,
        forall_eq_or_imp, true_and]
    · simp only [hc, Bool.false_eq_true, if_false, reduceCtorEq, false_and, exists_false, List.mem_cons,
        forall_eq_or_imp]

theorem mainNumberDFA_from2 (w : List Nat) :
    dfaAcceptsFrom Main.numberDFA 2 w ↔ w ≠ [] ∧ ∀ x ∈ w, isDigit x = true := by
  cases w with
  | nil => rw [dfaAcceptsFrom_nil]; simp [Main.numberDFA]
  | cons c w =>
    have hrow : vecGet? Main.numberDFA.trans 2 = some
        (((List.range 128).filter isDigit).map (fun c => (c, (3 : Int)))) := rfl
    rw [dfaAcceptsFrom_cons hrow, mapFind_range_filter _ (fun _ => isDigit_lt)]
    by_cases hc : isDigit c = true
    · simp only [hc, if_true, Option.some.injEq, exists_eq_left', mainNumberDFA_from3,
        List.mem_cons, forall_eq_or_imp, true_and, ne_eq, reduceCtorEq, not_false_eq_true]
    · simp only [hc, Bool.false_eq_true, if_false, reduceCtorEq, false_and, exists_false, List.mem_cons,
        forall_eq_or_imp, and_false]

theorem mainNumberDFA_from1 (w : List Nat) :
    dfaAcceptsFrom Main.numberDFA 1 w ↔ (∀ x ∈ w, isDigit x = true) ∨
      ∃ a b, w = a ++ 46 :: b ∧ (∀ x ∈ a, isDigit x = true) ∧ b ≠ [] ∧
        ∀ x ∈ b, isDigit x = true := by
  induction w with
  | nil =>
    rw [dfaAcceptsFrom_nil]
    simp [Main.numberDFA]
  | cons c w ih =>
    have hrow : vecGet? Main.numberDFA.trans 1 = some
        ((46, (2 : Int)) :: ((List.range 128).filter isDigit).map (fun c => (c, (1 : Int)))) := rfl
    rw [dfaAcceptsFrom_cons hrow]
    have h46 : isDigit 46 = false := by decide
    by_cases hc46 : c = 46
    · subst hc46
      simp only [mapFind, if_true, Option.some.injEq, exists_eq_left', mainNumberDFA_from2]
      constructor
      · rintro ⟨hne, hall⟩
        exact Or.inr ⟨[], w, rfl, fun x hx => (by cases hx), hne, hall⟩
      · rintro (hall | ⟨a, b, hw, ha, hne, hb⟩)
        · have := hall 46 (List.mem_cons_self _ _)
          rw [h46] at this; cases this
        · cases a with
          | nil =>
            simp only [List.nil_append, List.cons.injEq, true_and] at hw
            subst hw; exact ⟨hne, hb⟩
          | cons a0 a =>
            simp only [List.cons_append, List.cons.injEq] at hw
            have := ha a0 (List.mem_cons_self _ _)
            rw [← hw.1, h46] at this; cases this
    · have hfind : mapFind ((46, (2 : Int)) ::
          ((List.range 128).filter isDigit).map (fun c => (c, (1 : Int)))) c =
          if isDigit c = true then some 1 else none := by
        rw [mapFind, if_neg hc46, mapFind_range_filter _ (fun _ => isDigit_lt)]
      rw [hfind]
      by_cases hc : isDigit c = true
      · simp only [hc, if_true, Option.some.injEq, exists_eq_left', ih]
        constructor
        · rintro (hall | ⟨a, b, hw, ha, hne, hb⟩)
          · left
            intro x hx
            rcases List.mem_cons.mp hx with h | h
            · rw [h]; exact hc
            · exact hall x h
          · right
            refine ⟨c :: a, b, by rw [hw]; rfl, ?_, hne, hb⟩
            intro x hx
            rcases List.mem_cons.mp hx with h | h
            · rw [h]; exact hc
            · exact ha x h
        · rintro (hall | ⟨a, b, hw, ha, hne, hb⟩)
          · exact Or.inl (fun x hx => hall x (List.mem_cons_of_mem _ hx))
          · cases a with
            | nil =>
              simp only [List.nil_append, List.cons.injEq] at hw
              exact absurd hw.1 hc46
            | cons a0 a =>
              simp only [List.cons_append, List.cons.injEq] at hw
              exact Or.inr ⟨a, b, hw.2, fun x hx => ha x (List.mem_cons_of_mem _ hx), hne, hb⟩
      · simp only [hc, Bool.false_eq_true, if_false, reduceCtorEq, false_and, exists_false, false_iff, not_or,
          not_exists, not_and]
        constructor
        · intro hall
          exact hc (hall c (List.mem_cons_self _ _))
        · intro a b hw ha
          cases a with
          | nil =>
            simp only [List.nil_append, List.cons.injEq] at hw
            exact absurd hw.1 hc46
          | cons a0 a =>
            simp only [List.cons_append, List.cons.injEq] at hw
            have := ha a0 (List.mem_cons_self _ _)
            rw [← hw.1] at this
            exact absurd this hc

theorem mainNumberDFA_accepts (w : List Nat) :
    dfaAccepts Main.numberDFA w = true ↔ MatchesNumber w := by
  rw [dfaAccepts_iff]
  have hstart : Main.numberDFA.start = 0 := rfl
  rw [hstart]
  unfold MatchesNumber
  cases w with
  | nil =>
    rw [dfaAcceptsFrom_nil]
    constructor
    · intro h; exact absurd h (by decide)
    · rintro ⟨a, hne, -, h | ⟨b, -, -, h⟩⟩
      · exact absurd h.symm hne
      · cases a <;> cases h
  | cons c w =>
    have hrow : vecGet? Main.numberDFA.trans 0 = some
        (((List.range 128).filter isDigit).map (fun c => (c, (1 : Int)))) := rfl
    rw [dfaAcceptsFrom_cons hrow, mapFind_range_filter _ (fun _ => isDigit_lt)]
    by_cases hc : isDigit c = true
    · simp only [hc, if_true, Option.some.injEq, exists_eq_left', mainNumberDFA_from1]
      constructor
      · rintro (hall | ⟨a, b, hw, ha, hne, hb⟩)
        · refine ⟨c :: w, by simp, ?_, Or.inl rfl⟩
          intro x hx
          rcases List.mem_cons.mp hx with h | h
          · rw [h]; exact hc
          · exact hall x h
        · refine ⟨c :: a, by simp, ?_, Or.inr ⟨b, hne, hb, by rw [hw]; rfl⟩⟩
          intro x hx
          rcases List.mem_cons.mp hx with h | h
          · rw [h]; exact hc
          · exact ha x h
      · rintro ⟨a, hne, ha, h | ⟨b, hbne, hb, h⟩⟩
        · left
          rw [← h] at ha
          exact fun x hx => ha x (List.mem_cons_of_mem _ hx)
        · cases a with
          | nil => exact absurd rfl hne
          | cons a0 a =>
            simp only [List.cons_append, List.cons.injEq] at h
            exact Or.inr ⟨a, b, h.2, fun x hx => ha x (List.mem_cons_of_mem _ hx), hbne, hb⟩
    · simp only [hc, Bool.false_eq_true, if_false, reduceCtorEq, false_and, exists_false, false_iff]
      rintro ⟨a, hne, ha, h | ⟨b, -, -, h⟩⟩
      · rw [← h] at ha
        exact hc (ha c (List.mem_cons_self _ _))
      · cases a with
        | nil => exact absurd rfl hne
        | cons a0 a =>
          simp only [List.cons_append, List.cons.injEq] at h
          have := ha a0 (List.mem_cons_self _ _)
          rw [← h.1] at this
          exact hc this

/-- C39. The `subsetConstruction` of `main.cpp` returns on the NFA of
    `buildNumberNFA` a DFA that accepts `w` exactly when `w` is one or more
    digits, optionally followed by one `.` and one or more digits; the
    `dfaLongestMatch` of `main.cpp` with this DFA returns 4 on `3.14.15` at
    offset 0. -/
theorem mainNumber_language :
    ∃ n d, Main.buildNumberNFA = some n ∧ Main.subsetConstruction n = some d ∧
      (∀ w, dfaAccepts d w = true ↔ MatchesNumber w) ∧
      Main.dfaLongestMatch d (bytes "3.14.15") 0 = some 4 := by
  have h := mainNumberDFA_built
  cases hn : Main.buildNumberNFA with
  | none => rw [hn] at h; cases h
  | some n =>
    rw [hn] at h
    exact ⟨n, Main.numberDFA, rfl, h, mainNumberDFA_accepts, by decide!⟩

/-- C38 (the code at the failing input). On `3.14.15` the tokenizer of
    `main.cpp` with the DFAs of its hand-built NFAs yields the Number `3.14`, the
    Unknown `.` and the Number `15`, and the tokenizer of `tokenizer.cpp` with
    the DFAs of the Thompson NFAs yields the one Number `3.14.15`. -/
theorem tokenizers_differ :
    (Main.tokenizeBuilt (bytes "3.14.15")).map (List.map (fun t => (t.type, t.text))) =
      some [("Number", bytes "3.14"), ("Unknown", bytes "."), ("Number", bytes "15")] ∧
    (tokenizeBuilt (bytes "3.14.15")).map (List.map (fun t => (t.type, t.text))) =
      some [("Number", bytes "3.14.15")] := by
  rw [mainTokenizeBuilt_eq, tokenizeBuilt_eq]
  constructor
  · decide!
  · decide!

/-! ### The edges that the combinators add -/

/-- A call of `addEps` between states of an NFA that extends `n`, with the
    edges of the NFA that it returns. -/
theorem addEps_chain_exact {n m : NFA} {k : Nat} (hx : n.Ext m k) (src dst : Int)
    (hs : 0 ≤ src ∧ src < (n.states.length : Int) + k)
    (hd : 0 ≤ dst ∧ dst < (n.states.length : Int) + k) :
    ∃ m', m.addEps src dst = some m' ∧ n.Ext m' k ∧
      (∀ q r, EpsStep m' q r ↔ EpsStep m q r ∨ (q = src ∧ r = dst)) ∧
      (∀ c q r, SymStep m' c q r ↔ SymStep m c q r) := by
  have hlen := hx.len
  obtain ⟨m', h, hl, hk, hi, ht, he, hsym⟩ := addEps_ext m src dst hs.1
    (by rw [hlen]; push_cast; exact hs.2)
  have hx' : m.Ext m' 0 := ⟨hl, hk, hi, ht (by rw [hlen]; push_cast; exact hd)⟩
  exact ⟨m', h, hx.comp hx', he, hsym⟩

theorem addTrans_fold_exact (s t : Int) (allowed : List Nat) :
    ∀ m : NFA, (0 ≤ s ∧ s < (m.states.length : Int)) → (0 ≤ t ∧ t < (m.states.length : Int)) →
      ∃ m', allowed.foldlM (fun (n : NFA) c => n.addTrans s c t) m = some m' ∧ m.Ext m' 0 ∧
        (∀ q r, EpsStep m' q r ↔ EpsStep m q r) ∧
        (∀ c q r, SymStep m' c q r ↔ SymStep m c q r ∨ (c ∈ allowed ∧ q = s ∧ r = t)) := by
  induction allowed with
  | nil =>
    intro m _ _
    refine ⟨m, rfl, NFA.Ext.ext_refl m, fun q r => Iff.rfl, fun c q r => ?_⟩
    simp only [List.not_mem_nil, false_and, or_false]
  | cons a rest ih =>
    intro m hs ht
    obtain ⟨m1, h1, hl1, hk1, hi1, ht1, he1, hs1⟩ := addTrans_ext m s a t hs.1 hs.2
    obtain ⟨m2, h2, hx2, he2, hs2⟩ := ih m1 (by rw [hl1]; exact hs) (by rw [hl1]; exact ht)
    have hx1 : m.Ext m1 0 := ⟨hl1, hk1, hi1, ht1 ht⟩
    refine ⟨m2, ?_, hx1.comp hx2, fun q r => ?_, fun c q r => ?_⟩
    · rw [List.foldlM_cons, h1]
      exact h2
    · rw [he2 q r, he1 q r]
    · rw [hs2 c q r, hs1 c q r, List.mem_cons]
      constructor
      · rintro ((h | ⟨rfl, hq, hr⟩) | ⟨hc, hq, hr⟩)
        · exact Or.inl h
        · exact Or.inr ⟨Or.inl rfl, hq, hr⟩
        · exact Or.inr ⟨Or.inr hc, hq, hr⟩
      · rintro (h | ⟨hc | hc, hq, hr⟩)
        · exact Or.inl (Or.inl h)
        · exact Or.inl (Or.inr ⟨hc, hq, hr⟩)
        · exact Or.inr ⟨hc, hq, hr⟩

/-- Two calls of `newState` add no edge. -/
theorem newState_twice_steps (n : NFA) :
    (∀ q r, EpsStep n.newState.1.newState.1 q r ↔ EpsStep n q r) ∧
      (∀ c q r, SymStep n.newState.1.newState.1 c q r ↔ SymStep n c q r) := by
  obtain ⟨-, -, he1, hs1⟩ := newState_ext n
  obtain ⟨-, -, he2, hs2⟩ := newState_ext n.newState.1
  exact ⟨fun q r => (he2 q r).trans (he1 q r), fun c q r => (hs2 c q r).trans (hs1 c q r)⟩

/-- The combinator `makeCharClass` adds two states and the transitions from the
    first to the second on the symbols of the list. -/
theorem makeCharClass_exact (n : NFA) (allowed : List Nat) :
    ∃ n', makeCharClass n allowed =
        some (n', ⟨(n.states.length : Int), (n.states.length : Int) + 1⟩) ∧ n.Ext n' 2 ∧
      (∀ q r, EpsStep n' q r ↔ EpsStep n q r) ∧
      (∀ c q r, SymStep n' c q r ↔ SymStep n c q r ∨
        (c ∈ allowed ∧ q = (n.states.length : Int) ∧ r = (n.states.length : Int) + 1)) := by
  obtain ⟨hs, ht, hx⟩ := newState_twice n
  obtain ⟨he0, hs0⟩ := newState_twice_steps n
  have e : makeCharClass n allowed =
      (allowed.foldlM (fun (m : NFA) c => m.addTrans n.newState.2 c n.newState.1.newState.2)
        n.newState.1.newState.1).bind
        (fun n' => some (n', ⟨n.newState.2, n.newState.1.newState.2⟩)) := rfl
  rw [e, hs, ht]
  have hlen := hx.len
  obtain ⟨n3, h3, hx3, he3, hs3⟩ := addTrans_fold_exact (n.states.length : Int)
    ((n.states.length : Int) + 1) allowed n.newState.1.newState.1
    (by rw [hlen]; push_cast; omega) (by rw [hlen]; push_cast; omega)
  rw [h3]
  refine ⟨n3, rfl, hx.comp hx3, fun q r => (he3 q r).trans (he0 q r), fun c q r => ?_⟩
  rw [hs3 c q r, hs0 c q r]

/-- The combinator `starFrag` adds two states and four epsilon edges. -/
theorem starFrag_exact (n : NFA) (a : Fragment) (ha : a.InRange n) :
    ∃ n', starFrag n a =
        some (n', ⟨(n.states.length : Int), (n.states.length : Int) + 1⟩) ∧ n.Ext n' 2 ∧
      (∀ q r, EpsStep n' q r ↔ ((((EpsStep n q r ∨
        (q = (n.states.length : Int) ∧ r = a.start)) ∨
        (q = (n.states.length : Int) ∧ r = (n.states.length : Int) + 1)) ∨
        (q = a.accept ∧ r = a.start)) ∨
        (q = a.accept ∧ r = (n.states.length : Int) + 1))) ∧
      (∀ c q r, SymStep n' c q r ↔ SymStep n c q r) := by
  obtain ⟨hs, ht, hx⟩ := newState_twice n
  obtain ⟨he0, hs0⟩ := newState_twice_steps n
  have e : starFrag n a =
      (n.newState.1.newState.1.addEps n.newState.2 a.start).bind (fun n3 =>
        (n3.addEps n.newState.2 n.newState.1.newState.2).bind (fun n4 =>
          (n4.addEps a.accept a.start).bind (fun n5 =>
            (n5.addEps a.accept n.newState.1.newState.2).bind (fun n6 =>
              some (n6, ⟨n.newState.2, n.newState.1.newState.2⟩))))) := rfl
  rw [e, hs, ht]
  obtain ⟨⟨a0, a1⟩, ⟨a2, a3⟩⟩ := ha
  obtain ⟨n3, h3, x3, e3, s3⟩ := addEps_chain_exact hx (n.states.length : Int) a.start
    (by push_cast; omega) (by push_cast; omega)
  obtain ⟨n4, h4, x4, e4, s4⟩ := addEps_chain_exact x3 (n.states.length : Int)
    ((n.states.length : Int) + 1) (by push_cast; omega) (by push_cast; omega)
  obtain ⟨n5, h5, x5, e5, s5⟩ := addEps_chain_exact x4 a.accept a.start
    (by push_cast; omega) (by push_cast; omega)
  obtain ⟨n6, h6, x6, e6, s6⟩ := addEps_chain_exact x5 a.accept ((n.states.length : Int) + 1)
    (by push_cast; omega) (by push_cast; omega)
  simp only [h3, h4, h5, h6, Option.some_bind]
  refine ⟨n6, rfl, x6, fun q r => ?_, fun c q r => ?_⟩
  · rw [e6 q r, e5 q r, e4 q r, e3 q r, he0 q r]
  · rw [s6 c q r, s5 c q r, s4 c q r, s3 c q r, hs0 c q r]

/-- The combinator `altFrag` adds two states and four epsilon edges. -/
theorem altFrag_exact (n : NFA) (a b : Fragment) (ha : a.InRange n) (hb : b.InRange n) :
    ∃ n', altFrag n a b =
        some (n', ⟨(n.states.length : Int), (n.states.length : Int) + 1⟩) ∧ n.Ext n' 2 ∧
      (∀ q r, EpsStep n' q r ↔ ((((EpsStep n q r ∨
        (q = (n.states.length : Int) ∧ r = a.start)) ∨
        (q = (n.states.length : Int) ∧ r = b.start)) ∨
        (q = a.accept ∧ r = (n.states.length : Int) + 1)) ∨
        (q = b.accept ∧ r = (n.states.length : Int) + 1))) ∧
      (∀ c q r, SymStep n' c q r ↔ SymStep n c q r) := by
  obtain ⟨hs, ht, hx⟩ := newState_twice n
  obtain ⟨he0, hs0⟩ := newState_twice_steps n
  have e : altFrag n a b =
      (n.newState.1.newState.1.addEps n.newState.2 a.start).bind (fun n3 =>
        (n3.addEps n.newState.2 b.start).bind (fun n4 =>
          (n4.addEps a.accept n.newState.1.newState.2).bind (fun n5 =>
            (n5.addEps b.accept n.newState.1.newState.2).bind (fun n6 =>
              some (n6, ⟨n.newState.2, n.newState.1.newState.2⟩))))) := rfl
  rw [e, hs, ht]
  obtain ⟨⟨a0, a1⟩, ⟨a2, a3⟩⟩ := ha
  obtain ⟨⟨b0, b1⟩, ⟨b2, b3⟩⟩ := hb
  obtain ⟨n3, h3, x3, e3, s3⟩ := addEps_chain_exact hx (n.states.length : Int) a.start
    (by push_cast; omega) (by push_cast; omega)
  obtain ⟨n4, h4, x4, e4, s4⟩ := addEps_chain_exact x3 (n.states.length : Int) b.start
    (by push_cast; omega) (by push_cast; omega)
  obtain ⟨n5, h5, x5, e5, s5⟩ := addEps_chain_exact x4 a.accept ((n.states.length : Int) + 1)
    (by push_cast; omega) (by push_cast; omega)
  obtain ⟨n6, h6, x6, e6, s6⟩ := addEps_chain_exact x5 b.accept ((n.states.length : Int) + 1)
    (by push_cast; omega) (by push_cast; omega)
  simp only [h3, h4, h5, h6, Option.some_bind]
  refine ⟨n6, rfl, x6, fun q r => ?_, fun c q r => ?_⟩
  · rw [e6 q r, e5 q r, e4 q r, e3 q r, he0 q r]
  · rw [s6 c q r, s5 c q r, s4 c q r, s3 c q r, hs0 c q r]

theorem empty_steps :
    (∀ q r, ¬ EpsStep ({} : NFA) q r) ∧ (∀ c q r, ¬ SymStep ({} : NFA) c q r) := by
  constructor
  · rintro q r ⟨st, hst, -⟩
    exact absurd (vecGet?_mem hst) (List.not_mem_nil _)
  · rintro c q r ⟨st, tg, hst, -, -⟩
    exact absurd (vecGet?_mem hst) (List.not_mem_nil _)

/-- The NFA of `starFrag` around `makeCharClass`: its start, its accepting set
    and its edges. -/
theorem starClassNFA_spec (A : List Nat) :
    ∃ n, starClassNFA A = some n ∧ n.start = 2 ∧ n.accepts = [3] ∧
      (∀ q r, EpsStep n q r ↔
        (q = 2 ∧ r = 0) ∨ (q = 2 ∧ r = 3) ∨ (q = 1 ∧ r = 0) ∨ (q = 1 ∧ r = 3)) ∧
      (∀ c q r, SymStep n c q r ↔ c ∈ A ∧ q = 0 ∧ r = 1) := by
  obtain ⟨n1, h1, x1, e1, s1⟩ := makeCharClass_exact {} A
  have hl1 : n1.states.length = 2 := x1.len
  obtain ⟨n2, h2, x2, e2, s2⟩ := starFrag_exact n1 ⟨0, 1⟩
    ⟨⟨by decide, by rw [hl1]; decide⟩, ⟨by decide, by rw [hl1]; decide⟩⟩
  have hacc : n2.accepts = [] := by rw [x2.keeps.2.1, x1.keeps.2.1]
  have hf1 : (⟨((({} : NFA).states.length : Nat) : Int),
      ((({} : NFA).states.length : Nat) : Int) + 1⟩ : Fragment) = ⟨0, 1⟩ := rfl
  rw [hf1] at h1
  rw [hl1] at h2
  refine ⟨{ n2 with start := 2, accepts := setInsert 3 n2.accepts }, ?_, rfl, ?_, ?_, ?_⟩
  · unfold starClassNFA
    simp only [Option.bind_eq_bind, Option.pure_def, h1, Option.some_bind, h2]
    rfl
  · show setInsert 3 n2.accepts = [3]
    rw [hacc]; rfl
  · intro q r
    have := e2 q r
    simp only [e1 q r, empty_steps.1 q r, false_or, hl1] at this
    rw [show EpsStep { n2 with start := 2, accepts := setInsert 3 n2.accepts } q r ↔
      EpsStep n2 q r from Iff.rfl, this]
    norm_num
    tauto
  · intro c q r
    have := s2 c q r
    simp only [s1 c q r, empty_steps.2 c q r, false_or] at this
    rw [show SymStep { n2 with start := 2, accepts := setInsert 3 n2.accepts } c q r ↔
      SymStep n2 c q r from Iff.rfl, this]
    norm_num

/-- The NFA of `plusFrag` around `makeCharClass`: its start, its accepting set
    and its edges. -/
theorem plusClassNFA_spec (A : List Nat) :
    ∃ n, plusClassNFA A = some n ∧ n.start = 0 ∧ n.accepts = [3] ∧
      (∀ q r, EpsStep n q r ↔
        (q = 2 ∧ r = 0) ∨ (q = 2 ∧ r = 3) ∨ (q = 1 ∧ r = 0) ∨ (q = 1 ∧ r = 3) ∨
          (q = 1 ∧ r = 2)) ∧
      (∀ c q r, SymStep n c q r ↔ c ∈ A ∧ q = 0 ∧ r = 1) := by
  obtain ⟨n1, h1, x1, e1, s1⟩ := makeCharClass_exact {} A
  have hl1 : n1.states.length = 2 := x1.len
  obtain ⟨n2, h2, x2, e2, s2⟩ := starFrag_exact n1 ⟨0, 1⟩
    ⟨⟨by decide, by rw [hl1]; decide⟩, ⟨by decide, by rw [hl1]; decide⟩⟩
  have hl2 : n2.states.length = 4 := by rw [x2.len, hl1]
  obtain ⟨n3, h3, x3, e3, s3⟩ := concatFrag_ext n2 ⟨0, 1⟩ ⟨2, 3⟩
    ⟨⟨by decide, by rw [hl2]; decide⟩, ⟨by decide, by rw [hl2]; decide⟩⟩
    ⟨⟨by decide, by rw [hl2]; decide⟩, ⟨by decide, by rw [hl2]; decide⟩⟩
  have hacc : n3.accepts = [] := by rw [x3.keeps.2.1, x2.keeps.2.1, x1.keeps.2.1]
  have hf1 : (⟨((({} : NFA).states.length : Nat) : Int),
      ((({} : NFA).states.length : Nat) : Int) + 1⟩ : Fragment) = ⟨0, 1⟩ := rfl
  rw [hf1] at h1
  rw [hl1] at h2
  have hf2 : (⟨((2 : Nat) : Int), ((2 : Nat) : Int) + 1⟩ : Fragment) = ⟨2, 3⟩ := rfl
  rw [hf2] at h2
  have hplus : plusFrag n1 ⟨0, 1⟩ = some (n3, ⟨0, 3⟩) := by
    have e : plusFrag n1 ⟨0, 1⟩ =
        (starFrag n1 ⟨0, 1⟩).bind (fun p => concatFrag p.1 ⟨0, 1⟩ p.2) := rfl
    rw [e, h2]
    exact h3
  refine ⟨{ n3 with start := 0, accepts := setInsert 3 n3.accepts }, ?_, rfl, ?_, ?_, ?_⟩
  · unfold plusClassNFA
    simp only [Option.bind_eq_bind, Option.pure_def, h1, Option.some_bind, hplus]
  · show setInsert 3 n3.accepts = [3]
    rw [hacc]; rfl
  · intro q r
    have := e3 q r
    simp only [e2 q r, e1 q r, empty_steps.1 q r, false_or, hl1] at this
    rw [show EpsStep { n3 with start := 0, accepts := setInsert 3 n3.accepts } q r ↔
      EpsStep n3 q r from Iff.rfl, this]
    norm_num [or_assoc]
  · intro c q r
    have := s3 c q r
    simp only [s2 c q r, s1 c q r, empty_steps.2 c q r, false_or] at this
    rw [show SymStep { n3 with start := 0, accepts := setInsert 3 n3.accepts } c q r ↔
      SymStep n3 c q r from Iff.rfl, this]
    norm_num

/-- The NFA of `altFrag` around two calls of `makeCharClass`: its start, its
    accepting set and its edges. -/
theorem altClassNFA_spec (A B : List Nat) :
    ∃ n, altClassNFA A B = some n ∧ n.start = 4 ∧ n.accepts = [5] ∧
      (∀ q r, EpsStep n q r ↔
        (q = 4 ∧ r = 0) ∨ (q = 4 ∧ r = 2) ∨ (q = 1 ∧ r = 5) ∨ (q = 3 ∧ r = 5)) ∧
      (∀ c q r, SymStep n c q r ↔ (c ∈ A ∧ q = 0 ∧ r = 1) ∨ (c ∈ B ∧ q = 2 ∧ r = 3)) := by
  obtain ⟨n1, h1, x1, e1, s1⟩ := makeCharClass_exact {} A
  have hl1 : n1.states.length = 2 := x1.len
  obtain ⟨n2, h2, x2, e2, s2⟩ := makeCharClass_exact n1 B
  have hl2 : n2.states.length = 4 := by rw [x2.len, hl1]
  obtain ⟨n3, h3, x3, e3, s3⟩ := altFrag_exact n2 ⟨0, 1⟩ ⟨2, 3⟩
    ⟨⟨by decide, by rw [hl2]; decide⟩, ⟨by decide, by rw [hl2]; decide⟩⟩
    ⟨⟨by decide, by rw [hl2]; decide⟩, ⟨by decide, by rw [hl2]; decide⟩⟩
  have hacc : n3.accepts = [] := by rw [x3.keeps.2.1, x2.keeps.2.1, x1.keeps.2.1]
  have hf1 : (⟨((({} : NFA).states.length : Nat) : Int),
      ((({} : NFA).states.length : Nat) : Int) + 1⟩ : Fragment) = ⟨0, 1⟩ := rfl
  rw [hf1] at h1
  rw [hl1] at h2 s2
  have hf2 : (⟨((2 : Nat) : Int), ((2 : Nat) : Int) + 1⟩ : Fragment) = ⟨2, 3⟩ := rfl
  rw [hf2] at h2
  rw [hl2] at h3 e3
  have hf3 : (⟨((4 : Nat) : Int), ((4 : Nat) : Int) + 1⟩ : Fragment) = ⟨4, 5⟩ := rfl
  rw [hf3] at h3
  refine ⟨{ n3 with start := 4, accepts := setInsert 5 n3.accepts }, ?_, rfl, ?_, ?_, ?_⟩
  · unfold altClassNFA
    simp only [Option.bind_eq_bind, Option.pure_def, h1, Option.some_bind, h2, h3]
  · show setInsert 5 n3.accepts = [5]
    rw [hacc]; rfl
  · intro q r
    have := e3 q r
    simp only [e2 q r, e1 q r, empty_steps.1 q r, false_or] at this
    rw [show EpsStep { n3 with start := 4, accepts := setInsert 5 n3.accepts } q r ↔
      EpsStep n3 q r from Iff.rfl, this]
    norm_num [or_assoc]
  · intro c q r
    have := s3 c q r
    simp only [s2 c q r, s1 c q r, empty_steps.2 c q r, false_or] at this
    rw [show SymStep { n3 with start := 4, accepts := setInsert 5 n3.accepts } c q r ↔
      SymStep n3 c q r from Iff.rfl, this]
    norm_num

/-! ### The languages of the star, plus and alternation fragments -/

/-- The language of an NFA with the edges of `starFrag` around a character
    class. -/
theorem star_language {n : NFA} {A : List Nat} (hstart : n.start = 2) (hacc : n.accepts = [3])
    (heps : ∀ q r, EpsStep n q r ↔
      (q = 2 ∧ r = 0) ∨ (q = 2 ∧ r = 3) ∨ (q = 1 ∧ r = 0) ∨ (q = 1 ∧ r = 3))
    (hsym : ∀ c q r, SymStep n c q r ↔ c ∈ A ∧ q = 0 ∧ r = 1) (w : List Nat) :
    n.Accepts w ↔ ∀ x ∈ w, x ∈ A := by
  have sound : ∀ (q : Int) (w : List Nat) (q' : Int), NFA.Path n q w q' → q' = 3 →
      (q = 3 → w = []) ∧ (q = 1 → ∀ x ∈ w, x ∈ A) ∧
      (q = 0 → w ≠ [] ∧ ∀ x ∈ w, x ∈ A) ∧ (q = 2 → ∀ x ∈ w, x ∈ A) := by
    intro q w q' h
    induction h with
    | refl q =>
      intro hq
      subst hq
      exact ⟨fun _ => rfl, fun h => by omega, fun h => by omega, fun h => by omega⟩
    | eps hstep _ ih =>
      intro hq'
      obtain ⟨i3, i1, i0, -⟩ := ih hq'
      rcases (heps _ _).mp hstep with ⟨rfl, rfl⟩ | ⟨rfl, rfl⟩ | ⟨rfl, rfl⟩ | ⟨rfl, rfl⟩
      · exact ⟨fun h => by omega, fun h => by omega, fun h => by omega, fun _ => (i0 rfl).2⟩
      · refine ⟨fun h => by omega, fun h => by omega, fun h => by omega, fun _ => ?_⟩
        rw [i3 rfl]; intro x hx; cases hx
      · exact ⟨fun h => by omega, fun _ => (i0 rfl).2, fun h => by omega, fun h => by omega⟩
      · refine ⟨fun h => by omega, fun _ => ?_, fun h => by omega, fun h => by omega⟩
        rw [i3 rfl]; intro x hx; cases hx
    | sym hstep _ ih =>
      intro hq'
      obtain ⟨-, i1, -, -⟩ := ih hq'
      obtain ⟨hc, rfl, rfl⟩ := (hsym _ _ _).mp hstep
      refine ⟨fun h => by omega, fun h => by omega, fun _ => ⟨List.cons_ne_nil _ _, ?_⟩,
        fun h => by omega⟩
      intro x hx
      rcases List.mem_cons.mp hx with h | h
      · rw [h]; exact hc
      · exact i1 rfl x h
  have comp1 : ∀ w : List Nat, (∀ x ∈ w, x ∈ A) → NFA.Path n 1 w 3 := by
    intro w
    induction w with
    | nil =>
      intro _
      exact NFA.Path.eps ((heps 1 3).mpr (by simp)) (NFA.Path.refl 3)
    | cons c w ih =>
      intro hall
      exact NFA.Path.eps ((heps 1 0).mpr (by simp))
        (NFA.Path.sym ((hsym c 0 1).mpr ⟨hall c (List.mem_cons_self _ _), rfl, rfl⟩)
          (ih (fun x hx => hall x (List.mem_cons_of_mem _ hx))))
  unfold NFA.Accepts
  rw [hstart, hacc]
  constructor
  · rintro ⟨q, hp, hq⟩
    rw [List.mem_singleton] at hq
    exact (sound 2 w q hp hq).2.2.2 rfl
  · intro hall
    refine ⟨3, ?_, List.mem_singleton.mpr rfl⟩
    cases w with
    | nil => exact NFA.Path.eps ((heps 2 3).mpr (by simp)) (NFA.Path.refl 3)
    | cons c w =>
      exact NFA.Path.eps ((heps 2 0).mpr (by simp))
        (NFA.Path.sym ((hsym c 0 1).mpr ⟨hall c (List.mem_cons_self _ _), rfl, rfl⟩)
          (comp1 w (fun x hx => hall x (List.mem_cons_of_mem _ hx))))

/-- The language of an NFA with the edges of `plusFrag` around a character
    class. -/
theorem plus_language {n : NFA} {A : List Nat} (hstart : n.start = 0) (hacc : n.accepts = [3])
    (heps : ∀ q r, EpsStep n q r ↔
      (q = 2 ∧ r = 0) ∨ (q = 2 ∧ r = 3) ∨ (q = 1 ∧ r = 0) ∨ (q = 1 ∧ r = 3) ∨ (q = 1 ∧ r = 2))
    (hsym : ∀ c q r, SymStep n c q r ↔ c ∈ A ∧ q = 0 ∧ r = 1) (w : List Nat) :
    n.Accepts w ↔ w ≠ [] ∧ ∀ x ∈ w, x ∈ A := by
  have sound : ∀ (q : Int) (w : List Nat) (q' : Int), NFA.Path n q w q' → q' = 3 →
      (q = 3 → w = []) ∧ (q = 1 → ∀ x ∈ w, x ∈ A) ∧
      (q = 0 → w ≠ [] ∧ ∀ x ∈ w, x ∈ A) ∧ (q = 2 → ∀ x ∈ w, x ∈ A) := by
    intro q w q' h
    induction h with
    | refl q =>
      intro hq
      subst hq
      exact ⟨fun _ => rfl, fun h => by omega, fun h => by omega, fun h => by omega⟩
    | eps hstep _ ih =>
      intro hq'
      obtain ⟨i3, i1, i0, i2⟩ := ih hq'
      rcases (heps _ _).mp hstep with ⟨rfl, rfl⟩ | ⟨rfl, rfl⟩ | ⟨rfl, rfl⟩ | ⟨rfl, rfl⟩ |
        ⟨rfl, rfl⟩
      · exact ⟨fun h => by omega, fun h => by omega, fun h => by omega, fun _ => (i0 rfl).2⟩
      · refine ⟨fun h => by omega, fun h => by omega, fun h => by omega, fun _ => ?_⟩
        rw [i3 rfl]; intro x hx; cases hx
      · exact ⟨fun h => by omega, fun _ => (i0 rfl).2, fun h => by omega, fun h => by omega⟩
      · refine ⟨fun h => by omega, fun _ => ?_, fun h => by omega, fun h => by omega⟩
        rw [i3 rfl]; intro x hx; cases hx
      · exact ⟨fun h => by omega, fun _ => i2 rfl, fun h => by omega, fun h => by omega⟩
    | sym hstep _ ih =>
      intro hq'
      obtain ⟨-, i1, -, -⟩ := ih hq'
      obtain ⟨hc, rfl, rfl⟩ := (hsym _ _ _).mp hstep
      refine ⟨fun h => by omega, fun h => by omega, fun _ => ⟨List.cons_ne_nil _ _, ?_⟩,
        fun h => by omega⟩
      intro x hx
      rcases List.mem_cons.mp hx with h | h
      · rw [h]; exact hc
      · exact i1 rfl x h
  have comp1 : ∀ w : List Nat, (∀ x ∈ w, x ∈ A) → NFA.Path n 1 w 3 := by
    intro w
    induction w with
    | nil =>
      intro _
      exact NFA.Path.eps ((heps 1 3).mpr (by simp)) (NFA.Path.refl 3)
    | cons c w ih =>
      intro hall
      exact NFA.Path.eps ((heps 1 0).mpr (by simp))
        (NFA.Path.sym ((hsym c 0 1).mpr ⟨hall c (List.mem_cons_self _ _), rfl, rfl⟩)
          (ih (fun x hx => hall x (List.mem_cons_of_mem _ hx))))
  unfold NFA.Accepts
  rw [hstart, hacc]
  constructor
  · rintro ⟨q, hp, hq⟩
    rw [List.mem_singleton] at hq
    exact (sound 0 w q hp hq).2.2.1 rfl
  · rintro ⟨hne, hall⟩
    refine ⟨3, ?_, List.mem_singleton.mpr rfl⟩
    cases w with
    | nil => exact absurd rfl hne
    | cons c w =>
      exact NFA.Path.sym ((hsym c 0 1).mpr ⟨hall c (List.mem_cons_self _ _), rfl, rfl⟩)
        (comp1 w (fun x hx => hall x (List.mem_cons_of_mem _ hx)))

/-- The language of an NFA with the edges of `altFrag` around two character
    classes. -/
theorem alt_language {n : NFA} {A B : List Nat} (hstart : n.start = 4) (hacc : n.accepts = [5])
    (heps : ∀ q r, EpsStep n q r ↔
      (q = 4 ∧ r = 0) ∨ (q = 4 ∧ r = 2) ∨ (q = 1 ∧ r = 5) ∨ (q = 3 ∧ r = 5))
    (hsym : ∀ c q r, SymStep n c q r ↔ (c ∈ A ∧ q = 0 ∧ r = 1) ∨ (c ∈ B ∧ q = 2 ∧ r = 3))
    (w : List Nat) :
    n.Accepts w ↔ ∃ c, w = [c] ∧ (c ∈ A ∨ c ∈ B) := by
  have sound : ∀ (q : Int) (w : List Nat) (q' : Int), NFA.Path n q w q' → q' = 5 →
      (q = 5 → w = []) ∧ (q = 1 → w = []) ∧ (q = 3 → w = []) ∧
      (q = 0 → ∃ c, w = [c] ∧ c ∈ A) ∧ (q = 2 → ∃ c, w = [c] ∧ c ∈ B) ∧
      (q = 4 → ∃ c, w = [c] ∧ (c ∈ A ∨ c ∈ B)) := by
    intro q w q' h
    induction h with
    | refl q =>
      intro hq
      subst hq
      exact ⟨fun _ => rfl, fun h => by omega, fun h => by omega, fun h => by omega,
        fun h => by omega, fun h => by omega⟩
    | eps hstep _ ih =>
      intro hq'
      obtain ⟨i5, i1, i3, i0, i2, -⟩ := ih hq'
      rcases (heps _ _).mp hstep with ⟨rfl, rfl⟩ | ⟨rfl, rfl⟩ | ⟨rfl, rfl⟩ | ⟨rfl, rfl⟩
      · refine ⟨fun h => by omega, fun h => by omega, fun h => by omega, fun h => by omega,
          fun h => by omega, fun _ => ?_⟩
        obtain ⟨c, hw, hc⟩ := i0 rfl
        exact ⟨c, hw, Or.inl hc⟩
      · refine ⟨fun h => by omega, fun h => by omega, fun h => by omega, fun h => by omega,
          fun h => by omega, fun _ => ?_⟩
        obtain ⟨c, hw, hc⟩ := i2 rfl
        exact ⟨c, hw, Or.inr hc⟩
      · exact ⟨fun h => by omega, fun _ => i5 rfl, fun h => by omega, fun h => by omega,
          fun h => by omega, fun h => by omega⟩
      · exact ⟨fun h => by omega, fun h => by omega, fun _ => i5 rfl, fun h => by omega,
          fun h => by omega, fun h => by omega⟩
    | sym hstep _ ih =>
      intro hq'
      obtain ⟨-, i1, i3, -, -, -⟩ := ih hq'
      rcases (hsym _ _ _).mp hstep with ⟨hc, rfl, rfl⟩ | ⟨hc, rfl, rfl⟩
      · refine ⟨fun h => by omega, fun h => by omega, fun h => by omega, fun _ => ?_,
          fun h => by omega, fun h => by omega⟩
        rw [i1 rfl]; exact ⟨_, rfl, hc⟩
      · refine ⟨fun h => by omega, fun h => by omega, fun h => by omega, fun h => by omega,
          fun _ => ?_, fun h => by omega⟩
        rw [i3 rfl]; exact ⟨_, rfl, hc⟩
  unfold NFA.Accepts
  rw [hstart, hacc]
  constructor
  · rintro ⟨q, hp, hq⟩
    rw [List.mem_singleton] at hq
    exact (sound 4 w q hp hq).2.2.2.2.2 rfl
  · rintro ⟨c, rfl, hc | hc⟩
    · exact ⟨5, NFA.Path.eps ((heps 4 0).mpr (by simp))
        (NFA.Path.sym ((hsym c 0 1).mpr (Or.inl ⟨hc, rfl, rfl⟩))
          (NFA.Path.eps ((heps 1 5).mpr (by simp)) (NFA.Path.refl 5))),
        List.mem_singleton.mpr rfl⟩
    · exact ⟨5, NFA.Path.eps ((heps 4 2).mpr (by simp))
        (NFA.Path.sym ((hsym c 2 3).mpr (Or.inr ⟨hc, rfl, rfl⟩))
          (NFA.Path.eps ((heps 3 5).mpr (by simp)) (NFA.Path.refl 5))),
        List.mem_singleton.mpr rfl⟩

/-- C32. For every symbol list `A` the NFA of `starFrag` around
    `makeCharClass(n, A)`, built in an empty NFA, accepts `w` exactly when
    every symbol of `w` is in `A`; it accepts the empty string. -/
theorem starClass_language (A : List Nat) :
    ∃ n, starClassNFA A = some n ∧ (∀ w, n.Accepts w ↔ ∀ x ∈ w, x ∈ A) ∧ n.Accepts [] := by
  obtain ⟨n, hn, hstart, hacc, heps, hsym⟩ := starClassNFA_spec A
  refine ⟨n, hn, star_language hstart hacc heps hsym, ?_⟩
  exact (star_language hstart hacc heps hsym []).mpr (fun x hx => by cases hx)

/-- C33. For every symbol list `A` the NFA of `plusFrag` around
    `makeCharClass(n, A)`, built in an empty NFA, accepts `w` exactly when `w`
    is not empty and every symbol of `w` is in `A`. On every NFA and fragment
    `plusFrag(n, a)` is `concatFrag(n, a, starFrag(n, a))`: the same NFA and
    the same fragment. -/
theorem plusClass_language (A : List Nat) :
    (∃ n, plusClassNFA A = some n ∧ ∀ w, n.Accepts w ↔ w ≠ [] ∧ ∀ x ∈ w, x ∈ A) ∧
    ∀ (n : NFA) (a : Fragment),
      plusFrag n a = (starFrag n a).bind (fun p => concatFrag p.1 a p.2) := by
  obtain ⟨n, hn, hstart, hacc, heps, hsym⟩ := plusClassNFA_spec A
  exact ⟨⟨n, hn, plus_language hstart hacc heps hsym⟩, fun _ _ => rfl⟩

/-- C34. For all symbol lists `A` and `B` the NFA of `altFrag` around
    `makeCharClass(n, A)` and `makeCharClass(n, B)`, built in an empty NFA,
    accepts `w` exactly when `w` is one symbol that is in `A` or in `B`. -/
theorem altClass_language (A B : List Nat) :
    ∃ n, altClassNFA A B = some n ∧ ∀ w, n.Accepts w ↔ ∃ c, w = [c] ∧ (c ∈ A ∨ c ∈ B) := by
  obtain ⟨n, hn, hstart, hacc, heps, hsym⟩ := altClassNFA_spec A B
  exact ⟨n, hn, alt_language hstart hacc heps hsym⟩

/-! ### The number DFA on a text with two dots -/

/-- C5 (the code at the failing input). On `3.14.15` at offset 0
    `dfaLongestMatch` with the DFA of `buildNumberNFA_thompson` returns 7, the
    length of the whole text, and so not 5. Of the prefixes of `3.14.15` the
    longest that matches `[0-9]+(\.[0-9]+)?` is `3.14`, of 4 bytes: no prefix of
    more than 4 bytes matches. -/
theorem number_longestMatch_seven :
    (buildNumberNFA_thompson.bind subsetConstruction).bind
        (fun d => dfaLongestMatch d (bytes "3.14.15") 0) = some 7 ∧
      (buildNumberNFA_thompson.bind subsetConstruction).bind
        (fun d => dfaLongestMatch d (bytes "3.14.15") 0) ≠ some 5 ∧
      MatchesNumber ((bytes "3.14.15").take 4) ∧
      ∀ k, 4 < k → ¬ MatchesNumber ((bytes "3.14.15").take k) := by
  refine ⟨by rw [numberDFA_built]; decide!, by rw [numberDFA_built]; decide!, ?_, ?_⟩
  · rw [← mainNumberDFA_accepts]; decide!
  · intro k hk
    rw [← mainNumberDFA_accepts]
    by_cases h5 : k = 5
    · subst h5; decide!
    · by_cases h6 : k = 6
      · subst h6; decide!
      · have hlen : (bytes "3.14.15").length ≤ k := by
          have : (bytes "3.14.15").length = 7 := by decide
          omega
        rw [List.take_of_length_le hlen]
        decide!

end CodeBlock
